import Mathlib

/-!
The dt4dds-challenges simulator: codec, coverage model, mutators, factory, file reader and
writer, collector and pipeline

A shallow embedding of the C++ sources.  Conventions:

* `std::vector<char>` is `List Int` (one entry per `char`), `std::string` is `List Char`;
* `float` and `double` values are exact rationals (`ℚ`);
* `int` values are integers (`Int`), container sizes and indices are `Nat`; counts and
  products of counts are taken to fit their machine type (signed overflow is undefined in
  C++), and a conversion to `unsigned int` is an explicit `% 2 ^ 32`;
* a thrown exception is the `Except.error` result, tagged by the `throw` site;
* the process-wide `std::mt19937` is an explicit state `Rng` that every draw advances;
* a file is the list of its characters, a byte being the character with that code; the disk
  is a `FileSystem` (the content of each existing file, and which names can be opened for
  writing); a loop over a stream carries a bound that exceeds the number of unread
  characters.
-/

set_option linter.unusedVariables false

/-! ## constants.hpp -/

namespace constants

abbrev NUCLEOTIDE_A : Int := 1
abbrev NUCLEOTIDE_C : Int := 2
abbrev NUCLEOTIDE_G : Int := 3
abbrev NUCLEOTIDE_T : Int := 4
abbrev NUCLEOTIDE_NEXTOLIGO : Int := 127
abbrev DEFAULT_SEQUENCE_LENGTH : Int := 500

end constants

/-- One constructor per `throw` site of the sources. -/
inductive Error where
  /-- The `std::runtime_error` of `conversion::sequence_to_vector`. -/
  | invalid_character_in_sequence
  /-- The `std::runtime_error` of `conversion::vector_to_sequence`. -/
  | invalid_integer_in_sequence
  /-- The `std::runtime_error` of `conversion::reverse_complement`. -/
  | invalid_character_in_vector
  /-- The `std::invalid_argument` "Number of sampled oligos is less than 1." of
  `coverage::_sample_from_relative_coverage` (the spec's `NonPositiveTarget`). -/
  | number_of_sampled_oligos_less_than_one
  /-- The `std::invalid_argument` "There are not sequences to sample from." of
  `coverage::_sample_from_relative_coverage` (the spec's `EmptyPool`). -/
  | no_sequences_to_sample_from
  /-- The `std::length_error` of a `std::vector` constructed with a negative size. -/
  | vector_length_error
  /-- The `std::runtime_error` "The base preference vector must have 4 elements." -/
  | base_preference_must_have_4_elements
  /-- The `std::runtime_error` "The base preference vector must have 4*3 elements." -/
  | base_preference_must_have_12_elements
  /-- The `std::runtime_error` of `BaseMutator::process_single`. -/
  | process_single_must_be_overwritten
  /-- The `std::runtime_error` of `BaseMutator::process_single_with_new`. -/
  | process_single_with_new_must_be_overwritten
  /-- No exception: the mark of an access outside a container, where C++ leaves the
  behaviour undefined. -/
  | undefined_behaviour
  /-- The `std::runtime_error` "Could not open file" of the reader and writer constructors. -/
  | could_not_open_file
  /-- The `std::runtime_error` "Cannot read binary data from a non-binary file". -/
  | cannot_read_binary_data
  /-- The `std::runtime_error` "Cannot read text data from a non-text file". -/
  | cannot_read_text_data
  /-- The `std::runtime_error` "Processed ... sequences, but expected ..." of
  `pipeline::process` (the spec's `PipelineInvariant`). -/
  | processed_sequences_mismatch
  deriving DecidableEq, Repr

deriving instance DecidableEq for Except

/-! ## conversion.cpp -/

namespace conversion

/-- The `for` loop of `sequence_to_vector`: `cs` is the unread rest of the string and
`sequence_vector` the output built so far (`push_back` appends at the end). -/
def sequence_to_vector_loop : List Char → List Int → Except Error (List Int)
  | [], sequence_vector => .ok sequence_vector
  | c :: cs, sequence_vector =>
    if c = 'A' then sequence_to_vector_loop cs (sequence_vector ++ [constants.NUCLEOTIDE_A])
    else if c = 'C' then sequence_to_vector_loop cs (sequence_vector ++ [constants.NUCLEOTIDE_C])
    else if c = 'G' then sequence_to_vector_loop cs (sequence_vector ++ [constants.NUCLEOTIDE_G])
    else if c = 'T' then sequence_to_vector_loop cs (sequence_vector ++ [constants.NUCLEOTIDE_T])
    else .error Error.invalid_character_in_sequence

/-- The function `sequence_to_vector`: the output vector is cleared, then filled. -/
def sequence_to_vector (sequence : List Char) : Except Error (List Int) :=
  sequence_to_vector_loop sequence []

/-- The `for` loop of `vector_to_sequence`. -/
def vector_to_sequence_loop : List Int → List Char → Except Error (List Char)
  | [], sequence => .ok sequence
  | b :: bs, sequence =>
    if b = constants.NUCLEOTIDE_A then vector_to_sequence_loop bs (sequence ++ ['A'])
    else if b = constants.NUCLEOTIDE_C then vector_to_sequence_loop bs (sequence ++ ['C'])
    else if b = constants.NUCLEOTIDE_G then vector_to_sequence_loop bs (sequence ++ ['G'])
    else if b = constants.NUCLEOTIDE_T then vector_to_sequence_loop bs (sequence ++ ['T'])
    else .error Error.invalid_integer_in_sequence

/-- The function `vector_to_sequence`. -/
def vector_to_sequence (sequence_vector : List Int) : Except Error (List Char) :=
  vector_to_sequence_loop sequence_vector []

/-- The `for` loop of `reverse_complement`; its first argument lists the entries in the
order the loop visits them (index `size - 1` down to `0`). -/
def reverse_complement_loop : List Int → List Int → Except Error (List Int)
  | [], reverse_complement_vector => .ok reverse_complement_vector
  | b :: bs, reverse_complement_vector =>
    if b = constants.NUCLEOTIDE_A then
      reverse_complement_loop bs (reverse_complement_vector ++ [constants.NUCLEOTIDE_T])
    else if b = constants.NUCLEOTIDE_C then
      reverse_complement_loop bs (reverse_complement_vector ++ [constants.NUCLEOTIDE_G])
    else if b = constants.NUCLEOTIDE_G then
      reverse_complement_loop bs (reverse_complement_vector ++ [constants.NUCLEOTIDE_C])
    else if b = constants.NUCLEOTIDE_T then
      reverse_complement_loop bs (reverse_complement_vector ++ [constants.NUCLEOTIDE_A])
    else .error Error.invalid_character_in_vector

/-- The function `reverse_complement`. -/
def reverse_complement (sequence_vector : List Int) : Except Error (List Int) :=
  reverse_complement_loop sequence_vector.reverse []

end conversion

/-! ## rng.cpp -/

/-- What one call of a distribution obtains from the generator.  The Mersenne twister and
the `<random>` distributions are library code; a draw is left open up to the range the
library promises: `real` feeds the real-valued distributions, `index` the integer-valued
ones. -/
structure Draw where
  real : ℚ
  index : Nat

/-- The state of the global `rng::rng`: the outcomes the generator is going to deliver
(`tape`), and how many of them have been consumed (`pos`). -/
structure Rng where
  tape : Nat → Draw
  pos : Nat

namespace rng

/-- The outcome at the head of the tape. -/
def current (r : Rng) : Draw := r.tape r.pos

/-- The generator after one draw. -/
def advance (r : Rng) : Rng := { tape := r.tape, pos := r.pos + 1 }

/-- The function `seed_rng`: the parameter is an `unsigned int`, so the argument is taken
modulo `2 ^ 32`; `mt19937 s` is the outcome sequence of the generator seeded with `s`. -/
def seed_rng (mt19937 : Nat → Nat → Draw) (seed : Int) : Rng :=
  { tape := mt19937 (seed % 2 ^ 32).toNat, pos := 0 }

/-- The function `random_float`: a `uniform_real_distribution<float>(0.0, 1.0)` draw, which
lies in `[0, 1)`. -/
def random_float (r : Rng) : ℚ × Rng :=
  let q := (current r).real
  (if 0 ≤ q ∧ q < 1 then q else 0, advance r)

/-- The function `random_int`: a `uniform_int_distribution<int>(min, max)` draw, which lies
in `[min, max]`. -/
def random_int (min max : Int) (r : Rng) : Int × Rng :=
  (if min ≤ max then min + ((current r).index : Int) % (max - min + 1) else min, advance r)

/-- The indices a `std::discrete_distribution` over `weights` can return: those of positive
weight. -/
def support (weights : List ℚ) : List Nat :=
  (List.range weights.length).filter (fun i => decide (0 < weights.getD i 0))

/-- The result of `sampler(rng::rng)` for a `std::discrete_distribution<>` built from
`weights`: an index of positive weight.  A distribution built from an empty range (as a
default-constructed one) always returns `0`; with no positive weight the library promises
nothing beyond an index of the range. -/
def discrete_distribution (weights : List ℚ) (r : Rng) : Nat × Rng :=
  let k := (current r).index
  let s := support weights
  (if s = [] then (if weights.length = 0 then 0 else k % weights.length)
   else s.getD (k % s.length) 0, advance r)

/-- A draw of `std::lognormal_distribution<float>(0.0, log_std)`: a positive value, and
`exp 0 = 1` when `log_std` is `0`. -/
def lognormal_distribution (log_std : ℚ) (r : Rng) : ℚ × Rng :=
  let q := (current r).real
  (if log_std = 0 then 1 else if 0 < q then q else 1, advance r)

end rng

/-! ## coverage.cpp -/

namespace coverage

/-- The statement `sampled_coverage[i]++`. -/
def increment : List Nat → Nat → List Nat
  | [], _ => []
  | c :: cs, 0 => (c + 1) :: cs
  | c :: cs, i + 1 => c :: increment cs i

/-- The sampling loop of `_sample_from_relative_coverage`, with `n` iterations left. -/
def sample_loop (relative_coverage : List ℚ) : Nat → List Nat → Rng → List Nat × Rng
  | 0, sampled_coverage, r => (sampled_coverage, r)
  | n + 1, sampled_coverage, r =>
    let (i, r1) := rng.discrete_distribution relative_coverage r
    sample_loop relative_coverage n (increment sampled_coverage i) r1

/-- The function `_sample_from_relative_coverage`. -/
def _sample_from_relative_coverage (relative_coverage : List ℚ) (n_oligos : Int) (r : Rng) :
    Except Error (List Nat × Rng) :=
  if n_oligos < 1 then .error Error.number_of_sampled_oligos_less_than_one
  else if relative_coverage.length < 1 then .error Error.no_sequences_to_sample_from
  else .ok (sample_loop relative_coverage n_oligos.toNat
    (List.replicate relative_coverage.length 0) r)

/-- The loop `rel_cov[i] = lognorm_dist(rng::rng)` of `get_initial_coverage`. -/
def lognormal_loop (log_std : ℚ) : Nat → List ℚ → Rng → List ℚ × Rng
  | 0, rel_cov, r => (rel_cov, r)
  | n + 1, rel_cov, r =>
    let (x, r1) := rng.lognormal_distribution log_std r
    lognormal_loop log_std n (rel_cov ++ [x]) r1

/-- The function `get_initial_coverage`.  A negative `n_sequences` makes the constructor of
`rel_cov` throw; the requested number of oligos is the `int` product
`n_sequences * coverage`. -/
def get_initial_coverage (n_sequences : Int) (log_std : ℚ) (coverage : Int) (r : Rng) :
    Except Error (List Nat × Rng) :=
  if n_sequences < 0 then .error Error.vector_length_error
  else
    let (rel_cov, r1) := lognormal_loop log_std n_sequences.toNat [] r
    let sum := rel_cov.sum
    let rel_cov := rel_cov.map (fun x => x / sum)
    _sample_from_relative_coverage rel_cov (n_sequences * coverage) r1

/-- The function `sample_by_count`. -/
def sample_by_count (oligo_counts : List Nat) (n_sampled_oligos : Int) (r : Rng) :
    Except Error (List Nat × Rng) :=
  let total_oligos : ℚ := (oligo_counts.map (fun (c : Nat) => (c : ℚ))).sum
  let rel_cov := oligo_counts.map (fun (c : Nat) => (c : ℚ) / total_oligos)
  _sample_from_relative_coverage rel_cov n_sampled_oligos r

end coverage

/-! ## mutator.cpp -/

namespace mutator

/-- The function `BaseMutator::normalize_vector`.  (A zero sum makes the C++ quotient a
NaN; the rational quotient is `0` there.) -/
def normalize_vector (vec : List ℚ) : List ℚ :=
  let sum := vec.sum
  vec.map (fun val => val / sum)

/-- The function `BaseMutator::is_mutation`. -/
def is_mutation (probability : ℚ) (r : Rng) : Bool × Rng :=
  let (u, r1) := rng.random_float r
  (decide (u < probability), r1)

/-- The loop of `BaseMutator::get_event_positions`; `i` is the index of the head of the
remaining probabilities. -/
def get_event_positions_loop : List ℚ → Nat → List Nat → Rng → List Nat × Rng
  | [], _, event_positions, r => (event_positions, r)
  | p :: ps, i, event_positions, r =>
    let (hit, r1) := is_mutation p r
    get_event_positions_loop ps (i + 1)
      (if hit then event_positions ++ [i] else event_positions) r1

/-- The function `BaseMutator::get_event_positions`. -/
def get_event_positions (p_event_by_position : List ℚ) (r : Rng) : List Nat × Rng :=
  get_event_positions_loop p_event_by_position 0 [] r

/-- The function `BaseMutator::draw_from_distribution` on a vector of `n` entries: every
entry is overwritten by a draw, in order. -/
def draw_from_distribution (sampler : List ℚ) : Nat → Rng → List Nat × Rng
  | 0, r => ([], r)
  | n + 1, r =>
    let (d, r1) := rng.discrete_distribution sampler r
    let (ds, r2) := draw_from_distribution sampler n r1
    (d :: ds, r2)

/-- The event lengths shared by the three event mutators: all `1`, or (with custom event
lengths) one draw each, plus `1`. -/
def draw_event_lengths (_custom_event_lengths : Bool) (_event_lengths_sampler : List ℚ)
    (n : Nat) (r : Rng) : List Nat × Rng :=
  if _custom_event_lengths then
    let (draws, r1) := draw_from_distribution _event_lengths_sampler n r
    (draws.map (fun len => len + 1), r1)
  else (List.replicate n 1, r)

/-- The call `v.insert(v.begin() + k, first, last)` with `seg` the range `[first, last)`. -/
def insert_range (v : List Int) (k : Nat) (seg : List Int) : List Int :=
  v.take k ++ seg ++ v.drop k

/-- The call `v.erase(v.begin() + p, v.begin() + p + len)`. -/
def erase_range (v : List Int) (p len : Nat) : List Int :=
  v.take p ++ v.drop (p + len)

/-- The entry `vec[b - 1]` of a preference vector for the base `b`. -/
def at_base (vec : List ℚ) (b : Int) : ℚ := vec.getD (b - 1).toNat 0

/-! ### InsertionEvents -/

/-- The data members of `InsertionEvents`; a sampler is given by the weights it was built
from. -/
structure InsertionEvents where
  rate : ℚ
  p_event_lengths : List ℚ
  p_base_preference : List ℚ
  _custom_event_lengths : Bool
  _event_lengths_sampler : List ℚ
  _base_sampler : List ℚ

/-- The constructor `InsertionEvents::InsertionEvents`.  The samplers are built from the
constructor's parameters, which shadow the normalised members. -/
def InsertionEvents.construct (rate : ℚ) (p_base_preference p_event_lengths : List ℚ) :
    Except Error InsertionEvents :=
  if p_base_preference.length ≠ 4 then .error Error.base_preference_must_have_4_elements
  else if p_event_lengths.length = 0 then
    .ok { rate := rate, p_event_lengths := [1], p_base_preference := normalize_vector p_base_preference,
          _custom_event_lengths := false, _event_lengths_sampler := [],
          _base_sampler := p_base_preference }
  else
    .ok { rate := rate, p_event_lengths := normalize_vector p_event_lengths,
          p_base_preference := normalize_vector p_base_preference,
          _custom_event_lengths := true, _event_lengths_sampler := p_event_lengths,
          _base_sampler := p_base_preference }

/-- The insertion loop of `InsertionEvents::process_single`; the events are listed in the
order the loop visits them (last event first), each with its length. -/
def InsertionEvents.insert_loop (new_bases : List Int) :
    List (Nat × Nat) → Nat → List Int → List Int
  | [], _, oligo => oligo
  | (position, length) :: events, offset, oligo =>
    InsertionEvents.insert_loop new_bases events (offset + length)
      (insert_range oligo (position + 1) ((new_bases.drop offset).take length))

/-- The function `InsertionEvents::process_single`. -/
def InsertionEvents.process_single (m : InsertionEvents) (oligo : List Int) (r : Rng) :
    List Int × Rng :=
  let (event_positions, r1) := get_event_positions (List.replicate oligo.length m.rate) r
  if event_positions.length = 0 then (oligo, r1)
  else
    let (event_length, r2) :=
      draw_event_lengths m._custom_event_lengths m._event_lengths_sampler event_positions.length r1
    let total_insertions := event_length.sum
    let (draws, r3) := draw_from_distribution m._base_sampler total_insertions r2
    let new_bases : List Int := draws.map (fun (base : Nat) => (base : Int) + 1)
    (InsertionEvents.insert_loop new_bases (event_positions.zip event_length).reverse 0 oligo, r3)

/-! ### DeletionEvents -/

/-- The data members of `DeletionEvents`. -/
structure DeletionEvents where
  rate : ℚ
  p_event_lengths : List ℚ
  p_base_preference : List ℚ
  _custom_event_lengths : Bool
  _event_lengths_sampler : List ℚ

/-- The constructor `DeletionEvents::DeletionEvents`. -/
def DeletionEvents.construct (rate : ℚ) (p_base_preference p_event_lengths : List ℚ) :
    Except Error DeletionEvents :=
  if p_base_preference.length ≠ 4 then .error Error.base_preference_must_have_4_elements
  else if p_event_lengths.length = 0 then
    .ok { rate := rate, p_event_lengths := [1], p_base_preference := normalize_vector p_base_preference,
          _custom_event_lengths := false, _event_lengths_sampler := [] }
  else
    .ok { rate := rate, p_event_lengths := normalize_vector p_event_lengths,
          p_base_preference := normalize_vector p_base_preference,
          _custom_event_lengths := true, _event_lengths_sampler := p_event_lengths }

/-- The vector `p_event_by_position` of the deletion, substitution and breakage mutators:
`4 * rate` times the preference of the base at each position. -/
def p_event_by_position (rate : ℚ) (p_base_preference : List ℚ) (oligo : List Int) : List ℚ :=
  oligo.map (fun b => 4 * rate * at_base p_base_preference b)

/-- The deletion loop of `DeletionEvents::process_single`; the events are listed in the
order the loop visits them (last event first). -/
def DeletionEvents.erase_loop : List (Nat × Nat) → List Int → List Int
  | [], oligo => oligo
  | (position, length) :: events, oligo =>
    let length := if position + length > oligo.length then oligo.length - position else length
    DeletionEvents.erase_loop events (erase_range oligo position length)

/-- The function `DeletionEvents::process_single`. -/
def DeletionEvents.process_single (m : DeletionEvents) (oligo : List Int) (r : Rng) :
    List Int × Rng :=
  let (event_positions, r1) :=
    get_event_positions (p_event_by_position m.rate m.p_base_preference oligo) r
  if event_positions.length = 0 then (oligo, r1)
  else
    let (event_length, r2) :=
      draw_event_lengths m._custom_event_lengths m._event_lengths_sampler event_positions.length r1
    (DeletionEvents.erase_loop (event_positions.zip event_length).reverse oligo, r2)

/-! ### SubstitutionEvents -/

/-- The data members of `SubstitutionEvents`; `_base_sampler` holds one sampler per
original base. -/
structure SubstitutionEvents where
  rate : ℚ
  p_event_lengths : List ℚ
  p_base_preference : List ℚ
  _custom_event_lengths : Bool
  _event_lengths_sampler : List ℚ
  _base_sampler : List (List ℚ)

/-- The three entries `p_base_preference_list[i*3 + j]`, `j = 0, 1, 2`. -/
def SubstitutionEvents.row (p_base_preference_list : List ℚ) (i : Nat) : List ℚ :=
  (List.range 3).map (fun j => p_base_preference_list.getD (i * 3 + j) 0)

/-- The constructor `SubstitutionEvents::SubstitutionEvents`. -/
def SubstitutionEvents.construct (rate : ℚ) (p_base_preference_list p_event_lengths : List ℚ) :
    Except Error SubstitutionEvents :=
  if p_base_preference_list.length ≠ 4 * 3 then
    .error Error.base_preference_must_have_12_elements
  else
    let p_base_preference_list := normalize_vector p_base_preference_list
    let p_base_preference :=
      (List.range 4).map (fun i => (SubstitutionEvents.row p_base_preference_list i).sum)
    let _base_sampler :=
      (List.range 4).map (fun i => normalize_vector (SubstitutionEvents.row p_base_preference_list i))
    if p_event_lengths.length = 0 then
      .ok { rate := rate, p_event_lengths := [1],
            p_base_preference := normalize_vector p_base_preference,
            _custom_event_lengths := false, _event_lengths_sampler := [],
            _base_sampler := _base_sampler }
    else
      .ok { rate := rate, p_event_lengths := normalize_vector p_event_lengths,
            p_base_preference := normalize_vector p_base_preference,
            _custom_event_lengths := true, _event_lengths_sampler := p_event_lengths,
            _base_sampler := _base_sampler }

/-- The index `oligo[k] - 1` into a per-base array. -/
def basetype (oligo : List Int) (k : Nat) : Nat := (oligo.getD k 0 - 1).toNat

/-- The first loop over the events of `SubstitutionEvents::process_single`: every length is
clipped at the end of the oligo and the covered positions are counted per base.  Returns
the clipped `event_length` and `total_substitutions_by_base`. -/
def SubstitutionEvents.count_loop (oligo : List Int) :
    List (Nat × Nat) → List Nat → List Nat → List Nat × List Nat
  | [], event_length, total_substitutions_by_base => (event_length, total_substitutions_by_base)
  | (pos, len) :: events, event_length, total_substitutions_by_base =>
    let len := if pos + len > oligo.length then oligo.length - pos else len
    SubstitutionEvents.count_loop oligo events (event_length ++ [len])
      ((List.range len).foldl (fun totals j => coverage.increment totals (basetype oligo (pos + j)))
        total_substitutions_by_base)

/-- The loop "generate new bases for each base type" over the base types `i`. -/
def SubstitutionEvents.new_bases_loop (_base_sampler : List (List ℚ))
    (total_substitutions_by_base : List Nat) :
    List Nat → List (List Int) → Rng → List (List Int) × Rng
  | [], new_bases, r => (new_bases, r)
  | i :: rest, new_bases, r =>
    let n_bases := total_substitutions_by_base.getD i 0
    if n_bases = 0 then
      SubstitutionEvents.new_bases_loop _base_sampler total_substitutions_by_base rest new_bases r
    else
      let (draws, r1) := draw_from_distribution (_base_sampler.getD i []) n_bases r
      let bases : List Int := draws.map (fun (d : Nat) =>
        let base : Int := (d : Int) + 1
        if base ≥ (i : Int) + 1 then base + 1 else base)
      SubstitutionEvents.new_bases_loop _base_sampler total_substitutions_by_base rest
        (new_bases.set i bases) r1

/-- One step `j` of the inner substitution loop, on the pair of the oligo and `offset`. -/
def SubstitutionEvents.substitute_step (new_bases : List (List Int)) (pos : Nat)
    (state : List Int × List Nat) (j : Nat) : List Int × List Nat :=
  let (oligo, offset) := state
  let bt := basetype oligo (pos + j)
  if offset.getD bt 0 ≥ (new_bases.getD bt []).length then (oligo, offset.set bt 0)
  else (oligo.set (pos + j) ((new_bases.getD bt []).getD (offset.getD bt 0) 0),
        offset.set bt (offset.getD bt 0 + 1))

/-- The loop "substitute the new bases into the oligo". -/
def SubstitutionEvents.substitute_loop (new_bases : List (List Int)) :
    List (Nat × Nat) → List Int × List Nat → List Int × List Nat
  | [], state => state
  | (pos, len) :: events, state =>
    SubstitutionEvents.substitute_loop new_bases events
      ((List.range len).foldl (SubstitutionEvents.substitute_step new_bases pos) state)

/-- The function `SubstitutionEvents::process_single`. -/
def SubstitutionEvents.process_single (m : SubstitutionEvents) (oligo : List Int) (r : Rng) :
    List Int × Rng :=
  let (event_positions, r1) :=
    get_event_positions (p_event_by_position m.rate m.p_base_preference oligo) r
  if event_positions.length = 0 then (oligo, r1)
  else
    let (event_length, r2) :=
      draw_event_lengths m._custom_event_lengths m._event_lengths_sampler event_positions.length r1
    let (event_length, total_substitutions_by_base) :=
      SubstitutionEvents.count_loop oligo (event_positions.zip event_length) [] [0, 0, 0, 0]
    let (new_bases, r3) :=
      SubstitutionEvents.new_bases_loop m._base_sampler total_substitutions_by_base [0, 1, 2, 3]
        [[], [], [], []] r2
    ((SubstitutionEvents.substitute_loop new_bases (event_positions.zip event_length)
        (oligo, [0, 0, 0, 0])).1, r3)

/-! ### BreakageEvents -/

/-- The data members of `BreakageEvents`. -/
structure BreakageEvents where
  rate : ℚ
  p_base_preference : List ℚ

/-- The constructor `BreakageEvents::BreakageEvents`. -/
def BreakageEvents.construct (rate : ℚ) (p_base_preference : List ℚ) :
    Except Error BreakageEvents :=
  if p_base_preference.length ≠ 4 then .error Error.base_preference_must_have_4_elements
  else .ok { rate := rate, p_base_preference := normalize_vector p_base_preference }

/-- The vector `std::vector<char>(v.begin() + first, v.begin() + last)`. -/
def slice (v : List Int) (first last : Nat) : List Int := (v.take last).drop first

/-- The loop "save the fragments of the oligo" of `BreakageEvents::process_single_with_new`
over the remaining event positions; returns `new_oligos` and `last_pos`. -/
def BreakageEvents.fragments_loop (oligo : List Int) :
    List Nat → Nat → List (List Int) → List (List Int) × Nat
  | [], last_pos, new_oligos => (new_oligos, last_pos)
  | pos :: event_positions, last_pos, new_oligos =>
    if pos = last_pos then BreakageEvents.fragments_loop oligo event_positions (pos + 1) new_oligos
    else BreakageEvents.fragments_loop oligo event_positions (pos + 1)
      (new_oligos ++ [slice oligo last_pos pos])

/-- The function `BreakageEvents::process_single_with_new`. -/
def BreakageEvents.process_single_with_new (m : BreakageEvents) (oligo : List Int)
    (new_oligos : List (List Int)) (r : Rng) : List (List Int) × Rng :=
  let (event_positions, r1) :=
    get_event_positions (p_event_by_position m.rate m.p_base_preference oligo) r
  if event_positions.length = 0 then (new_oligos ++ [oligo], r1)
  else
    let (new_oligos, last_pos) := BreakageEvents.fragments_loop oligo event_positions 0 new_oligos
    if last_pos < oligo.length then (new_oligos ++ [oligo.drop last_pos], r1)
    else (new_oligos, r1)

/-! ### SizeSelection -/

/-- The data members of `SizeSelection`. -/
structure SizeSelection where
  lower_cutoff : Int
  upper_threshold : Int

/-- The constructor `SizeSelection::SizeSelection`. -/
def SizeSelection.construct (lower_cutoff upper_threshold : Int) : SizeSelection :=
  { lower_cutoff := lower_cutoff, upper_threshold := upper_threshold }

/-- The function `SizeSelection::process_single_with_new`. -/
def SizeSelection.process_single_with_new (m : SizeSelection) (oligo : List Int)
    (new_oligos : List (List Int)) (r : Rng) : List (List Int) × Rng :=
  let size : Int := oligo.length
  if size ≤ m.lower_cutoff then (new_oligos, r)
  else if size ≥ m.upper_threshold then (new_oligos ++ [oligo], r)
  else
    let p_select : ℚ := ((size - m.lower_cutoff : Int) : ℚ) / ((m.upper_threshold - m.lower_cutoff : Int) : ℚ)
    let (u, r1) := rng.random_float r
    if u < p_select then (new_oligos ++ [oligo], r1) else (new_oligos, r1)

/-! ### AddReverseComplement -/

/-- The function `AddReverseComplement::process_single_with_new`. -/
def AddReverseComplement.process_single_with_new (oligo : List Int)
    (new_oligos : List (List Int)) : Except Error (List (List Int)) :=
  match conversion.reverse_complement oligo with
  | .error e => .error e
  | .ok rc => .ok ((new_oligos ++ [oligo]) ++ [rc])

/-! ### Tailing -/

/-- The data members of `Tailing`. -/
structure Tailing where
  _tail_bases : List Int
  _tail_lengths : List Int
  _base_sampler : List ℚ
  _length_sampler : List ℚ
  n_min : Int
  n_max : Int

/-- The constructor `Tailing::Tailing`.  The vector `p_tail_lengths` has
`n_max - n_min + 1` entries, a negative number of which makes its constructor throw. -/
def Tailing.construct (tail_bases : List Char) (n_min n_max : Int) : Except Error Tailing :=
  match conversion.sequence_to_vector tail_bases with
  | .error e => .error e
  | .ok _tail_bases =>
    if n_max - n_min + 1 < 0 then .error Error.vector_length_error
    else
      .ok { _tail_bases := _tail_bases,
            _tail_lengths := (List.range (n_max - n_min + 1).toNat).map (fun (i : Nat) => n_min + (i : Int)),
            _base_sampler := List.replicate _tail_bases.length 1,
            _length_sampler := List.replicate (n_max - n_min + 1).toNat 1,
            n_min := n_min, n_max := n_max }

/-- The loop `base = _tail_bases[base]` over the drawn indices. -/
def Tailing.tail_loop (_tail_bases : List Int) : List Nat → Except Error (List Int)
  | [] => .ok []
  | base :: draws =>
    match _tail_bases[base]?, Tailing.tail_loop _tail_bases draws with
    | some b, .ok tail => .ok (b :: tail)
    | none, _ => .error Error.undefined_behaviour
    | _, .error e => .error e

/-- The function `Tailing::process_single`. -/
def Tailing.process_single (m : Tailing) (oligo : List Int) (r : Rng) :
    Except Error (List Int × Rng) :=
  let (i, r1) := rng.discrete_distribution m._length_sampler r
  match m._tail_lengths[i]? with
  | none => .error Error.undefined_behaviour
  | some length =>
    if length < 0 then .error Error.vector_length_error
    else
      let (draws, r2) := draw_from_distribution m._base_sampler length.toNat r1
      match Tailing.tail_loop m._tail_bases draws with
      | .error e => .error e
      | .ok tail => .ok (oligo ++ tail, r2)

/-! ### EndShreds -/

/-- The data members of `EndShreds`. -/
structure EndShreds where
  p_removal_length : List ℚ
  _length_sampler : List ℚ

/-- The constructor `EndShreds::EndShreds`. -/
def EndShreds.construct (p_removal_lengths : List ℚ) : EndShreds :=
  { p_removal_length := normalize_vector p_removal_lengths,
    _length_sampler := normalize_vector p_removal_lengths }

/-- The function `EndShreds::process_single`.  A `resize` to `size - lengths[0]` with
`lengths[0] > size` asks for more than `max_size()` entries and throws; an `erase` beyond the
end is undefined. -/
def EndShreds.process_single (m : EndShreds) (oligo : List Int) (r : Rng) :
    Except Error (List Int × Rng) :=
  let (lengths, r1) := draw_from_distribution m._length_sampler 2 r
  let length0 := lengths.getD 0 0
  let length1 := lengths.getD 1 0
  if length0 > oligo.length then .error Error.vector_length_error
  else
    let oligo := if length0 > 0 then oligo.take (oligo.length - length0) else oligo
    if length1 > oligo.length then .error Error.undefined_behaviour
    else .ok (if length1 > 0 then oligo.drop length1 else oligo, r1)

/-! ### SequencingAddAdapter -/

/-- The data member of `SequencingAddAdapter`. -/
structure SequencingAddAdapter where
  _adapter_vector : List Int

/-- The constructor `SequencingAddAdapter::SequencingAddAdapter`. -/
def SequencingAddAdapter.construct (adapter_sequence : List Char) :
    Except Error SequencingAddAdapter :=
  match conversion.sequence_to_vector adapter_sequence with
  | .error e => .error e
  | .ok v => .ok { _adapter_vector := v }

/-- The function `SequencingAddAdapter::process_single`. -/
def SequencingAddAdapter.process_single (m : SequencingAddAdapter) (oligo : List Int) :
    List Int :=
  oligo ++ m._adapter_vector

/-! ### SequencingPadTrim -/

/-- The data members of `SequencingPadTrim`. -/
structure SequencingPadTrim where
  read_length : Int
  _base_sampler : List ℚ

/-- The constructor `SequencingPadTrim::SequencingPadTrim`. -/
def SequencingPadTrim.construct (read_length : Int) : SequencingPadTrim :=
  { read_length := read_length, _base_sampler := [1, 1, 1, 1] }

/-- The function `SequencingPadTrim::process_single`.  With a negative `read_length` the
`resize` asks for more than `max_size()` entries and throws. -/
def SequencingPadTrim.process_single (m : SequencingPadTrim) (oligo : List Int) (r : Rng) :
    Except Error (List Int × Rng) :=
  let length : Int := oligo.length
  let (oligo1, r1) :=
    if length < m.read_length then
      let (draws, r1) := draw_from_distribution m._base_sampler (m.read_length - length).toNat r
      (oligo ++ draws.map (fun (base : Nat) => (base : Int) + 1), r1)
    else (oligo, r)
  if length > m.read_length then
    if m.read_length < 0 then .error Error.vector_length_error
    else .ok (oligo1.take m.read_length.toNat, r1)
  else .ok (oligo1, r1)

/-! ### BaseMutator -/

/-- A mutator behind a `BaseMutator` pointer: one case per derived class. -/
inductive BaseMutator where
  | InsertionEvents (m : InsertionEvents)
  | DeletionEvents (m : DeletionEvents)
  | SubstitutionEvents (m : SubstitutionEvents)
  | BreakageEvents (m : BreakageEvents)
  | SizeSelection (m : SizeSelection)
  | AddReverseComplement
  | Tailing (m : Tailing)
  | EndShreds (m : EndShreds)
  | SequencingAddAdapter (m : SequencingAddAdapter)
  | SequencingPadTrim (m : SequencingPadTrim)

/-- The virtual function `get_manipulates_count`: the member `manipulates_count` of the
derived class. -/
def BaseMutator.get_manipulates_count : BaseMutator → Bool
  | .InsertionEvents _ => false
  | .DeletionEvents _ => false
  | .SubstitutionEvents _ => false
  | .BreakageEvents _ => true
  | .SizeSelection _ => true
  | .AddReverseComplement => true
  | .Tailing _ => false
  | .EndShreds _ => false
  | .SequencingAddAdapter _ => false
  | .SequencingPadTrim _ => false

/-- The virtual function `process_single`: the override of the derived class, or the
throwing default of `BaseMutator`. -/
def BaseMutator.process_single : BaseMutator → List Int → Rng → Except Error (List Int × Rng)
  | .InsertionEvents m, oligo, r => .ok (m.process_single oligo r)
  | .DeletionEvents m, oligo, r => .ok (m.process_single oligo r)
  | .SubstitutionEvents m, oligo, r => .ok (m.process_single oligo r)
  | .Tailing m, oligo, r => m.process_single oligo r
  | .EndShreds m, oligo, r => m.process_single oligo r
  | .SequencingAddAdapter m, oligo, r => .ok (m.process_single oligo, r)
  | .SequencingPadTrim m, oligo, r => m.process_single oligo r
  | .BreakageEvents _, _, _ => .error Error.process_single_must_be_overwritten
  | .SizeSelection _, _, _ => .error Error.process_single_must_be_overwritten
  | .AddReverseComplement, _, _ => .error Error.process_single_must_be_overwritten

/-- The virtual function `process_single_with_new`: the override of the derived class, or
the throwing default of `BaseMutator`. -/
def BaseMutator.process_single_with_new :
    BaseMutator → List Int → List (List Int) → Rng → Except Error (List (List Int) × Rng)
  | .BreakageEvents m, oligo, new_oligos, r => .ok (m.process_single_with_new oligo new_oligos r)
  | .SizeSelection m, oligo, new_oligos, r => .ok (m.process_single_with_new oligo new_oligos r)
  | .AddReverseComplement, oligo, new_oligos, r =>
    match AddReverseComplement.process_single_with_new oligo new_oligos with
    | .error e => .error e
    | .ok new_oligos => .ok (new_oligos, r)
  | _, _, _, _ => .error Error.process_single_with_new_must_be_overwritten

/-- The loop of `BaseMutator::process` over the oligos of a count-varying mutator. -/
def BaseMutator.process_with_new_loop (m : BaseMutator) :
    List (List Int) → List (List Int) → Rng → Except Error (List (List Int) × Rng)
  | [], new_oligos, r => .ok (new_oligos, r)
  | oligo :: oligos, new_oligos, r =>
    match m.process_single_with_new oligo new_oligos r with
    | .error e => .error e
    | .ok (new_oligos, r1) => BaseMutator.process_with_new_loop m oligos new_oligos r1

/-- The loop of `BaseMutator::process` over the oligos of a count-preserving mutator; every
oligo is replaced by its processed form. -/
def BaseMutator.process_single_loop (m : BaseMutator) :
    List (List Int) → Rng → Except Error (List (List Int) × Rng)
  | [], r => .ok ([], r)
  | oligo :: oligos, r =>
    match m.process_single oligo r with
    | .error e => .error e
    | .ok (oligo, r1) =>
      match BaseMutator.process_single_loop m oligos r1 with
      | .error e => .error e
      | .ok (oligos, r2) => .ok (oligo :: oligos, r2)

/-- The function `BaseMutator::process`. -/
def BaseMutator.process (m : BaseMutator) (oligos : List (List Int)) (r : Rng) :
    Except Error (List (List Int) × Rng) :=
  if m.get_manipulates_count then
    match BaseMutator.process_with_new_loop m oligos [] r with
    | .error e => .error e
    | .ok (new_oligos, r1) => .ok (if new_oligos.length > 0 then new_oligos else [], r1)
  else BaseMutator.process_single_loop m oligos r

/-- The loop `for (mutator : mutators) mutator->process(oligos)` of
`oligofactory::produce_from_sequence` and `OligoCollector::apply_mutators`. -/
def process_all : List BaseMutator → List (List Int) → Rng → Except Error (List (List Int) × Rng)
  | [], oligos, r => .ok (oligos, r)
  | m :: mutators, oligos, r =>
    match m.process oligos r with
    | .error e => .error e
    | .ok (oligos, r1) => process_all mutators oligos r1

end mutator

/-! ## oligofactory.cpp -/

namespace oligofactory

/-- The function `produce_from_sequence`. -/
def produce_from_sequence (sequence_vector : List Int) (mutators : List mutator.BaseMutator)
    (r : Rng) : Except Error (List (List Int) × Rng) :=
  mutator.process_all mutators [sequence_vector] r

/-- The main loop of `generate_oligos`, with `n` iterations left. -/
def generate_loop (sequence_vector : List Int) (mutators : List mutator.BaseMutator) :
    Nat → List (List Int) → Rng → Except Error (List (List Int) × Rng)
  | 0, generated_oligos, r => .ok (generated_oligos, r)
  | n + 1, generated_oligos, r =>
    match produce_from_sequence sequence_vector mutators r with
    | .error e => .error e
    | .ok (oligo_vectors, r1) =>
      generate_loop sequence_vector mutators n (generated_oligos ++ oligo_vectors) r1

/-- The function `generate_oligos`; `generated_oligos` is the vector the caller passes in,
which the function extends. -/
def generate_oligos (generated_oligos : List (List Int)) (sequence_vector : List Int)
    (n_oligos : Nat) (mutators : List mutator.BaseMutator) (r : Rng) :
    Except Error (List (List Int) × Rng) :=
  if n_oligos = 0 then .ok (generated_oligos, r)
  else if mutators.length = 0 then
    .ok (generated_oligos ++ List.replicate n_oligos sequence_vector, r)
  else generate_loop sequence_vector mutators n_oligos generated_oligos r

end oligofactory

/-! ## fileio.cpp: the writer -/

namespace fileio

/-- The enumeration `WriteFileType`. -/
inductive WriteFileType where
  | BINARY
  | TXT
  | FASTA
  | FASTQ
  deriving DecidableEq, Repr

/-- An open `SequenceFileWriter`: `_file` holds the characters written so far. -/
structure SequenceFileWriter where
  filetype : WriteFileType
  _file : List Char
  sequences_written : Nat
  deriving DecidableEq

/-- The text that the format `{:09}` gives for a count: its decimal digits, padded with
zeros on the left to nine characters. -/
def format_09 (n : Nat) : List Char :=
  List.replicate (9 - (Nat.toDigits 10 n).length) '0' ++ Nat.toDigits 10 n

/-- The character with the value of an entry of a sequence vector. -/
def to_char (b : Int) : Char := Char.ofNat b.toNat

/-- The function `SequenceFileWriter::write_sequence_vector`, with the four private
`_write_sequence_as_...` functions in place. -/
def SequenceFileWriter.write_sequence_vector (w : SequenceFileWriter)
    (sequence_vector : List Int) : Except Error SequenceFileWriter :=
  match w.filetype with
  | .BINARY =>
    .ok { w with _file := w._file ++ sequence_vector.map to_char
                    ++ [to_char constants.NUCLEOTIDE_NEXTOLIGO],
                 sequences_written := w.sequences_written + 1 }
  | .TXT =>
    match conversion.vector_to_sequence sequence_vector with
    | .error e => .error e
    | .ok sequence =>
      .ok { w with _file := w._file ++ sequence ++ ['\n'],
                   sequences_written := w.sequences_written + 1 }
  | .FASTA =>
    match conversion.vector_to_sequence sequence_vector with
    | .error e => .error e
    | .ok sequence =>
      .ok { w with _file := w._file ++ ">Oligo_".toList ++ format_09 w.sequences_written
                      ++ ['\n'] ++ sequence ++ ['\n'],
                   sequences_written := w.sequences_written + 1 }
  | .FASTQ =>
    match conversion.vector_to_sequence sequence_vector with
    | .error e => .error e
    | .ok sequence =>
      .ok { w with _file := w._file ++ "@Oligo_".toList ++ format_09 w.sequences_written
                      ++ ['\n'] ++ sequence ++ "\n+\n".toList
                      ++ List.replicate sequence.length 'F' ++ ['\n'],
                   sequences_written := w.sequences_written + 1 }

end fileio

/-! ## fileio.cpp: files and the reader -/

namespace fileio

/-- The files a run can see: the content of every existing file, and whether a file can be
opened for writing under a name. -/
structure FileSystem where
  files : List Char → Option (List Char)
  writable : List Char → Bool

/-- The file system with the file `filename` created or overwritten with `content`. -/
def FileSystem.write (fs : FileSystem) (filename content : List Char) : FileSystem :=
  { fs with files := fun name => if name = filename then some content else fs.files name }

/-- The file system after `std::remove(filename)`. -/
def FileSystem.remove (fs : FileSystem) (filename : List Char) : FileSystem :=
  { fs with files := fun name => if name = filename then none else fs.files name }

/-- The constructor `SequenceFileWriter::SequenceFileWriter`: opening the stream creates the
file, empty. -/
def SequenceFileWriter.construct (fs : FileSystem) (filename : List Char)
    (filetype : WriteFileType) : Except Error (SequenceFileWriter × FileSystem) :=
  if fs.writable filename then
    .ok ({ filetype := filetype, _file := [], sequences_written := 0 }, fs.write filename [])
  else .error Error.could_not_open_file

/-- The enumeration `ReadFileType`. -/
inductive ReadFileType where
  | BINARY
  | ANY
  deriving DecidableEq, Repr

/-- An open `SequenceFileReader`: `_file` is the part of the stream not read yet and
`_contents` the whole file, to which `seekg(0)` returns. -/
structure SequenceFileReader where
  filetype : ReadFileType
  _file : List Char
  _contents : List Char
  skipped_lines : Int
  valid_sequences : Int
  deriving DecidableEq

/-- The constructor `SequenceFileReader::SequenceFileReader`: the stream opens if the file
exists. -/
def SequenceFileReader.construct (fs : FileSystem) (filename : List Char)
    (filetype : ReadFileType) : Except Error SequenceFileReader :=
  match fs.files filename with
  | none => .error Error.could_not_open_file
  | some contents =>
    .ok { filetype := filetype, _file := contents, _contents := contents, skipped_lines := 0,
          valid_sequences := 0 }

/-- The value of a character read from a file. -/
def of_char (c : Char) : Int := (c.toNat : Int)

/-- The loop `while (_file.get(c))` of `_getline(std::vector<char>&)`: returns the result of
the function, the sequence and the rest of the stream. -/
def _getline_vector_loop : List Char → List Int → Bool × List Int × List Char
  | [], sequence => (decide (sequence ≠ []), sequence, [])
  | c :: rest, sequence =>
    if of_char c = constants.NUCLEOTIDE_NEXTOLIGO then (true, sequence, rest)
    else _getline_vector_loop rest (sequence ++ [of_char c])

/-- The function `SequenceFileReader::_getline(std::vector<char>&)`. -/
def SequenceFileReader._getline_vector (rd : SequenceFileReader) :
    Except Error (Bool × List Int × SequenceFileReader) :=
  if rd.filetype ≠ ReadFileType.BINARY then .error Error.cannot_read_binary_data
  else
    let (found, sequence, rest) := _getline_vector_loop rd._file []
    .ok (found, sequence, { rd with _file := rest })

/-- The characters `std::getline` extracts up to the next newline, which it discards, or up
to the end of the stream; returns the line and the rest of the stream. -/
def getline_loop : List Char → List Char → List Char × List Char
  | [], line => (line, [])
  | c :: rest, line => if c = '\n' then (line, rest) else getline_loop rest (line ++ [c])

/-- The function `SequenceFileReader::_getline(std::string&)`: `std::getline` fails exactly
when the stream has no character left. -/
def SequenceFileReader._getline_string (rd : SequenceFileReader) :
    Except Error (Bool × List Char × SequenceFileReader) :=
  if rd.filetype ≠ ReadFileType.ANY then .error Error.cannot_read_text_data
  else
    match rd._file with
    | [] => .ok (false, [], rd)
    | c :: rest =>
      let (line, rest) := getline_loop (c :: rest) []
      .ok (true, line, { rd with _file := rest })

/-- The function `SequenceFileReader::to_start`. -/
def SequenceFileReader.to_start (rd : SequenceFileReader) : SequenceFileReader :=
  { rd with _file := rd._contents, skipped_lines := 0, valid_sequences := 0 }

/-- The function `SequenceFileReader::check_valid_sequence(const std::string&)`. -/
def SequenceFileReader.check_valid_sequence_string (rd : SequenceFileReader)
    (sequence : List Char) : Bool × SequenceFileReader :=
  match sequence with
  | [] => (false, { rd with skipped_lines := rd.skipped_lines + 1 })
  | c0 :: _ =>
    if c0 = '>' ∨ c0 = '@' ∨ c0 = '+' then
      (false, { rd with skipped_lines := rd.skipped_lines + 1 })
    else if sequence.any (fun c => decide (c ≠ 'A' ∧ c ≠ 'C' ∧ c ≠ 'G' ∧ c ≠ 'T')) then
      (false, { rd with skipped_lines := rd.skipped_lines + 1 })
    else (true, { rd with valid_sequences := rd.valid_sequences + 1 })

/-- The function `SequenceFileReader::check_valid_sequence(std::vector<char> const&)`. -/
def SequenceFileReader.check_valid_sequence_vector (rd : SequenceFileReader)
    (sequence_vector : List Int) : Bool × SequenceFileReader :=
  if sequence_vector = [] then (false, { rd with skipped_lines := rd.skipped_lines + 1 })
  else if sequence_vector.any (fun c => decide (c ≠ constants.NUCLEOTIDE_A ∧
      c ≠ constants.NUCLEOTIDE_C ∧ c ≠ constants.NUCLEOTIDE_G ∧ c ≠ constants.NUCLEOTIDE_T)) then
    (false, { rd with skipped_lines := rd.skipped_lines + 1 })
  else (true, { rd with valid_sequences := rd.valid_sequences + 1 })

/-- The two `while (_getline(...))` loops of `get_sequence`, with a bound on the number of
iterations; every iteration that continues has taken a character from the stream. -/
def SequenceFileReader.get_sequence_loop :
    Nat → SequenceFileReader → Except Error (Option (List Int) × SequenceFileReader)
  | 0, rd => .ok (none, rd)
  | bound + 1, rd =>
    match rd.filetype with
    | .BINARY =>
      match rd._getline_vector with
      | .error e => .error e
      | .ok (false, _, rd1) => .ok (none, rd1)
      | .ok (true, sequence_vector, rd1) =>
        match rd1.check_valid_sequence_vector sequence_vector with
        | (true, rd2) => .ok (some sequence_vector, rd2)
        | (false, rd2) => SequenceFileReader.get_sequence_loop bound rd2
    | .ANY =>
      match rd._getline_string with
      | .error e => .error e
      | .ok (false, _, rd1) => .ok (none, rd1)
      | .ok (true, _current_sequence, rd1) =>
        match rd1.check_valid_sequence_string _current_sequence with
        | (true, rd2) =>
          match conversion.sequence_to_vector _current_sequence with
          | .error e => .error e
          | .ok sequence_vector => .ok (some sequence_vector, rd2)
        | (false, rd2) => SequenceFileReader.get_sequence_loop bound rd2

/-- The function `SequenceFileReader::get_sequence`: `some` sequence vector for `true`,
`none` for `false`.  The bound is one more than the number of unread characters. -/
def SequenceFileReader.get_sequence (rd : SequenceFileReader) :
    Except Error (Option (List Int) × SequenceFileReader) :=
  SequenceFileReader.get_sequence_loop (rd._file.length + 1) rd

/-- The loop `while (get_sequence(sequence)) count++` of `count_sequences`, with a bound on
the number of iterations. -/
def SequenceFileReader.count_loop :
    Nat → SequenceFileReader → Int → Except Error (Int × SequenceFileReader)
  | 0, rd, count => .ok (count, rd)
  | bound + 1, rd, count =>
    match rd.get_sequence with
    | .error e => .error e
    | .ok (none, rd1) => .ok (count, rd1)
    | .ok (some _, rd1) => SequenceFileReader.count_loop bound rd1 (count + 1)

/-- The function `SequenceFileReader::count_sequences`. -/
def SequenceFileReader.count_sequences (rd : SequenceFileReader) :
    Except Error (Int × SequenceFileReader) :=
  match SequenceFileReader.count_loop (rd._contents.length + 1) rd.to_start 0 with
  | .error e => .error e
  | .ok (count, rd1) => .ok (count, rd1.to_start)

end fileio

/-! ## oligocollector.cpp -/

namespace oligocollector

/-- The data members of `OligoCollector`; a null pointer is `none`. -/
structure OligoCollector where
  _create_rv : Bool
  _mutators : Option (List mutator.BaseMutator)
  filewriter_fw : fileio.SequenceFileWriter
  filewriter_rv : Option fileio.SequenceFileWriter

/-- The constructor `OligoCollector(filewriter_fw)`. -/
def OligoCollector.single (filewriter_fw : fileio.SequenceFileWriter) : OligoCollector :=
  { _create_rv := false, _mutators := none, filewriter_fw := filewriter_fw,
    filewriter_rv := none }

/-- The constructor `OligoCollector(filewriter_fw, filewriter_rv)`. -/
def OligoCollector.paired (filewriter_fw filewriter_rv : fileio.SequenceFileWriter) :
    OligoCollector :=
  { _create_rv := true, _mutators := none, filewriter_fw := filewriter_fw,
    filewriter_rv := some filewriter_rv }

/-- The function `OligoCollector::set_mutators`. -/
def OligoCollector.set_mutators (c : OligoCollector) (mutators : List mutator.BaseMutator) :
    OligoCollector :=
  { c with _mutators := some mutators }

/-- The function `OligoCollector::apply_mutators`; `mutated_sequences[0]` on an empty vector
is undefined. -/
def OligoCollector.apply_mutators (c : OligoCollector) (sequence_vector : List Int) (r : Rng) :
    Except Error (List Int × Rng) :=
  let processed : Except Error (List (List Int) × Rng) :=
    match c._mutators with
    | none => .ok ([sequence_vector], r)
    | some mutators => mutator.process_all mutators [sequence_vector] r
  match processed with
  | .error e => .error e
  | .ok (mutated_sequences, r1) =>
    match mutated_sequences[0]? with
    | none => .error Error.undefined_behaviour
    | some first => .ok (first, r1)

/-- The function `OligoCollector::collect_sequence_vector`. -/
def OligoCollector.collect_sequence_vector (c : OligoCollector) (sequence_vector : List Int)
    (r : Rng) : Except Error (OligoCollector × Rng) :=
  match c.apply_mutators sequence_vector r with
  | .error e => .error e
  | .ok (mutated_sequence_vector, r1) =>
    match c.filewriter_fw.write_sequence_vector mutated_sequence_vector with
    | .error e => .error e
    | .ok fw =>
      if c._create_rv then
        match conversion.reverse_complement sequence_vector with
        | .error e => .error e
        | .ok rv_sequence_vector =>
          match c.apply_mutators rv_sequence_vector r1 with
          | .error e => .error e
          | .ok (mutated_rv, r2) =>
            match c.filewriter_rv with
            | none => .error Error.undefined_behaviour
            | some filewriter_rv =>
              match filewriter_rv.write_sequence_vector mutated_rv with
              | .error e => .error e
              | .ok rv => .ok ({ c with filewriter_fw := fw, filewriter_rv := some rv }, r2)
      else .ok ({ c with filewriter_fw := fw }, r1)

end oligocollector

/-! ## pipeline.cpp -/

namespace pipeline

/-- The conversion of a `float` to `int`: the fractional part is discarded. -/
def float_to_int (x : ℚ) : Int := if 0 ≤ x then ⌊x⌋ else ⌈x⌉

/-- The loop `for (oligo : oligos) collector.collect_sequence_vector(oligo)` of `process`. -/
def collect_all (collector : oligocollector.OligoCollector) :
    List (List Int) → Rng → Except Error (oligocollector.OligoCollector × Rng)
  | [], r => .ok (collector, r)
  | oligo :: oligos, r =>
    match collector.collect_sequence_vector oligo r with
    | .error e => .error e
    | .ok (collector1, r1) => collect_all collector1 oligos r1

/-- The loop `while (reader.get_sequence(sequence_vector))` of `process`, with a bound on the
number of iterations; returns the reader, the collector, `i_seq` and the generator.  An index
`i_seq` outside `oligo_counts` is undefined. -/
def process_loop (oligo_counts : List Nat) (mutators : List mutator.BaseMutator) :
    Nat → fileio.SequenceFileReader → oligocollector.OligoCollector → Nat → Rng →
      Except Error (fileio.SequenceFileReader × oligocollector.OligoCollector × Nat × Rng)
  | 0, reader, collector, i_seq, r => .ok (reader, collector, i_seq, r)
  | bound + 1, reader, collector, i_seq, r =>
    match reader.get_sequence with
    | .error e => .error e
    | .ok (none, reader1) => .ok (reader1, collector, i_seq, r)
    | .ok (some sequence_vector, reader1) =>
      match oligo_counts[i_seq]? with
      | none => .error Error.undefined_behaviour
      | some count =>
        if count = 0 then process_loop oligo_counts mutators bound reader1 collector (i_seq + 1) r
        else
          match oligofactory.generate_oligos [] sequence_vector count mutators r with
          | .error e => .error e
          | .ok (oligos, r1) =>
            match collect_all collector oligos r1 with
            | .error e => .error e
            | .ok (collector1, r2) =>
              process_loop oligo_counts mutators bound reader1 collector1 (i_seq + 1) r2

/-- The function `pipeline::process`. -/
def process (reader : fileio.SequenceFileReader) (collector : oligocollector.OligoCollector)
    (oligo_counts : List Nat) (mutators : List mutator.BaseMutator) (r : Rng) :
    Except Error (fileio.SequenceFileReader × oligocollector.OligoCollector × Rng) :=
  match process_loop oligo_counts mutators (reader._file.length + 1) reader collector 0 r with
  | .error e => .error e
  | .ok (reader1, collector1, i_seq, r1) =>
    if i_seq ≠ oligo_counts.length then .error Error.processed_sequences_mismatch
    else .ok (reader1, collector1, r1)

/-- The number of oligos that `synthesis_and_sampling` requests from `sample_by_count`:
`(int) n_seqs * mean_physical_coverage`, a `float` product converted to `int`. -/
def n_sampled_oligos (n_seqs : Int) (mean_physical_coverage : ℚ) : Int :=
  float_to_int ((n_seqs : ℚ) * mean_physical_coverage)

/-- The function `pipeline::synthesis_and_sampling`; returns the reader, the writer and the
generator. -/
def synthesis_and_sampling (reader : fileio.SequenceFileReader)
    (writer : fileio.SequenceFileWriter) (initial_coverage_bias mean_physical_coverage : ℚ)
    (mutators : List mutator.BaseMutator) (r : Rng) :
    Except Error (fileio.SequenceFileReader × fileio.SequenceFileWriter × Rng) :=
  match reader.count_sequences with
  | .error e => .error e
  | .ok (n_seqs, reader1) =>
    match coverage.get_initial_coverage n_seqs initial_coverage_bias 100 r with
    | .error e => .error e
    | .ok (initial_sequence_coverage, r1) =>
      match coverage.sample_by_count initial_sequence_coverage
          (n_sampled_oligos n_seqs mean_physical_coverage) r1 with
      | .error e => .error e
      | .ok (physical_coverage, r2) =>
        match process reader1 (oligocollector.OligoCollector.single writer) physical_coverage
            mutators r2 with
        | .error e => .error e
        | .ok (reader2, collector, r3) => .ok (reader2, collector.filewriter_fw, r3)

/-- The number of reads that `recovery_and_sequencing` requests from `sample_by_count`:
`(int) mean_sequencing_coverage * n_sequences`, where the cast applies to the coverage. -/
def n_reads (mean_sequencing_coverage : ℚ) (n_sequences : Int) : Int :=
  float_to_int mean_sequencing_coverage * n_sequences

/-- The function `pipeline::recovery_and_sequencing`; returns the reader, the two writers and
the generator. -/
def recovery_and_sequencing (reader : fileio.SequenceFileReader)
    (writer_fw writer_rv : fileio.SequenceFileWriter) (n_sequences : Int)
    (mean_sequencing_coverage : ℚ) (mutators sequencing_mutators : List mutator.BaseMutator)
    (r : Rng) :
    Except Error (fileio.SequenceFileReader × fileio.SequenceFileWriter
      × fileio.SequenceFileWriter × Rng) :=
  match reader.count_sequences with
  | .error e => .error e
  | .ok (n_seqs, reader1) =>
    if n_seqs < 0 then .error Error.vector_length_error
    else
      match coverage.sample_by_count (List.replicate n_seqs.toNat 1)
          (n_reads mean_sequencing_coverage n_sequences) r with
      | .error e => .error e
      | .ok (sequencing_coverage, r1) =>
        match process reader1
            ((oligocollector.OligoCollector.paired writer_fw writer_rv).set_mutators
              sequencing_mutators) sequencing_coverage mutators r1 with
        | .error e => .error e
        | .ok (reader2, collector, r2) =>
          match collector.filewriter_rv with
          | none => .error Error.undefined_behaviour
          | some rv => .ok (reader2, collector.filewriter_fw, rv, r2)

/-- What `run` leaves behind: its result and the file system. -/
structure Outcome where
  result : Except Error Unit
  fs : fileio.FileSystem

/-- The function `pipeline::run`.  A thrown exception ends the function with the file system
as it is at that point (the destructors only close the streams); the two `catch` blocks
remove the intermediate file first.  Closing a writer stores its content; what a failed
pass had written to the output files is not tracked, they are left as created.  An
undefined step inside a pass is propagated like an exception. -/
def run (fs : fileio.FileSystem)
    (input_filename intermediate_filename output_filename_fw output_filename_rv : List Char)
    (initial_coverage_bias mean_physical_coverage mean_sequencing_coverage : ℚ)
    (initial_mutators recovery_mutators sequencing_mutators : List mutator.BaseMutator)
    (write_file_type : fileio.WriteFileType) (r : Rng) : Outcome :=
  match fileio.SequenceFileReader.construct fs input_filename .ANY with
  | .error e => { result := .error e, fs := fs }
  | .ok input_reader =>
    match fileio.SequenceFileWriter.construct fs intermediate_filename .BINARY with
    | .error e => { result := .error e, fs := fs }
    | .ok (intermediate_writer, fs1) =>
      match input_reader.count_sequences with
      | .error e => { result := .error e, fs := fs1 }
      | .ok (n_sequences, input_reader1) =>
        match synthesis_and_sampling input_reader1 intermediate_writer initial_coverage_bias
            mean_physical_coverage initial_mutators r with
        | .error e => { result := .error e, fs := fs1.remove intermediate_filename }
        | .ok (_, intermediate_writer1, r1) =>
          let fs2 := fs1.write intermediate_filename intermediate_writer1._file
          match fileio.SequenceFileReader.construct fs2 intermediate_filename .BINARY with
          | .error e => { result := .error e, fs := fs2 }
          | .ok intermediate_reader =>
            match fileio.SequenceFileWriter.construct fs2 output_filename_fw write_file_type with
            | .error e => { result := .error e, fs := fs2 }
            | .ok (writer_fw, fs3) =>
              match fileio.SequenceFileWriter.construct fs3 output_filename_rv
                  write_file_type with
              | .error e => { result := .error e, fs := fs3 }
              | .ok (writer_rv, fs4) =>
                match recovery_and_sequencing intermediate_reader writer_fw writer_rv
                    n_sequences mean_sequencing_coverage recovery_mutators
                    sequencing_mutators r1 with
                | .error e => { result := .error e, fs := fs4.remove intermediate_filename }
                | .ok (_, writer_fw1, writer_rv1, _) =>
                  { result := .ok (),
                    fs := ((fs4.write output_filename_fw writer_fw1._file).write
                      output_filename_rv writer_rv1._file).remove intermediate_filename }

end pipeline

/-! ## scenarios.hpp -/

namespace scenarios

/-- The function `scenarios::sequencing`: returns the vector `mutators` with the sequencing
mutators pushed to its back. -/
def sequencing ( add_adapters pad_and_trim : Bool) (read_length : Int)
    (mutators : List mutator.BaseMutator) : Except Error (List mutator.BaseMutator) :=
  let with_adapter : Except Error (List mutator.BaseMutator) :=
    if add_adapters then
      match mutator.SequencingAddAdapter.construct "AGATCGGAAGAGC".toList with
      | .error e => .error e
      | .ok m => .ok (mutators ++ [.SequencingAddAdapter m])
    else .ok mutators
  match with_adapter with
  | .error e => .error e
  | .ok mutators =>
    let mutators :=
      if pad_and_trim then
        mutators ++ [.SequencingPadTrim (mutator.SequencingPadTrim.construct read_length)]
      else mutators
    match mutator.SubstitutionEvents.construct (18115 / 10000000)
        [29 / 10000, 2065 / 10000, 1684 / 10000, 246 / 10000, 139 / 10000, 1594 / 10000,
         1761 / 10000, 184 / 10000, 377 / 10000, 203 / 10000, 1060 / 10000, 657 / 10000] [] with
    | .error e => .error e
    | .ok m => .ok (mutators ++ [.SubstitutionEvents m])

end scenarios

/-! ## dt4dds-challenge.cpp -/

/-- The two values of the positional argument `challenge`. -/
inductive Challenge where
  | decay
  | photolithography
  deriving DecidableEq, Repr

/-- The parsed command line, as far as `main` reads the numeric options and flags. -/
structure Arguments where
  challenge : Challenge
  strict : Bool
  coverage_bias : Option ℚ
  physical_redundancy : Option ℚ
  sequencing_depth : Option ℚ
  read_length : Option Int
  seed : Option Int
  no_adapter : Bool
  no_padtrim : Bool

/-- The local parameters of `main` when it calls `scenarios::sequencing` and
`pipeline::run`, together with the argument of the last call of `rng::seed_rng`
(as the `unsigned int` the generator receives). -/
structure Parameters where
  initial_coverage_bias : ℚ
  mean_physical_coverage : ℚ
  mean_sequencing_coverage : ℚ
  read_length : Int
  add_adapters : Bool
  pad_and_trim : Bool
  seed : Nat
  deriving DecidableEq

/-- The `unsigned int` that `rng::seed_rng` receives for the argument `seed`. -/
def seed_value (seed : Int) : Nat := (seed % 2 ^ 32).toNat

/-- The bias, coverages and read length set by `scenarios::challenge_decay` and
`scenarios::challenge_photolithography`, after the first `rng::seed_rng(time(NULL))`. -/
def challenge_parameters (challenge : Challenge) (time : Int) : Parameters :=
  match challenge with
  | .decay =>
    { initial_coverage_bias := 30 / 100, mean_physical_coverage := 10,
      mean_sequencing_coverage := 30, read_length := 150,
      add_adapters := true, pad_and_trim := true, seed := seed_value time }
  | .photolithography =>
    { initial_coverage_bias := 44 / 100, mean_physical_coverage := 200,
      mean_sequencing_coverage := 50, read_length := 150,
      add_adapters := true, pad_and_trim := true, seed := seed_value time }

/-- The parameter part of `main`: the generator is seeded with the current time `time`, the
challenge sets its defaults, and the options are applied only when `--strict` is absent. -/
def main_parameters (args : Arguments) (time : Int) : Parameters :=
  let p := challenge_parameters args.challenge time
  if args.strict = false then
    let p := match args.coverage_bias with
      | some fn => { p with initial_coverage_bias := fn }
      | none => p
    let p := match args.physical_redundancy with
      | some fn => { p with mean_physical_coverage := fn }
      | none => p
    let p := match args.sequencing_depth with
      | some fn => { p with mean_sequencing_coverage := fn }
      | none => p
    let p := match args.read_length with
      | some fn => { p with read_length := fn }
      | none => p
    let p := match args.seed with
      | some fn => { p with seed := seed_value fn }
      | none => p
    let p := if args.no_adapter = true then { p with add_adapters := false } else p
    let p := if args.no_padtrim = true then { p with pad_and_trim := false } else p
    p
  else p

/-- The state of `rng::rng` when `main` calls `pipeline::run`. -/
def main_rng (mt19937 : Nat → Nat → Draw) (args : Arguments) (time : Int) : Rng :=
  { tape := mt19937 (main_parameters args time).seed, pos := 0 }

/-! ## Auxiliary definitions for the statements -/

namespace rng

/-- A generator state for concrete evaluations: the `k`-th draw delivers the real value `0`
if `k` is in `hits` and `3/4` otherwise, and the integer value `k`. -/
def hit_state (hits : List Nat) : Rng :=
  { tape := fun k => { real := if k ∈ hits then 0 else 3 / 4, index := k }, pos := 0 }

/-- A generator state for concrete evaluations: the `k`-th draw delivers the real value
`1/2` and the integer value `k`. -/
def sample_state : Rng := { tape := fun k => { real := 1 / 2, index := k }, pos := 0 }

end rng

namespace conversion

/-- The integer that `sequence_to_vector` pushes for a character of the alphabet. -/
def code (c : Char) : Int :=
  if c = 'A' then 1 else if c = 'C' then 2 else if c = 'G' then 3 else 4

/-- The entry that `reverse_complement` pushes for an entry in `1..4`. -/
def complement (b : Int) : Int := 5 - b

/-- The character that `vector_to_sequence` pushes for an entry in `1..4`. -/
def letter (b : Int) : Char :=
  if b = 1 then 'A' else if b = 2 then 'C' else if b = 3 then 'G' else 'T'

end conversion

namespace mutator

/-- The entries of `oligo` whose index, counted from `i`, is not in `positions`. -/
def remove_positions_from : Nat → List Int → List Nat → List Int
  | _, [], _ => []
  | i, b :: bs, positions =>
    if i ∈ positions then remove_positions_from (i + 1) bs positions
    else b :: remove_positions_from (i + 1) bs positions

/-- The oligo without the entries at the indices in `positions`, the others kept in order. -/
def remove_positions (oligo : List Int) (positions : List Nat) : List Int :=
  remove_positions_from 0 oligo positions

end mutator

/-- The command line `decay --strict --seed 42` (no other option). -/
def strict_seed_42 : Arguments :=
  { challenge := .decay, strict := true, coverage_bias := none, physical_redundancy := none,
    sequencing_depth := none, read_length := none, seed := some 42, no_adapter := false,
    no_padtrim := false }

/-- The command line `decay --seed 42` (no other option). -/
def seed_42 : Arguments :=
  { challenge := .decay, strict := false, coverage_bias := none, physical_redundancy := none,
    sequencing_depth := none, read_length := none, seed := some 42, no_adapter := false,
    no_padtrim := false }

namespace mutator

/-- The runs of an oligo between cuts: walking through the entries from index `i`, the bases
at consecutive indices outside `cuts` are gathered in `run`; an index in `cuts` closes the
run (which may be empty) and opens the next one, and the end of the oligo closes the last. -/
def runs_from : Nat → List Int → List Nat → List Int → List (List Int)
  | _, [], _, run => [run]
  | i, b :: bs, cuts, run =>
    if i ∈ cuts then run :: runs_from (i + 1) bs cuts []
    else runs_from (i + 1) bs cuts (run ++ [b])

/-- The non-empty maximal runs of consecutive positions of `oligo` outside `cuts`, in
order. -/
def maximal_runs (oligo : List Int) (cuts : List Nat) : List (List Int) :=
  (runs_from 0 oligo cuts []).filter (fun run => decide (run ≠ []))

end mutator

namespace mutator

/-- A pool in which every oligo is followed by the reversed list of its complements. -/
def with_reverse_complements : List (List Int) → List (List Int)
  | [] => []
  | oligo :: oligos =>
    oligo :: oligo.reverse.map conversion.complement :: with_reverse_complements oligos

end mutator

namespace fileio

/-- A disk without files on which every file can be created. -/
def empty_disk : FileSystem := { files := fun _ => none, writable := fun _ => true }

/-- The decimal digits of `n`, lowest `width` of them, highest first: the text of `n` padded
with zeros on the left to `width` characters when `n < 10 ^ width`. -/
def decimal : Nat → Nat → List Char
  | 0, _ => []
  | width + 1, n => decimal width (n / 10) ++ [Nat.digitChar (n % 10)]

/-- Successive calls of `write_sequence_vector`, one per oligo. -/
def SequenceFileWriter.write_all (w : SequenceFileWriter) :
    List (List Int) → Except Error SequenceFileWriter
  | [] => .ok w
  | oligo :: oligos =>
    match w.write_sequence_vector oligo with
    | .error e => .error e
    | .ok w1 => SequenceFileWriter.write_all w1 oligos

/-- The lines of a text: the pieces between newline characters; a newline at the very end
does not start another line. -/
def split_lines : List Char → List (List Char)
  | [] => []
  | c :: cs =>
    if c = '\n' then [] :: split_lines cs
    else
      match split_lines cs with
      | [] => [[c]]
      | line :: lines => (c :: line) :: lines

/-- A line that is non-empty and consists only of the characters A, C, G and T. -/
def valid_line (line : List Char) : Bool :=
  decide (line ≠ []) && line.all (fun c => decide (c = 'A' ∨ c = 'C' ∨ c = 'G' ∨ c = 'T'))

/-- Calls of `get_sequence` until it returns `false`, at most `bound` of them that return a
sequence; returns the sequences in the order they were read and the reader. -/
def SequenceFileReader.read_all :
    Nat → SequenceFileReader → Except Error (List (List Int) × SequenceFileReader)
  | 0, rd => .ok ([], rd)
  | bound + 1, rd =>
    match rd.get_sequence with
    | .error e => .error e
    | .ok (none, rd1) => .ok ([], rd1)
    | .ok (some sequence_vector, rd1) =>
      match SequenceFileReader.read_all bound rd1 with
      | .error e => .error e
      | .ok (sequences, rd2) => .ok (sequence_vector :: sequences, rd2)

/-- The reader after it has read on to the point where `rest` is left of the stream, having
skipped `skipped` lines and found `valid` sequences on the way. -/
def SequenceFileReader.after (rd : SequenceFileReader) (rest : List Char)
    (skipped valid : Nat) : SequenceFileReader :=
  { rd with _file := rest, skipped_lines := rd.skipped_lines + skipped,
            valid_sequences := rd.valid_sequences + valid }

/-- The bytes of a binary file holding the given oligos: each oligo followed by the
separator byte. -/
def binary_records (oligos : List (List Int)) : List Char :=
  (oligos.map (fun oligo => oligo.map to_char ++ [to_char constants.NUCLEOTIDE_NEXTOLIGO])).flatten

end fileio

namespace mutator

/-- The oligo, whose entries are indexed from `i`, with every run placed immediately after
the entry at the index it is paired with; the other entries keep their order. -/
def insert_runs_from : Nat → List Int → List (Nat × List Int) → List Int
  | _, [], _ => []
  | i, b :: bs, [] => b :: insert_runs_from (i + 1) bs []
  | i, b :: bs, (position, run) :: runs =>
    if position = i then b :: (run ++ insert_runs_from (i + 1) bs runs)
    else b :: insert_runs_from (i + 1) bs ((position, run) :: runs)

/-- The oligo with the runs placed after the given positions of the original. -/
def insert_runs (oligo : List Int) (runs : List (Nat × List Int)) : List Int :=
  insert_runs_from 0 oligo runs

/-- Removing runs again: walking through an oligo whose original entries are indexed from
`i`, the `skip` entries at the front are dropped, and after the original entry at an index
paired with a length that many entries are dropped. -/
def remove_runs_from : Nat → Nat → List Int → List (Nat × Nat) → List Int
  | _, _, [], _ => []
  | i, skip + 1, _ :: bs, lengths => remove_runs_from i skip bs lengths
  | i, 0, b :: bs, [] => b :: remove_runs_from (i + 1) 0 bs []
  | i, 0, b :: bs, (position, length) :: lengths =>
    if position = i then b :: remove_runs_from (i + 1) length bs lengths
    else b :: remove_runs_from (i + 1) 0 bs ((position, length) :: lengths)

/-- The oligo without the runs of the given lengths after the given original positions. -/
def remove_runs (oligo : List Int) (lengths : List (Nat × Nat)) : List Int :=
  remove_runs_from 0 0 oligo lengths

end mutator

namespace mutator

/-- The mutators that cannot turn a non-empty oligo into an empty one: all but
DeletionEvents, EndShreds and a SequencingPadTrim with a read length below 1. -/
def BaseMutator.keeps_nonempty : BaseMutator → Bool
  | .DeletionEvents _ => false
  | .EndShreds _ => false
  | .SequencingPadTrim m => decide (1 ≤ m.read_length)
  | _ => true

end mutator

namespace pipeline

/-- The collector after it has been handed, design by design and in this order, the oligos
that `generate_oligos` produces for each design with the count of the same index. -/
def feed (mutators : List mutator.BaseMutator) :
    List (List Int) → List Nat → oligocollector.OligoCollector → Rng →
      Except Error (oligocollector.OligoCollector × Rng)
  | [], _, collector, r => .ok (collector, r)
  | _ :: _, [], _, _ => .error Error.undefined_behaviour
  | design :: designs, count :: counts, collector, r =>
    match oligofactory.generate_oligos [] design count mutators r with
    | .error e => .error e
    | .ok (oligos, r1) =>
      match collect_all collector oligos r1 with
      | .error e => .error e
      | .ok (collector1, r2) => feed mutators designs counts collector1 r2

/-- A disk that holds the file `designs.txt` with the single design A and on which every file
but `R1.fq` can be created. -/
def locked_output_disk : fileio.FileSystem :=
  { files := fun name => if name = "designs.txt".toList then some "A\n".toList else none,
    writable := fun name => decide (name ≠ "R1.fq".toList) }

/-- A disk that holds the file `designs.txt` with the single design A and on which every file
can be created. -/
def one_design_disk : fileio.FileSystem :=
  { files := fun name => if name = "designs.txt".toList then some "A\n".toList else none,
    writable := fun _ => true }

end pipeline

namespace mutator

/-- The base that the target index `t` stands for when the source base is `source`: the
`t`-th base in the order A, C, G, T after the source base has been skipped. -/
def target_base (source : Int) (t : Nat) : Int :=
  if (t : Int) + 1 ≥ source then (t : Int) + 2 else (t : Int) + 1

/-- The mutators that one of the ten constructors has built. -/
def BaseMutator.constructed : BaseMutator → Prop
  | .InsertionEvents m => ∃ rate P L, InsertionEvents.construct rate P L = .ok m
  | .DeletionEvents m => ∃ rate P L, DeletionEvents.construct rate P L = .ok m
  | .SubstitutionEvents m => ∃ rate P L, SubstitutionEvents.construct rate P L = .ok m
  | .BreakageEvents m => ∃ rate P, BreakageEvents.construct rate P = .ok m
  | .SizeSelection m => ∃ lower_cutoff upper_threshold,
      SizeSelection.construct lower_cutoff upper_threshold = m
  | .AddReverseComplement => True
  | .Tailing m => ∃ tail_bases n_min n_max, Tailing.construct tail_bases n_min n_max = .ok m
  | .EndShreds m => ∃ p_removal_lengths, EndShreds.construct p_removal_lengths = m
  | .SequencingAddAdapter m => ∃ adapter_sequence,
      SequencingAddAdapter.construct adapter_sequence = .ok m
  | .SequencingPadTrim m => ∃ read_length, SequencingPadTrim.construct read_length = m

/-- What `new_bases_loop` leaves in `new_bases[i]`: as many bases as were counted for the base
type `i`, each the target base of an index below 3. -/
def new_bases_good (total_substitutions_by_base : List Nat) (i : Nat) (bases : List Int) :
    Prop :=
  bases.length = total_substitutions_by_base.getD i 0 ∧
    ∀ x ∈ bases, ∃ t, t < 3 ∧ x = target_base ((i : Int) + 1) t

end mutator

namespace rng

/-- A generator state for concrete evaluations: the first two uniform draws are `0` and the
later ones `3/4`, and every integer draw is `0`. -/
def overlap_state : Rng :=
  { tape := fun k => { real := if k < 2 then 0 else 3 / 4, index := 0 }, pos := 0 }

end rng

/-! ## Codec laws -/

namespace conversion

theorem sequence_to_vector_loop_ok (s : List Char) :
    ∀ acc v, sequence_to_vector_loop s acc = .ok v → v = acc ++ s.map code := by
  induction s with
  | nil => intro acc v h; simp [sequence_to_vector_loop] at h; simp [h]
  | cons c cs ih =>
    intro acc v h
    unfold sequence_to_vector_loop at h
    split_ifs at h with hA hC hG hT
    · have := ih _ _ h; simp [this, code, hA]
    · have := ih _ _ h; simp [this, code, hA, hC]
    · have := ih _ _ h; simp [this, code, hA, hC, hG]
    · have := ih _ _ h; simp [this, code, hA, hC, hG]

theorem sequence_to_vector_loop_error (s : List Char) :
    ∀ acc, (∃ e, sequence_to_vector_loop s acc = .error e) ↔
      ∃ c ∈ s, c ≠ 'A' ∧ c ≠ 'C' ∧ c ≠ 'G' ∧ c ≠ 'T' := by
  induction s with
  | nil => intro acc; simp [sequence_to_vector_loop]
  | cons c cs ih =>
    intro acc
    unfold sequence_to_vector_loop
    split_ifs with hA hC hG hT
    · rw [ih]; simp [hA]
    · rw [ih]; simp [hC]
    · rw [ih]; simp [hG]
    · rw [ih]; simp [hT]
    · simp [hA, hC, hG, hT]

theorem sequence_to_vector_loop_valid (s : List Char)
    (hs : ∀ c ∈ s, c = 'A' ∨ c = 'C' ∨ c = 'G' ∨ c = 'T') (acc : List Int) :
    sequence_to_vector_loop s acc = .ok (acc ++ s.map code) := by
  cases h : sequence_to_vector_loop s acc with
  | ok v => rw [sequence_to_vector_loop_ok s acc v h]
  | error e =>
    obtain ⟨c, hc, h1, h2, h3, h4⟩ := (sequence_to_vector_loop_error s acc).1 ⟨e, h⟩
    rcases hs c hc with h | h | h | h <;> contradiction

theorem vector_to_sequence_loop_code (s : List Char)
    (hs : ∀ c ∈ s, c = 'A' ∨ c = 'C' ∨ c = 'G' ∨ c = 'T') :
    ∀ acc, vector_to_sequence_loop (s.map code) acc = .ok (acc ++ s) := by
  induction s with
  | nil => intro acc; simp [vector_to_sequence_loop]
  | cons c cs ih =>
    intro acc
    have hc := hs c (List.mem_cons_self _ _)
    have ih := ih (fun d hd => hs d (List.mem_cons_of_mem _ hd))
    rcases hc with h | h | h | h <;> subst h <;>
      simp [vector_to_sequence_loop, code, ih]

theorem vector_to_sequence_loop_error (o : List Int) :
    ∀ acc, (∃ e, vector_to_sequence_loop o acc = .error e) ↔
      ∃ b ∈ o, b ≠ 1 ∧ b ≠ 2 ∧ b ≠ 3 ∧ b ≠ 4 := by
  induction o with
  | nil => intro acc; simp [vector_to_sequence_loop]
  | cons b bs ih =>
    intro acc
    unfold vector_to_sequence_loop
    split_ifs with hA hC hG hT
    · rw [ih]; simp [hA]
    · rw [ih]; simp [hC]
    · rw [ih]; simp [hG]
    · rw [ih]; simp [hT]
    · simp [hA, hC, hG, hT]

theorem reverse_complement_loop_valid (o : List Int)
    (ho : ∀ b ∈ o, b = 1 ∨ b = 2 ∨ b = 3 ∨ b = 4) :
    ∀ acc, reverse_complement_loop o acc = .ok (acc ++ o.map complement) := by
  induction o with
  | nil => intro acc; simp [reverse_complement_loop]
  | cons b bs ih =>
    intro acc
    have hb := ho b (List.mem_cons_self _ _)
    have ih := ih (fun d hd => ho d (List.mem_cons_of_mem _ hd))
    rcases hb with h | h | h | h <;> subst h <;>
      simp [reverse_complement_loop, complement, ih]

theorem reverse_complement_valid (o : List Int)
    (ho : ∀ b ∈ o, b = 1 ∨ b = 2 ∨ b = 3 ∨ b = 4) :
    reverse_complement o = .ok (o.reverse.map complement) := by
  unfold reverse_complement
  rw [reverse_complement_loop_valid o.reverse (fun b hb => ho b (List.mem_reverse.1 hb))]
  simp

end conversion

/-- Claim C1: for every string `s` over the characters A, C, G, T (the empty string
included), `sequence_to_vector s` succeeds and `vector_to_sequence` of its result succeeds
and returns exactly `s`. -/
theorem C1_vector_to_sequence_sequence_to_vector (s : List Char)
    (hs : ∀ c ∈ s, c = 'A' ∨ c = 'C' ∨ c = 'G' ∨ c = 'T') :
    ∃ v, conversion.sequence_to_vector s = .ok v ∧ conversion.vector_to_sequence v = .ok s := by
  refine ⟨s.map conversion.code, ?_, ?_⟩
  · simpa [conversion.sequence_to_vector] using conversion.sequence_to_vector_loop_valid s hs []
  · simpa [conversion.vector_to_sequence] using conversion.vector_to_sequence_loop_code s hs []

/-- Witness of C1 at the string `GATTACA`. -/
theorem C1_vector_to_sequence_sequence_to_vector_witness :
    (∀ c ∈ ['G', 'A', 'T', 'T', 'A', 'C', 'A'], c = 'A' ∨ c = 'C' ∨ c = 'G' ∨ c = 'T') ∧
    ∃ v, conversion.sequence_to_vector ['G', 'A', 'T', 'T', 'A', 'C', 'A'] = .ok v ∧
      conversion.vector_to_sequence v = .ok ['G', 'A', 'T', 'T', 'A', 'C', 'A'] :=
  ⟨by decide, C1_vector_to_sequence_sequence_to_vector _ (by decide)⟩

/-- Claim C2: `sequence_to_vector` fails exactly on the texts that contain a character other
than upper-case A, C, G, T (so a lower-case letter is rejected); on success the result has
the length of the text and holds 1, 2, 3, 4 where the text holds A, C, G, T;
`vector_to_sequence` fails exactly on the vectors that contain an entry outside 1..4. -/
theorem C2_codec_rejects_exactly_foreign_symbols :
    (∀ text : List Char, (∃ e, conversion.sequence_to_vector text = .error e) ↔
      ∃ c ∈ text, c ≠ 'A' ∧ c ≠ 'C' ∧ c ≠ 'G' ∧ c ≠ 'T') ∧
    (∀ (c : Char) (pre post : List Char), c.isLower = true →
      ∃ e, conversion.sequence_to_vector (pre ++ c :: post) = .error e) ∧
    (∀ (text : List Char) (v : List Int), conversion.sequence_to_vector text = .ok v →
      v.length = text.length ∧
      ∀ (i : Nat) (c : Char), text[i]? = some c →
        (c = 'A' → v[i]? = some 1) ∧ (c = 'C' → v[i]? = some 2) ∧
        (c = 'G' → v[i]? = some 3) ∧ (c = 'T' → v[i]? = some 4)) ∧
    (∀ oligo : List Int, (∃ e, conversion.vector_to_sequence oligo = .error e) ↔
      ∃ b ∈ oligo, b ≠ 1 ∧ b ≠ 2 ∧ b ≠ 3 ∧ b ≠ 4) := by
  refine ⟨fun text => conversion.sequence_to_vector_loop_error text [], ?_, ?_,
    fun oligo => conversion.vector_to_sequence_loop_error oligo []⟩
  · intro c pre post hc
    refine (conversion.sequence_to_vector_loop_error _ []).2 ⟨c, by simp, ?_, ?_, ?_, ?_⟩ <;>
      · rintro rfl
        exact absurd hc (by decide)
  · intro text v h
    have hv := conversion.sequence_to_vector_loop_ok text [] v h
    simp only [List.nil_append] at hv
    subst hv
    refine ⟨by simp, ?_⟩
    intro i c hi
    simp only [List.getElem?_map, hi, Option.map_some']
    refine ⟨?_, ?_, ?_, ?_⟩ <;> rintro rfl <;> simp [conversion.code]

/-- Claim C3: for every oligo whose entries are all in 1..4, the reverse complement of its
reverse complement is the oligo itself (both calls succeed). -/
theorem C3_reverse_complement_involution (o : List Int)
    (ho : ∀ b ∈ o, b = 1 ∨ b = 2 ∨ b = 3 ∨ b = 4) :
    ∃ rc, conversion.reverse_complement o = .ok rc ∧ conversion.reverse_complement rc = .ok o := by
  refine ⟨_, conversion.reverse_complement_valid o ho, ?_⟩
  rw [conversion.reverse_complement_valid]
  · simp [List.map_reverse, conversion.complement, Function.comp_def]
  · intro b hb
    simp only [List.mem_map, List.mem_reverse] at hb
    obtain ⟨a, ha, rfl⟩ := hb
    rcases ho a ha with h | h | h | h <;> subst h <;> simp [conversion.complement]

/-- Witness of C3 at the oligo `[1, 1, 2, 4, 3]`. -/
theorem C3_reverse_complement_involution_witness :
    ∃ rc, conversion.reverse_complement [1, 1, 2, 4, 3] = .ok rc ∧
      conversion.reverse_complement rc = .ok [1, 1, 2, 4, 3] :=
  C3_reverse_complement_involution [1, 1, 2, 4, 3] (by decide)

/-- Claim C4: for every oligo `o` over 1..4, `reverse_complement o` has the length of `o` and
its entry at index `i` is the complement (1 for 4, 4 for 1, 2 for 3, 3 for 2) of the entry of
`o` at index `len(o) - 1 - i`. -/
theorem C4_reverse_complement_entries (o : List Int)
    (ho : ∀ b ∈ o, b = 1 ∨ b = 2 ∨ b = 3 ∨ b = 4) :
    ∃ rc, conversion.reverse_complement o = .ok rc ∧ rc.length = o.length ∧
      ∀ i, i < o.length → ∀ x, o[o.length - 1 - i]? = some x →
        (x = 1 → rc[i]? = some 4) ∧ (x = 2 → rc[i]? = some 3) ∧
        (x = 3 → rc[i]? = some 2) ∧ (x = 4 → rc[i]? = some 1) := by
  refine ⟨_, conversion.reverse_complement_valid o ho, by simp, ?_⟩
  intro i hi x hx
  have : (o.reverse.map conversion.complement)[i]? = some (conversion.complement x) := by
    rw [List.getElem?_map, List.getElem?_reverse hi, hx]; rfl
  rw [this]
  refine ⟨?_, ?_, ?_, ?_⟩ <;> rintro rfl <;> simp [conversion.complement]

/-- Witness of C4 at the oligo `[1, 1, 2, 4, 3]`. -/
theorem C4_reverse_complement_entries_witness :
    ∃ rc, conversion.reverse_complement [1, 1, 2, 4, 3] = .ok rc ∧ rc.length = 5 ∧
      ∀ i, i < 5 → ∀ x, ([1, 1, 2, 4, 3] : List Int)[5 - 1 - i]? = some x →
        (x = 1 → rc[i]? = some 4) ∧ (x = 2 → rc[i]? = some 3) ∧
        (x = 3 → rc[i]? = some 2) ∧ (x = 4 → rc[i]? = some 1) :=
  C4_reverse_complement_entries [1, 1, 2, 4, 3] (by decide)

/-! ## Coverage model -/

namespace rng

theorem discrete_distribution_lt (weights : List ℚ) (r : Rng) (h : weights ≠ []) :
    (discrete_distribution weights r).1 < weights.length := by
  have hlen : 0 < weights.length := List.length_pos.2 h
  simp only [discrete_distribution]
  split_ifs with hs h0
  · omega
  · exact Nat.mod_lt _ hlen
  · have hpos : 0 < (support weights).length := List.length_pos.2 hs
    have hk : (current r).index % (support weights).length < (support weights).length :=
      Nat.mod_lt _ hpos
    have hmem : (support weights).getD ((current r).index % (support weights).length) 0
        ∈ support weights := by
      rw [List.getD_eq_getElem _ _ hk]
      exact List.getElem_mem _
    have := (List.mem_filter.1 hmem).1
    exact List.mem_range.1 this

theorem discrete_distribution_pos (weights : List ℚ) (r : Rng) :
    (discrete_distribution weights r).2 = advance r := rfl

end rng

namespace coverage

theorem length_increment (v : List Nat) : ∀ i, (increment v i).length = v.length := by
  induction v with
  | nil => intro i; rfl
  | cons c cs ih =>
    intro i
    cases i with
    | zero => rfl
    | succ i => simp [increment, ih]

end coverage

/-- Claim C6, as the code has it: `sample_by_count` on an empty vector with a target of at
least 1 fails with the error "no sequences to sample from"; both functions fail with the
error "number of sampled oligos is less than 1" whenever the requested number of oligos
(`total`, or `N * t`) is below 1, and this is the error of `get_initial_coverage` with
`N = 0` too, because the target is checked first.  No vector is returned in these cases. -/
theorem C6_coverage_errors :
    (∀ (total : Int) (r : Rng), 1 ≤ total →
      coverage.sample_by_count [] total r = .error Error.no_sequences_to_sample_from) ∧
    (∀ (counts : List Nat) (total : Int) (r : Rng), total < 1 →
      coverage.sample_by_count counts total r
        = .error Error.number_of_sampled_oligos_less_than_one) ∧
    (∀ (N : Int) (sigma : ℚ) (t : Int) (r : Rng), 1 ≤ N → t < 1 →
      coverage.get_initial_coverage N sigma t r
        = .error Error.number_of_sampled_oligos_less_than_one) ∧
    (∀ (sigma : ℚ) (t : Int) (r : Rng),
      coverage.get_initial_coverage 0 sigma t r
        = .error Error.number_of_sampled_oligos_less_than_one) := by
  refine ⟨?_, ?_, ?_, ?_⟩
  · intro total r ht
    simp [coverage.sample_by_count, coverage._sample_from_relative_coverage, not_lt.2 ht]
  · intro counts total r ht
    simp [coverage.sample_by_count, coverage._sample_from_relative_coverage, ht]
  · intro N sigma t r hN ht
    have h : N * t < 1 := by nlinarith
    simp [coverage.get_initial_coverage, coverage._sample_from_relative_coverage, h,
      not_lt.2 (by omega : (0 : Int) ≤ N)]
  · intro sigma t r
    simp [coverage.get_initial_coverage, coverage._sample_from_relative_coverage]

/-- Witness of C6 at concrete arguments of each of the four cases. -/
theorem C6_coverage_errors_witness :
    coverage.sample_by_count [] 5 rng.sample_state = .error Error.no_sequences_to_sample_from ∧
    coverage.sample_by_count [1, 2] 0 rng.sample_state
      = .error Error.number_of_sampled_oligos_less_than_one ∧
    coverage.get_initial_coverage 10 (3 / 10) 0 rng.sample_state
      = .error Error.number_of_sampled_oligos_less_than_one ∧
    coverage.get_initial_coverage 0 (3 / 10) 100 rng.sample_state
      = .error Error.number_of_sampled_oligos_less_than_one :=
  ⟨C6_coverage_errors.1 5 rng.sample_state (by decide),
   C6_coverage_errors.2.1 [1, 2] 0 rng.sample_state (by decide),
   C6_coverage_errors.2.2.1 10 (3 / 10) 0 rng.sample_state (by decide) (by decide),
   C6_coverage_errors.2.2.2 (3 / 10) 100 rng.sample_state⟩

/-- Claim C6 as stated fails: with `N = 0` sequences (and the default target 100)
`get_initial_coverage` does not fail with the error "no sequences to sample from" but with
"number of sampled oligos is less than 1". -/
theorem C6_get_initial_coverage_zero_sequences :
    coverage.get_initial_coverage 0 (3 / 10) 100 rng.sample_state
      = .error Error.number_of_sampled_oligos_less_than_one ∧
    coverage.get_initial_coverage 0 (3 / 10) 100 rng.sample_state
      ≠ .error Error.no_sequences_to_sample_from := by
  have h : coverage.get_initial_coverage 0 (3 / 10) 100 rng.sample_state
      = .error Error.number_of_sampled_oligos_less_than_one := by
    simp [coverage.get_initial_coverage, coverage._sample_from_relative_coverage]
  exact ⟨h, by rw [h]; simp⟩

/-! ## Seeding in `main` -/

theorem seed_of_main_parameters_strict (args : Arguments) (time : Int)
    (h : args.strict = true) : (main_parameters args time).seed = seed_value time := by
  simp only [main_parameters, h]
  cases args.challenge <;> rfl

theorem seed_of_main_parameters (args : Arguments) (time S : Int)
    (h : args.strict = false) (hS : args.seed = some S) :
    (main_parameters args time).seed = seed_value S := by
  simp only [main_parameters, h, hS]
  split_ifs <;> rfl

theorem main_parameters_time_independent (args : Arguments) (t1 t2 S : Int)
    (h : args.strict = false) (hS : args.seed = some S) :
    main_parameters args t1 = main_parameters args t2 := by
  obtain ⟨challenge, strict, bias, redundancy, depth, length, seed, no_adapter, no_padtrim⟩ := args
  simp only at h hS
  subst h hS
  cases challenge <;> cases bias <;> cases redundancy <;> cases depth <;> cases length <;>
    cases no_adapter <;> cases no_padtrim <;>
    simp [main_parameters, challenge_parameters]

/-- Claim C7, as the code has it: when `--seed S` is given and `--strict` is not set, the
generator that drives the run is seeded with `S` (as an `unsigned int`), so two such runs with
the same arguments started at different times enter the pipeline with the same parameters and
the same generator state; when `--strict` is set the option `--seed` is not read and the
generator is seeded with the wall-clock time. -/
theorem C7_seed_is_read_only_without_strict :
    (∀ (args : Arguments) (S time : Int), args.strict = false → args.seed = some S →
      (main_parameters args time).seed = seed_value S) ∧
    (∀ (mt19937 : Nat → Nat → Draw) (args : Arguments) (S t1 t2 : Int),
      args.strict = false → args.seed = some S →
      main_parameters args t1 = main_parameters args t2 ∧
      main_rng mt19937 args t1 = main_rng mt19937 args t2) ∧
    (∀ (args : Arguments) (time : Int), args.strict = true →
      (main_parameters args time).seed = seed_value time) := by
  refine ⟨fun args S time h hS => seed_of_main_parameters args time S h hS, ?_,
    fun args time h => seed_of_main_parameters_strict args time h⟩
  intro mt args S t1 t2 h hS
  have := main_parameters_time_independent args t1 t2 S h hS
  exact ⟨this, by simp only [main_rng, this]⟩

/-- Witness of C7 on the command lines `decay --seed 42` and `decay --strict --seed 42`, for
runs started at the times 1700000000 and 1700000001. -/
theorem C7_seed_is_read_only_without_strict_witness :
    (main_parameters seed_42 1700000000).seed = seed_value 42 ∧
    (main_parameters seed_42 1700000000 = main_parameters seed_42 1700000001 ∧
      main_rng (fun s k => { real := 0, index := s + k }) seed_42 1700000000
        = main_rng (fun s k => { real := 0, index := s + k }) seed_42 1700000001) ∧
    (main_parameters strict_seed_42 1700000000).seed = seed_value 1700000000 :=
  ⟨C7_seed_is_read_only_without_strict.1 seed_42 42 1700000000 rfl rfl,
   C7_seed_is_read_only_without_strict.2.1 _ seed_42 42 1700000000 1700000001 rfl rfl,
   C7_seed_is_read_only_without_strict.2.2 strict_seed_42 1700000000 rfl⟩

/-- Claim C7 as stated fails: on the command line `decay --strict --seed 42` the generator is
not seeded with 42 but with the time of the start, and two runs started one second apart are
seeded differently. -/
theorem C7_strict_ignores_seed :
    (main_parameters strict_seed_42 1700000000).seed = 1700000000 ∧
    (main_parameters strict_seed_42 1700000000).seed ≠ seed_value 42 ∧
    (main_parameters strict_seed_42 1700000000).seed
      ≠ (main_parameters strict_seed_42 1700000001).seed := by
  have h0 := seed_of_main_parameters_strict strict_seed_42 1700000000 rfl
  have h1 := seed_of_main_parameters_strict strict_seed_42 1700000001 rfl
  rw [h0, h1]
  simp only [seed_value]
  decide

/-! ## Event positions -/

namespace rng

theorem random_float_nonneg (r : Rng) : 0 ≤ (random_float r).1 := by
  simp only [random_float]
  split_ifs with h
  · exact h.1
  · exact le_refl _

theorem random_float_lt_one (r : Rng) : (random_float r).1 < 1 := by
  simp only [random_float]
  split_ifs with h
  · exact h.2
  · exact zero_lt_one

end rng

namespace mutator

theorem is_mutation_of_nonpos (p : ℚ) (r : Rng) (hp : p ≤ 0) : (is_mutation p r).1 = false := by
  have := rng.random_float_nonneg r
  simp only [is_mutation, decide_eq_false_iff_not, not_lt]
  exact le_trans hp this

theorem is_mutation_of_one_le (p : ℚ) (r : Rng) (hp : 1 ≤ p) : (is_mutation p r).1 = true := by
  have := rng.random_float_lt_one r
  simp only [is_mutation, decide_eq_true_eq]
  exact lt_of_lt_of_le this hp

theorem get_event_positions_loop_nonpos (ps : List ℚ) :
    ∀ i acc r, (∀ p ∈ ps, p ≤ 0) → (get_event_positions_loop ps i acc r).1 = acc := by
  induction ps with
  | nil => intro i acc r _; rfl
  | cons p ps ih =>
    intro i acc r h
    simp only [get_event_positions_loop]
    rw [ih _ _ _ (fun q hq => h q (List.mem_cons_of_mem _ hq)),
      is_mutation_of_nonpos p r (h p (List.mem_cons_self _ _))]
    simp

theorem get_event_positions_loop_one_le (ps : List ℚ) :
    ∀ i acc r, (∀ p ∈ ps, 1 ≤ p) →
      (get_event_positions_loop ps i acc r).1 = acc ++ List.range' i ps.length := by
  induction ps with
  | nil => intro i acc r _; simp [get_event_positions_loop]
  | cons p ps ih =>
    intro i acc r h
    simp only [get_event_positions_loop]
    rw [ih _ _ _ (fun q hq => h q (List.mem_cons_of_mem _ hq)),
      is_mutation_of_one_le p r (h p (List.mem_cons_self _ _))]
    simp [List.range'_succ]

theorem get_event_positions_loop_sublist (ps : List ℚ) :
    ∀ i acc r, ∃ t, (get_event_positions_loop ps i acc r).1 = acc ++ t ∧
      t.Sublist (List.range' i ps.length) := by
  induction ps with
  | nil => intro i acc r; exact ⟨[], by simp [get_event_positions_loop]⟩
  | cons p ps ih =>
    intro i acc r
    simp only [get_event_positions_loop]
    obtain ⟨t, ht, hsub⟩ := ih (i + 1)
      (if (is_mutation p r).1 = true then acc ++ [i] else acc) (is_mutation p r).2
    rw [ht]
    by_cases hm : (is_mutation p r).1 = true
    · refine ⟨i :: t, by simp [hm], ?_⟩
      simpa [List.range'_succ] using hsub
    · refine ⟨t, by simp [hm], ?_⟩
      rw [List.length_cons, List.range'_succ]
      exact hsub.cons i

theorem get_event_positions_sublist (ps : List ℚ) (r : Rng) :
    (get_event_positions ps r).1.Sublist (List.range ps.length) := by
  obtain ⟨t, ht, hsub⟩ := get_event_positions_loop_sublist ps 0 [] r
  rw [get_event_positions, ht, List.range_eq_range']
  simpa using hsub

theorem length_draw_from_distribution (sampler : List ℚ) :
    ∀ n r, (draw_from_distribution sampler n r).1.length = n := by
  intro n
  induction n with
  | zero => intro r; rfl
  | succ n ih => intro r; simp [draw_from_distribution, ih]

theorem discrete_distribution_singleton (r : Rng) :
    (rng.discrete_distribution [1] r).1 = 0 := by
  have h := rng.discrete_distribution_lt [1] r (by simp)
  simpa using h

theorem draw_from_distribution_singleton :
    ∀ n r, (draw_from_distribution [1] n r).1 = List.replicate n 0 := by
  intro n
  induction n with
  | zero => intro r; rfl
  | succ n ih =>
    intro r
    simp [draw_from_distribution, ih, discrete_distribution_singleton, List.replicate_succ]

theorem draw_event_lengths_ones (custom : Bool) (sampler : List ℚ) (n : Nat) (r : Rng)
    (h : custom = false ∨ sampler = [1]) :
    (draw_event_lengths custom sampler n r).1 = List.replicate n 1 := by
  cases custom with
  | false => simp [draw_event_lengths]
  | true =>
    rcases h with h | h
    · cases h
    · subst h
      simp [draw_event_lengths, draw_from_distribution_singleton]

end mutator

/-! ## Mutators with rate 0 -/

namespace mutator

theorem insertion_construct_rate {rate : ℚ} {P L : List ℚ} {m : InsertionEvents}
    (h : InsertionEvents.construct rate P L = .ok m) : m.rate = rate := by
  unfold InsertionEvents.construct at h
  split_ifs at h <;> cases h <;> rfl

theorem deletion_construct_rate {rate : ℚ} {P L : List ℚ} {m : DeletionEvents}
    (h : DeletionEvents.construct rate P L = .ok m) : m.rate = rate := by
  unfold DeletionEvents.construct at h
  split_ifs at h <;> cases h <;> rfl

theorem substitution_construct_rate {rate : ℚ} {P L : List ℚ} {m : SubstitutionEvents}
    (h : SubstitutionEvents.construct rate P L = .ok m) : m.rate = rate := by
  unfold SubstitutionEvents.construct at h
  split_ifs at h <;> cases h <;> rfl

theorem get_event_positions_nonpos (ps : List ℚ) (r : Rng) (h : ∀ p ∈ ps, p ≤ 0) :
    (get_event_positions ps r).1 = [] :=
  get_event_positions_loop_nonpos ps 0 [] r h

theorem p_event_by_position_rate_zero (P : List ℚ) (oligo : List Int) :
    ∀ p ∈ p_event_by_position 0 P oligo, p ≤ 0 := by
  intro p hp
  simp only [p_event_by_position, List.mem_map] at hp
  obtain ⟨b, _, rfl⟩ := hp
  simp

theorem insertion_process_single_rate_zero (m : InsertionEvents) (h : m.rate = 0)
    (oligo : List Int) (r : Rng) : (m.process_single oligo r).1 = oligo := by
  have hp := get_event_positions_nonpos (List.replicate oligo.length m.rate) r
    (fun p hp => by rw [List.eq_of_mem_replicate hp, h])
  simp only [InsertionEvents.process_single, hp, List.length_nil, if_true]

theorem deletion_process_single_rate_zero (m : DeletionEvents) (h : m.rate = 0)
    (oligo : List Int) (r : Rng) : (m.process_single oligo r).1 = oligo := by
  have hp := get_event_positions_nonpos (p_event_by_position m.rate m.p_base_preference oligo) r
    (by rw [h]; exact p_event_by_position_rate_zero _ _)
  simp only [DeletionEvents.process_single, hp, List.length_nil, if_true]

theorem substitution_process_single_rate_zero (m : SubstitutionEvents) (h : m.rate = 0)
    (oligo : List Int) (r : Rng) : (m.process_single oligo r).1 = oligo := by
  have hp := get_event_positions_nonpos (p_event_by_position m.rate m.p_base_preference oligo) r
    (by rw [h]; exact p_event_by_position_rate_zero _ _)
  simp only [SubstitutionEvents.process_single, hp, List.length_nil, if_true]

end mutator

/-- Claim C8: for every oligo over 1..4, all preference vectors the constructors accept and
every generator state, `InsertionEvents`, `DeletionEvents` and `SubstitutionEvents` constructed
with rate 0 return the oligo unchanged. -/
theorem C8_rate_zero_leaves_oligo_unchanged :
    (∀ (P L : List ℚ) (m : mutator.InsertionEvents) (oligo : List Int) (r : Rng),
      mutator.InsertionEvents.construct 0 P L = .ok m →
      (∀ b ∈ oligo, b = 1 ∨ b = 2 ∨ b = 3 ∨ b = 4) → (m.process_single oligo r).1 = oligo) ∧
    (∀ (P L : List ℚ) (m : mutator.DeletionEvents) (oligo : List Int) (r : Rng),
      mutator.DeletionEvents.construct 0 P L = .ok m →
      (∀ b ∈ oligo, b = 1 ∨ b = 2 ∨ b = 3 ∨ b = 4) → (m.process_single oligo r).1 = oligo) ∧
    (∀ (P L : List ℚ) (m : mutator.SubstitutionEvents) (oligo : List Int) (r : Rng),
      mutator.SubstitutionEvents.construct 0 P L = .ok m →
      (∀ b ∈ oligo, b = 1 ∨ b = 2 ∨ b = 3 ∨ b = 4) → (m.process_single oligo r).1 = oligo) :=
  ⟨fun _ _ m oligo r hm _ =>
      mutator.insertion_process_single_rate_zero m
        (mutator.insertion_construct_rate hm) oligo r,
   fun _ _ m oligo r hm _ =>
      mutator.deletion_process_single_rate_zero m
        (mutator.deletion_construct_rate hm) oligo r,
   fun _ _ m oligo r hm _ =>
      mutator.substitution_process_single_rate_zero m
        (mutator.substitution_construct_rate hm) oligo r⟩

/-- Witness of C8: the three mutators built with rate 0 from uniform preferences, applied to
the oligo `[1, 2, 3, 4]`. -/
theorem C8_rate_zero_leaves_oligo_unchanged_witness :
    (∃ m, mutator.InsertionEvents.construct 0 [1, 1, 1, 1] [] = .ok m ∧
      (m.process_single [1, 2, 3, 4] rng.sample_state).1 = [1, 2, 3, 4]) ∧
    (∃ m, mutator.DeletionEvents.construct 0 [1, 1, 1, 1] [3, 1] = .ok m ∧
      (m.process_single [1, 2, 3, 4] rng.sample_state).1 = [1, 2, 3, 4]) ∧
    (∃ m, mutator.SubstitutionEvents.construct 0 [1, 1, 1, 1, 1, 1, 1, 1, 1, 1, 1, 1] [] = .ok m ∧
      (m.process_single [1, 2, 3, 4] rng.sample_state).1 = [1, 2, 3, 4]) :=
  ⟨⟨_, rfl, C8_rate_zero_leaves_oligo_unchanged.1 [1, 1, 1, 1] [] _ [1, 2, 3, 4]
      rng.sample_state rfl (by decide)⟩,
   ⟨_, rfl, C8_rate_zero_leaves_oligo_unchanged.2.1 [1, 1, 1, 1] [3, 1] _ [1, 2, 3, 4]
      rng.sample_state rfl (by decide)⟩,
   ⟨_, rfl, C8_rate_zero_leaves_oligo_unchanged.2.2 [1, 1, 1, 1, 1, 1, 1, 1, 1, 1, 1, 1] [] _
      [1, 2, 3, 4] rng.sample_state rfl (by decide)⟩⟩

/-! ## Insertions -/

namespace mutator

theorem length_insert_range (v : List Int) (k : Nat) (seg : List Int) :
    (insert_range v k seg).length = v.length + seg.length := by
  have h := congrArg List.length (List.take_append_drop k v)
  simp only [List.length_append] at h
  simp only [insert_range, List.length_append]
  omega

theorem InsertionEvents.length_insert_loop (new_bases : List Int) (events : List (Nat × Nat)) :
    ∀ offset oligo, offset + (events.map Prod.snd).sum ≤ new_bases.length →
      (InsertionEvents.insert_loop new_bases events offset oligo).length
        = oligo.length + (events.map Prod.snd).sum := by
  induction events with
  | nil => intro offset oligo _; simp [InsertionEvents.insert_loop]
  | cons e events ih =>
    intro offset oligo h
    obtain ⟨position, length⟩ := e
    simp only [List.map_cons, List.sum_cons] at h
    simp only [InsertionEvents.insert_loop, List.map_cons, List.sum_cons]
    rw [ih _ _ (by omega), length_insert_range, List.length_take, List.length_drop]
    omega

theorem insertion_construct_event_lengths {rate : ℚ} {P : List ℚ} {m : InsertionEvents}
    (h : InsertionEvents.construct rate P [1] = .ok m) :
    m._custom_event_lengths = true ∧ m._event_lengths_sampler = [1] := by
  unfold InsertionEvents.construct at h
  split_ifs at h with h1 h2
  · simp at h2
  · cases h
    exact ⟨rfl, rfl⟩

theorem sum_snd_reverse_zip (positions lengths : List Nat)
    (h : lengths.length ≤ positions.length) :
    (((positions.zip lengths).reverse).map Prod.snd).sum = lengths.sum := by
  rw [List.map_reverse, List.sum_reverse, List.map_snd_zip _ _ h]

end mutator

/-- Claim C9: `InsertionEvents` constructed with rate 1 and length preference `[1]` returns,
for every oligo and every generator state (uniform draws lie in `[0, 1)`), an oligo of length
exactly `2 * len(o)`: the length grows by `len(o)`. -/
theorem C9_insertion_rate_one_doubles_length (P : List ℚ) (m : mutator.InsertionEvents)
    (hm : mutator.InsertionEvents.construct 1 P [1] = .ok m) (oligo : List Int) (r : Rng) :
    (m.process_single oligo r).1.length = 2 * oligo.length := by
  have hrate := mutator.insertion_construct_rate hm
  obtain ⟨hcustom, hsampler⟩ := mutator.insertion_construct_event_lengths hm
  have hpos : (mutator.get_event_positions (List.replicate oligo.length m.rate) r).1
      = List.range oligo.length := by
    rw [mutator.get_event_positions, mutator.get_event_positions_loop_one_le _ _ _ _
      (fun p hp => by rw [List.eq_of_mem_replicate hp, hrate]), List.range_eq_range']
    simp
  simp only [mutator.InsertionEvents.process_single, hpos, List.length_range]
  split_ifs with h0
  · simp [h0]
  · have hlen := mutator.draw_event_lengths_ones m._custom_event_lengths
      m._event_lengths_sampler oligo.length
      (mutator.get_event_positions (List.replicate oligo.length m.rate) r).2 (Or.inr hsampler)
    simp only [hlen]
    rw [mutator.InsertionEvents.length_insert_loop]
    · rw [mutator.sum_snd_reverse_zip _ _ (by simp)]
      simp
      omega
    · rw [mutator.sum_snd_reverse_zip _ _ (by simp)]
      simp [mutator.length_draw_from_distribution]

/-- Witness of C9: uniform base preference, the oligo `[1, 2, 3, 4]`. -/
theorem C9_insertion_rate_one_doubles_length_witness :
    ∃ m, mutator.InsertionEvents.construct 1 [1, 1, 1, 1] [1] = .ok m ∧
      (m.process_single [1, 2, 3, 4] rng.sample_state).1.length = 2 * [1, 2, 3, 4].length :=
  ⟨_, rfl, C9_insertion_rate_one_doubles_length [1, 1, 1, 1] _ rfl [1, 2, 3, 4]
    rng.sample_state⟩

/-! ## Deletions of length 1 -/

namespace mutator

theorem erase_range_one (oligo : List Int) (position : Nat) :
    erase_range oligo position
      (if position + 1 > oligo.length then oligo.length - position else 1)
      = oligo.eraseIdx position := by
  split_ifs with h
  · have h1 : oligo.length - position = 0 := by omega
    rw [List.eraseIdx_of_length_le (by omega), h1, erase_range, Nat.add_zero,
      List.take_append_drop]
  · rw [erase_range, List.eraseIdx_eq_take_drop_succ]

theorem DeletionEvents.erase_loop_ones (events : List (Nat × Nat))
    (h : ∀ e ∈ events, e.2 = 1) :
    ∀ oligo, DeletionEvents.erase_loop events oligo
      = (events.map Prod.fst).foldl (fun acc p => acc.eraseIdx p) oligo := by
  induction events with
  | nil => intro oligo; rfl
  | cons e events ih =>
    intro oligo
    obtain ⟨position, length⟩ := e
    have hl : length = 1 := h (position, length) (List.mem_cons_self _ _)
    subst hl
    simp only [DeletionEvents.erase_loop, List.map_cons, List.foldl_cons]
    rw [erase_range_one, ih (fun e he => h e (List.mem_cons_of_mem _ he))]

theorem foldr_eraseIdx_cons (b : Int) (bs : List Int) (i : Nat) (ps : List Nat)
    (h : ∀ p ∈ ps, i < p) :
    ps.foldr (fun p acc => acc.eraseIdx (p - i)) (b :: bs)
      = b :: ps.foldr (fun p acc => acc.eraseIdx (p - (i + 1))) bs := by
  induction ps with
  | nil => rfl
  | cons p ps ih =>
    have hp : i < p := h p (List.mem_cons_self _ _)
    have hsub : p - i = (p - (i + 1)) + 1 := by omega
    simp only [List.foldr_cons]
    rw [ih (fun q hq => h q (List.mem_cons_of_mem _ hq)), hsub, List.eraseIdx_cons_succ]

theorem remove_positions_from_cons_of_lt (oligo : List Int) :
    ∀ (j p : Nat) (ps : List Nat), p < j →
      remove_positions_from j oligo (p :: ps) = remove_positions_from j oligo ps := by
  induction oligo with
  | nil => intro j p ps _; rfl
  | cons b bs ih =>
    intro j p ps hp
    have hne : j ≠ p := by omega
    simp only [remove_positions_from, List.mem_cons, hne, false_or, ih (j + 1) p ps (by omega)]

theorem remove_positions_from_nil (oligo : List Int) :
    ∀ j, remove_positions_from j oligo [] = oligo := by
  induction oligo with
  | nil => intro j; rfl
  | cons b bs ih => intro j; simp [remove_positions_from, ih]

theorem foldr_eraseIdx_eq_remove_positions_from (oligo : List Int) :
    ∀ (i : Nat) (ps : List Nat), ps.Pairwise (· < ·) → (∀ p ∈ ps, i ≤ p) →
      ps.foldr (fun p acc => acc.eraseIdx (p - i)) oligo = remove_positions_from i oligo ps := by
  induction oligo with
  | nil =>
    intro i ps _ _
    have : ∀ qs : List Nat, qs.foldr (fun p acc => acc.eraseIdx (p - i)) ([] : List Int) = [] := by
      intro qs
      induction qs with
      | nil => rfl
      | cons q qs ihq => simp [ihq]
    rw [this]
    rfl
  | cons b bs ih =>
    intro i ps hsorted hge
    cases ps with
    | nil => rw [remove_positions_from_nil]; rfl
    | cons p ps =>
      have hgt : ∀ q ∈ ps, p < q := (List.pairwise_cons.1 hsorted).1
      have hs := (List.pairwise_cons.1 hsorted).2
      have hp : i ≤ p := hge p (List.mem_cons_self _ _)
      by_cases hpi : p = i
      · subst hpi
        have h1 := foldr_eraseIdx_cons b bs p ps hgt
        simp only [List.foldr_cons]
        rw [h1, Nat.sub_self, List.eraseIdx_cons_zero, ih (p + 1) ps hs (fun q hq => hgt q hq)]
        simp only [remove_positions_from, List.mem_cons, true_or, if_true]
        rw [remove_positions_from_cons_of_lt bs (p + 1) p ps (by omega)]
      · have hlt : ∀ q ∈ p :: ps, i < q := by
          intro q hq
          rcases List.mem_cons.1 hq with h | h
          · omega
          · have := hgt q h
            omega
        rw [foldr_eraseIdx_cons b bs i (p :: ps) hlt,
          ih (i + 1) (p :: ps) hsorted (fun q hq => hlt q hq)]
        have hni : i ∉ p :: ps := fun hi => absurd (hlt i hi) (lt_irrefl _)
        simp only [remove_positions_from, hni, if_false]

theorem length_remove_positions_from (oligo : List Int) :
    ∀ (i : Nat) (ps : List Nat), ps.Pairwise (· < ·) →
      (∀ p ∈ ps, i ≤ p ∧ p < i + oligo.length) →
      (remove_positions_from i oligo ps).length + ps.length = oligo.length := by
  induction oligo with
  | nil =>
    intro i ps _ hb
    cases ps with
    | nil => rfl
    | cons p ps =>
      have := hb p (List.mem_cons_self _ _)
      simp at this
      omega
  | cons b bs ih =>
    intro i ps hsorted hb
    cases ps with
    | nil => rw [remove_positions_from_nil]; rfl
    | cons p ps =>
      have hgt : ∀ q ∈ ps, p < q := (List.pairwise_cons.1 hsorted).1
      have hs := (List.pairwise_cons.1 hsorted).2
      have hp := hb p (List.mem_cons_self _ _)
      by_cases hpi : p = i
      · subst hpi
        have h3 := ih (p + 1) ps hs (fun q hq => by
          have h4 := hb q (List.mem_cons_of_mem _ hq)
          have h5 := hgt q hq
          simp only [List.length_cons] at h4
          omega)
        simp only [remove_positions_from, List.mem_cons, true_or, if_true, List.length_cons]
        rw [remove_positions_from_cons_of_lt bs (p + 1) p ps (by omega)]
        omega
      · have hlt : ∀ q ∈ p :: ps, i + 1 ≤ q ∧ q < i + 1 + bs.length := by
          intro q hq
          have h4 := hb q hq
          simp only [List.length_cons] at h4
          rcases List.mem_cons.1 hq with h | h
          · omega
          · have := hgt q h
            omega
        have h3 := ih (i + 1) (p :: ps) hsorted hlt
        have hni : i ∉ p :: ps := fun hi => by
          have := (hlt i hi).1
          omega
        simp only [remove_positions_from, hni, if_false, List.length_cons]
        simp only [List.length_cons] at h3
        omega

end mutator

namespace mutator

theorem deletion_construct_event_lengths {rate : ℚ} {P L : List ℚ} {m : DeletionEvents}
    (hL : L = [] ∨ L = [1]) (h : DeletionEvents.construct rate P L = .ok m) :
    m._custom_event_lengths = false ∨ m._event_lengths_sampler = [1] := by
  unfold DeletionEvents.construct at h
  rcases hL with hL | hL <;> subst hL <;> split_ifs at h <;> cases h <;> simp_all

theorem DeletionEvents.erase_loop_positions (positions : List Nat) (oligo : List Int)
    (hsorted : positions.Pairwise (· < ·)) :
    DeletionEvents.erase_loop (positions.zip (List.replicate positions.length 1)).reverse oligo
      = remove_positions oligo positions := by
  rw [DeletionEvents.erase_loop_ones, List.map_reverse, List.map_fst_zip _ _ (by simp),
    List.foldl_reverse, remove_positions,
    ← foldr_eraseIdx_eq_remove_positions_from oligo 0 positions hsorted (fun p _ => Nat.zero_le p)]
  · rfl
  · intro e he
    have := (List.of_mem_zip (List.mem_reverse.1 he)).2
    exact List.eq_of_mem_replicate this

theorem get_event_positions_sorted (ps : List ℚ) (r : Rng) :
    (get_event_positions ps r).1.Pairwise (· < ·) :=
  (List.pairwise_lt_range ps.length).sublist (get_event_positions_sublist ps r)

theorem get_event_positions_lt (ps : List ℚ) (r : Rng) :
    ∀ p ∈ (get_event_positions ps r).1, p < ps.length := fun p hp =>
  List.mem_range.1 ((get_event_positions_sublist ps r).subset hp)

end mutator

/-- Claim C10: for `DeletionEvents` constructed without length preference or with `L = [1]`,
for every oligo, rate, base preference and generator state, the output is the input without
the entries at the selected event positions (the others kept in order), so its length is the
length of the input minus the number of selected positions. -/
theorem C10_deletion_removes_selected_positions (rate : ℚ) (P L : List ℚ)
    (m : mutator.DeletionEvents) (hL : L = [] ∨ L = [1])
    (hm : mutator.DeletionEvents.construct rate P L = .ok m) (oligo : List Int) (r : Rng) :
    (m.process_single oligo r).1
      = mutator.remove_positions oligo (mutator.get_event_positions
          (mutator.p_event_by_position m.rate m.p_base_preference oligo) r).1 ∧
    (m.process_single oligo r).1.length + (mutator.get_event_positions
          (mutator.p_event_by_position m.rate m.p_base_preference oligo) r).1.length
      = oligo.length := by
  have hones := mutator.deletion_construct_event_lengths hL hm
  have hsorted := mutator.get_event_positions_sorted
    (mutator.p_event_by_position m.rate m.p_base_preference oligo) r
  have hlt := mutator.get_event_positions_lt
    (mutator.p_event_by_position m.rate m.p_base_preference oligo) r
  have hlen : (mutator.p_event_by_position m.rate m.p_base_preference oligo).length
      = oligo.length := by simp [mutator.p_event_by_position]
  have hout : (m.process_single oligo r).1
      = mutator.remove_positions oligo (mutator.get_event_positions
          (mutator.p_event_by_position m.rate m.p_base_preference oligo) r).1 := by
    simp only [mutator.DeletionEvents.process_single]
    split_ifs with h0
    · rw [List.length_eq_zero.1 h0, mutator.remove_positions,
        mutator.remove_positions_from_nil]
    · simp only [mutator.draw_event_lengths_ones _ _ _ _ hones]
      exact mutator.DeletionEvents.erase_loop_positions _ oligo hsorted
  refine ⟨hout, ?_⟩
  rw [hout, mutator.remove_positions]
  exact mutator.length_remove_positions_from oligo 0 _ hsorted
    (fun p hp => ⟨Nat.zero_le p, by have := hlt p hp; omega⟩)

/-- Witness of C10: rate `1/8`, the base preference `[1, 1, 1, 1]`, no length preference,
the oligo `[4, 3, 2, 1]` and a generator state whose uniform draws select the positions 1 and
3: the output is `[4, 2]`, the oligo without the entries at these two positions. -/
theorem C10_deletion_removes_selected_positions_witness :
    ∃ m, mutator.DeletionEvents.construct (1 / 8) [1, 1, 1, 1] [] = .ok m ∧
      (mutator.get_event_positions
          (mutator.p_event_by_position m.rate m.p_base_preference [4, 3, 2, 1])
          (rng.hit_state [1, 3])).1 = [1, 3] ∧
      (m.process_single [4, 3, 2, 1] (rng.hit_state [1, 3])).1 = [4, 2] ∧
      (m.process_single [4, 3, 2, 1] (rng.hit_state [1, 3])).1
        = mutator.remove_positions [4, 3, 2, 1] (mutator.get_event_positions
            (mutator.p_event_by_position m.rate m.p_base_preference [4, 3, 2, 1])
            (rng.hit_state [1, 3])).1 ∧
      (m.process_single [4, 3, 2, 1] (rng.hit_state [1, 3])).1.length
          + (mutator.get_event_positions
            (mutator.p_event_by_position m.rate m.p_base_preference [4, 3, 2, 1])
            (rng.hit_state [1, 3])).1.length
        = [4, 3, 2, 1].length := by
  refine ⟨_, rfl, ?_, ?_, C10_deletion_removes_selected_positions (1 / 8) [1, 1, 1, 1] [] _
    (Or.inl rfl) rfl [4, 3, 2, 1] (rng.hit_state [1, 3])⟩
  · decide!
  · decide!

/-! ## Substitutions keep the length -/

namespace mutator

theorem length_substitute_step (new_bases : List (List Int)) (pos : Nat)
    (state : List Int × List Nat) (j : Nat) :
    (SubstitutionEvents.substitute_step new_bases pos state j).1.length = state.1.length := by
  obtain ⟨oligo, offset⟩ := state
  simp only [SubstitutionEvents.substitute_step]
  split_ifs <;> simp

theorem length_foldl_substitute_step (new_bases : List (List Int)) (pos : Nat) (js : List Nat) :
    ∀ state : List Int × List Nat,
      (js.foldl (SubstitutionEvents.substitute_step new_bases pos) state).1.length
        = state.1.length := by
  induction js with
  | nil => intro state; rfl
  | cons j js ih =>
    intro state
    rw [List.foldl_cons, ih, length_substitute_step]

theorem length_substitute_loop (new_bases : List (List Int)) (events : List (Nat × Nat)) :
    ∀ state : List Int × List Nat,
      (SubstitutionEvents.substitute_loop new_bases events state).1.length
        = state.1.length := by
  induction events with
  | nil => intro state; rfl
  | cons e events ih =>
    intro state
    obtain ⟨pos, len⟩ := e
    simp only [SubstitutionEvents.substitute_loop]
    rw [ih, length_foldl_substitute_step]

theorem substitution_process_single_length (m : SubstitutionEvents) (oligo : List Int)
    (r : Rng) : (m.process_single oligo r).1.length = oligo.length := by
  simp only [SubstitutionEvents.process_single]
  split_ifs with h0
  · rfl
  · exact length_substitute_loop _ _ _

end mutator

/-- Claim C11: `SubstitutionEvents` never changes the length of an oligo: for every rate,
every 12-entry preference vector, every length-preference vector (absent, `[1]` or with
longer event lengths), every oligo over 1..4 and every generator state, the output has the
length of the input. -/
theorem C11_substitution_keeps_length (rate : ℚ) (P L : List ℚ)
    (m : mutator.SubstitutionEvents) (oligo : List Int) (r : Rng)
    (hm : mutator.SubstitutionEvents.construct rate P L = .ok m)
    (ho : ∀ b ∈ oligo, b = 1 ∨ b = 2 ∨ b = 3 ∨ b = 4) :
    (m.process_single oligo r).1.length = oligo.length :=
  mutator.substitution_process_single_length m oligo r

/-- Witness of C11: rate `1/2`, uniform transition preferences, event lengths up to 3, the
oligo `[1, 2, 3, 4, 1, 2, 3, 4]` and a generator state whose uniform draws select the
positions 1 and 5, with the drawn event lengths 3 and 1: the entries at the positions 1, 2, 3
and 5 are substituted and the output still has 8 entries. -/
theorem C11_substitution_keeps_length_witness :
    ∃ m, mutator.SubstitutionEvents.construct (1 / 2) [1, 1, 1, 1, 1, 1, 1, 1, 1, 1, 1, 1]
        [1, 1, 1] = .ok m ∧
      (mutator.get_event_positions
          (mutator.p_event_by_position m.rate m.p_base_preference [1, 2, 3, 4, 1, 2, 3, 4])
          (rng.hit_state [1, 5])).1 = [1, 5] ∧
      (mutator.draw_event_lengths m._custom_event_lengths m._event_lengths_sampler 2
          (mutator.get_event_positions
            (mutator.p_event_by_position m.rate m.p_base_preference [1, 2, 3, 4, 1, 2, 3, 4])
            (rng.hit_state [1, 5])).2).1 = [3, 1] ∧
      (m.process_single [1, 2, 3, 4, 1, 2, 3, 4] (rng.hit_state [1, 5])).1
        = [1, 3, 1, 2, 1, 4, 3, 4] ∧
      (m.process_single [1, 2, 3, 4, 1, 2, 3, 4] (rng.hit_state [1, 5])).1.length
        = [1, 2, 3, 4, 1, 2, 3, 4].length := by
  refine ⟨_, rfl, ?_, ?_, ?_, C11_substitution_keeps_length (1 / 2)
    [1, 1, 1, 1, 1, 1, 1, 1, 1, 1, 1, 1] [1, 1, 1] _ [1, 2, 3, 4, 1, 2, 3, 4]
    (rng.hit_state [1, 5]) rfl (by decide)⟩
  · decide!
  · decide!
  · decide!

/-! ## Breakage -/

namespace mutator

theorem runs_from_no_cuts (xs : List Int) :
    ∀ (i : Nat) (run : List Int), runs_from i xs [] run = [run ++ xs] := by
  induction xs with
  | nil => intro i run; simp [runs_from]
  | cons b bs ih => intro i run; simp [runs_from, ih]

theorem runs_from_cons_of_lt (xs : List Int) :
    ∀ (i p : Nat) (cuts : List Nat) (run : List Int), p < i →
      runs_from i xs (p :: cuts) run = runs_from i xs cuts run := by
  induction xs with
  | nil => intro i p cuts run _; rfl
  | cons b bs ih =>
    intro i p cuts run hp
    have hne : i ≠ p := by omega
    simp only [runs_from, List.mem_cons, hne, false_or, ih (i + 1) p cuts _ (by omega)]

theorem runs_from_append (xs ys : List Int) (cuts : List Nat) :
    ∀ (i : Nat) (run : List Int), (∀ k, i ≤ k → k < i + xs.length → k ∉ cuts) →
      runs_from i (xs ++ ys) cuts run = runs_from (i + xs.length) ys cuts (run ++ xs) := by
  induction xs with
  | nil => intro i run _; simp
  | cons b bs ih =>
    intro i run h
    have hi : i ∉ cuts := h i (le_refl _) (by simp)
    have h1 := ih (i + 1) (run ++ [b]) (fun k hk1 hk2 => h k (by omega) (by
      simp only [List.length_cons]; omega))
    have h2 : i + (b :: bs).length = i + 1 + bs.length := by
      simp only [List.length_cons]; omega
    rw [h2, List.cons_append]
    simp only [runs_from, hi, if_false]
    rw [h1, List.append_assoc, List.singleton_append]

theorem flatten_runs_from (xs : List Int) (cuts : List Nat) :
    ∀ (i : Nat) (run : List Int),
      (runs_from i xs cuts run).flatten = run ++ remove_positions_from i xs cuts := by
  induction xs with
  | nil => intro i run; simp [runs_from, remove_positions_from]
  | cons b bs ih =>
    intro i run
    simp only [runs_from, remove_positions_from]
    split_ifs with h
    · simp [ih]
    · simp [ih]

theorem fragments_loop_append (oligo : List Int) (event_positions : List Nat) :
    ∀ (last_pos : Nat) (new_oligos : List (List Int)),
      BreakageEvents.fragments_loop oligo event_positions last_pos new_oligos
        = (new_oligos ++ (BreakageEvents.fragments_loop oligo event_positions last_pos []).1,
           (BreakageEvents.fragments_loop oligo event_positions last_pos []).2) := by
  induction event_positions with
  | nil => intro last_pos new_oligos; simp [BreakageEvents.fragments_loop]
  | cons pos rest ih =>
    intro last_pos new_oligos
    simp only [BreakageEvents.fragments_loop]
    split_ifs with h
    · exact ih _ _
    · rw [ih (pos + 1) (new_oligos ++ [slice oligo last_pos pos]),
        ih (pos + 1) ([] ++ [slice oligo last_pos pos])]
      simp

theorem drop_eq_slice_append (oligo : List Int) (last_pos pos : Nat) (h1 : last_pos ≤ pos)
    (h2 : pos < oligo.length) :
    oligo.drop last_pos = slice oligo last_pos pos ++ oligo[pos] :: oligo.drop (pos + 1) := by
  have h3 : oligo = oligo.take pos ++ oligo[pos] :: oligo.drop (pos + 1) := by
    rw [← List.drop_eq_getElem_cons h2, List.take_append_drop]
  have h4 : (oligo.take pos).length = pos := by
    rw [List.length_take]; omega
  conv_lhs => rw [h3]
  rw [List.drop_append_of_le_length (by omega)]
  rfl

theorem length_slice (oligo : List Int) (last_pos pos : Nat) (h2 : pos ≤ oligo.length) :
    (slice oligo last_pos pos).length = pos - last_pos := by
  simp only [slice, List.length_drop, List.length_take]
  omega

theorem fragments_loop_cons_eq (oligo : List Int) (pos : Nat) (rest : List Nat)
    (last_pos : Nat) (h : pos = last_pos) :
    BreakageEvents.fragments_loop oligo (pos :: rest) last_pos []
      = BreakageEvents.fragments_loop oligo rest (pos + 1) [] := by
  simp only [BreakageEvents.fragments_loop, h, if_true]

theorem fragments_loop_cons_ne (oligo : List Int) (pos : Nat) (rest : List Nat)
    (last_pos : Nat) (h : pos ≠ last_pos) :
    BreakageEvents.fragments_loop oligo (pos :: rest) last_pos []
      = (slice oligo last_pos pos :: (BreakageEvents.fragments_loop oligo rest (pos + 1) []).1,
         (BreakageEvents.fragments_loop oligo rest (pos + 1) []).2) := by
  simp only [BreakageEvents.fragments_loop, h, if_false]
  rw [fragments_loop_append]
  simp

theorem fragments_loop_eq_runs (oligo : List Int) (event_positions : List Nat) :
    ∀ last_pos : Nat, event_positions.Pairwise (· < ·) →
      (∀ p ∈ event_positions, last_pos ≤ p ∧ p < oligo.length) →
      (BreakageEvents.fragments_loop oligo event_positions last_pos []).1
        ++ (if (BreakageEvents.fragments_loop oligo event_positions last_pos []).2 < oligo.length
            then [oligo.drop (BreakageEvents.fragments_loop oligo event_positions last_pos []).2]
            else [])
        = (runs_from last_pos (oligo.drop last_pos) event_positions []).filter
            (fun run => decide (run ≠ [])) := by
  induction event_positions with
  | nil =>
    intro last_pos _ _
    simp only [BreakageEvents.fragments_loop, List.nil_append, runs_from_no_cuts]
    split_ifs with h
    · have : oligo.drop last_pos ≠ [] := by
        intro h0
        have := congrArg List.length h0
        simp at this
        omega
      simp [this]
    · have : oligo.drop last_pos = [] := List.drop_eq_nil_of_le (by omega)
      simp [this]
  | cons pos rest ih =>
    intro last_pos hsorted hb
    have hgt : ∀ q ∈ rest, pos < q := (List.pairwise_cons.1 hsorted).1
    have hs := (List.pairwise_cons.1 hsorted).2
    obtain ⟨hp1, hp2⟩ := hb pos (List.mem_cons_self _ _)
    have ih := ih (pos + 1) hs (fun q hq =>
      ⟨hgt q hq, (hb q (List.mem_cons_of_mem _ hq)).2⟩)
    have hnot : ∀ k, last_pos ≤ k → k < last_pos + (slice oligo last_pos pos).length →
        k ∉ pos :: rest := by
      intro k hk1 hk2 hmem
      rw [length_slice oligo last_pos pos (by omega)] at hk2
      rcases List.mem_cons.1 hmem with h | h
      · omega
      · have := hgt k h
        omega
    have hidx : last_pos + (slice oligo last_pos pos).length = pos := by
      rw [length_slice oligo last_pos pos (by omega)]; omega
    have hruns : runs_from last_pos (oligo.drop last_pos) (pos :: rest) []
        = slice oligo last_pos pos :: runs_from (pos + 1) (oligo.drop (pos + 1)) rest [] := by
      rw [drop_eq_slice_append oligo last_pos pos hp1 hp2, runs_from_append _ _ _ _ _ hnot, hidx]
      simp only [runs_from, List.mem_cons, true_or, if_true, List.nil_append]
      rw [runs_from_cons_of_lt _ _ _ _ _ (by omega)]
    rw [hruns]
    by_cases heq : pos = last_pos
    · have hnil : slice oligo last_pos pos = [] := by
        apply List.eq_nil_of_length_eq_zero
        rw [length_slice oligo last_pos pos (by omega)]; omega
      rw [fragments_loop_cons_eq oligo pos rest last_pos heq, ih, hnil]
      simp
    · have hne : slice oligo last_pos pos ≠ [] := by
        intro h0
        have := congrArg List.length h0
        rw [length_slice oligo last_pos pos (by omega)] at this
        simp at this
        omega
      rw [fragments_loop_cons_ne oligo pos rest last_pos heq]
      simp only [List.cons_append]
      rw [ih, List.filter_cons]
      simp [hne]

end mutator

namespace mutator

theorem breakage_process_single_with_new_cuts (m : BreakageEvents) (oligo : List Int)
    (new_oligos : List (List Int)) (r : Rng)
    (h : (get_event_positions (p_event_by_position m.rate m.p_base_preference oligo) r).1 ≠ []) :
    (m.process_single_with_new oligo new_oligos r).1
      = new_oligos ++ maximal_runs oligo
          (get_event_positions (p_event_by_position m.rate m.p_base_preference oligo) r).1 := by
  have hsorted := get_event_positions_sorted
    (p_event_by_position m.rate m.p_base_preference oligo) r
  have hlt := get_event_positions_lt (p_event_by_position m.rate m.p_base_preference oligo) r
  have hlen : (p_event_by_position m.rate m.p_base_preference oligo).length = oligo.length := by
    simp [p_event_by_position]
  have hruns := fragments_loop_eq_runs oligo _ 0 hsorted
    (fun p hp => ⟨Nat.zero_le p, by have := hlt p hp; omega⟩)
  have h0 : ¬ (get_event_positions (p_event_by_position m.rate m.p_base_preference oligo)
      r).1.length = 0 := fun h0 => h (List.length_eq_zero.1 h0)
  simp only [BreakageEvents.process_single_with_new, h0, if_false]
  rw [List.drop_zero] at hruns
  rw [fragments_loop_append, maximal_runs, ← hruns]
  split_ifs <;> simp

theorem breakage_process_single_with_new_no_cut (m : BreakageEvents) (oligo : List Int)
    (new_oligos : List (List Int)) (r : Rng)
    (h : (get_event_positions (p_event_by_position m.rate m.p_base_preference oligo) r).1 = []) :
    (m.process_single_with_new oligo new_oligos r).1 = new_oligos ++ [oligo] := by
  simp only [BreakageEvents.process_single_with_new, h, List.length_nil, if_true]

theorem maximal_runs_ne_nil (oligo : List Int) (cuts : List Nat) :
    ∀ run ∈ maximal_runs oligo cuts, run ≠ [] := by
  intro run hrun
  have := (List.mem_filter.1 hrun).2
  simpa using this

theorem flatten_maximal_runs (oligo : List Int) (cuts : List Nat) :
    (maximal_runs oligo cuts).flatten = remove_positions oligo cuts := by
  rw [maximal_runs, List.flatten_filter_ne_nil, flatten_runs_from]
  rfl

end mutator

/-- Claim C12: when `BreakageEvents` selects a non-empty set of cut positions in an oligo, the
fragments it emits are, in order, exactly the non-empty maximal runs of consecutive non-cut
positions: none is empty, their concatenation is the oligo without the bases at the cut
positions, and their lengths add up to the length of the oligo minus the number of cuts.
With no cut the single fragment emitted is the oligo itself. -/
theorem C12_breakage_emits_maximal_runs (m : mutator.BreakageEvents) (oligo : List Int)
    (new_oligos : List (List Int)) (r : Rng) :
    ((mutator.get_event_positions
        (mutator.p_event_by_position m.rate m.p_base_preference oligo) r).1 ≠ [] →
      ∃ fragments, (m.process_single_with_new oligo new_oligos r).1 = new_oligos ++ fragments ∧
        fragments = mutator.maximal_runs oligo (mutator.get_event_positions
          (mutator.p_event_by_position m.rate m.p_base_preference oligo) r).1 ∧
        (∀ fragment ∈ fragments, fragment ≠ []) ∧
        fragments.flatten = mutator.remove_positions oligo (mutator.get_event_positions
          (mutator.p_event_by_position m.rate m.p_base_preference oligo) r).1 ∧
        (fragments.map List.length).sum + (mutator.get_event_positions
          (mutator.p_event_by_position m.rate m.p_base_preference oligo) r).1.length
          = oligo.length) ∧
    ((mutator.get_event_positions
        (mutator.p_event_by_position m.rate m.p_base_preference oligo) r).1 = [] →
      (m.process_single_with_new oligo new_oligos r).1 = new_oligos ++ [oligo]) := by
  refine ⟨fun h => ⟨_, mutator.breakage_process_single_with_new_cuts m oligo new_oligos r h,
    rfl, mutator.maximal_runs_ne_nil _ _, mutator.flatten_maximal_runs _ _, ?_⟩,
    mutator.breakage_process_single_with_new_no_cut m oligo new_oligos r⟩
  have hsorted := mutator.get_event_positions_sorted
    (mutator.p_event_by_position m.rate m.p_base_preference oligo) r
  have hlt := mutator.get_event_positions_lt
    (mutator.p_event_by_position m.rate m.p_base_preference oligo) r
  have hlen : (mutator.p_event_by_position m.rate m.p_base_preference oligo).length
      = oligo.length := by simp [mutator.p_event_by_position]
  rw [← List.length_flatten, mutator.flatten_maximal_runs, mutator.remove_positions]
  exact mutator.length_remove_positions_from oligo 0 _ hsorted
    (fun p hp => ⟨Nat.zero_le p, by have := hlt p hp; omega⟩)

/-- Witness of C12: rate `1/2` with uniform base preference on the oligo `[1, 2, 3, 4, 1]`,
once with cuts at the positions 1 and 2 and once with no cut. -/
theorem C12_breakage_emits_maximal_runs_witness :
    (∃ fragments,
      (mutator.BreakageEvents.process_single_with_new
        { rate := 1 / 2, p_base_preference := [1 / 4, 1 / 4, 1 / 4, 1 / 4] } [1, 2, 3, 4, 1] []
        (rng.hit_state [1, 2])).1 = [] ++ fragments ∧
      fragments = mutator.maximal_runs [1, 2, 3, 4, 1] (mutator.get_event_positions
        (mutator.p_event_by_position (1 / 2) [1 / 4, 1 / 4, 1 / 4, 1 / 4] [1, 2, 3, 4, 1])
        (rng.hit_state [1, 2])).1 ∧
      (∀ fragment ∈ fragments, fragment ≠ []) ∧
      fragments.flatten = mutator.remove_positions [1, 2, 3, 4, 1] (mutator.get_event_positions
        (mutator.p_event_by_position (1 / 2) [1 / 4, 1 / 4, 1 / 4, 1 / 4] [1, 2, 3, 4, 1])
        (rng.hit_state [1, 2])).1 ∧
      (fragments.map List.length).sum + (mutator.get_event_positions
        (mutator.p_event_by_position (1 / 2) [1 / 4, 1 / 4, 1 / 4, 1 / 4] [1, 2, 3, 4, 1])
        (rng.hit_state [1, 2])).1.length = [1, 2, 3, 4, 1].length) ∧
    (mutator.BreakageEvents.process_single_with_new
        { rate := 1 / 2, p_base_preference := [1 / 4, 1 / 4, 1 / 4, 1 / 4] } [1, 2, 3, 4, 1] []
        (rng.hit_state [])).1 = [] ++ [[1, 2, 3, 4, 1]] := by
  have h2 : Int.toNat 2 = 2 := rfl
  have h3 : Int.toNat 3 = 3 := rfl
  have hcut : (mutator.get_event_positions
      (mutator.p_event_by_position (1 / 2) [1 / 4, 1 / 4, 1 / 4, 1 / 4] [1, 2, 3, 4, 1])
      (rng.hit_state [1, 2])).1 ≠ [] := by
    have : (mutator.get_event_positions
        (mutator.p_event_by_position (1 / 2) [1 / 4, 1 / 4, 1 / 4, 1 / 4] [1, 2, 3, 4, 1])
        (rng.hit_state [1, 2])).1 = [1, 2] := by
      norm_num [mutator.get_event_positions, mutator.get_event_positions_loop,
        mutator.p_event_by_position, mutator.is_mutation, rng.random_float, rng.hit_state,
        rng.current, rng.advance, mutator.at_base, h2, h3]
    rw [this]
    exact List.cons_ne_nil _ _
  have hnone : (mutator.get_event_positions
      (mutator.p_event_by_position (1 / 2) [1 / 4, 1 / 4, 1 / 4, 1 / 4] [1, 2, 3, 4, 1])
      (rng.hit_state [])).1 = [] := by
    norm_num [mutator.get_event_positions, mutator.get_event_positions_loop,
      mutator.p_event_by_position, mutator.is_mutation, rng.random_float, rng.hit_state,
      rng.current, rng.advance, mutator.at_base, h2, h3]
  exact ⟨(C12_breakage_emits_maximal_runs
      { rate := 1 / 2, p_base_preference := [1 / 4, 1 / 4, 1 / 4, 1 / 4] } [1, 2, 3, 4, 1] []
      (rng.hit_state [1, 2])).1 hcut,
    (C12_breakage_emits_maximal_runs
      { rate := 1 / 2, p_base_preference := [1 / 4, 1 / 4, 1 / 4, 1 / 4] } [1, 2, 3, 4, 1] []
      (rng.hit_state [])).2 hnone⟩

/-! ## Size selection -/

namespace mutator

end mutator

namespace oligofactory

end oligofactory

namespace mutator

theorem process_with_new_loop_add_reverse_complement (oligos : List (List Int))
    (h : ∀ oligo ∈ oligos, ∀ b ∈ oligo, b = 1 ∨ b = 2 ∨ b = 3 ∨ b = 4) :
    ∀ (new_oligos : List (List Int)) (r : Rng),
      BaseMutator.process_with_new_loop .AddReverseComplement oligos new_oligos r
        = .ok (new_oligos ++ with_reverse_complements oligos, r) := by
  induction oligos with
  | nil => intro new_oligos r; simp [BaseMutator.process_with_new_loop, with_reverse_complements]
  | cons oligo oligos ih =>
    intro new_oligos r
    have hrc := conversion.reverse_complement_valid oligo (h oligo (List.mem_cons_self _ _))
    simp only [BaseMutator.process_with_new_loop, BaseMutator.process_single_with_new,
      AddReverseComplement.process_single_with_new, hrc]
    rw [ih (fun o ho => h o (List.mem_cons_of_mem _ ho))]
    simp [with_reverse_complements]

theorem process_add_reverse_complement (oligos : List (List Int)) (r : Rng)
    (h : ∀ oligo ∈ oligos, ∀ b ∈ oligo, b = 1 ∨ b = 2 ∨ b = 3 ∨ b = 4) :
    BaseMutator.process .AddReverseComplement oligos r
      = .ok (with_reverse_complements oligos, r) := by
  simp only [BaseMutator.process, BaseMutator.get_manipulates_count, if_true,
    process_with_new_loop_add_reverse_complement oligos h, List.nil_append]
  split_ifs with h0
  · rfl
  · have : with_reverse_complements oligos = [] := by
      apply List.eq_nil_of_length_eq_zero
      omega
    rw [this]

theorem length_with_reverse_complements (oligos : List (List Int)) :
    (with_reverse_complements oligos).length = 2 * oligos.length := by
  induction oligos with
  | nil => rfl
  | cons oligo oligos ih => simp only [with_reverse_complements, List.length_cons, ih]; omega

theorem getElem?_with_reverse_complements (oligos : List (List Int)) :
    ∀ k, (with_reverse_complements oligos)[2 * k]? = oligos[k]? ∧
      (with_reverse_complements oligos)[2 * k + 1]?
        = oligos[k]?.map (fun oligo => oligo.reverse.map conversion.complement) := by
  induction oligos with
  | nil => intro k; simp [with_reverse_complements]
  | cons oligo oligos ih =>
    intro k
    cases k with
    | zero => simp [with_reverse_complements]
    | succ k =>
      have h1 : 2 * (k + 1) = 2 * k + 1 + 1 := by omega
      obtain ⟨ih1, ih2⟩ := ih k
      rw [h1]
      simp only [with_reverse_complements, List.getElem?_cons_succ]
      exact ⟨ih1, ih2⟩

end mutator

/-- Claim C14: for every pool of `m` oligos over 1..4, `AddReverseComplement.process` returns
a pool of exactly `2 * m` oligos in which, for every `k < m`, the entry `2 * k` is the `k`-th
input oligo and the entry `2 * k + 1` is the reverse complement of the entry `2 * k`. -/
theorem C14_add_reverse_complement_doubles_pool (oligos : List (List Int)) (r : Rng)
    (h : ∀ oligo ∈ oligos, ∀ b ∈ oligo, b = 1 ∨ b = 2 ∨ b = 3 ∨ b = 4) :
    ∃ out r1, mutator.BaseMutator.process .AddReverseComplement oligos r = .ok (out, r1) ∧
      out.length = 2 * oligos.length ∧
      ∀ k, k < oligos.length →
        out[2 * k]? = oligos[k]? ∧
        ∃ even rc, out[2 * k]? = some even ∧ conversion.reverse_complement even = .ok rc ∧
          out[2 * k + 1]? = some rc := by
  refine ⟨_, _, mutator.process_add_reverse_complement oligos r h,
    mutator.length_with_reverse_complements oligos, ?_⟩
  intro k hk
  obtain ⟨h1, h2⟩ := mutator.getElem?_with_reverse_complements oligos k
  refine ⟨h1, oligos[k], _, ?_, conversion.reverse_complement_valid _
    (h _ (List.getElem_mem _)), ?_⟩
  · rw [h1, List.getElem?_eq_getElem hk]
  · rw [h2, List.getElem?_eq_getElem hk]
    rfl

/-- Witness of C14 on the pool `[[1, 2], [3, 3, 4]]`. -/
theorem C14_add_reverse_complement_doubles_pool_witness :
    ∃ out r1, mutator.BaseMutator.process .AddReverseComplement [[1, 2], [3, 3, 4]]
        rng.sample_state = .ok (out, r1) ∧
      out.length = 2 * [[1, 2], [3, 3, 4]].length ∧
      ∀ k, k < [[1, 2], [3, 3, 4]].length →
        out[2 * k]? = ([[1, 2], [3, 3, 4]] : List (List Int))[k]? ∧
        ∃ even rc, out[2 * k]? = some even ∧ conversion.reverse_complement even = .ok rc ∧
          out[2 * k + 1]? = some rc :=
  C14_add_reverse_complement_doubles_pool [[1, 2], [3, 3, 4]] rng.sample_state (by decide)

/-! ## Tailing -/

namespace mutator

theorem draw_from_distribution_lt (sampler : List ℚ) (h : sampler ≠ []) :
    ∀ n r, ∀ d ∈ (draw_from_distribution sampler n r).1, d < sampler.length := by
  intro n
  induction n with
  | zero => intro r d hd; simp [draw_from_distribution] at hd
  | succ n ih =>
    intro r d hd
    simp only [draw_from_distribution, List.mem_cons] at hd
    rcases hd with hd | hd
    · rw [hd]; exact rng.discrete_distribution_lt sampler r h
    · exact ih _ d hd

theorem tail_loop_ok (_tail_bases : List Int) (draws : List Nat)
    (h : ∀ d ∈ draws, d < _tail_bases.length) :
    ∃ tail, Tailing.tail_loop _tail_bases draws = .ok tail ∧ tail.length = draws.length ∧
      ∀ b ∈ tail, b ∈ _tail_bases := by
  induction draws with
  | nil => exact ⟨[], rfl, rfl, by simp⟩
  | cons d draws ih =>
    obtain ⟨tail, h1, h2, h3⟩ := ih (fun e he => h e (List.mem_cons_of_mem _ he))
    have hd : d < _tail_bases.length := h d (List.mem_cons_self _ _)
    refine ⟨_tail_bases[d] :: tail, ?_, by simp [h2], ?_⟩
    · simp only [Tailing.tail_loop, List.getElem?_eq_getElem hd, h1]
    · intro b hb
      rcases List.mem_cons.1 hb with hb | hb
      · rw [hb]; exact List.getElem_mem _
      · exact h3 b hb

theorem tailing_construct_ok (tail_bases : List Char) (n_min n_max : Int)
    (h1 : n_min ≤ n_max)
    (hv : ∀ c ∈ tail_bases, c = 'A' ∨ c = 'C' ∨ c = 'G' ∨ c = 'T') :
    Tailing.construct tail_bases n_min n_max
      = .ok { _tail_bases := tail_bases.map conversion.code,
              _tail_lengths := (List.range (n_max - n_min + 1).toNat).map
                (fun (i : Nat) => n_min + (i : Int)),
              _base_sampler := List.replicate (tail_bases.map conversion.code).length 1,
              _length_sampler := List.replicate (n_max - n_min + 1).toNat 1,
              n_min := n_min, n_max := n_max } := by
  have hs : conversion.sequence_to_vector tail_bases = .ok (tail_bases.map conversion.code) := by
    simpa [conversion.sequence_to_vector] using
      conversion.sequence_to_vector_loop_valid tail_bases hv []
  have hn : ¬ n_max - n_min + 1 < 0 := by omega
  simp only [Tailing.construct, hs, hn, if_false]

theorem tailing_process_single (m : Tailing) (oligo : List Int) (r : Rng)
    (hb : m._tail_bases ≠ [])
    (hs : m._base_sampler = List.replicate m._tail_bases.length 1)
    (hl : m._length_sampler = List.replicate (m.n_max - m.n_min + 1).toNat 1)
    (ht : m._tail_lengths = (List.range (m.n_max - m.n_min + 1).toNat).map
      (fun (i : Nat) => m.n_min + (i : Int)))
    (h0 : 0 ≤ m.n_min) (h1 : m.n_min ≤ m.n_max) :
    ∃ tail r1, m.process_single oligo r = .ok (oligo ++ tail, r1) ∧
      m.n_min ≤ (tail.length : Int) ∧ (tail.length : Int) ≤ m.n_max ∧
      ∀ b ∈ tail, b ∈ m._tail_bases := by
  have hN : 0 < (m.n_max - m.n_min + 1).toNat := by omega
  have hne : m._length_sampler ≠ [] := by
    rw [hl]
    intro h
    have := congrArg List.length h
    simp at this
    omega
  have hi := rng.discrete_distribution_lt m._length_sampler r hne
  rw [hl, List.length_replicate] at hi
  rw [← hl] at hi
  have hlen : m._tail_lengths[(rng.discrete_distribution m._length_sampler r).1]?
      = some (m.n_min + ((rng.discrete_distribution m._length_sampler r).1 : Int)) := by
    rw [ht, List.getElem?_map, List.getElem?_range hi]
    rfl
  have hsne : m._base_sampler ≠ [] := by
    rw [hs]
    intro h
    have := congrArg List.length h
    simp at this
    exact hb this
  have hdraws := draw_from_distribution_lt m._base_sampler hsne
    (m.n_min + ((rng.discrete_distribution m._length_sampler r).1 : Int)).toNat
    (rng.discrete_distribution m._length_sampler r).2
  have hslen : m._base_sampler.length = m._tail_bases.length := by rw [hs]; simp
  obtain ⟨tail, ht1, ht2, ht3⟩ := tail_loop_ok m._tail_bases _
    (fun d hd => by have := hdraws d hd; omega)
  rw [length_draw_from_distribution] at ht2
  refine ⟨tail, (draw_from_distribution m._base_sampler
    (m.n_min + ((rng.discrete_distribution m._length_sampler r).1 : Int)).toNat
    (rng.discrete_distribution m._length_sampler r).2).2, ?_, ?_, ?_, ht3⟩
  · simp only [Tailing.process_single, hlen]
    rw [if_neg (by omega)]
    simp only [ht1]
  · rw [ht2]; omega
  · rw [ht2]; omega

end mutator

/-- Claim C15: for `Tailing(bases, n_min, n_max)` with `0 ≤ n_min ≤ n_max` and a non-empty
string of allowed bases over A/C/G/T, the constructor succeeds and, for every oligo and every
generator state, the output is the oligo followed by a tail whose length lies between `n_min`
and `n_max` and whose entries are encoded allowed bases; with `n_min = n_max = k` the tail has
exactly `k` entries. -/
theorem C15_tailing_appends_allowed_bases (tail_bases : List Char) (n_min n_max : Int)
    (h0 : 0 ≤ n_min) (h1 : n_min ≤ n_max) (hne : tail_bases ≠ [])
    (hv : ∀ c ∈ tail_bases, c = 'A' ∨ c = 'C' ∨ c = 'G' ∨ c = 'T') :
    ∃ m allowed, conversion.sequence_to_vector tail_bases = .ok allowed ∧
      mutator.Tailing.construct tail_bases n_min n_max = .ok m ∧
      ∀ (oligo : List Int) (r : Rng),
        ∃ tail r1, m.process_single oligo r = .ok (oligo ++ tail, r1) ∧
          n_min ≤ (tail.length : Int) ∧ (tail.length : Int) ≤ n_max ∧
          (∀ b ∈ tail, b ∈ allowed) ∧
          (n_min = n_max → (tail.length : Int) = n_min) := by
  have hs : conversion.sequence_to_vector tail_bases = .ok (tail_bases.map conversion.code) := by
    simpa [conversion.sequence_to_vector] using
      conversion.sequence_to_vector_loop_valid tail_bases hv []
  refine ⟨_, _, hs, mutator.tailing_construct_ok tail_bases n_min n_max h1 hv, ?_⟩
  intro oligo r
  obtain ⟨tail, r1, ht1, ht2, ht3, ht4⟩ := mutator.tailing_process_single
    { _tail_bases := tail_bases.map conversion.code,
      _tail_lengths := (List.range (n_max - n_min + 1).toNat).map
        (fun (i : Nat) => n_min + (i : Int)),
      _base_sampler := List.replicate (tail_bases.map conversion.code).length 1,
      _length_sampler := List.replicate (n_max - n_min + 1).toNat 1,
      n_min := n_min, n_max := n_max } oligo r (by simpa using hne) rfl rfl rfl h0 h1
  exact ⟨tail, r1, ht1, ht2, ht3, ht4, fun h => by
    simp only at ht2 ht3
    omega⟩

/-- Witness of C15: the tail bases `CT` with between 6 and 8 bases, as in the decay
challenge. -/
theorem C15_tailing_appends_allowed_bases_witness :
    ∃ m allowed, conversion.sequence_to_vector ['C', 'T'] = .ok allowed ∧
      mutator.Tailing.construct ['C', 'T'] 6 8 = .ok m ∧
      ∀ (oligo : List Int) (r : Rng),
        ∃ tail r1, m.process_single oligo r = .ok (oligo ++ tail, r1) ∧
          (6 : Int) ≤ (tail.length : Int) ∧ (tail.length : Int) ≤ 8 ∧
          (∀ b ∈ tail, b ∈ allowed) ∧
          ((6 : Int) = 8 → (tail.length : Int) = 6) :=
  C15_tailing_appends_allowed_bases ['C', 'T'] 6 8 (by decide) (by decide) (by decide)
    (by decide)

/-! ## EndShreds -/

namespace mutator

theorem draw_from_distribution_of_length_one (sampler : List ℚ) (h : sampler.length = 1) :
    ∀ n r, (draw_from_distribution sampler n r).1 = List.replicate n 0 := by
  have hne : sampler ≠ [] := by
    intro h0
    rw [h0] at h
    simp at h
  intro n
  induction n with
  | zero => intro r; rfl
  | succ n ih =>
    intro r
    have hlt := rng.discrete_distribution_lt sampler r hne
    have h0 : (rng.discrete_distribution sampler r).1 = 0 := by omega
    simp [draw_from_distribution, ih, h0, List.replicate_succ]

theorem end_shreds_single_entry (w : ℚ) (oligo : List Int) (r : Rng) :
    ∃ r1, (EndShreds.construct [w]).process_single oligo r = .ok (oligo, r1) := by
  have h := draw_from_distribution_of_length_one (normalize_vector [w])
    (by simp [normalize_vector]) 2 r
  refine ⟨(draw_from_distribution (normalize_vector [w]) 2 r).2, ?_⟩
  simp [EndShreds.process_single, EndShreds.construct, h]

end mutator

/-- Claim C16 fails on the code: with the single-entry length preference `[1]`, `EndShreds`
returns the oligo `[1, 2, 3, 4]` unchanged, where index 0 standing for a removal length of 1
would give `[2, 3]`: the drawn index itself is the number of bases removed. -/
theorem C16_end_shreds_single_entry_removes_nothing :
    (∃ r1, (mutator.EndShreds.construct [1]).process_single [1, 2, 3, 4] rng.sample_state
      = .ok ([1, 2, 3, 4], r1)) ∧
    ∀ out r1, (mutator.EndShreds.construct [1]).process_single [1, 2, 3, 4] rng.sample_state
      = .ok (out, r1) → out ≠ [2, 3] := by
  obtain ⟨r1, h⟩ := mutator.end_shreds_single_entry 1 [1, 2, 3, 4] rng.sample_state
  refine ⟨⟨r1, h⟩, ?_⟩
  intro out r2 h2
  rw [h] at h2
  cases h2
  decide

/-! ## Sequencing adapter -/

/-- Claim C17: for every adapter string over A/C/G/T the constructor of
`SequencingAddAdapter` succeeds and the mutator returns every oligo followed by the encoded
adapter (the oligo is a prefix, the length grows by the length of the adapter); `AAAA` with
the adapter `GGG` gives `AAAAGGG`; with any other character in the adapter the constructor
fails. -/
theorem C17_sequencing_add_adapter :
    (∀ adapter : List Char, (∀ c ∈ adapter, c = 'A' ∨ c = 'C' ∨ c = 'G' ∨ c = 'T') →
      ∃ m encoded, conversion.sequence_to_vector adapter = .ok encoded ∧
        mutator.SequencingAddAdapter.construct adapter = .ok m ∧
        ∀ oligo : List Int, m.process_single oligo = oligo ++ encoded ∧
          (m.process_single oligo).length = oligo.length + adapter.length ∧
          oligo <+: m.process_single oligo) ∧
    (∃ m oligo, mutator.SequencingAddAdapter.construct ['G', 'G', 'G'] = .ok m ∧
      conversion.sequence_to_vector ['A', 'A', 'A', 'A'] = .ok oligo ∧
      conversion.vector_to_sequence (m.process_single oligo)
        = .ok ['A', 'A', 'A', 'A', 'G', 'G', 'G']) ∧
    (∀ adapter : List Char, (∃ c ∈ adapter, c ≠ 'A' ∧ c ≠ 'C' ∧ c ≠ 'G' ∧ c ≠ 'T') →
      ∃ e, mutator.SequencingAddAdapter.construct adapter = .error e) := by
  refine ⟨?_, ⟨⟨[3, 3, 3]⟩, [1, 1, 1, 1], rfl, by decide, by decide⟩, ?_⟩
  · intro adapter hv
    have hs : conversion.sequence_to_vector adapter = .ok (adapter.map conversion.code) := by
      simpa [conversion.sequence_to_vector] using
        conversion.sequence_to_vector_loop_valid adapter hv []
    refine ⟨⟨adapter.map conversion.code⟩, _, hs, ?_, ?_⟩
    · simp only [mutator.SequencingAddAdapter.construct, hs]
    · intro oligo
      refine ⟨rfl, by simp [mutator.SequencingAddAdapter.process_single], ?_⟩
      exact List.prefix_append _ _
  · intro adapter hbad
    obtain ⟨e, he⟩ := (conversion.sequence_to_vector_loop_error adapter []).2 hbad
    refine ⟨e, ?_⟩
    have he2 : conversion.sequence_to_vector adapter = .error e := he
    simp only [mutator.SequencingAddAdapter.construct, he2]

/-- Witness of C17: the Illumina adapter of the sequencing scenario, and the adapter `GGN`. -/
theorem C17_sequencing_add_adapter_witness :
    (∃ m encoded, conversion.sequence_to_vector "AGATCGGAAGAGC".toList = .ok encoded ∧
        mutator.SequencingAddAdapter.construct "AGATCGGAAGAGC".toList = .ok m ∧
        ∀ oligo : List Int, m.process_single oligo = oligo ++ encoded ∧
          (m.process_single oligo).length = oligo.length + "AGATCGGAAGAGC".toList.length ∧
          oligo <+: m.process_single oligo) ∧
    (∃ e, mutator.SequencingAddAdapter.construct ['G', 'G', 'N'] = .error e) :=
  ⟨C17_sequencing_add_adapter.1 "AGATCGGAAGAGC".toList (by decide),
   C17_sequencing_add_adapter.2.2 ['G', 'G', 'N'] ⟨'N', by decide⟩⟩

/-! ## Pad and trim -/

namespace mutator

theorem pad_trim_longer (m : SequencingPadTrim) (oligo : List Int) (r : Rng)
    (h0 : 0 ≤ m.read_length) (h : (oligo.length : Int) > m.read_length) :
    m.process_single oligo r = .ok (oligo.take m.read_length.toNat, r) := by
  have h1 : ¬ (oligo.length : Int) < m.read_length := by omega
  have h2 : ¬ m.read_length < 0 := by omega
  simp only [SequencingPadTrim.process_single, h1, h, h2, if_true, if_false]

theorem pad_trim_equal (m : SequencingPadTrim) (oligo : List Int) (r : Rng)
    (h : (oligo.length : Int) = m.read_length) :
    m.process_single oligo r = .ok (oligo, r) := by
  have h1 : ¬ (oligo.length : Int) < m.read_length := by omega
  have h2 : ¬ (oligo.length : Int) > m.read_length := by omega
  simp only [SequencingPadTrim.process_single, h1, h2, if_false]

theorem pad_trim_shorter (m : SequencingPadTrim) (oligo : List Int) (r : Rng)
    (h : (oligo.length : Int) < m.read_length) :
    m.process_single oligo r
      = .ok (oligo ++ (draw_from_distribution m._base_sampler
                (m.read_length - (oligo.length : Int)).toNat r).1.map
                (fun (base : Nat) => (base : Int) + 1),
             (draw_from_distribution m._base_sampler
                (m.read_length - (oligo.length : Int)).toNat r).2) := by
  have h2 : ¬ (oligo.length : Int) > m.read_length := by omega
  simp only [SequencingPadTrim.process_single, h, h2, if_true, if_false]

end mutator

/-- Claim C18: for every read length `rl ≥ 0`, every oligo over 1..4 and every generator
state, `SequencingPadTrim(rl)` returns an oligo of length exactly `rl`: the first `rl` bases
of a longer oligo, an oligo of length `rl` unchanged, and a shorter oligo followed by
`rl - len(o)` bases in 1..4. -/
theorem C18_pad_trim_exact_length (read_length : Int) (oligo : List Int) (r : Rng)
    (h0 : 0 ≤ read_length) (ho : ∀ b ∈ oligo, b = 1 ∨ b = 2 ∨ b = 3 ∨ b = 4) :
    ∃ out r1, (mutator.SequencingPadTrim.construct read_length).process_single oligo r
        = .ok (out, r1) ∧
      (out.length : Int) = read_length ∧
      ((oligo.length : Int) > read_length → out = oligo.take read_length.toNat) ∧
      ((oligo.length : Int) = read_length → out = oligo) ∧
      ((oligo.length : Int) < read_length →
        ∃ padding, out = oligo ++ padding ∧
          (padding.length : Int) = read_length - (oligo.length : Int) ∧
          ∀ b ∈ padding, b = 1 ∨ b = 2 ∨ b = 3 ∨ b = 4) := by
  rcases lt_trichotomy (oligo.length : Int) read_length with h | h | h
  · refine ⟨_, _, mutator.pad_trim_shorter _ oligo r h, ?_, fun h' => absurd h (by omega),
      fun h' => absurd h (by omega), fun _ => ⟨_, rfl, ?_, ?_⟩⟩
    · simp only [List.length_append, List.length_map, mutator.length_draw_from_distribution,
        mutator.SequencingPadTrim.construct]
      push_cast
      omega
    · simp only [List.length_map, mutator.length_draw_from_distribution,
        mutator.SequencingPadTrim.construct]
      omega
    · intro b hb
      simp only [List.mem_map] at hb
      obtain ⟨d, hd, rfl⟩ := hb
      have := mutator.draw_from_distribution_lt _ (by
        simp [mutator.SequencingPadTrim.construct]) _ _ d hd
      simp only [mutator.SequencingPadTrim.construct, List.length_cons, List.length_nil] at this
      omega
  · refine ⟨_, _, mutator.pad_trim_equal _ oligo r h, h, fun h' => absurd h (by omega),
      fun _ => rfl, fun h' => absurd h (by omega)⟩
  · refine ⟨_, _, mutator.pad_trim_longer _ oligo r h0 h, ?_, fun _ => rfl,
      fun h' => absurd h (by omega), fun h' => absurd h (by omega)⟩
    simp only [mutator.SequencingPadTrim.construct, List.length_take]
    omega

/-- Witness of C18: read length 4 on the oligo `[1, 2, 3, 4, 1, 2]`. -/
theorem C18_pad_trim_exact_length_witness :
    ∃ out r1, (mutator.SequencingPadTrim.construct 4).process_single [1, 2, 3, 4, 1, 2]
        rng.sample_state = .ok (out, r1) ∧
      (out.length : Int) = 4 ∧
      ((([1, 2, 3, 4, 1, 2] : List Int).length : Int) > 4 →
        out = ([1, 2, 3, 4, 1, 2] : List Int).take (4 : Int).toNat) ∧
      ((([1, 2, 3, 4, 1, 2] : List Int).length : Int) = 4 → out = [1, 2, 3, 4, 1, 2]) ∧
      ((([1, 2, 3, 4, 1, 2] : List Int).length : Int) < 4 →
        ∃ padding, out = [1, 2, 3, 4, 1, 2] ++ padding ∧
          (padding.length : Int) = 4 - (([1, 2, 3, 4, 1, 2] : List Int).length : Int) ∧
          ∀ b ∈ padding, b = 1 ∨ b = 2 ∨ b = 3 ∨ b = 4) :=
  C18_pad_trim_exact_length 4 [1, 2, 3, 4, 1, 2] rng.sample_state (by decide) (by decide)

/-! ## Oligo factory -/

/-- Claim C19: `generate_oligos` adds no oligo when `n = 0`, whatever the chain, and with an
empty chain it adds exactly `n` copies of the design; in both cases the generator state is
left as it was, so no random draw is consumed. -/
theorem C19_generate_oligos_short_circuits :
    (∀ (generated_oligos : List (List Int)) (design : List Int)
        (chain : List mutator.BaseMutator) (r : Rng),
      oligofactory.generate_oligos generated_oligos design 0 chain r
        = .ok (generated_oligos, r)) ∧
    (∀ (generated_oligos : List (List Int)) (design : List Int) (n : Nat) (r : Rng),
      oligofactory.generate_oligos generated_oligos design n [] r
        = .ok (generated_oligos ++ List.replicate n design, r)) := by
  constructor
  · intro generated_oligos design chain r
    simp [oligofactory.generate_oligos]
  · intro generated_oligos design n r
    simp only [oligofactory.generate_oligos]
    split_ifs with h0 h1
    · simp [h0]
    · rfl
    · simp at h1

/-! ## Collector -/

namespace fileio

theorem write_sequence_vector_valid (w : SequenceFileWriter) (oligo : List Int)
    (ho : ∀ b ∈ oligo, b = 1 ∨ b = 2 ∨ b = 3 ∨ b = 4) :
    ∃ w1, w.write_sequence_vector oligo = .ok w1 := by
  have hs : ∃ s, conversion.vector_to_sequence oligo = .ok s := by
    cases h : conversion.vector_to_sequence oligo with
    | ok s => exact ⟨s, rfl⟩
    | error e =>
      obtain ⟨b, hb, h1, h2, h3, h4⟩ := (conversion.vector_to_sequence_loop_error oligo []).1 ⟨e, h⟩
      rcases ho b hb with h' | h' | h' | h' <;> contradiction
  obtain ⟨s, hs⟩ := hs
  simp only [SequenceFileWriter.write_sequence_vector, hs]
  cases w.filetype <;> exact ⟨_, rfl⟩

end fileio

namespace conversion

theorem complement_valid (o : List Int) (ho : ∀ b ∈ o, b = 1 ∨ b = 2 ∨ b = 3 ∨ b = 4) :
    ∀ b ∈ o.reverse.map complement, b = 1 ∨ b = 2 ∨ b = 3 ∨ b = 4 := by
  intro b hb
  simp only [List.mem_map, List.mem_reverse] at hb
  obtain ⟨a, ha, rfl⟩ := hb
  rcases ho a ha with h | h | h | h <;> subst h <;> simp [complement]

end conversion

/-- Claim C20: a paired-end collector with the post-chain `C` writes element 0 of `C` applied
to `[o]` to the forward writer and element 0 of `C` applied to the reverse complement of the
original `o` to the reverse writer; with no post-chain the reverse record is the reverse
complement of the forward record `o`, and a single-end collector (no post-chain) writes `o`
unchanged.  Here `o` is any oligo over 1..4. -/
theorem C20_collector_writes :
    (∀ (fw rv fw1 rv1 : fileio.SequenceFileWriter) (C : List mutator.BaseMutator)
        (o first_fw first_rv : List Int) (pool_fw pool_rv : List (List Int)) (r r1 r2 : Rng),
      (∀ b ∈ o, b = 1 ∨ b = 2 ∨ b = 3 ∨ b = 4) →
      mutator.process_all C [o] r = .ok (pool_fw, r1) → pool_fw[0]? = some first_fw →
      fw.write_sequence_vector first_fw = .ok fw1 →
      ∃ rc, conversion.reverse_complement o = .ok rc ∧
        (mutator.process_all C [rc] r1 = .ok (pool_rv, r2) → pool_rv[0]? = some first_rv →
          rv.write_sequence_vector first_rv = .ok rv1 →
          ((oligocollector.OligoCollector.paired fw rv).set_mutators C).collect_sequence_vector
              o r
            = .ok ({ (oligocollector.OligoCollector.paired fw rv).set_mutators C with
                      filewriter_fw := fw1, filewriter_rv := some rv1 }, r2))) ∧
    (∀ (fw rv : fileio.SequenceFileWriter) (o : List Int) (r : Rng),
      (∀ b ∈ o, b = 1 ∨ b = 2 ∨ b = 3 ∨ b = 4) →
      ∃ fw1 rv1 rc, fw.write_sequence_vector o = .ok fw1 ∧
        conversion.reverse_complement o = .ok rc ∧ rv.write_sequence_vector rc = .ok rv1 ∧
        (oligocollector.OligoCollector.paired fw rv).collect_sequence_vector o r
          = .ok ({ oligocollector.OligoCollector.paired fw rv with
                    filewriter_fw := fw1, filewriter_rv := some rv1 }, r)) ∧
    (∀ (fw : fileio.SequenceFileWriter) (o : List Int) (r : Rng),
      (∀ b ∈ o, b = 1 ∨ b = 2 ∨ b = 3 ∨ b = 4) →
      ∃ fw1, fw.write_sequence_vector o = .ok fw1 ∧
        (oligocollector.OligoCollector.single fw).collect_sequence_vector o r
          = .ok ({ oligocollector.OligoCollector.single fw with filewriter_fw := fw1 }, r)) := by
  refine ⟨?_, ?_, ?_⟩
  · intro fw rv fw1 rv1 C o first_fw first_rv pool_fw pool_rv r r1 r2 ho h1 h2 h3
    refine ⟨_, conversion.reverse_complement_valid o ho, ?_⟩
    intro h4 h5 h6
    rw [List.map_reverse] at h4
    simp [oligocollector.OligoCollector.collect_sequence_vector,
      oligocollector.OligoCollector.apply_mutators, oligocollector.OligoCollector.set_mutators,
      oligocollector.OligoCollector.paired, h1, h2, h3, h4, h5, h6,
      conversion.reverse_complement_valid o ho]
  · intro fw rv o r ho
    obtain ⟨fw1, hfw⟩ := fileio.write_sequence_vector_valid fw o ho
    obtain ⟨rv1, hrv⟩ := fileio.write_sequence_vector_valid rv _
      (conversion.complement_valid o ho)
    refine ⟨fw1, rv1, _, hfw, conversion.reverse_complement_valid o ho, hrv, ?_⟩
    rw [List.map_reverse] at hrv
    simp [oligocollector.OligoCollector.collect_sequence_vector,
      oligocollector.OligoCollector.apply_mutators, oligocollector.OligoCollector.paired,
      hfw, hrv, conversion.reverse_complement_valid o ho]
  · intro fw o r ho
    obtain ⟨fw1, hfw⟩ := fileio.write_sequence_vector_valid fw o ho
    refine ⟨fw1, hfw, ?_⟩
    simp [oligocollector.OligoCollector.collect_sequence_vector,
      oligocollector.OligoCollector.apply_mutators, oligocollector.OligoCollector.single, hfw]

/-- Witness of C20: two empty text writers, the post-chain made of the adapter `GGG`, and the
oligo `AAAA`: the forward record is `AAAAGGG`, the reverse record `TTTTGGG`. -/
theorem C20_collector_writes_witness :
    ((oligocollector.OligoCollector.paired
          { filetype := .TXT, _file := [], sequences_written := 0 }
          { filetype := .TXT, _file := [], sequences_written := 0 }).set_mutators
        [.SequencingAddAdapter { _adapter_vector := [3, 3, 3] }]).collect_sequence_vector
        [1, 1, 1, 1] rng.sample_state
      = .ok ({ (oligocollector.OligoCollector.paired
          { filetype := .TXT, _file := [], sequences_written := 0 }
          { filetype := .TXT, _file := [], sequences_written := 0 }).set_mutators
            [.SequencingAddAdapter { _adapter_vector := [3, 3, 3] }] with
          filewriter_fw :=
            { filetype := .TXT, _file := "AAAAGGG\n".toList, sequences_written := 1 },
          filewriter_rv := some
            { filetype := .TXT, _file := "TTTTGGG\n".toList, sequences_written := 1 } },
          rng.sample_state) ∧
    (∃ fw1 rv1 rc,
      fileio.SequenceFileWriter.write_sequence_vector
        { filetype := .TXT, _file := [], sequences_written := 0 } [1, 1, 2, 4] = .ok fw1 ∧
      conversion.reverse_complement [1, 1, 2, 4] = .ok rc ∧
      fileio.SequenceFileWriter.write_sequence_vector
        { filetype := .TXT, _file := [], sequences_written := 0 } rc = .ok rv1 ∧
      (oligocollector.OligoCollector.paired
          { filetype := .TXT, _file := [], sequences_written := 0 }
          { filetype := .TXT, _file := [], sequences_written := 0 }).collect_sequence_vector
          [1, 1, 2, 4] rng.sample_state
        = .ok ({ oligocollector.OligoCollector.paired
            { filetype := .TXT, _file := [], sequences_written := 0 }
            { filetype := .TXT, _file := [], sequences_written := 0 } with
            filewriter_fw := fw1, filewriter_rv := some rv1 }, rng.sample_state)) ∧
    (∃ fw1,
      fileio.SequenceFileWriter.write_sequence_vector
        { filetype := .BINARY, _file := [], sequences_written := 0 } [1, 1, 2, 4] = .ok fw1 ∧
      (oligocollector.OligoCollector.single
          { filetype := .BINARY, _file := [], sequences_written := 0 }).collect_sequence_vector
          [1, 1, 2, 4] rng.sample_state
        = .ok ({ oligocollector.OligoCollector.single
            { filetype := .BINARY, _file := [], sequences_written := 0 } with
            filewriter_fw := fw1 }, rng.sample_state)) := by
  obtain ⟨rc, hrc, h⟩ := C20_collector_writes.1
    { filetype := .TXT, _file := [], sequences_written := 0 }
    { filetype := .TXT, _file := [], sequences_written := 0 }
    { filetype := .TXT, _file := "AAAAGGG\n".toList, sequences_written := 1 }
    { filetype := .TXT, _file := "TTTTGGG\n".toList, sequences_written := 1 }
    [.SequencingAddAdapter { _adapter_vector := [3, 3, 3] }] [1, 1, 1, 1]
    [1, 1, 1, 1, 3, 3, 3] [4, 4, 4, 4, 3, 3, 3] [[1, 1, 1, 1, 3, 3, 3]]
    [[4, 4, 4, 4, 3, 3, 3]] rng.sample_state rng.sample_state rng.sample_state
    (by decide) rfl rfl (by decide)
  have h0 : conversion.reverse_complement [1, 1, 1, 1] = .ok [4, 4, 4, 4] := by decide
  rw [h0] at hrc
  cases hrc
  exact ⟨h rfl rfl (by decide),
    C20_collector_writes.2.1 _ _ [1, 1, 2, 4] rng.sample_state (by decide),
    C20_collector_writes.2.2 _ [1, 1, 2, 4] rng.sample_state (by decide)⟩

/-! ## Requested numbers of oligos in the two passes -/

namespace pipeline

theorem float_to_int_natCast (n : Int) : float_to_int (n : ℚ) = n := by
  unfold float_to_int
  split_ifs <;> simp

/-- Pass 2 passes `n_reads mean_sequencing_coverage n_sequences` to `sample_by_count`, with
the `n_sequences` it was given and a pool of `n_seqs` ones. -/
theorem recovery_and_sequencing_requests (reader : fileio.SequenceFileReader)
    (writer_fw writer_rv : fileio.SequenceFileWriter) (n_sequences : Int)
    (mean_sequencing_coverage : ℚ) (mutators sequencing_mutators : List mutator.BaseMutator)
    (r : Rng) (n_seqs : Int) (reader1 : fileio.SequenceFileReader)
    (hcount : reader.count_sequences = .ok (n_seqs, reader1)) (hn : 0 ≤ n_seqs)
    (e : Error)
    (hsample : coverage.sample_by_count (List.replicate n_seqs.toNat 1)
      (n_reads mean_sequencing_coverage n_sequences) r = .error e) :
    recovery_and_sequencing reader writer_fw writer_rv n_sequences mean_sequencing_coverage
      mutators sequencing_mutators r = .error e := by
  unfold recovery_and_sequencing
  rw [hcount]
  simp only [not_lt.mpr hn, if_false, hsample]

end pipeline

/-- C21 (refuted for fractional coverages): pass 2 computes its target as
`(int) mean_sequencing_coverage * n_sequences`, so the coverage is truncated before the
multiplication: a coverage of 1.5 with 10 designs requests 10 reads, not 15, and a coverage
of 0.5 requests 0 reads, on which `sample_by_count` throws.  The factor is the design count
handed to the function, whatever the intermediate file holds, and the product is exact for
whole coverages.  Pass 1 truncates its product `n_seqs * mean_physical_coverage` after
multiplying. -/
theorem C21_n_reads_truncates_coverage_first :
    pipeline.n_reads (3 / 2) 10 = 10 ∧ pipeline.n_reads (1 / 2) 10 = 0 ∧
    pipeline.n_sampled_oligos 10 (3 / 2) = 15 ∧ pipeline.n_sampled_oligos 10 (1 / 2) = 5 ∧
    (∀ (c n : Int), pipeline.n_reads (c : ℚ) n = c * n) ∧
    (∀ (pool : List Nat) (r : Rng),
      coverage.sample_by_count pool (pipeline.n_reads (1 / 2) 10) r
        = .error Error.number_of_sampled_oligos_less_than_one) := by
  have h1 : pipeline.float_to_int (3 / 2) = 1 := by
    unfold pipeline.float_to_int
    rw [if_pos (by norm_num), Int.floor_eq_iff]
    norm_num
  have h2 : pipeline.float_to_int (1 / 2) = 0 := by
    unfold pipeline.float_to_int
    rw [if_pos (by norm_num), Int.floor_eq_iff]
    norm_num
  have h3 : pipeline.float_to_int (((10 : Int) : ℚ) * (3 / 2)) = 15 := by
    have : (((10 : Int) : ℚ) * (3 / 2)) = ((15 : Int) : ℚ) := by norm_num
    rw [this, pipeline.float_to_int_natCast]
  have h4 : pipeline.float_to_int (((10 : Int) : ℚ) * (1 / 2)) = 5 := by
    have : (((10 : Int) : ℚ) * (1 / 2)) = ((5 : Int) : ℚ) := by norm_num
    rw [this, pipeline.float_to_int_natCast]
  refine ⟨?_, ?_, h3, h4, ?_, ?_⟩
  · rw [pipeline.n_reads, h1]; rfl
  · rw [pipeline.n_reads, h2]; rfl
  · intro c n
    simp [pipeline.n_reads, pipeline.float_to_int_natCast]
  · intro pool r
    rw [pipeline.n_reads, h2]
    simp [coverage.sample_by_count, coverage._sample_from_relative_coverage]

/-! ## Construction of the mutators -/

/-- C24: the constructors of InsertionEvents, DeletionEvents and BreakageEvents throw exactly
when the base preference does not have 4 entries, and the constructor of SubstitutionEvents
exactly when its preference list does not have 12 entries, whatever the rate, the entries
and the event lengths. -/
theorem C24_constructors_fail_iff_wrong_size (rate : ℚ) (P L : List ℚ) :
    ((∃ e, mutator.InsertionEvents.construct rate P L = .error e) ↔ P.length ≠ 4) ∧
    ((∃ e, mutator.DeletionEvents.construct rate P L = .error e) ↔ P.length ≠ 4) ∧
    ((∃ e, mutator.BreakageEvents.construct rate P = .error e) ↔ P.length ≠ 4) ∧
    ((∃ e, mutator.SubstitutionEvents.construct rate P L = .error e) ↔ P.length ≠ 12) := by
  refine ⟨?_, ?_, ?_, ?_⟩
  · unfold mutator.InsertionEvents.construct
    by_cases h : P.length = 4 <;> by_cases h2 : L.length = 0 <;> simp [h, h2]
  · unfold mutator.DeletionEvents.construct
    by_cases h : P.length = 4 <;> by_cases h2 : L.length = 0 <;> simp [h, h2]
  · unfold mutator.BreakageEvents.construct
    by_cases h : P.length = 4 <;> simp [h]
  · unfold mutator.SubstitutionEvents.construct
    by_cases h : P.length = 12 <;> by_cases h2 : L.length = 0 <;> simp [h, h2]

namespace mutator

theorem getD_map_div (l : List ℚ) (s : ℚ) (k : Nat) :
    (l.map (fun val => val / s)).getD k 0 = l.getD k 0 / s := by
  induction l generalizing k with
  | nil => simp
  | cons a l ih =>
    cases k with
    | zero => simp
    | succ k => simpa using ih k

theorem at_base_normalize_vector (P : List ℚ) (b : Int) :
    at_base (normalize_vector P) b = at_base P b / P.sum := by
  unfold at_base normalize_vector
  exact getD_map_div P P.sum _

theorem eq_of_length_eq_twelve (P : List ℚ) (h : P.length = 12) :
    ∃ a0 a1 a2 a3 a4 a5 a6 a7 a8 a9 a10 a11,
      P = [a0, a1, a2, a3, a4, a5, a6, a7, a8, a9, a10, a11] := by
  match P, h with
  | [a0, a1, a2, a3, a4, a5, a6, a7, a8, a9, a10, a11], _ =>
    exact ⟨a0, a1, a2, a3, a4, a5, a6, a7, a8, a9, a10, a11, rfl⟩

theorem row_sum (N : List ℚ) (k : Nat) :
    (SubstitutionEvents.row N k).sum
      = N.getD (k * 3) 0 + N.getD (k * 3 + 1) 0 + N.getD (k * 3 + 2) 0 := by
  have hrange3 : List.range 3 = [0, 1, 2] := rfl
  simp only [SubstitutionEvents.row, hrange3, List.map_cons, List.map_nil, List.sum_cons,
    List.sum_nil, add_zero]
  ring

theorem row_sum_normalize_vector (P : List ℚ) (k : Nat) :
    (SubstitutionEvents.row (normalize_vector P) k).sum
      = (P.getD (k * 3) 0 + P.getD (k * 3 + 1) 0 + P.getD (k * 3 + 2) 0) / P.sum := by
  rw [row_sum]
  unfold normalize_vector
  simp only [getD_map_div]
  ring

theorem sum_row_sums (P : List ℚ) (h : P.length = 12) :
    ((List.range 4).map (fun i =>
      (P.getD (i * 3) 0 + P.getD (i * 3 + 1) 0 + P.getD (i * 3 + 2) 0) / P.sum)).sum
      = P.sum / P.sum := by
  obtain ⟨a0, a1, a2, a3, a4, a5, a6, a7, a8, a9, a10, a11, rfl⟩ :=
    eq_of_length_eq_twelve P h
  have hrange : List.range 4 = [0, 1, 2, 3] := rfl
  generalize hT : ([a0, a1, a2, a3, a4, a5, a6, a7, a8, a9, a10, a11] : List ℚ).sum = T
  have hT2 : T = a0 + a1 + a2 + a3 + a4 + a5 + a6 + a7 + a8 + a9 + a10 + a11 := by
    rw [← hT]
    simp only [List.sum_cons, List.sum_nil]
    ring
  simp only [hrange, List.map_cons, List.map_nil, List.sum_cons, List.sum_nil,
    List.getD_cons_zero, List.getD_cons_succ, zero_mul, one_mul, zero_add, Nat.reduceMul,
    Nat.reduceAdd]
  rw [hT2]
  ring

/-- The preference per original base that the constructor of SubstitutionEvents stores: the
sum of the three entries of the row, divided by the sum of all twelve entries. -/
theorem substitution_construct_preference (rate : ℚ) (P L : List ℚ) (m : SubstitutionEvents)
    (hm : SubstitutionEvents.construct rate P L = .ok m) (hP : P.sum ≠ 0) (k : Nat)
    (hk : k < 4) :
    m.p_base_preference.getD k 0
      = (P.getD (k * 3) 0 + P.getD (k * 3 + 1) 0 + P.getD (k * 3 + 2) 0) / P.sum := by
  unfold SubstitutionEvents.construct at hm
  by_cases hlen : P.length = 12
  · have hp : m.p_base_preference = normalize_vector ((List.range 4).map (fun i =>
        (SubstitutionEvents.row (normalize_vector P) i).sum)) := by
      rw [if_neg (by simpa using hlen)] at hm
      by_cases hL : L.length = 0
      · simp only [hL, if_true] at hm
        cases hm
        rfl
      · simp only [hL, if_false] at hm
        cases hm
        rfl
    rw [hp]
    simp only [row_sum_normalize_vector]
    unfold normalize_vector
    rw [getD_map_div, sum_row_sums P hlen, div_self hP, div_one]
    have hrange : List.range 4 = [0, 1, 2, 3] := rfl
    rw [hrange]
    interval_cases k <;> rfl
  · rw [if_pos (by simpa using hlen)] at hm
    cases hm

end mutator

namespace mutator

theorem deletion_construct_preference {rate : ℚ} {P L : List ℚ} {m : DeletionEvents}
    (h : DeletionEvents.construct rate P L = .ok m) :
    m.p_base_preference = normalize_vector P := by
  unfold DeletionEvents.construct at h
  split_ifs at h <;> cases h <;> rfl

theorem breakage_construct_ok {rate : ℚ} {P : List ℚ} {m : BreakageEvents}
    (h : BreakageEvents.construct rate P = .ok m) :
    m.rate = rate ∧ m.p_base_preference = normalize_vector P := by
  unfold BreakageEvents.construct at h
  split_ifs at h
  cases h
  exact ⟨rfl, rfl⟩

theorem getElem?_p_event_by_position (rate : ℚ) (P : List ℚ) (o : List Int) (i : Nat)
    (b : Int) (hi : o[i]? = some b) :
    (p_event_by_position rate P o)[i]? = some (4 * rate * at_base P b) := by
  unfold p_event_by_position
  rw [List.getElem?_map, hi]
  rfl

theorem getD_replicate_twelve (c : ℚ) (k : Nat) (hk : k < 12) :
    (List.replicate 12 c).getD k 0 = c := by
  interval_cases k <;> rfl

end mutator

/-- C25: for a mutator built by its constructor from the rate `rate` and a preference vector
with positive sum, the event probability at a position holding the base `b` is
`4 * rate * P[b-1] / sum P` for DeletionEvents and BreakageEvents, and `4 * rate` times the
sum of the three entries of row `b-1` over the sum of all twelve for SubstitutionEvents;
with equal positive entries it is `rate`. -/
theorem C25_event_probability_by_position (rate : ℚ) (o : List Int) (i : Nat) (b : Int)
    (hi : o[i]? = some b) (hb : 1 ≤ b ∧ b ≤ 4) :
    (∀ (P L : List ℚ) (m : mutator.DeletionEvents),
      mutator.DeletionEvents.construct rate P L = .ok m → 0 < P.sum →
        (mutator.p_event_by_position m.rate m.p_base_preference o)[i]?
            = some (4 * rate * (P.getD (b - 1).toNat 0 / P.sum)) ∧
        (∀ c, P = [c, c, c, c] →
          (mutator.p_event_by_position m.rate m.p_base_preference o)[i]? = some rate)) ∧
    (∀ (P : List ℚ) (m : mutator.BreakageEvents),
      mutator.BreakageEvents.construct rate P = .ok m → 0 < P.sum →
        (mutator.p_event_by_position m.rate m.p_base_preference o)[i]?
            = some (4 * rate * (P.getD (b - 1).toNat 0 / P.sum)) ∧
        (∀ c, P = [c, c, c, c] →
          (mutator.p_event_by_position m.rate m.p_base_preference o)[i]? = some rate)) ∧
    (∀ (P L : List ℚ) (m : mutator.SubstitutionEvents),
      mutator.SubstitutionEvents.construct rate P L = .ok m → 0 < P.sum →
        (mutator.p_event_by_position m.rate m.p_base_preference o)[i]?
            = some (4 * rate * ((P.getD ((b - 1).toNat * 3) 0 + P.getD ((b - 1).toNat * 3 + 1) 0
                + P.getD ((b - 1).toNat * 3 + 2) 0) / P.sum)) ∧
        (∀ c, P = List.replicate 12 c →
          (mutator.p_event_by_position m.rate m.p_base_preference o)[i]? = some rate)) := by
  obtain ⟨k, hk, hk4⟩ : ∃ k : Nat, (b - 1).toNat = k ∧ k < 4 := ⟨_, rfl, by omega⟩
  have huniform : ∀ (P : List ℚ) (c : ℚ), 0 < P.sum → P = [c, c, c, c] →
      4 * rate * (P.getD k 0 / P.sum) = rate := by
    intro P c hP hc
    subst hc
    have hc0 : c ≠ 0 := by
      rintro rfl
      simp at hP
    have h4 : ([c, c, c, c] : List ℚ).sum = 4 * c := by
      simp only [List.sum_cons, List.sum_nil]
      ring
    have hg : ([c, c, c, c] : List ℚ).getD k 0 = c := by
      interval_cases k <;> rfl
    rw [h4, hg]
    field_simp
    ring
  refine ⟨?_, ?_, ?_⟩
  · intro P L m hm hP
    have h1 : (mutator.p_event_by_position m.rate m.p_base_preference o)[i]?
        = some (4 * rate * (P.getD (b - 1).toNat 0 / P.sum)) := by
      rw [mutator.getElem?_p_event_by_position _ _ _ _ _ hi, mutator.deletion_construct_rate hm,
        mutator.deletion_construct_preference hm, mutator.at_base_normalize_vector]
      rfl
    refine ⟨h1, ?_⟩
    intro c hc
    rw [h1, hk, huniform P c hP hc]
  · intro P m hm hP
    have h1 : (mutator.p_event_by_position m.rate m.p_base_preference o)[i]?
        = some (4 * rate * (P.getD (b - 1).toNat 0 / P.sum)) := by
      rw [mutator.getElem?_p_event_by_position _ _ _ _ _ hi, (mutator.breakage_construct_ok hm).1,
        (mutator.breakage_construct_ok hm).2, mutator.at_base_normalize_vector]
      rfl
    refine ⟨h1, ?_⟩
    intro c hc
    rw [h1, hk, huniform P c hP hc]
  · intro P L m hm hP
    have h1 : (mutator.p_event_by_position m.rate m.p_base_preference o)[i]?
        = some (4 * rate * ((P.getD ((b - 1).toNat * 3) 0 + P.getD ((b - 1).toNat * 3 + 1) 0
                + P.getD ((b - 1).toNat * 3 + 2) 0) / P.sum)) := by
      rw [mutator.getElem?_p_event_by_position _ _ _ _ _ hi,
        mutator.substitution_construct_rate hm]
      unfold mutator.at_base
      rw [hk, mutator.substitution_construct_preference rate P L m hm (ne_of_gt hP) k hk4]
    refine ⟨h1, ?_⟩
    intro c hc
    rw [h1, hk]
    subst hc
    have hc0 : c ≠ 0 := by
      rintro rfl
      simp at hP
    have h12 : (List.replicate 12 c).sum = 12 * c := by
      simp
      ring
    rw [h12, mutator.getD_replicate_twelve c _ (by omega),
      mutator.getD_replicate_twelve c _ (by omega), mutator.getD_replicate_twelve c _ (by omega)]
    field_simp
    ring

/-- C25 at the base C in the middle of the oligo ACG. -/
theorem C25_event_probability_by_position_witness :
    (∀ (P L : List ℚ) (m : mutator.DeletionEvents),
      mutator.DeletionEvents.construct (1 / 100) P L = .ok m → 0 < P.sum →
        (mutator.p_event_by_position m.rate m.p_base_preference [1, 2, 3])[1]?
            = some (4 * (1 / 100) * (P.getD ((2 : Int) - 1).toNat 0 / P.sum)) ∧
        (∀ c, P = [c, c, c, c] →
          (mutator.p_event_by_position m.rate m.p_base_preference [1, 2, 3])[1]?
            = some (1 / 100))) ∧
    (∀ (P : List ℚ) (m : mutator.BreakageEvents),
      mutator.BreakageEvents.construct (1 / 100) P = .ok m → 0 < P.sum →
        (mutator.p_event_by_position m.rate m.p_base_preference [1, 2, 3])[1]?
            = some (4 * (1 / 100) * (P.getD ((2 : Int) - 1).toNat 0 / P.sum)) ∧
        (∀ c, P = [c, c, c, c] →
          (mutator.p_event_by_position m.rate m.p_base_preference [1, 2, 3])[1]?
            = some (1 / 100))) ∧
    (∀ (P L : List ℚ) (m : mutator.SubstitutionEvents),
      mutator.SubstitutionEvents.construct (1 / 100) P L = .ok m → 0 < P.sum →
        (mutator.p_event_by_position m.rate m.p_base_preference [1, 2, 3])[1]?
            = some (4 * (1 / 100) * ((P.getD (((2 : Int) - 1).toNat * 3) 0
                + P.getD (((2 : Int) - 1).toNat * 3 + 1) 0
                + P.getD (((2 : Int) - 1).toNat * 3 + 2) 0) / P.sum)) ∧
        (∀ c, P = List.replicate 12 c →
          (mutator.p_event_by_position m.rate m.p_base_preference [1, 2, 3])[1]?
            = some (1 / 100))) :=
  C25_event_probability_by_position (1 / 100) [1, 2, 3] 1 2 rfl (by decide)

/-- C23 (counterexample): the constructors accept the preference `[0, 0, 0, 0]`, whose
weights sum to zero, and the constructor of EndShreds has no failure path at all. -/
theorem C23_zero_sum_preference_constructs :
    (∃ m, mutator.InsertionEvents.construct (1 / 100) [0, 0, 0, 0] [] = .ok m) ∧
    (∃ m, mutator.DeletionEvents.construct (1 / 100) [0, 0, 0, 0] [] = .ok m) ∧
    (∃ m, mutator.BreakageEvents.construct (1 / 100) [0, 0, 0, 0] = .ok m) ∧
    (∃ m, mutator.EndShreds.construct [0, 0] = m) :=
  ⟨⟨_, rfl⟩, ⟨_, rfl⟩, ⟨_, rfl⟩, ⟨_, rfl⟩⟩

/-- C23 (amended): a preference vector whose weights sum to zero is not rejected.  With 4
entries it gives an InsertionEvents, a DeletionEvents and a BreakageEvents mutator, with 12
entries a SubstitutionEvents mutator, and EndShreds is built from any vector; the only
check of the constructors is the number of entries. -/
theorem C23_zero_sum_preference_is_accepted (rate : ℚ) (P L : List ℚ) (hsum : P.sum = 0) :
    (P.length = 4 →
      (∃ m, mutator.InsertionEvents.construct rate P L = .ok m) ∧
      (∃ m, mutator.DeletionEvents.construct rate P L = .ok m) ∧
      (∃ m, mutator.BreakageEvents.construct rate P = .ok m)) ∧
    (P.length = 12 → ∃ m, mutator.SubstitutionEvents.construct rate P L = .ok m) ∧
    (∃ m, mutator.EndShreds.construct P = m) := by
  refine ⟨?_, ?_, ⟨_, rfl⟩⟩
  · intro h
    refine ⟨?_, ?_, ?_⟩
    · unfold mutator.InsertionEvents.construct
      by_cases h2 : L.length = 0 <;> simp [h, h2]
    · unfold mutator.DeletionEvents.construct
      by_cases h2 : L.length = 0 <;> simp [h, h2]
    · unfold mutator.BreakageEvents.construct
      simp [h]
  · intro h
    unfold mutator.SubstitutionEvents.construct
    by_cases h2 : L.length = 0 <;> simp [h, h2]

/-- C23 (amended) at the preference `[0, 0, 0, 0]` with two event lengths. -/
theorem C23_zero_sum_preference_is_accepted_witness :
    ([0, 0, 0, 0] : List ℚ).sum = 0 ∧
    (∃ m, mutator.InsertionEvents.construct (1 / 2) [0, 0, 0, 0] [1, 1] = .ok m) ∧
    (∃ m, mutator.DeletionEvents.construct (1 / 2) [0, 0, 0, 0] [1, 1] = .ok m) ∧
    (∃ m, mutator.BreakageEvents.construct (1 / 2) [0, 0, 0, 0] = .ok m) :=
  ⟨by norm_num,
    (C23_zero_sum_preference_is_accepted (1 / 2) [0, 0, 0, 0] [1, 1] (by norm_num)).1 rfl⟩

/-! ## The writer's records -/

namespace conversion

theorem vector_to_sequence_loop_letter (o : List Int) (ho : ∀ b ∈ o, 1 ≤ b ∧ b ≤ 4) :
    ∀ acc, vector_to_sequence_loop o acc = .ok (acc ++ o.map letter) := by
  induction o with
  | nil => intro acc; simp [vector_to_sequence_loop]
  | cons b bs ih =>
    intro acc
    have hb := ho b (List.mem_cons_self _ _)
    have ih := ih (fun d hd => ho d (List.mem_cons_of_mem _ hd))
    have hb4 : b = 1 ∨ b = 2 ∨ b = 3 ∨ b = 4 := by omega
    rcases hb4 with h | h | h | h <;> subst h <;>
      simp [vector_to_sequence_loop, letter, ih]

theorem vector_to_sequence_letter (o : List Int) (ho : ∀ b ∈ o, 1 ≤ b ∧ b ≤ 4) :
    vector_to_sequence o = .ok (o.map letter) := by
  unfold vector_to_sequence
  rw [vector_to_sequence_loop_letter o ho]
  simp

end conversion

namespace fileio

theorem decimal_zero (width : Nat) : decimal width 0 = List.replicate width '0' := by
  induction width with
  | zero => rfl
  | succ w ih =>
    rw [decimal, Nat.zero_div, ih, List.replicate_succ']
    rfl

theorem length_decimal (width n : Nat) : (decimal width n).length = width := by
  induction width generalizing n with
  | zero => rfl
  | succ w ih => simp [decimal, ih]

theorem toDigitsCore_eq_decimal (width : Nat) :
    ∀ (fuel n : Nat) (ds : List Char), n < fuel → n < 10 ^ (width + 1) →
      ∃ z, z + (Nat.toDigitsCore 10 fuel n ds).length = width + 1 + ds.length ∧
        List.replicate z '0' ++ Nat.toDigitsCore 10 fuel n ds = decimal (width + 1) n ++ ds := by
  induction width with
  | zero =>
    intro fuel n ds hfuel hn
    cases fuel with
    | zero => omega
    | succ fuel =>
      have h0 : n / 10 = 0 := by omega
      refine ⟨0, ?_, ?_⟩
      · simp [Nat.toDigitsCore, h0]
        omega
      · simp [Nat.toDigitsCore, h0, decimal]
  | succ w ih =>
    intro fuel n ds hfuel hn
    cases fuel with
    | zero => omega
    | succ fuel =>
      by_cases h0 : n / 10 = 0
      · refine ⟨w + 1, ?_, ?_⟩
        · simp [Nat.toDigitsCore, h0]
          omega
        · have hd : decimal (w + 1 + 1) n = decimal (w + 1) 0 ++ [Nat.digitChar (n % 10)] := by
            rw [decimal, h0]
          rw [hd, decimal_zero]
          simp [Nat.toDigitsCore, h0]
      · have hlt : n / 10 < fuel := by omega
        have hpow : n / 10 < 10 ^ (w + 1) := by
          rw [Nat.div_lt_iff_lt_mul (by norm_num)]
          rw [pow_succ] at hn
          exact hn
        obtain ⟨z, hz1, hz2⟩ := ih fuel (n / 10) (Nat.digitChar (n % 10) :: ds) hlt hpow
        refine ⟨z, ?_, ?_⟩
        · simp only [Nat.toDigitsCore, h0, if_false]
          simp only [List.length_cons] at hz1
          omega
        · simp only [Nat.toDigitsCore, h0, if_false]
          rw [hz2]
          simp [decimal]

/-- The format `{:09}` writes a count below `10 ^ 9` as its nine decimal digits. -/
theorem format_09_eq_decimal (n : Nat) (hn : n < 10 ^ 9) : format_09 n = decimal 9 n := by
  obtain ⟨z, hz1, hz2⟩ := toDigitsCore_eq_decimal 8 (n + 1) n [] (Nat.lt_succ_self n) hn
  unfold format_09 Nat.toDigits
  have hz : 9 - (Nat.toDigitsCore 10 (n + 1) n []).length = z := by
    simp only [List.length_nil] at hz1
    omega
  rw [hz, hz2, List.append_nil]

theorem write_all_valid (oligos : List (List Int))
    (ho : ∀ o ∈ oligos, ∀ b ∈ o, 1 ≤ b ∧ b ≤ 4) :
    ∀ w : SequenceFileWriter, ∃ w1, w.write_all oligos = .ok w1 ∧
      w1.filetype = w.filetype ∧
      w1.sequences_written = w.sequences_written + oligos.length := by
  induction oligos with
  | nil => intro w; exact ⟨w, rfl, rfl, rfl⟩
  | cons o os ih =>
    intro w
    have hs := conversion.vector_to_sequence_letter o (ho o (List.mem_cons_self _ _))
    have ih := ih (fun o1 h1 => ho o1 (List.mem_cons_of_mem _ h1))
    have hstep : ∃ w1, w.write_sequence_vector o = .ok w1 ∧ w1.filetype = w.filetype ∧
        w1.sequences_written = w.sequences_written + 1 := by
      simp only [SequenceFileWriter.write_sequence_vector, hs]
      cases hft : w.filetype <;> exact ⟨_, rfl, hft.symm ▸ rfl, rfl⟩
    obtain ⟨w1, h1, h2, h3⟩ := hstep
    obtain ⟨w2, h4, h5, h6⟩ := ih w1
    refine ⟨w2, ?_, ?_, ?_⟩
    · simp only [SequenceFileWriter.write_all, h1, h4]
    · rw [h5, h2]
    · rw [h6, h3, List.length_cons]
      omega

end fileio

/-- C29: after a freshly opened writer has written `k` valid oligos (`k < 10 ^ 9`) its
counter is `k`, and the next write of a valid oligo appends, in FASTA mode, the line
`>Oligo_` with the nine decimal digits of `k` and the line of the decoded bases; in FASTQ
mode the line `@Oligo_` with the same digits, the decoded bases, the line `+` and a line of
as many `F` as the oligo has entries; in text mode only the line of the decoded bases.  The
counter becomes `k + 1`. -/
theorem C29_kth_write_format (fs fs1 : fileio.FileSystem) (filename : List Char)
    (filetype : fileio.WriteFileType) (w0 : fileio.SequenceFileWriter)
    (oligos : List (List Int)) (oligo : List Int)
    (hopen : fileio.SequenceFileWriter.construct fs filename filetype = .ok (w0, fs1))
    (ho : ∀ o ∈ oligos, ∀ b ∈ o, 1 ≤ b ∧ b ≤ 4) (holigo : ∀ b ∈ oligo, 1 ≤ b ∧ b ≤ 4)
    (hk : oligos.length < 10 ^ 9) :
    ∃ w, w0.write_all oligos = .ok w ∧ w.sequences_written = oligos.length ∧
      ∃ w1, w.write_sequence_vector oligo = .ok w1 ∧
        w1.sequences_written = oligos.length + 1 ∧
        (filetype = .FASTA →
          w1._file = w._file ++ ">Oligo_".toList ++ fileio.decimal 9 oligos.length ++ ['\n']
            ++ oligo.map conversion.letter ++ ['\n']) ∧
        (filetype = .FASTQ →
          w1._file = w._file ++ "@Oligo_".toList ++ fileio.decimal 9 oligos.length ++ ['\n']
            ++ oligo.map conversion.letter ++ ['\n'] ++ ['+', '\n']
            ++ List.replicate oligo.length 'F' ++ ['\n']) ∧
        (filetype = .TXT → w1._file = w._file ++ oligo.map conversion.letter ++ ['\n']) := by
  have hw0 : w0.filetype = filetype ∧ w0.sequences_written = 0 := by
    unfold fileio.SequenceFileWriter.construct at hopen
    split_ifs at hopen
    cases hopen
    exact ⟨rfl, rfl⟩
  obtain ⟨w, hw, hft, hcount⟩ := fileio.write_all_valid oligos ho w0
  rw [hw0.1] at hft
  rw [hw0.2, Nat.zero_add] at hcount
  have hs := conversion.vector_to_sequence_letter oligo holigo
  refine ⟨w, hw, hcount, ?_⟩
  have hfmt : fileio.format_09 w.sequences_written = fileio.decimal 9 oligos.length := by
    rw [hcount, fileio.format_09_eq_decimal _ hk]
  cases filetype
  · have hstep : w.write_sequence_vector oligo = .ok
        { filetype := .BINARY,
          _file := w._file ++ oligo.map fileio.to_char
            ++ [fileio.to_char constants.NUCLEOTIDE_NEXTOLIGO],
          sequences_written := w.sequences_written + 1 } := by
      simp only [fileio.SequenceFileWriter.write_sequence_vector, hft]
    refine ⟨_, hstep, ?_, ?_, ?_, ?_⟩
    · simp [hcount]
    · intro h; cases h
    · intro h; cases h
    · intro h; cases h
  · have hstep : w.write_sequence_vector oligo = .ok
        { filetype := .TXT, _file := w._file ++ oligo.map conversion.letter ++ ['\n'],
          sequences_written := w.sequences_written + 1 } := by
      simp only [fileio.SequenceFileWriter.write_sequence_vector, hft, hs]
    refine ⟨_, hstep, ?_, ?_, ?_, ?_⟩
    · simp [hcount]
    · intro h; cases h
    · intro h; cases h
    · intro _; rfl
  · have hstep : w.write_sequence_vector oligo = .ok
        { filetype := .FASTA,
          _file := w._file ++ ">Oligo_".toList ++ fileio.format_09 w.sequences_written
            ++ ['\n'] ++ oligo.map conversion.letter ++ ['\n'],
          sequences_written := w.sequences_written + 1 } := by
      simp only [fileio.SequenceFileWriter.write_sequence_vector, hft, hs]
    refine ⟨_, hstep, ?_, ?_, ?_, ?_⟩
    · simp [hcount]
    · intro _
      simp only [hfmt]
    · intro h; cases h
    · intro h; cases h
  · have hstep : w.write_sequence_vector oligo = .ok
        { filetype := .FASTQ,
          _file := w._file ++ "@Oligo_".toList ++ fileio.format_09 w.sequences_written
            ++ ['\n'] ++ oligo.map conversion.letter ++ "\n+\n".toList
            ++ List.replicate (oligo.map conversion.letter).length 'F' ++ ['\n'],
          sequences_written := w.sequences_written + 1 } := by
      simp only [fileio.SequenceFileWriter.write_sequence_vector, hft, hs]
    refine ⟨_, hstep, ?_, ?_, ?_, ?_⟩
    · simp [hcount]
    · intro h; cases h
    · intro _
      simp only [hfmt, List.length_map]
      simp
    · intro h; cases h

/-- C29 for the second write of a FASTQ writer. -/
theorem C29_kth_write_format_witness :
    fileio.SequenceFileWriter.construct fileio.empty_disk "R1.fq".toList .FASTQ
      = .ok ({ filetype := .FASTQ, _file := [], sequences_written := 0 },
          fileio.empty_disk.write "R1.fq".toList []) ∧
    ∃ w, fileio.SequenceFileWriter.write_all
        { filetype := .FASTQ, _file := [], sequences_written := 0 } [[1, 2]] = .ok w ∧
      w.sequences_written = 1 ∧
      ∃ w1, w.write_sequence_vector [3, 4, 4] = .ok w1 ∧ w1.sequences_written = 2 ∧
        w1._file = w._file ++ "@Oligo_".toList ++ fileio.decimal 9 1 ++ ['\n']
            ++ [3, 4, 4].map conversion.letter ++ ['\n'] ++ ['+', '\n']
            ++ List.replicate 3 'F' ++ ['\n'] := by
  obtain ⟨w, h1, h2, w1, h3, h4, -, h5, -⟩ :=
    C29_kth_write_format fileio.empty_disk _ "R1.fq".toList .FASTQ _ [[1, 2]] [3, 4, 4] rfl
      (by decide) (by decide) (by norm_num)
  exact ⟨rfl, w, h1, h2, w1, h3, h4, h5 rfl⟩

/-! ## The reader in text mode -/

namespace fileio

theorem getline_loop_eq (cs : List Char) :
    ∀ (c : Char) (line : List Char), ∃ l rest,
      getline_loop (c :: cs) line = (line ++ l, rest) ∧
      split_lines (c :: cs) = l :: split_lines rest ∧ rest.length ≤ cs.length := by
  induction cs with
  | nil =>
    intro c line
    by_cases hc : c = '\n'
    · exact ⟨[], [], by simp [getline_loop, hc], by simp [split_lines, hc], le_refl _⟩
    · exact ⟨[c], [], by simp [getline_loop, hc], by simp [split_lines, hc], le_refl _⟩
  | cons d ds ih =>
    intro c line
    by_cases hc : c = '\n'
    · refine ⟨[], d :: ds, by simp [getline_loop, hc], ?_, le_refl _⟩
      rw [split_lines, if_pos hc]
    · obtain ⟨l, rest, h1, h2, h3⟩ := ih d (line ++ [c])
      refine ⟨c :: l, rest, ?_, ?_, ?_⟩
      · rw [getline_loop, if_neg hc, h1]
        simp
      · rw [split_lines, if_neg hc, h2]
      · simp only [List.length_cons]
        omega

theorem check_valid_sequence_string_eq (rd : SequenceFileReader) (line : List Char) :
    rd.check_valid_sequence_string line
      = if valid_line line then (true, { rd with valid_sequences := rd.valid_sequences + 1 })
        else (false, { rd with skipped_lines := rd.skipped_lines + 1 }) := by
  cases line with
  | nil => rfl
  | cons c0 cs =>
    simp only [SequenceFileReader.check_valid_sequence_string]
    by_cases h0 : c0 = '>' ∨ c0 = '@' ∨ c0 = '+'
    · have hv : valid_line (c0 :: cs) = false := by
        rcases h0 with h | h | h <;> subst h <;> simp [valid_line]
      simp [h0, hv]
    · by_cases hany : (c0 :: cs).any (fun c => decide (c ≠ 'A' ∧ c ≠ 'C' ∧ c ≠ 'G' ∧ c ≠ 'T'))
          = true
      · have hv : valid_line (c0 :: cs) = false := by
          rw [List.any_eq_true] at hany
          obtain ⟨c, hc, hc2⟩ := hany
          simp only [valid_line, Bool.and_eq_false_iff]
          right
          rw [List.all_eq_false]
          refine ⟨c, hc, ?_⟩
          simp only [decide_eq_true_eq] at hc2
          simp [hc2.1, hc2.2.1, hc2.2.2.1, hc2.2.2.2]
        simp only [hv]
        rw [if_neg h0, if_pos hany]
        simp
      · have hv : valid_line (c0 :: cs) = true := by
          simp only [valid_line, Bool.and_eq_true, decide_eq_true_eq]
          refine ⟨List.cons_ne_nil _ _, ?_⟩
          rw [List.all_eq_true]
          intro c hc
          by_contra hcon
          apply hany
          rw [List.any_eq_true]
          refine ⟨c, hc, ?_⟩
          simp only [decide_eq_true_eq, not_or] at hcon
          simpa using hcon
        simp only [hv]
        rw [if_neg h0, if_neg hany]
        simp

theorem valid_line_chars (line : List Char) (h : valid_line line = true) :
    line ≠ [] ∧ ∀ c ∈ line, c = 'A' ∨ c = 'C' ∨ c = 'G' ∨ c = 'T' := by
  simp only [valid_line, Bool.and_eq_true, decide_eq_true_eq, List.all_eq_true] at h
  exact h

end fileio

namespace fileio

theorem after_after (rd : SequenceFileReader) (f g : List Char) (s v s1 v1 : Nat) :
    (rd.after f s v).after g s1 v1 = rd.after g (s + s1) (v + v1) := by
  simp only [SequenceFileReader.after, Nat.cast_add, add_assoc]

theorem after_self (rd : SequenceFileReader) : rd.after rd._file 0 0 = rd := by
  cases rd
  simp [SequenceFileReader.after]

theorem get_sequence_loop_text_nil (rd : SequenceFileReader) (bound : Nat)
    (hft : rd.filetype = .ANY) (hfile : rd._file = []) :
    SequenceFileReader.get_sequence_loop (bound + 1) rd = .ok (none, rd) := by
  simp [SequenceFileReader.get_sequence_loop, SequenceFileReader._getline_string, hft, hfile]

theorem get_sequence_loop_text_cons (rd : SequenceFileReader) (bound : Nat)
    (hft : rd.filetype = .ANY) (c : Char) (cs line rest : List Char)
    (hfile : rd._file = c :: cs) (hline : getline_loop (c :: cs) [] = (line, rest)) :
    SequenceFileReader.get_sequence_loop (bound + 1) rd
      = if valid_line line then .ok (some (line.map conversion.code), rd.after rest 0 1)
        else SequenceFileReader.get_sequence_loop bound (rd.after rest 1 0) := by
  have hget : rd._getline_string = .ok (true, line, { rd with _file := rest }) := by
    simp [SequenceFileReader._getline_string, hft, hfile, hline]
  rw [SequenceFileReader.get_sequence_loop]
  simp only [hft, hget, check_valid_sequence_string_eq]
  by_cases hv : valid_line line = true
  · have hs : conversion.sequence_to_vector line = .ok (line.map conversion.code) := by
      unfold conversion.sequence_to_vector
      rw [conversion.sequence_to_vector_loop_valid line (valid_line_chars line hv).2]
      simp
    simp [hv, hs, SequenceFileReader.after, hft]
  · simp [hv, SequenceFileReader.after, hft]

/-- One call of the reading loop in text mode: either no valid line is left, every remaining
line is counted as skipped and the stream is exhausted; or the lines before the first valid
one are counted as skipped and that line is returned. -/
theorem get_sequence_loop_text (n : Nat) :
    ∀ (rd : SequenceFileReader), rd.filetype = .ANY → rd._file.length ≤ n →
      ∀ bound, rd._file.length < bound →
        ((split_lines rd._file).filter valid_line = [] ∧
          SequenceFileReader.get_sequence_loop bound rd
            = .ok (none, rd.after [] (split_lines rd._file).length 0)) ∨
        (∃ pre line rest, split_lines rd._file = pre ++ line :: split_lines rest ∧
          pre.filter valid_line = [] ∧ valid_line line = true ∧
          rest.length < rd._file.length ∧
          SequenceFileReader.get_sequence_loop bound rd
            = .ok (some (line.map conversion.code), rd.after rest pre.length 1)) := by
  induction n with
  | zero =>
    intro rd hft hlen bound hbound
    have hfile : rd._file = [] := List.length_eq_zero.mp (Nat.le_zero.mp hlen)
    left
    obtain ⟨b, rfl⟩ : ∃ b, bound = b + 1 := ⟨bound - 1, by omega⟩
    rw [get_sequence_loop_text_nil rd b hft hfile, hfile]
    refine ⟨rfl, ?_⟩
    have := after_self rd
    rw [hfile] at this
    simp [split_lines, this]
  | succ n ih =>
    intro rd hft hlen bound hbound
    obtain ⟨b, rfl⟩ : ∃ b, bound = b + 1 := ⟨bound - 1, by omega⟩
    cases hfile : rd._file with
    | nil =>
      left
      rw [get_sequence_loop_text_nil rd b hft hfile]
      refine ⟨rfl, ?_⟩
      have := after_self rd
      rw [hfile] at this
      simp [split_lines, this]
    | cons c cs =>
      obtain ⟨line, rest, h1, h2, h3⟩ := getline_loop_eq cs c []
      rw [List.nil_append] at h1
      rw [get_sequence_loop_text_cons rd b hft c cs line rest hfile h1, h2]
      rw [hfile] at hlen hbound
      simp only [List.length_cons] at hlen hbound
      by_cases hv : valid_line line = true
      · right
        refine ⟨[], line, rest, rfl, rfl, hv, ?_, ?_⟩
        · simp only [List.length_cons]
          omega
        · simp [hv]
      · have hrd : (rd.after rest 1 0)._file = rest := rfl
        rcases ih (rd.after rest 1 0) hft (by rw [hrd]; omega) b (by rw [hrd]; omega) with
          ⟨h4, h5⟩ | ⟨pre, line1, rest1, h4, h5, h6, h7, h8⟩
        · left
          rw [hrd] at h4 h5
          refine ⟨?_, ?_⟩
          · simp [List.filter_cons, hv, h4]
          · simp only [hv, Bool.false_eq_true, if_false, h5, after_after, List.length_cons]
            congr 3
            omega
        · right
          rw [hrd] at h4 h7
          refine ⟨line :: pre, line1, rest1, ?_, ?_, h6, ?_, ?_⟩
          · rw [h4]
            rfl
          · simp [List.filter_cons, hv, h5]
          · simp only [List.length_cons]
            omega
          · simp only [hv, Bool.false_eq_true, if_false, h8, after_after, List.length_cons]
            congr 3
            omega

/-- Reading a text stream to its end. -/
theorem read_all_text (n : Nat) :
    ∀ (rd : SequenceFileReader), rd.filetype = .ANY → rd._file.length ≤ n →
      ∀ bound, rd._file.length < bound →
        rd.read_all bound = .ok
          (((split_lines rd._file).filter valid_line).map (fun line => line.map conversion.code),
            rd.after [] ((split_lines rd._file).filter (fun line => !valid_line line)).length
              ((split_lines rd._file).filter valid_line).length) := by
  induction n with
  | zero =>
    intro rd hft hlen bound hbound
    obtain ⟨b, rfl⟩ : ∃ b, bound = b + 1 := ⟨bound - 1, by omega⟩
    have hfile : rd._file = [] := List.length_eq_zero.mp (Nat.le_zero.mp hlen)
    have hself := after_self rd
    rw [hfile] at hself
    rw [SequenceFileReader.read_all, SequenceFileReader.get_sequence, hfile,
      get_sequence_loop_text_nil rd _ hft hfile]
    simp [split_lines, hself]
  | succ n ih =>
    intro rd hft hlen bound hbound
    obtain ⟨b, rfl⟩ : ∃ b, bound = b + 1 := ⟨bound - 1, by omega⟩
    rw [SequenceFileReader.read_all, SequenceFileReader.get_sequence]
    rcases get_sequence_loop_text (n + 1) rd hft hlen (rd._file.length + 1) (Nat.lt_succ_self _)
      with ⟨h1, h2⟩ | ⟨pre, line, rest, h1, h2, h3, h4, h5⟩
    · rw [h2]
      have hinv : (split_lines rd._file).filter (fun line => !valid_line line)
          = split_lines rd._file := by
        rw [List.filter_eq_self]
        intro l hl
        have : l ∉ (split_lines rd._file).filter valid_line := by rw [h1]; simp
        rw [List.mem_filter] at this
        simpa [hl] using this
      simp [h1, hinv]
    · rw [h5]
      have hrd : (rd.after rest pre.length 1)._file = rest := rfl
      have hft1 : (rd.after rest pre.length 1).filetype = .ANY := hft
      have h6 := ih (rd.after rest pre.length 1) hft1 (by rw [hrd]; omega) b (by rw [hrd]; omega)
      rw [hrd] at h6
      simp only [h6, after_after]
      have hpre : pre.filter (fun line => !valid_line line) = pre := by
        rw [List.filter_eq_self]
        intro l hl
        have : l ∉ pre.filter valid_line := by rw [h2]; simp
        rw [List.mem_filter] at this
        simpa [hl] using this
      rw [h1]
      simp only [List.filter_append, List.filter_cons, h2, h3, hpre, if_true, List.nil_append,
        List.map_cons, Bool.not_true, Bool.false_eq_true, if_false, List.length_append,
        List.length_cons]
      congr 3
      omega

end fileio

/-- C27: calling `get_sequence` on a text reader until it returns `false` succeeds and
yields, in file order, `sequence_to_vector` of exactly the lines that are non-empty and
consist only of A, C, G, T; each of these adds one to `valid_sequences`, every other line
adds one to `skipped_lines`, and afterwards the reader has nothing more to return. -/
theorem C27_text_reader_yields_valid_lines (rd : fileio.SequenceFileReader)
    (hft : rd.filetype = .ANY) :
    ∃ sequences rd1, rd.read_all (rd._file.length + 1) = .ok (sequences, rd1) ∧
      sequences.map (fun v => (Except.ok v : Except Error (List Int)))
        = ((fileio.split_lines rd._file).filter fileio.valid_line).map
            conversion.sequence_to_vector ∧
      rd1.valid_sequences = rd.valid_sequences
        + ((fileio.split_lines rd._file).filter fileio.valid_line).length ∧
      rd1.skipped_lines = rd.skipped_lines
        + ((fileio.split_lines rd._file).filter (fun line => !fileio.valid_line line)).length ∧
      rd1.get_sequence = .ok (none, rd1) := by
  refine ⟨_, _, fileio.read_all_text _ rd hft (le_refl _) _ (Nat.lt_succ_self _), ?_, rfl, rfl,
    ?_⟩
  · rw [List.map_map]
    apply List.map_congr_left
    intro line hline
    rw [List.mem_filter] at hline
    simp only [Function.comp]
    unfold conversion.sequence_to_vector
    rw [conversion.sequence_to_vector_loop_valid line (fileio.valid_line_chars line hline.2).2]
    simp
  · exact fileio.get_sequence_loop_text_nil _ _ hft rfl

/-- C27 on a file with a header, two valid lines, an empty line, a lower-case line and a
line with N. -/
theorem C27_text_reader_yields_valid_lines_witness :
    ∃ sequences rd1,
      fileio.SequenceFileReader.read_all (">seq1\nACGT\n\nacgt\nANNA\nTTGA".toList.length + 1)
        { filetype := .ANY, _file := ">seq1\nACGT\n\nacgt\nANNA\nTTGA".toList,
          _contents := ">seq1\nACGT\n\nacgt\nANNA\nTTGA".toList, skipped_lines := 0,
          valid_sequences := 0 } = .ok (sequences, rd1) ∧
      sequences.map (fun v => (Except.ok v : Except Error (List Int)))
        = ((fileio.split_lines ">seq1\nACGT\n\nacgt\nANNA\nTTGA".toList).filter
            fileio.valid_line).map conversion.sequence_to_vector ∧
      ((fileio.split_lines ">seq1\nACGT\n\nacgt\nANNA\nTTGA".toList).filter
            fileio.valid_line).map conversion.sequence_to_vector
        = [.ok [1, 2, 3, 4], .ok [4, 4, 3, 1]] ∧
      rd1.valid_sequences = 2 ∧ rd1.skipped_lines = 4 := by
  obtain ⟨sequences, rd1, h1, h2, h3, h4, -⟩ := C27_text_reader_yields_valid_lines
    { filetype := .ANY, _file := ">seq1\nACGT\n\nacgt\nANNA\nTTGA".toList,
      _contents := ">seq1\nACGT\n\nacgt\nANNA\nTTGA".toList, skipped_lines := 0,
      valid_sequences := 0 } rfl
  refine ⟨sequences, rd1, h1, h2, by decide, ?_, ?_⟩
  · rw [h3]
    decide
  · rw [h4]
    decide

/-! ## The binary file -/

namespace fileio

theorem of_char_to_char (b : Int) (hb : 1 ≤ b ∧ b ≤ 4) : of_char (to_char b) = b := by
  have h4 : b = 1 ∨ b = 2 ∨ b = 3 ∨ b = 4 := by omega
  rcases h4 with h | h | h | h <;> subst h <;> decide

theorem _getline_vector_loop_record (oligo : List Int) (ho : ∀ b ∈ oligo, 1 ≤ b ∧ b ≤ 4)
    (rest : List Char) :
    ∀ sequence, _getline_vector_loop
        (oligo.map to_char ++ to_char constants.NUCLEOTIDE_NEXTOLIGO :: rest) sequence
      = (true, sequence ++ oligo, rest) := by
  induction oligo with
  | nil =>
    intro sequence
    have h : of_char (to_char constants.NUCLEOTIDE_NEXTOLIGO) = constants.NUCLEOTIDE_NEXTOLIGO := by
      decide
    simp [_getline_vector_loop, h]
  | cons b bs ih =>
    intro sequence
    have hb := ho b (List.mem_cons_self _ _)
    have h1 := of_char_to_char b hb
    have h2 : ¬ of_char (to_char b) = constants.NUCLEOTIDE_NEXTOLIGO := by
      rw [h1]
      show ¬ b = 127
      omega
    rw [List.map_cons, List.cons_append, _getline_vector_loop, if_neg h2,
      ih (fun d hd => ho d (List.mem_cons_of_mem _ hd)), h1]
    simp

theorem check_valid_sequence_vector_valid (rd : SequenceFileReader) (oligo : List Int)
    (hne : oligo ≠ []) (ho : ∀ b ∈ oligo, 1 ≤ b ∧ b ≤ 4) :
    rd.check_valid_sequence_vector oligo = (true, rd.after rd._file 0 1) := by
  have hany : oligo.any (fun c => decide (c ≠ constants.NUCLEOTIDE_A ∧
      c ≠ constants.NUCLEOTIDE_C ∧ c ≠ constants.NUCLEOTIDE_G ∧ c ≠ constants.NUCLEOTIDE_T))
      = false := by
    rw [List.any_eq_false]
    intro b hb
    have := ho b hb
    simp only [decide_eq_true_eq, not_and_or, not_not]
    show b = 1 ∨ b = 2 ∨ b = 3 ∨ b = 4
    omega
  unfold SequenceFileReader.check_valid_sequence_vector
  rw [if_neg hne, hany]
  simp [SequenceFileReader.after]

theorem binary_records_cons (oligo : List Int) (oligos : List (List Int)) :
    binary_records (oligo :: oligos)
      = oligo.map to_char ++ to_char constants.NUCLEOTIDE_NEXTOLIGO :: binary_records oligos := by
  simp [binary_records]

theorem get_sequence_loop_binary_nil (rd : SequenceFileReader) (bound : Nat)
    (hft : rd.filetype = .BINARY) (hfile : rd._file = []) :
    SequenceFileReader.get_sequence_loop (bound + 1) rd = .ok (none, rd) := by
  have hself := after_self rd
  rw [hfile] at hself
  simp [SequenceFileReader.get_sequence_loop, SequenceFileReader._getline_vector, hft, hfile,
    _getline_vector_loop]
  rw [← hft]
  simpa [SequenceFileReader.after] using hself

theorem get_sequence_loop_binary_record (rd : SequenceFileReader) (bound : Nat)
    (hft : rd.filetype = .BINARY) (oligo : List Int) (rest : List Char)
    (hne : oligo ≠ []) (ho : ∀ b ∈ oligo, 1 ≤ b ∧ b ≤ 4)
    (hfile : rd._file = oligo.map to_char ++ to_char constants.NUCLEOTIDE_NEXTOLIGO :: rest) :
    SequenceFileReader.get_sequence_loop (bound + 1) rd
      = .ok (some oligo, rd.after rest 0 1) := by
  have hget : rd._getline_vector = .ok (true, oligo, { rd with _file := rest }) := by
    simp [SequenceFileReader._getline_vector, hft, hfile,
      _getline_vector_loop_record oligo ho rest []]
  rw [SequenceFileReader.get_sequence_loop]
  simp only [hft, hget, check_valid_sequence_vector_valid _ oligo hne ho]
  simp [SequenceFileReader.after, hft]

/-- Reading a stream of binary records to its end. -/
theorem read_all_binary (oligos : List (List Int))
    (ho : ∀ o ∈ oligos, o ≠ [] ∧ ∀ b ∈ o, 1 ≤ b ∧ b ≤ 4) :
    ∀ (rd : SequenceFileReader), rd.filetype = .BINARY → rd._file = binary_records oligos →
      ∀ bound, oligos.length < bound →
        rd.read_all bound = .ok (oligos, rd.after [] 0 oligos.length) := by
  induction oligos with
  | nil =>
    intro rd hft hfile bound hbound
    obtain ⟨b, rfl⟩ : ∃ b, bound = b + 1 := ⟨bound - 1, by omega⟩
    have hfile : rd._file = [] := hfile
    have hself := after_self rd
    rw [hfile] at hself
    rw [SequenceFileReader.read_all, SequenceFileReader.get_sequence,
      get_sequence_loop_binary_nil rd _ hft hfile]
    simp [hself]
  | cons o os ih =>
    intro rd hft hfile bound hbound
    obtain ⟨b, rfl⟩ : ∃ b, bound = b + 1 := ⟨bound - 1, by omega⟩
    rw [binary_records_cons] at hfile
    have ho1 := ho o (List.mem_cons_self _ _)
    rw [SequenceFileReader.read_all, SequenceFileReader.get_sequence,
      get_sequence_loop_binary_record rd _ hft o _ ho1.1 ho1.2 hfile]
    have h := ih (fun o1 h1 => ho o1 (List.mem_cons_of_mem _ h1))
      (rd.after (binary_records os) 0 1) hft rfl b
      (by simp only [List.length_cons] at hbound; omega)
    simp only [h, after_after, List.length_cons]
    congr 3
    omega

/-- Counting the records of a binary stream. -/
theorem count_loop_binary (oligos : List (List Int))
    (ho : ∀ o ∈ oligos, o ≠ [] ∧ ∀ b ∈ o, 1 ≤ b ∧ b ≤ 4) :
    ∀ (rd : SequenceFileReader), rd.filetype = .BINARY → rd._file = binary_records oligos →
      ∀ bound count, oligos.length < bound →
        SequenceFileReader.count_loop bound rd count
          = .ok (count + oligos.length, rd.after [] 0 oligos.length) := by
  induction oligos with
  | nil =>
    intro rd hft hfile bound count hbound
    obtain ⟨b, rfl⟩ : ∃ b, bound = b + 1 := ⟨bound - 1, by omega⟩
    have hfile : rd._file = [] := hfile
    have hself := after_self rd
    rw [hfile] at hself
    rw [SequenceFileReader.count_loop, SequenceFileReader.get_sequence,
      get_sequence_loop_binary_nil rd _ hft hfile]
    simp [hself]
  | cons o os ih =>
    intro rd hft hfile bound count hbound
    obtain ⟨b, rfl⟩ : ∃ b, bound = b + 1 := ⟨bound - 1, by omega⟩
    rw [binary_records_cons] at hfile
    have ho1 := ho o (List.mem_cons_self _ _)
    rw [SequenceFileReader.count_loop, SequenceFileReader.get_sequence,
      get_sequence_loop_binary_record rd _ hft o _ ho1.1 ho1.2 hfile]
    have h := ih (fun o1 h1 => ho o1 (List.mem_cons_of_mem _ h1))
      (rd.after (binary_records os) 0 1) hft rfl b (count + 1)
      (by simp only [List.length_cons] at hbound; omega)
    simp only [h, after_after, List.length_cons]
    congr 2
    · push_cast
      ring
    · congr 1
      omega

theorem length_le_length_binary_records (oligos : List (List Int)) :
    oligos.length ≤ (binary_records oligos).length := by
  induction oligos with
  | nil => simp [binary_records]
  | cons o os ih =>
    rw [binary_records_cons]
    simp only [List.length_append, List.length_cons, List.length_map]
    omega

/-- The binary writer appends the records of the oligos it is given. -/
theorem write_all_binary (oligos : List (List Int)) :
    ∀ w : SequenceFileWriter, w.filetype = .BINARY →
      ∃ w1, w.write_all oligos = .ok w1 ∧ w1._file = w._file ++ binary_records oligos := by
  induction oligos with
  | nil =>
    intro w _
    exact ⟨w, rfl, by simp [binary_records]⟩
  | cons o os ih =>
    intro w hft
    obtain ⟨w1, h1, h2⟩ := ih
      { filetype := .BINARY,
        _file := w._file ++ o.map to_char ++ [to_char constants.NUCLEOTIDE_NEXTOLIGO],
        sequences_written := w.sequences_written + 1 } rfl
    refine ⟨w1, ?_, ?_⟩
    · simp only [SequenceFileWriter.write_all, SequenceFileWriter.write_sequence_vector, hft]
      exact h1
    · rw [h2, binary_records_cons]
      simp

end fileio

/-- C28: the binary writer turns a list of non-empty oligos over 1..4 into the
concatenation of their records (the bytes of the oligo, then the byte 127); a binary reader
opened on that file returns exactly these oligos in the same order before it reports the
end, and `count_sequences` returns their number. -/
theorem C28_binary_round_trip (fs fs1 : fileio.FileSystem) (filename : List Char)
    (w0 : fileio.SequenceFileWriter) (oligos : List (List Int))
    (hopen : fileio.SequenceFileWriter.construct fs filename .BINARY = .ok (w0, fs1))
    (ho : ∀ o ∈ oligos, o ≠ [] ∧ ∀ b ∈ o, 1 ≤ b ∧ b ≤ 4) :
    ∃ w, w0.write_all oligos = .ok w ∧ w._file = fileio.binary_records oligos ∧
      ∃ rd, fileio.SequenceFileReader.construct (fs1.write filename w._file) filename .BINARY
          = .ok rd ∧
        (∃ rd1, rd.read_all (rd._file.length + 1) = .ok (oligos, rd1) ∧
          rd1.get_sequence = .ok (none, rd1)) ∧
        (∃ rd1, rd.count_sequences = .ok ((oligos.length : Int), rd1)) := by
  have hw0 : w0.filetype = .BINARY ∧ w0._file = [] := by
    unfold fileio.SequenceFileWriter.construct at hopen
    split_ifs at hopen
    cases hopen
    exact ⟨rfl, rfl⟩
  obtain ⟨w, hw1, hw2⟩ := fileio.write_all_binary oligos w0 hw0.1
  rw [hw0.2, List.nil_append] at hw2
  refine ⟨w, hw1, hw2, ?_⟩
  obtain ⟨rd0, hrd0⟩ : ∃ rd0 : fileio.SequenceFileReader,
      rd0 = { filetype := .BINARY, _file := fileio.binary_records oligos,
              _contents := fileio.binary_records oligos, skipped_lines := 0,
              valid_sequences := 0 } := ⟨_, rfl⟩
  have hrd : fileio.SequenceFileReader.construct (fs1.write filename w._file) filename .BINARY
      = .ok rd0 := by
    simp [fileio.SequenceFileReader.construct, fileio.FileSystem.write, hw2, hrd0]
  have hft : rd0.filetype = .BINARY := by rw [hrd0]
  have hfile : rd0._file = fileio.binary_records oligos := by rw [hrd0]
  have hcontents : rd0._contents = fileio.binary_records oligos := by rw [hrd0]
  have hlen := fileio.length_le_length_binary_records oligos
  refine ⟨rd0, hrd, ⟨_, fileio.read_all_binary oligos ho rd0 hft hfile _ ?_, ?_⟩, ?_⟩
  · rw [hfile]
    omega
  · exact fileio.get_sequence_loop_binary_nil _ _ hft rfl
  · have h := fileio.count_loop_binary oligos ho rd0.to_start hft hcontents
      (rd0._contents.length + 1) 0 (by rw [hcontents]; omega)
    rw [zero_add] at h
    exact ⟨(rd0.to_start.after [] 0 oligos.length).to_start,
      by simp only [fileio.SequenceFileReader.count_sequences, h]⟩

/-- C28 for the oligos ACGT, T and GG. -/
theorem C28_binary_round_trip_witness :
    ∃ w, fileio.SequenceFileWriter.write_all
        { filetype := .BINARY, _file := [], sequences_written := 0 }
        [[1, 2, 3, 4], [4], [3, 3]] = .ok w ∧
      w._file = fileio.binary_records [[1, 2, 3, 4], [4], [3, 3]] ∧
      ∃ rd, fileio.SequenceFileReader.construct
          ((fileio.empty_disk.write "pool.bin".toList []).write "pool.bin".toList w._file)
          "pool.bin".toList .BINARY = .ok rd ∧
        (∃ rd1, rd.read_all (rd._file.length + 1) = .ok ([[1, 2, 3, 4], [4], [3, 3]], rd1) ∧
          rd1.get_sequence = .ok (none, rd1)) ∧
        (∃ rd1, rd.count_sequences = .ok (3, rd1)) :=
  C28_binary_round_trip fileio.empty_disk _ "pool.bin".toList _ [[1, 2, 3, 4], [4], [3, 3]] rfl
    (by decide)

/-! ## Insertions place runs after the event positions -/

namespace mutator

theorem insert_range_cons_succ (b : Int) (acc : List Int) (k : Nat) (seg : List Int) :
    insert_range (b :: acc) (k + 1) seg = b :: insert_range acc k seg := by
  simp [insert_range]

theorem foldr_insert_range_cons (b : Int) (bs : List Int) (i : Nat)
    (evs : List (Nat × List Int)) (h : ∀ e ∈ evs, i < e.1) :
    evs.foldr (fun e acc => insert_range acc (e.1 + 1 - i) e.2) (b :: bs)
      = b :: evs.foldr (fun e acc => insert_range acc (e.1 + 1 - (i + 1)) e.2) bs := by
  induction evs with
  | nil => rfl
  | cons e evs ih =>
    have he : i < e.1 := h e (List.mem_cons_self _ _)
    have hsub : e.1 + 1 - i = (e.1 + 1 - (i + 1)) + 1 := by omega
    simp only [List.foldr_cons]
    rw [ih (fun q hq => h q (List.mem_cons_of_mem _ hq)), hsub, insert_range_cons_succ]

theorem insert_runs_from_nil (oligo : List Int) :
    ∀ i, insert_runs_from i oligo [] = oligo := by
  induction oligo with
  | nil => intro i; rfl
  | cons b bs ih => intro i; simp [insert_runs_from, ih]

/-- Inserting from the last event down to the first places each run after its position. -/
theorem foldr_insert_range_eq_insert_runs_from (oligo : List Int) :
    ∀ (i : Nat) (evs : List (Nat × List Int)), (evs.map Prod.fst).Pairwise (· < ·) →
      (∀ e ∈ evs, i ≤ e.1 ∧ e.1 < i + oligo.length) →
      evs.foldr (fun e acc => insert_range acc (e.1 + 1 - i) e.2) oligo
        = insert_runs_from i oligo evs := by
  induction oligo with
  | nil =>
    intro i evs _ hrange
    cases evs with
    | nil => rfl
    | cons e evs =>
      have := hrange e (List.mem_cons_self _ _)
      simp only [List.length_nil] at this
      omega
  | cons b bs ih =>
    intro i evs hsorted hrange
    cases evs with
    | nil => rw [insert_runs_from_nil]; rfl
    | cons e evs =>
      obtain ⟨p, run⟩ := e
      simp only [List.map_cons, List.pairwise_cons] at hsorted
      have hgt : ∀ q ∈ evs, p < q.1 := fun q hq =>
        hsorted.1 q.1 (List.mem_map_of_mem Prod.fst hq)
      have hp := hrange (p, run) (List.mem_cons_self _ _)
      simp only [List.length_cons] at hp
      have hrange1 : ∀ q ∈ evs, i + 1 ≤ q.1 ∧ q.1 < i + 1 + bs.length := by
        intro q hq
        have h1 := hgt q hq
        have h2 := hrange q (List.mem_cons_of_mem _ hq)
        simp only [List.length_cons] at h2
        omega
      by_cases hpi : p = i
      · subst hpi
        simp only [List.foldr_cons]
        rw [foldr_insert_range_cons b bs p evs hgt, ih (p + 1) evs hsorted.2 hrange1]
        have h1 : p + 1 - p = 0 + 1 := by omega
        rw [h1, insert_range_cons_succ]
        simp [insert_runs_from, insert_range]
      · have hlt : ∀ q ∈ (p, run) :: evs, i < q.1 := by
          intro q hq
          rcases List.mem_cons.1 hq with h | h
          · rw [h]
            show i < p
            omega
          · have := hgt q h
            omega
        have hrange2 : ∀ q ∈ (p, run) :: evs, i + 1 ≤ q.1 ∧ q.1 < i + 1 + bs.length := by
          intro q hq
          have h1 := hlt q hq
          have h2 := hrange q hq
          simp only [List.length_cons] at h2
          omega
        rw [foldr_insert_range_cons b bs i ((p, run) :: evs) hlt,
          ih (i + 1) ((p, run) :: evs) (by simpa using hsorted) hrange2]
        simp [insert_runs_from, hpi]

/-- The insertion loop inserts, for each event, a run of the event's length taken from the
new bases. -/
theorem InsertionEvents.insert_loop_eq_foldl (new_bases : List Int)
    (events : List (Nat × Nat)) :
    ∀ offset oligo, offset + (events.map Prod.snd).sum ≤ new_bases.length →
      ∃ evs : List (Nat × List Int), evs.map Prod.fst = events.map Prod.fst ∧
        evs.map (fun e => e.2.length) = events.map Prod.snd ∧
        (∀ e ∈ evs, ∀ b ∈ e.2, b ∈ new_bases) ∧
        InsertionEvents.insert_loop new_bases events offset oligo
          = evs.foldl (fun acc e => insert_range acc (e.1 + 1) e.2) oligo := by
  induction events with
  | nil => intro offset oligo _; exact ⟨[], rfl, rfl, by simp, rfl⟩
  | cons e events ih =>
    intro offset oligo h
    obtain ⟨position, length⟩ := e
    simp only [List.map_cons, List.sum_cons] at h
    obtain ⟨evs, h1, h2, h3, h4⟩ := ih (offset + length)
      (insert_range oligo (position + 1) ((new_bases.drop offset).take length)) (by omega)
    refine ⟨(position, (new_bases.drop offset).take length) :: evs, ?_, ?_, ?_, ?_⟩
    · simp [h1]
    · simp only [List.map_cons, h2, List.length_take, List.length_drop]
      congr 1
      omega
    · intro e he b hb
      rcases List.mem_cons.1 he with h5 | h5
      · rw [h5] at hb
        exact List.mem_of_mem_drop (List.mem_of_mem_take hb)
      · exact h3 e h5 b hb
    · simp only [InsertionEvents.insert_loop, h4, List.foldl_cons]

theorem remove_runs_from_skip (run : List Int) :
    ∀ (i : Nat) (rest : List Int) (lengths : List (Nat × Nat)),
      remove_runs_from i run.length (run ++ rest) lengths = remove_runs_from i 0 rest lengths := by
  induction run with
  | nil => intro i rest lengths; rfl
  | cons b bs ih =>
    intro i rest lengths
    simp only [List.length_cons, List.cons_append, remove_runs_from]
    exact ih i rest lengths

/-- Removing the runs that `insert_runs_from` has placed gives back the oligo. -/
theorem remove_runs_from_insert_runs_from (oligo : List Int) :
    ∀ (i : Nat) (evs : List (Nat × List Int)),
      remove_runs_from i 0 (insert_runs_from i oligo evs)
        (evs.map (fun e => (e.1, e.2.length))) = oligo := by
  induction oligo with
  | nil => intro i evs; rfl
  | cons b bs ih =>
    intro i evs
    cases evs with
    | nil =>
      have := ih (i + 1) []
      simp only [List.map_nil] at this
      simp [insert_runs_from, remove_runs_from, this]
    | cons e evs =>
      obtain ⟨p, run⟩ := e
      by_cases hpi : p = i
      · simp only [insert_runs_from, hpi, if_true, List.map_cons, remove_runs_from]
        rw [remove_runs_from_skip, ih (i + 1) evs]
      · have := ih (i + 1) ((p, run) :: evs)
        simp only [List.map_cons] at this
        simp only [insert_runs_from, hpi, if_false, List.map_cons, remove_runs_from, this]

theorem head?_insert_runs_from (oligo : List Int) (i : Nat) (evs : List (Nat × List Int)) :
    (insert_runs_from i oligo evs).head? = oligo.head? := by
  cases oligo with
  | nil => rfl
  | cons b bs =>
    cases evs with
    | nil => rfl
    | cons e evs =>
      obtain ⟨p, run⟩ := e
      by_cases hpi : p = i <;> simp [insert_runs_from, hpi]

end mutator

namespace mutator

theorem length_draw_event_lengths (custom : Bool) (sampler : List ℚ) (n : Nat) (r : Rng) :
    (draw_event_lengths custom sampler n r).1.length = n := by
  unfold draw_event_lengths
  cases custom
  · simp
  · simp [length_draw_from_distribution]

theorem one_le_draw_event_lengths (custom : Bool) (sampler : List ℚ) (n : Nat) (r : Rng) :
    ∀ l ∈ (draw_event_lengths custom sampler n r).1, 1 ≤ l := by
  unfold draw_event_lengths
  cases custom
  · intro l hl
    simp only [Bool.false_eq_true, if_false] at hl
    rw [List.eq_of_mem_replicate hl]
  · intro l hl
    simp only [if_true, List.mem_map] at hl
    obtain ⟨d, _, hd⟩ := hl
    omega

theorem insertion_construct_base_sampler {rate : ℚ} {P L : List ℚ} {m : InsertionEvents}
    (h : InsertionEvents.construct rate P L = .ok m) : m._base_sampler.length = 4 := by
  unfold InsertionEvents.construct at h
  split_ifs at h with h1 h2
  · cases h
    simpa using h1
  · cases h
    simpa using h1

/-- The output of the insertion loop of `process_single` for given event positions, event
lengths and new bases. -/
theorem InsertionEvents.insert_loop_eq_insert_runs (new_bases : List Int)
    (positions lengths : List Nat) (oligo : List Int)
    (hlen : lengths.length = positions.length) (hsum : lengths.sum ≤ new_bases.length)
    (hsorted : positions.Pairwise (· < ·)) (hrange : ∀ p ∈ positions, p < oligo.length) :
    ∃ runs : List (List Int), runs.map List.length = lengths ∧
      (∀ run ∈ runs, ∀ b ∈ run, b ∈ new_bases) ∧
      InsertionEvents.insert_loop new_bases (positions.zip lengths).reverse 0 oligo
        = insert_runs oligo (positions.zip runs) := by
  have hs := sum_snd_reverse_zip positions lengths (le_of_eq hlen)
  obtain ⟨evs, h1, h2, h3, h4⟩ := InsertionEvents.insert_loop_eq_foldl new_bases
    (positions.zip lengths).reverse 0 oligo (by rw [hs]; omega)
  have hfst : evs.reverse.map Prod.fst = positions := by
    rw [List.map_reverse, h1, List.map_reverse, List.reverse_reverse,
      List.map_fst_zip _ _ (le_of_eq hlen.symm)]
  have hsnd : (evs.reverse.map Prod.snd).map List.length = lengths := by
    rw [List.map_map, List.map_reverse]
    have : (List.length ∘ Prod.snd : Nat × List Int → Nat) = fun e => e.2.length := rfl
    rw [this, h2, List.map_reverse, List.reverse_reverse, List.map_snd_zip _ _ (le_of_eq hlen)]
  have hzip : evs.reverse = positions.zip (evs.reverse.map Prod.snd) :=
    List.zip_of_prod hfst rfl
  refine ⟨evs.reverse.map Prod.snd, hsnd, ?_, ?_⟩
  · intro run hrun b hb
    obtain ⟨e, he, rfl⟩ := List.mem_map.1 hrun
    exact h3 e (List.mem_reverse.1 he) b hb
  · rw [h4, ← List.foldr_reverse, insert_runs, ← hzip]
    have hcore := foldr_insert_range_eq_insert_runs_from oligo 0 evs.reverse
      (by rw [hfst]; exact hsorted)
      (fun e he => by
        have : e.1 ∈ positions := by
          rw [← hfst]
          exact List.mem_map_of_mem Prod.fst he
        have := hrange e.1 this
        omega)
    simp only [Nat.sub_zero] at hcore
    exact hcore

end mutator

/-- C30: for every InsertionEvents mutator, oligo and generator state there are runs of
bases, one per event position, whose lengths are the drawn event lengths (each at least 1)
and whose entries lie in 1..4, such that the output is the oligo with each run placed
immediately after the original position of its event.  The event positions are strictly
increasing indices of the oligo.  Hence the output has the length of the oligo plus the
lengths of the runs, removing the runs gives back the oligo, the first entry stays first,
and an empty oligo stays empty. -/
theorem C30_insertion_places_runs_after_positions (rate : ℚ) (P L : List ℚ)
    (m : mutator.InsertionEvents) (hm : mutator.InsertionEvents.construct rate P L = .ok m)
    (oligo : List Int) (r : Rng) :
    ∃ runs : List (List Int),
      runs.map List.length
        = (mutator.draw_event_lengths m._custom_event_lengths m._event_lengths_sampler
            (mutator.get_event_positions (List.replicate oligo.length m.rate) r).1.length
            (mutator.get_event_positions (List.replicate oligo.length m.rate) r).2).1 ∧
      runs.length = (mutator.get_event_positions (List.replicate oligo.length m.rate) r).1.length ∧
      (∀ run ∈ runs, 1 ≤ run.length ∧ ∀ b ∈ run, 1 ≤ b ∧ b ≤ 4) ∧
      (mutator.get_event_positions (List.replicate oligo.length m.rate) r).1.Pairwise (· < ·) ∧
      (∀ p ∈ (mutator.get_event_positions (List.replicate oligo.length m.rate) r).1,
        p < oligo.length) ∧
      (m.process_single oligo r).1 = mutator.insert_runs oligo
        ((mutator.get_event_positions (List.replicate oligo.length m.rate) r).1.zip runs) ∧
      (m.process_single oligo r).1.length = oligo.length + (runs.map List.length).sum ∧
      mutator.remove_runs (m.process_single oligo r).1
        ((mutator.get_event_positions (List.replicate oligo.length m.rate) r).1.zip
          (runs.map List.length)) = oligo ∧
      (m.process_single oligo r).1.head? = oligo.head? ∧
      (oligo = [] → (m.process_single oligo r).1 = []) := by
  have hsorted := mutator.get_event_positions_sorted (List.replicate oligo.length m.rate) r
  have hrange : ∀ p ∈ (mutator.get_event_positions (List.replicate oligo.length m.rate) r).1,
      p < oligo.length := by
    intro p hp
    simpa using mutator.get_event_positions_lt (List.replicate oligo.length m.rate) r p hp
  generalize hpos : mutator.get_event_positions (List.replicate oligo.length m.rate) r = ep
    at hsorted hrange
  obtain ⟨positions, r1⟩ := ep
  simp only at hsorted hrange
  have hll := mutator.length_draw_event_lengths m._custom_event_lengths
    m._event_lengths_sampler positions.length r1
  have hl1 := mutator.one_le_draw_event_lengths m._custom_event_lengths
    m._event_lengths_sampler positions.length r1
  generalize hlen : mutator.draw_event_lengths m._custom_event_lengths
    m._event_lengths_sampler positions.length r1 = el at hll hl1
  obtain ⟨lengths, r2⟩ := el
  simp only at hll hl1
  have hbase := mutator.insertion_construct_base_sampler hm
  have hne : m._base_sampler ≠ [] := by
    intro h
    rw [h] at hbase
    simp at hbase
  have hdl := mutator.length_draw_from_distribution m._base_sampler lengths.sum r2
  have hdlt := mutator.draw_from_distribution_lt m._base_sampler hne lengths.sum r2
  generalize hdraw : mutator.draw_from_distribution m._base_sampler lengths.sum r2 = dr
    at hdl hdlt
  obtain ⟨draws, r3⟩ := dr
  simp only at hdl hdlt
  obtain ⟨runs, hr1, hr2, hr3⟩ := mutator.InsertionEvents.insert_loop_eq_insert_runs
    (draws.map (fun (base : Nat) => (base : Int) + 1)) positions lengths oligo hll
    (by simp [hdl]) hsorted hrange
  have hout : (m.process_single oligo r).1 = mutator.insert_runs oligo (positions.zip runs) := by
    simp only [mutator.InsertionEvents.process_single, hpos]
    by_cases h0 : positions.length = 0
    · have hnil : positions = [] := List.length_eq_zero.mp h0
      simp [h0, hnil, mutator.insert_runs, mutator.insert_runs_from_nil]
    · simp only [h0, if_false, hlen, hdraw, hr3]
  have hrl : runs.length = positions.length := by
    rw [← hll, ← hr1, List.length_map]
  refine ⟨runs, hr1, hrl, ?_, hsorted, hrange, hout, ?_, ?_, ?_, ?_⟩
  · intro run hrun
    refine ⟨?_, ?_⟩
    · apply hl1
      rw [← hr1]
      exact List.mem_map_of_mem _ hrun
    · intro b hb
      have := hr2 run hrun b hb
      rw [List.mem_map] at this
      obtain ⟨d, hd, rfl⟩ := this
      have := hdlt d hd
      omega
  · rw [hout, ← hr3, mutator.InsertionEvents.length_insert_loop,
      mutator.sum_snd_reverse_zip _ _ (le_of_eq hll), hr1]
    rw [mutator.sum_snd_reverse_zip _ _ (le_of_eq hll)]
    simp [hdl]
  · have hz : positions.zip (runs.map List.length)
        = (positions.zip runs).map (fun e => (e.1, e.2.length)) := by
      rw [List.zip_map_right]
      rfl
    simp only [hout, mutator.remove_runs, mutator.insert_runs, hz]
    exact mutator.remove_runs_from_insert_runs_from oligo 0 (positions.zip runs)
  · rw [hout]
    exact mutator.head?_insert_runs_from oligo 0 _
  · intro h
    rw [hout, h]
    rfl

/-- C30 for a mutator with uniform base preference and event lengths 1 or 2. -/
theorem C30_insertion_places_runs_after_positions_witness :
    ∃ m, mutator.InsertionEvents.construct (1 / 2) [1, 1, 1, 1] [1, 1] = .ok m ∧
      ∃ runs : List (List Int),
        (∀ run ∈ runs, 1 ≤ run.length ∧ ∀ b ∈ run, 1 ≤ b ∧ b ≤ 4) ∧
        (m.process_single [1, 2, 3, 4] (rng.hit_state [1, 3])).1 = mutator.insert_runs [1, 2, 3, 4]
          ((mutator.get_event_positions (List.replicate [1, 2, 3, 4].length m.rate)
            (rng.hit_state [1, 3])).1.zip runs) ∧
        mutator.remove_runs (m.process_single [1, 2, 3, 4] (rng.hit_state [1, 3])).1
          ((mutator.get_event_positions (List.replicate [1, 2, 3, 4].length m.rate)
            (rng.hit_state [1, 3])).1.zip (runs.map List.length)) = [1, 2, 3, 4] := by
  refine ⟨_, rfl, ?_⟩
  obtain ⟨runs, -, -, h3, -, -, h6, -, h8, -⟩ :=
    C30_insertion_places_runs_after_positions (1 / 2) [1, 1, 1, 1] [1, 1] _ rfl [1, 2, 3, 4]
      (rng.hit_state [1, 3])
  exact ⟨runs, h3, h6, h8⟩

/-! ## Empty oligos -/

namespace mutator

theorem insertion_process_single_length_ge (m : InsertionEvents) (oligo : List Int) (r : Rng) :
    oligo.length ≤ (m.process_single oligo r).1.length := by
  simp only [InsertionEvents.process_single]
  split_ifs with h0
  · exact le_refl _
  · have hll := length_draw_event_lengths m._custom_event_lengths m._event_lengths_sampler
      (get_event_positions (List.replicate oligo.length m.rate) r).1.length
      (get_event_positions (List.replicate oligo.length m.rate) r).2
    have hs := sum_snd_reverse_zip (get_event_positions (List.replicate oligo.length m.rate) r).1
      (draw_event_lengths m._custom_event_lengths m._event_lengths_sampler
        (get_event_positions (List.replicate oligo.length m.rate) r).1.length
        (get_event_positions (List.replicate oligo.length m.rate) r).2).1 (le_of_eq hll)
    simp only
    rw [InsertionEvents.length_insert_loop]
    · omega
    · rw [hs]
      simp [length_draw_from_distribution]

theorem tailing_process_single_ne_nil (m : Tailing) (oligo oligo1 : List Int) (r r1 : Rng)
    (h : m.process_single oligo r = .ok (oligo1, r1)) (hne : oligo ≠ []) : oligo1 ≠ [] := by
  simp only [Tailing.process_single] at h
  split at h
  · cases h
  · split_ifs at h
    split at h
    · cases h
    · cases h
      simp [hne]

theorem pad_trim_process_single_ne_nil (m : SequencingPadTrim) (oligo oligo1 : List Int)
    (r r1 : Rng) (h : m.process_single oligo r = .ok (oligo1, r1)) (hm : 1 ≤ m.read_length)
    (hne : oligo ≠ []) : oligo1 ≠ [] := by
  have hlen : 0 < oligo.length := List.length_pos.2 hne
  simp only [SequencingPadTrim.process_single] at h
  by_cases h1 : (oligo.length : Int) < m.read_length
  · have h2 : ¬ (oligo.length : Int) > m.read_length := by omega
    simp only [h1, if_true, h2, if_false] at h
    cases h
    simp [hne]
  · simp only [h1, if_false] at h
    by_cases h2 : (oligo.length : Int) > m.read_length
    · have h3 : ¬ m.read_length < 0 := by omega
      simp only [h2, if_true, h3, if_false] at h
      cases h
      intro hnil
      have := congrArg List.length hnil
      simp only [List.length_take, List.length_nil] at this
      omega
    · simp only [h2, if_false] at h
      cases h
      exact hne

/-- A count-preserving mutator outside DeletionEvents, EndShreds and a SequencingPadTrim with
read length below 1 returns a non-empty oligo for a non-empty one. -/
theorem process_single_ne_nil (m : BaseMutator) (hm : m.keeps_nonempty = true)
    (oligo oligo1 : List Int) (r r1 : Rng) (h : m.process_single oligo r = .ok (oligo1, r1))
    (hne : oligo ≠ []) : oligo1 ≠ [] := by
  have hlen : 0 < oligo.length := List.length_pos.2 hne
  cases m with
  | InsertionEvents m =>
    have h1 := congrArg Prod.fst (Except.ok.inj h)
    simp only at h1
    have := insertion_process_single_length_ge m oligo r
    rw [h1] at this
    exact List.length_pos.1 (by omega)
  | DeletionEvents m => simp [BaseMutator.keeps_nonempty] at hm
  | SubstitutionEvents m =>
    have h1 := congrArg Prod.fst (Except.ok.inj h)
    simp only at h1
    have := substitution_process_single_length m oligo r
    rw [h1] at this
    exact List.length_pos.1 (by omega)
  | BreakageEvents m => simp [BaseMutator.process_single] at h
  | SizeSelection m => simp [BaseMutator.process_single] at h
  | AddReverseComplement => simp [BaseMutator.process_single] at h
  | Tailing m => exact tailing_process_single_ne_nil m oligo oligo1 r r1 h hne
  | EndShreds m => simp [BaseMutator.keeps_nonempty] at hm
  | SequencingAddAdapter m =>
    simp only [BaseMutator.process_single] at h
    cases h
    simp [SequencingAddAdapter.process_single, hne]
  | SequencingPadTrim m =>
    exact pad_trim_process_single_ne_nil m oligo oligo1 r r1 h
      (by simpa [BaseMutator.keeps_nonempty] using hm) hne

theorem process_single_loop_ne_nil (m : BaseMutator) (hm : m.keeps_nonempty = true) :
    ∀ (oligos out : List (List Int)) (r r1 : Rng),
      BaseMutator.process_single_loop m oligos r = .ok (out, r1) →
      (∀ o ∈ oligos, o ≠ []) → ∀ o ∈ out, o ≠ [] := by
  intro oligos
  induction oligos with
  | nil =>
    intro out r r1 h _
    simp only [BaseMutator.process_single_loop] at h
    cases h
    simp
  | cons o os ih =>
    intro out r r1 h hne
    simp only [BaseMutator.process_single_loop] at h
    cases h1 : m.process_single o r with
    | error e => simp [h1] at h
    | ok res =>
      obtain ⟨o1, r2⟩ := res
      simp only [h1] at h
      cases h2 : BaseMutator.process_single_loop m os r2 with
      | error e => simp [h2] at h
      | ok res2 =>
        obtain ⟨os1, r3⟩ := res2
        simp only [h2, Except.ok.injEq, Prod.mk.injEq] at h
        obtain ⟨hout, -⟩ := h
        subst hout
        intro x hx
        rcases List.mem_cons.1 hx with hx | hx
        · rw [hx]
          exact process_single_ne_nil m hm o o1 r r2 h1 (hne o (List.mem_cons_self _ _))
        · exact ih os1 r2 r3 h2 (fun y hy => hne y (List.mem_cons_of_mem _ hy)) x hx

theorem length_reverse_complement_loop (o : List Int) :
    ∀ acc rc, conversion.reverse_complement_loop o acc = .ok rc →
      rc.length = acc.length + o.length := by
  induction o with
  | nil =>
    intro acc rc h
    simp only [conversion.reverse_complement_loop] at h
    cases h
    rfl
  | cons b bs ih =>
    intro acc rc h
    unfold conversion.reverse_complement_loop at h
    have hstep : ∀ (x : Int) (rc1 : List Int),
        conversion.reverse_complement_loop bs (acc ++ [x]) = .ok rc1 →
        rc1.length = acc.length + (b :: bs).length := by
      intro x rc1 h1
      rw [ih _ _ h1]
      simp only [List.length_append, List.length_cons, List.length_nil]
      omega
    split_ifs at h <;> exact hstep _ _ h

theorem breakage_process_single_with_new_ne_nil (m : BreakageEvents) (oligo : List Int)
    (new_oligos : List (List Int)) (r : Rng) (hne : oligo ≠ [])
    (hnew : ∀ o ∈ new_oligos, o ≠ []) :
    ∀ o ∈ (m.process_single_with_new oligo new_oligos r).1, o ≠ [] := by
  by_cases h : (get_event_positions (p_event_by_position m.rate m.p_base_preference oligo) r).1
      = []
  · rw [breakage_process_single_with_new_no_cut m oligo new_oligos r h]
    intro o ho
    rcases List.mem_append.1 ho with ho | ho
    · exact hnew o ho
    · rw [List.mem_singleton.1 ho]
      exact hne
  · rw [breakage_process_single_with_new_cuts m oligo new_oligos r h]
    intro o ho
    rcases List.mem_append.1 ho with ho | ho
    · exact hnew o ho
    · exact maximal_runs_ne_nil _ _ o ho

/-- A count-varying mutator adds only non-empty oligos for a non-empty one. -/
theorem process_single_with_new_ne_nil (m : BaseMutator) (oligo : List Int)
    (new_oligos new_oligos1 : List (List Int)) (r r1 : Rng)
    (h : m.process_single_with_new oligo new_oligos r = .ok (new_oligos1, r1))
    (hne : oligo ≠ []) (hnew : ∀ o ∈ new_oligos, o ≠ []) : ∀ o ∈ new_oligos1, o ≠ [] := by
  cases m with
  | BreakageEvents m =>
    have h1 := congrArg Prod.fst (Except.ok.inj h)
    simp only at h1
    rw [← h1]
    exact breakage_process_single_with_new_ne_nil m oligo new_oligos r hne hnew
  | SizeSelection m =>
    have h1 := congrArg Prod.fst (Except.ok.inj h)
    simp only at h1
    rw [← h1]
    intro o ho
    simp only [SizeSelection.process_single_with_new] at ho
    split_ifs at ho
    · exact hnew o ho
    · rcases List.mem_append.1 ho with ho | ho
      · exact hnew o ho
      · rw [List.mem_singleton.1 ho]
        exact hne
    · rcases List.mem_append.1 ho with ho | ho
      · exact hnew o ho
      · rw [List.mem_singleton.1 ho]
        exact hne
    · exact hnew o ho
  | AddReverseComplement =>
    simp only [BaseMutator.process_single_with_new,
      AddReverseComplement.process_single_with_new] at h
    cases hrc : conversion.reverse_complement oligo with
    | error e => simp [hrc] at h
    | ok rc =>
      simp only [hrc] at h
      cases h
      have hlen := length_reverse_complement_loop _ _ _ hrc
      simp only [List.length_nil, List.length_reverse, zero_add] at hlen
      intro o ho
      rcases List.mem_append.1 ho with ho | ho
      · rcases List.mem_append.1 ho with ho | ho
        · exact hnew o ho
        · rw [List.mem_singleton.1 ho]
          exact hne
      · rw [List.mem_singleton.1 ho]
        have : 0 < oligo.length := List.length_pos.2 hne
        exact List.length_pos.1 (by omega)
  | InsertionEvents m => simp [BaseMutator.process_single_with_new] at h
  | DeletionEvents m => simp [BaseMutator.process_single_with_new] at h
  | SubstitutionEvents m => simp [BaseMutator.process_single_with_new] at h
  | Tailing m => simp [BaseMutator.process_single_with_new] at h
  | EndShreds m => simp [BaseMutator.process_single_with_new] at h
  | SequencingAddAdapter m => simp [BaseMutator.process_single_with_new] at h
  | SequencingPadTrim m => simp [BaseMutator.process_single_with_new] at h

theorem process_with_new_loop_ne_nil (m : BaseMutator) :
    ∀ (oligos new_oligos out : List (List Int)) (r r1 : Rng),
      BaseMutator.process_with_new_loop m oligos new_oligos r = .ok (out, r1) →
      (∀ o ∈ oligos, o ≠ []) → (∀ o ∈ new_oligos, o ≠ []) → ∀ o ∈ out, o ≠ [] := by
  intro oligos
  induction oligos with
  | nil =>
    intro new_oligos out r r1 h _ hnew
    simp only [BaseMutator.process_with_new_loop] at h
    cases h
    exact hnew
  | cons o os ih =>
    intro new_oligos out r r1 h hne hnew
    simp only [BaseMutator.process_with_new_loop] at h
    cases h1 : m.process_single_with_new o new_oligos r with
    | error e => simp [h1] at h
    | ok res =>
      obtain ⟨new1, r2⟩ := res
      simp only [h1] at h
      exact ih new1 out r2 r1 h (fun y hy => hne y (List.mem_cons_of_mem _ hy))
        (process_single_with_new_ne_nil m o new_oligos new1 r r2 h1
          (hne o (List.mem_cons_self _ _)) hnew)

theorem process_ne_nil (m : BaseMutator) (hm : m.keeps_nonempty = true)
    (oligos out : List (List Int)) (r r1 : Rng) (h : m.process oligos r = .ok (out, r1))
    (hne : ∀ o ∈ oligos, o ≠ []) : ∀ o ∈ out, o ≠ [] := by
  unfold BaseMutator.process at h
  by_cases hc : m.get_manipulates_count = true
  · simp only [hc, if_true] at h
    cases h1 : BaseMutator.process_with_new_loop m oligos [] r with
    | error e => simp [h1] at h
    | ok res =>
      obtain ⟨new1, r2⟩ := res
      simp only [h1, Except.ok.injEq, Prod.mk.injEq] at h
      obtain ⟨hout, -⟩ := h
      subst hout
      have := process_with_new_loop_ne_nil m oligos [] new1 r r2 h1 hne (by simp)
      intro o ho
      split_ifs at ho
      · exact this o ho
      · simp at ho
  · simp only [hc] at h
    exact process_single_loop_ne_nil m hm oligos out r r1 h hne

/-- A chain of mutators that keep oligos non-empty returns only non-empty oligos. -/
theorem process_all_ne_nil (mutators : List BaseMutator)
    (hm : ∀ m ∈ mutators, m.keeps_nonempty = true) :
    ∀ (oligos out : List (List Int)) (r r1 : Rng),
      process_all mutators oligos r = .ok (out, r1) →
      (∀ o ∈ oligos, o ≠ []) → ∀ o ∈ out, o ≠ [] := by
  induction mutators with
  | nil =>
    intro oligos out r r1 h hne
    simp only [process_all] at h
    cases h
    exact hne
  | cons m ms ih =>
    intro oligos out r r1 h hne
    simp only [process_all] at h
    cases h1 : m.process oligos r with
    | error e => simp [h1] at h
    | ok res =>
      obtain ⟨os1, r2⟩ := res
      simp only [h1] at h
      exact ih (fun x hx => hm x (List.mem_cons_of_mem _ hx)) os1 out r2 r1 h
        (process_ne_nil m (hm m (List.mem_cons_self _ _)) oligos os1 r r2 h1 hne)

end mutator

namespace mutator

/-- A deletion with rate 1, uniform base preference and events of length 1 removes the only
entry of a one-base oligo, in every generator state. -/
theorem deletion_rate_one_empties (m : DeletionEvents) (hrate : m.rate = 1)
    (hpref : m.p_base_preference = [1 / 4, 1 / 4, 1 / 4, 1 / 4])
    (hcustom : m._custom_event_lengths = false) (r : Rng) :
    (m.process_single [1] r).1 = [] := by
  have hp : p_event_by_position m.rate m.p_base_preference [1] = [1] := by
    rw [hrate, hpref]
    norm_num [p_event_by_position, at_base]
  have hpos : (get_event_positions [1] r).1 = [0] := by
    rw [get_event_positions, get_event_positions_loop_one_le _ _ _ _ (by simp)]
    rfl
  simp only [DeletionEvents.process_single, hp, hpos]
  have hones := draw_event_lengths_ones m._custom_event_lengths m._event_lengths_sampler 1
    (get_event_positions [1] r).2 (Or.inl hcustom)
  simp only [List.length_cons, List.length_nil, Nat.zero_add, Nat.one_ne_zero, if_false, hones]
  rfl

end mutator

/-- C26 (counterexample): for the one-base design A and the chain that consists of a
DeletionEvents mutator with rate 1 and uniform base preference, the oligo that
`generate_oligos` produces is empty (every draw lies below the event probability 1), and the
collector of pass 1 writes it: the binary file receives a record that holds only the
separator byte. -/
theorem C26_deletion_emits_empty_oligo :
    ∃ m, mutator.DeletionEvents.construct 1 [1, 1, 1, 1] [] = .ok m ∧
      ∃ r1, oligofactory.generate_oligos [] [1] 1 [.DeletionEvents m] rng.sample_state
          = .ok ([[]], r1) ∧
        ∃ c, (oligocollector.OligoCollector.single
              { filetype := .BINARY, _file := [], sequences_written := 0 }).collect_sequence_vector
              [] r1 = .ok (c, r1) ∧
          c.filewriter_fw._file = [fileio.to_char constants.NUCLEOTIDE_NEXTOLIGO] ∧
          c.filewriter_fw.sequences_written = 1 := by
  have hpref : mutator.normalize_vector [1, 1, 1, 1] = [1 / 4, 1 / 4, 1 / 4, 1 / 4] := by
    norm_num [mutator.normalize_vector]
  obtain ⟨m, hm⟩ : ∃ m : mutator.DeletionEvents, m =
      { rate := 1, p_event_lengths := [1],
        p_base_preference := mutator.normalize_vector [1, 1, 1, 1],
        _custom_event_lengths := false, _event_lengths_sampler := [] } := ⟨_, rfl⟩
  have hempty := mutator.deletion_rate_one_empties m (by rw [hm]) (by rw [hm, hpref])
    (by rw [hm]) rng.sample_state
  refine ⟨m, by rw [hm]; rfl, (m.process_single [1] rng.sample_state).2, ?_, ?_⟩
  · simp only [oligofactory.generate_oligos, oligofactory.generate_loop,
      oligofactory.produce_from_sequence, mutator.process_all, mutator.BaseMutator.process,
      mutator.BaseMutator.get_manipulates_count, mutator.BaseMutator.process_single_loop,
      mutator.BaseMutator.process_single]
    simp [hempty]
  · exact ⟨_, rfl, rfl, rfl⟩

namespace oligofactory

theorem generate_loop_ne_nil (sequence_vector : List Int) (mutators : List mutator.BaseMutator)
    (hm : ∀ m ∈ mutators, m.keeps_nonempty = true) (hne : sequence_vector ≠ []) :
    ∀ (n : Nat) (generated_oligos out : List (List Int)) (r r1 : Rng),
      generate_loop sequence_vector mutators n generated_oligos r = .ok (out, r1) →
      (∀ o ∈ generated_oligos, o ≠ []) → ∀ o ∈ out, o ≠ [] := by
  intro n
  induction n with
  | zero =>
    intro generated_oligos out r r1 h hgen
    simp only [generate_loop, Except.ok.injEq, Prod.mk.injEq] at h
    rw [← h.1]
    exact hgen
  | succ n ih =>
    intro generated_oligos out r r1 h hgen
    simp only [generate_loop] at h
    cases h1 : produce_from_sequence sequence_vector mutators r with
    | error e => simp [h1] at h
    | ok res =>
      obtain ⟨oligo_vectors, r2⟩ := res
      simp only [h1] at h
      have hnew := mutator.process_all_ne_nil mutators hm [sequence_vector] oligo_vectors r r2 h1
        (by
          intro o ho
          rw [List.mem_singleton.1 ho]
          exact hne)
      refine ih _ out r2 r1 h ?_
      intro o ho
      rcases List.mem_append.1 ho with ho | ho
      · exact hgen o ho
      · exact hnew o ho

end oligofactory

/-- C26 (amended): the collector writes every oligo it is handed, an empty one included (the
counter of the writer advances), so an empty oligo that a chain produces is emitted.  Only
for chains without DeletionEvents, EndShreds and SequencingPadTrim with a read length below
1 is every oligo that `generate_oligos` produces from a non-empty design, and every oligo
that the collector obtains from a non-empty one with such sequencing mutators, of length at
least 1. -/
theorem C26_empty_oligos_are_written (mutators : List mutator.BaseMutator)
    (hm : ∀ m ∈ mutators, m.keeps_nonempty = true) (sequence_vector : List Int)
    (hne : sequence_vector ≠ []) (r : Rng) :
    (∀ (w : fileio.SequenceFileWriter), ∃ c,
      (oligocollector.OligoCollector.single w).collect_sequence_vector [] r = .ok (c, r) ∧
      c.filewriter_fw.sequences_written = w.sequences_written + 1) ∧
    (∀ (n_oligos : Nat) (oligos : List (List Int)) (r1 : Rng),
      oligofactory.generate_oligos [] sequence_vector n_oligos mutators r = .ok (oligos, r1) →
        ∀ o ∈ oligos, 1 ≤ o.length) ∧
    (∀ (c : oligocollector.OligoCollector) (mutated : List Int) (r1 : Rng),
      (c._mutators = none ∨ c._mutators = some mutators) →
      c.apply_mutators sequence_vector r = .ok (mutated, r1) → 1 ≤ mutated.length) := by
  refine ⟨?_, ?_, ?_⟩
  · intro w
    have hs : conversion.vector_to_sequence [] = .ok [] := rfl
    have hw : ∃ fw, w.write_sequence_vector [] = .ok fw ∧
        fw.sequences_written = w.sequences_written + 1 := by
      simp only [fileio.SequenceFileWriter.write_sequence_vector, hs]
      cases w.filetype <;> exact ⟨_, rfl, rfl⟩
    obtain ⟨fw, hfw, hcount⟩ := hw
    refine ⟨{ oligocollector.OligoCollector.single w with filewriter_fw := fw }, ?_, hcount⟩
    simp [oligocollector.OligoCollector.collect_sequence_vector,
      oligocollector.OligoCollector.apply_mutators, oligocollector.OligoCollector.single, hfw]
  · intro n_oligos oligos r1 h o ho
    apply List.length_pos.2
    unfold oligofactory.generate_oligos at h
    split_ifs at h with h0 h1
    · simp only [Except.ok.injEq, Prod.mk.injEq] at h
      rw [← h.1] at ho
      simp at ho
    · simp only [Except.ok.injEq, Prod.mk.injEq] at h
      rw [← h.1, List.nil_append] at ho
      rw [List.eq_of_mem_replicate ho]
      exact hne
    · exact oligofactory.generate_loop_ne_nil sequence_vector mutators hm hne n_oligos []
        oligos r r1 h (by simp) o ho
  · intro c mutated r1 hc h
    apply List.length_pos.2
    unfold oligocollector.OligoCollector.apply_mutators at h
    rcases hc with hc | hc
    · simp only [hc, List.getElem?_cons_zero, Except.ok.injEq, Prod.mk.injEq] at h
      rw [← h.1]
      exact hne
    · simp only [hc] at h
      cases h1 : mutator.process_all mutators [sequence_vector] r with
      | error e => simp [h1] at h
      | ok res =>
        obtain ⟨pool, r2⟩ := res
        simp only [h1] at h
        have hpool := mutator.process_all_ne_nil mutators hm [sequence_vector] pool r r2 h1
          (by
            intro o ho
            rw [List.mem_singleton.1 ho]
            exact hne)
        cases h2 : pool[0]? with
        | none => simp [h2] at h
        | some first =>
          simp only [h2, Except.ok.injEq, Prod.mk.injEq] at h
          rw [← h.1]
          exact hpool first (List.mem_iff_getElem?.2 ⟨0, h2⟩)

/-- C26 (amended) for the chain that consists of the sequencing adapter GGG and the design
AC. -/
theorem C26_empty_oligos_are_written_witness :
    (∀ m ∈ [mutator.BaseMutator.SequencingAddAdapter { _adapter_vector := [3, 3, 3] }],
      m.keeps_nonempty = true) ∧
    ([1, 2] : List Int) ≠ [] ∧
    oligofactory.generate_oligos [] [1, 2] 2
        [.SequencingAddAdapter { _adapter_vector := [3, 3, 3] }] rng.sample_state
      = .ok ([[1, 2, 3, 3, 3], [1, 2, 3, 3, 3]], rng.sample_state) ∧
    ∀ o ∈ ([[1, 2, 3, 3, 3], [1, 2, 3, 3, 3]] : List (List Int)), 1 ≤ o.length := by
  have hm : ∀ m ∈ [mutator.BaseMutator.SequencingAddAdapter { _adapter_vector := [3, 3, 3] }],
      m.keeps_nonempty = true := by
    intro m hm
    rw [List.mem_singleton.1 hm]
    rfl
  exact ⟨hm, by simp, rfl,
    (C26_empty_oligos_are_written _ hm [1, 2] (by simp) rng.sample_state).2.1 2
      [[1, 2, 3, 3, 3], [1, 2, 3, 3, 3]] rng.sample_state rfl⟩

/-! ## The intermediate file of `run` -/

namespace pipeline

theorem files_remove_self (fs : fileio.FileSystem) (filename : List Char) :
    (fs.remove filename).files filename = none := by
  simp [fileio.FileSystem.remove]

theorem files_write_self (fs : fileio.FileSystem) (filename content : List Char) :
    (fs.write filename content).files filename = some content := by
  simp [fileio.FileSystem.write]

theorem writable_write (fs : fileio.FileSystem) (filename content name : List Char) :
    (fs.write filename content).writable name = fs.writable name := rfl

/-- When `run` returns without an error the intermediate file is gone. -/
theorem run_ok_removes_intermediate (fs : fileio.FileSystem)
    (input_filename intermediate_filename output_filename_fw output_filename_rv : List Char)
    (initial_coverage_bias mean_physical_coverage mean_sequencing_coverage : ℚ)
    (initial_mutators recovery_mutators sequencing_mutators : List mutator.BaseMutator)
    (write_file_type : fileio.WriteFileType) (r : Rng)
    (h : (run fs input_filename intermediate_filename output_filename_fw output_filename_rv
      initial_coverage_bias mean_physical_coverage mean_sequencing_coverage initial_mutators
      recovery_mutators sequencing_mutators write_file_type r).result = .ok ()) :
    (run fs input_filename intermediate_filename output_filename_fw output_filename_rv
      initial_coverage_bias mean_physical_coverage mean_sequencing_coverage initial_mutators
      recovery_mutators sequencing_mutators write_file_type r).fs.files intermediate_filename
      = none := by
  unfold run at h ⊢
  cases h1 : fileio.SequenceFileReader.construct fs input_filename .ANY with
  | error e => simp [h1] at h
  | ok input_reader =>
    cases h2 : fileio.SequenceFileWriter.construct fs intermediate_filename .BINARY with
    | error e => simp [h1, h2] at h
    | ok res2 =>
      obtain ⟨intermediate_writer, fs1⟩ := res2
      cases h3 : input_reader.count_sequences with
      | error e => simp [h1, h2, h3] at h
      | ok res3 =>
        obtain ⟨n_sequences, input_reader1⟩ := res3
        cases h4 : synthesis_and_sampling input_reader1 intermediate_writer
            initial_coverage_bias mean_physical_coverage initial_mutators r with
        | error e => simp [h1, h2, h3, h4] at h
        | ok res4 =>
          obtain ⟨input_reader2, intermediate_writer1, r1⟩ := res4
          cases h5 : fileio.SequenceFileReader.construct
              (fs1.write intermediate_filename intermediate_writer1._file)
              intermediate_filename .BINARY with
          | error e => simp [h1, h2, h3, h4, h5] at h
          | ok intermediate_reader =>
            cases h6 : fileio.SequenceFileWriter.construct
                (fs1.write intermediate_filename intermediate_writer1._file)
                output_filename_fw write_file_type with
            | error e => simp [h1, h2, h3, h4, h5, h6] at h
            | ok res6 =>
              obtain ⟨writer_fw, fs3⟩ := res6
              cases h7 : fileio.SequenceFileWriter.construct fs3 output_filename_rv
                  write_file_type with
              | error e => simp [h1, h2, h3, h4, h5, h6, h7] at h
              | ok res7 =>
                obtain ⟨writer_rv, fs4⟩ := res7
                cases h8 : recovery_and_sequencing intermediate_reader writer_fw writer_rv
                    n_sequences mean_sequencing_coverage recovery_mutators
                    sequencing_mutators r1 with
                | error e => simp [h1, h2, h3, h4, h5, h6, h7, h8] at h
                | ok res8 =>
                  obtain ⟨rd, writer_fw1, writer_rv1, r2⟩ := res8
                  simp [h1, h2, h3, h4, h5, h6, h7, h8, files_remove_self]

end pipeline

namespace pipeline

/-- When pass 1 throws, `run` removes the intermediate file and passes the error on. -/
theorem run_pass_one_error_removes_intermediate (fs fs1 : fileio.FileSystem)
    (input_filename intermediate_filename output_filename_fw output_filename_rv : List Char)
    (initial_coverage_bias mean_physical_coverage mean_sequencing_coverage : ℚ)
    (initial_mutators recovery_mutators sequencing_mutators : List mutator.BaseMutator)
    (write_file_type : fileio.WriteFileType) (r : Rng)
    (input_reader input_reader1 : fileio.SequenceFileReader) (n_sequences : Int)
    (intermediate_writer : fileio.SequenceFileWriter) (e : Error)
    (hinput : fileio.SequenceFileReader.construct fs input_filename .ANY = .ok input_reader)
    (hinter : fileio.SequenceFileWriter.construct fs intermediate_filename .BINARY
      = .ok (intermediate_writer, fs1))
    (hcount : input_reader.count_sequences = .ok (n_sequences, input_reader1))
    (hpass1 : synthesis_and_sampling input_reader1 intermediate_writer initial_coverage_bias
      mean_physical_coverage initial_mutators r = .error e) :
    (run fs input_filename intermediate_filename output_filename_fw output_filename_rv
      initial_coverage_bias mean_physical_coverage mean_sequencing_coverage initial_mutators
      recovery_mutators sequencing_mutators write_file_type r).result = .error e ∧
    (run fs input_filename intermediate_filename output_filename_fw output_filename_rv
      initial_coverage_bias mean_physical_coverage mean_sequencing_coverage initial_mutators
      recovery_mutators sequencing_mutators write_file_type r).fs.files intermediate_filename
      = none := by
  simp only [run, hinput, hinter, hcount, hpass1]
  exact ⟨trivial, files_remove_self _ _⟩

/-- When pass 2 throws, `run` removes the intermediate file and passes the error on. -/
theorem run_pass_two_error_removes_intermediate (fs fs1 fs3 fs4 : fileio.FileSystem)
    (input_filename intermediate_filename output_filename_fw output_filename_rv : List Char)
    (initial_coverage_bias mean_physical_coverage mean_sequencing_coverage : ℚ)
    (initial_mutators recovery_mutators sequencing_mutators : List mutator.BaseMutator)
    (write_file_type : fileio.WriteFileType) (r r1 : Rng)
    (input_reader input_reader1 input_reader2 intermediate_reader : fileio.SequenceFileReader)
    (n_sequences : Int)
    (intermediate_writer intermediate_writer1 writer_fw writer_rv : fileio.SequenceFileWriter)
    (e : Error)
    (hinput : fileio.SequenceFileReader.construct fs input_filename .ANY = .ok input_reader)
    (hinter : fileio.SequenceFileWriter.construct fs intermediate_filename .BINARY
      = .ok (intermediate_writer, fs1))
    (hcount : input_reader.count_sequences = .ok (n_sequences, input_reader1))
    (hpass1 : synthesis_and_sampling input_reader1 intermediate_writer initial_coverage_bias
      mean_physical_coverage initial_mutators r = .ok (input_reader2, intermediate_writer1, r1))
    (hreader : fileio.SequenceFileReader.construct
      (fs1.write intermediate_filename intermediate_writer1._file) intermediate_filename .BINARY
      = .ok intermediate_reader)
    (hfw : fileio.SequenceFileWriter.construct
      (fs1.write intermediate_filename intermediate_writer1._file) output_filename_fw
      write_file_type = .ok (writer_fw, fs3))
    (hrv : fileio.SequenceFileWriter.construct fs3 output_filename_rv write_file_type
      = .ok (writer_rv, fs4))
    (hpass2 : recovery_and_sequencing intermediate_reader writer_fw writer_rv n_sequences
      mean_sequencing_coverage recovery_mutators sequencing_mutators r1 = .error e) :
    (run fs input_filename intermediate_filename output_filename_fw output_filename_rv
      initial_coverage_bias mean_physical_coverage mean_sequencing_coverage initial_mutators
      recovery_mutators sequencing_mutators write_file_type r).result = .error e ∧
    (run fs input_filename intermediate_filename output_filename_fw output_filename_rv
      initial_coverage_bias mean_physical_coverage mean_sequencing_coverage initial_mutators
      recovery_mutators sequencing_mutators write_file_type r).fs.files intermediate_filename
      = none := by
  simp only [run, hinput, hinter, hcount, hpass1, hreader, hfw, hrv, hpass2]
  exact ⟨trivial, files_remove_self _ _⟩

end pipeline

namespace coverage

theorem sample_loop_singleton (n : Nat) :
    ∀ (c : Nat) (r : Rng), (sample_loop [1] n [c] r).1 = [c + n] := by
  induction n with
  | zero => intro c r; rfl
  | succ n ih =>
    intro c r
    simp only [sample_loop]
    have h0 := mutator.discrete_distribution_singleton r
    rw [h0]
    simp only [increment]
    rw [ih]
    congr 1
    omega

/-- With a single design the initial coverage is the whole synthesis coverage. -/
theorem get_initial_coverage_one (log_std : ℚ) (r : Rng) :
    ∃ r1, get_initial_coverage 1 log_std 100 r = .ok ([100], r1) := by
  have hx : (rng.lognormal_distribution log_std r).1 ≠ 0 := by
    simp only [rng.lognormal_distribution]
    split_ifs with h1 h2
    · norm_num
    · exact ne_of_gt h2
    · norm_num
  have hone : (1 : Int).toNat = 1 := rfl
  have hhundred : ((1 : Int) * 100).toNat = 100 := rfl
  refine ⟨(sample_loop [1] 100 [0] (rng.lognormal_distribution log_std r).2).2, ?_⟩
  have hs := sample_loop_singleton 100 0 (rng.lognormal_distribution log_std r).2
  simp only [get_initial_coverage, hone, lognormal_loop, _sample_from_relative_coverage,
    hhundred]
  norm_num [div_self hx]
  exact Prod.ext hs rfl

/-- Sampling from a pool with a single kind of oligo returns the requested number. -/
theorem sample_by_count_hundred (r : Rng) :
    ∃ r1, sample_by_count [100] 2 r = .ok ([2], r1) := by
  have htwo : (2 : Int).toNat = 2 := rfl
  refine ⟨(sample_loop [1] 2 [0] r).2, ?_⟩
  have hs := sample_loop_singleton 2 0 r
  simp only [sample_by_count, _sample_from_relative_coverage, htwo]
  norm_num
  exact Prod.ext hs rfl

end coverage

namespace pipeline

theorem n_sampled_oligos_one_two : n_sampled_oligos 1 2 = 2 := by
  have h : (((1 : Int) : ℚ) * 2) = ((2 : Int) : ℚ) := by norm_num
  rw [n_sampled_oligos, h, float_to_int_natCast]

/-- Pass 1 on the one-design file with all weights on that design and a physical coverage
of 2, without mutators: it succeeds and writes the design twice. -/
theorem synthesis_and_sampling_one_design (log_std : ℚ) (r : Rng) :
    ∃ reader r1, synthesis_and_sampling
        { filetype := .ANY, _file := "A\n".toList, _contents := "A\n".toList,
          skipped_lines := 0, valid_sequences := 0 }
        { filetype := .BINARY, _file := [], sequences_written := 0 } log_std 2 [] r
      = .ok (reader,
          { filetype := .BINARY, _file := fileio.binary_records [[1], [1]],
            sequences_written := 2 }, r1) := by
  obtain ⟨r1, h1⟩ := coverage.get_initial_coverage_one log_std r
  obtain ⟨r2, h2⟩ := coverage.sample_by_count_hundred r1
  have hcount : fileio.SequenceFileReader.count_sequences
      { filetype := .ANY, _file := "A\n".toList, _contents := "A\n".toList,
        skipped_lines := 0, valid_sequences := 0 }
      = .ok (1, { filetype := .ANY, _file := "A\n".toList, _contents := "A\n".toList,
                  skipped_lines := 0, valid_sequences := 0 }) := by decide
  have hget1 : fileio.SequenceFileReader.get_sequence
      { filetype := .ANY, _file := "A\n".toList, _contents := "A\n".toList,
        skipped_lines := 0, valid_sequences := 0 }
      = .ok (some [1], { filetype := .ANY, _file := [], _contents := "A\n".toList,
                         skipped_lines := 0, valid_sequences := 1 }) := by decide
  have hget2 : fileio.SequenceFileReader.get_sequence
      { filetype := .ANY, _file := [], _contents := "A\n".toList,
        skipped_lines := 0, valid_sequences := 1 }
      = .ok (none, { filetype := .ANY, _file := [], _contents := "A\n".toList,
                     skipped_lines := 0, valid_sequences := 1 }) := by decide
  refine ⟨{ filetype := .ANY, _file := [], _contents := "A\n".toList,
            skipped_lines := 0, valid_sequences := 1 }, r2, ?_⟩
  simp only [synthesis_and_sampling, hcount, h1, n_sampled_oligos_one_two, h2, process,
    process_loop, hget1, hget2]
  rfl

end pipeline

/-- C22 (refuted when an output file cannot be opened): the readers and writers of pass 2
are constructed outside the two `try` blocks of `run`.  If pass 1 has succeeded and the
file of the forward or of the reverse reads cannot be opened, `run` fails with the error of
the writer's constructor and the intermediate file, written by pass 1, is still there. -/
theorem C22_unopenable_output_leaves_intermediate_file (fs : fileio.FileSystem)
    (input_filename intermediate_filename output_filename_fw output_filename_rv : List Char)
    (initial_coverage_bias mean_physical_coverage mean_sequencing_coverage : ℚ)
    (initial_mutators recovery_mutators sequencing_mutators : List mutator.BaseMutator)
    (write_file_type : fileio.WriteFileType) (r r1 : Rng)
    (input_reader input_reader1 input_reader2 : fileio.SequenceFileReader)
    (n_sequences : Int) (intermediate_writer1 : fileio.SequenceFileWriter)
    (hinput : fileio.SequenceFileReader.construct fs input_filename .ANY = .ok input_reader)
    (hinter : fs.writable intermediate_filename = true)
    (hcount : input_reader.count_sequences = .ok (n_sequences, input_reader1))
    (hpass1 : pipeline.synthesis_and_sampling input_reader1
      { filetype := .BINARY, _file := [], sequences_written := 0 } initial_coverage_bias
      mean_physical_coverage initial_mutators r = .ok (input_reader2, intermediate_writer1, r1))
    (hout : fs.writable output_filename_fw = false ∨ fs.writable output_filename_rv = false) :
    (pipeline.run fs input_filename intermediate_filename output_filename_fw
      output_filename_rv initial_coverage_bias mean_physical_coverage mean_sequencing_coverage
      initial_mutators recovery_mutators sequencing_mutators write_file_type r).result
      = .error Error.could_not_open_file ∧
    (pipeline.run fs input_filename intermediate_filename output_filename_fw
      output_filename_rv initial_coverage_bias mean_physical_coverage mean_sequencing_coverage
      initial_mutators recovery_mutators sequencing_mutators write_file_type r).fs.files
      intermediate_filename ≠ none := by
  have h2 : fileio.SequenceFileWriter.construct fs intermediate_filename .BINARY
      = .ok ({ filetype := .BINARY, _file := [], sequences_written := 0 },
          fs.write intermediate_filename []) := by
    simp [fileio.SequenceFileWriter.construct, hinter]
  have h5 : fileio.SequenceFileReader.construct
      ((fs.write intermediate_filename []).write intermediate_filename
        intermediate_writer1._file) intermediate_filename .BINARY
      = .ok { filetype := .BINARY, _file := intermediate_writer1._file,
              _contents := intermediate_writer1._file, skipped_lines := 0,
              valid_sequences := 0 } := by
    simp [fileio.SequenceFileReader.construct, fileio.FileSystem.write]
  by_cases hfw : fs.writable output_filename_fw = true
  · have hrv : fs.writable output_filename_rv = false := by
      rcases hout with h | h
      · rw [hfw] at h
        cases h
      · exact h
    have h6 : fileio.SequenceFileWriter.construct
        ((fs.write intermediate_filename []).write intermediate_filename
          intermediate_writer1._file) output_filename_fw write_file_type
        = .ok ({ filetype := write_file_type, _file := [], sequences_written := 0 },
            (((fs.write intermediate_filename []).write intermediate_filename
              intermediate_writer1._file).write output_filename_fw [])) := by
      simp [fileio.SequenceFileWriter.construct, fileio.FileSystem.write, hfw]
    have h7 : fileio.SequenceFileWriter.construct
        (((fs.write intermediate_filename []).write intermediate_filename
              intermediate_writer1._file).write output_filename_fw [])
        output_filename_rv write_file_type = .error Error.could_not_open_file := by
      simp [fileio.SequenceFileWriter.construct, fileio.FileSystem.write, hrv]
    simp only [pipeline.run, hinput, h2, hcount, hpass1, h5, h6, h7]
    refine ⟨trivial, ?_⟩
    simp only [fileio.FileSystem.write]
    split_ifs <;> simp
  · have hfw0 : fs.writable output_filename_fw = false := by simpa using hfw
    have h6 : fileio.SequenceFileWriter.construct
        ((fs.write intermediate_filename []).write intermediate_filename
          intermediate_writer1._file) output_filename_fw write_file_type
        = .error Error.could_not_open_file := by
      simp [fileio.SequenceFileWriter.construct, fileio.FileSystem.write, hfw0]
    simp only [pipeline.run, hinput, h2, hcount, hpass1, h5, h6]
    refine ⟨trivial, ?_⟩
    simp [fileio.FileSystem.write]

/-- C22 on a disk where `R1.fq` cannot be created: the run fails and leaves `pool.bin`. -/
theorem C22_unopenable_output_leaves_intermediate_file_witness :
    (pipeline.run pipeline.locked_output_disk "designs.txt".toList "pool.bin".toList
      "R1.fq".toList "R2.fq".toList 0 2 1 [] [] [] .FASTQ rng.sample_state).result
      = .error Error.could_not_open_file ∧
    (pipeline.run pipeline.locked_output_disk "designs.txt".toList "pool.bin".toList
      "R1.fq".toList "R2.fq".toList 0 2 1 [] [] [] .FASTQ rng.sample_state).fs.files
      "pool.bin".toList ≠ none := by
  obtain ⟨reader, r1, hpass1⟩ := pipeline.synthesis_and_sampling_one_design 0 rng.sample_state
  exact C22_unopenable_output_leaves_intermediate_file pipeline.locked_output_disk
    "designs.txt".toList "pool.bin".toList "R1.fq".toList "R2.fq".toList 0 2 1 [] [] []
    .FASTQ rng.sample_state r1
    { filetype := .ANY, _file := "A\n".toList, _contents := "A\n".toList,
      skipped_lines := 0, valid_sequences := 0 }
    { filetype := .ANY, _file := "A\n".toList, _contents := "A\n".toList,
      skipped_lines := 0, valid_sequences := 0 }
    reader 1 _ (by decide) (by decide) (by decide) hpass1 (Or.inl (by decide))

/-! ## EndShreds cuts a slice -/

namespace mutator

theorem length_normalize_vector (vec : List ℚ) : (normalize_vector vec).length = vec.length := by
  simp [normalize_vector]

theorem draw_two (sampler : List ℚ) (r : Rng) :
    ∃ d1 d2 r1, draw_from_distribution sampler 2 r = ([d1, d2], r1) ∧
      (sampler ≠ [] → d1 < sampler.length ∧ d2 < sampler.length) := by
  refine ⟨(rng.discrete_distribution sampler r).1,
    (rng.discrete_distribution sampler (rng.discrete_distribution sampler r).2).1,
    (rng.discrete_distribution sampler (rng.discrete_distribution sampler r).2).2, rfl, ?_⟩
  intro h
  exact ⟨rng.discrete_distribution_lt sampler r h, rng.discrete_distribution_lt sampler _ h⟩

end mutator

/-- C40: for EndShreds built from a non-empty vector `L`, with `d1` and `d2` the two drawn
values: if `d1 ≤ len(o)` and `d2 ≤ len(o) - d1` the result is the slice of the oligo from
index `d2` up to `len(o) - d1`, of length `len(o) - d1 - d2`; otherwise the function throws
or is undefined, as nothing is clipped; and the condition holds whenever
`len(o) ≥ 2 * (len(L) - 1)`. -/
theorem C40_end_shreds_cuts_slice (L : List ℚ) (hL : L ≠ []) (oligo : List Int) (r : Rng) :
    ∃ d1 d2 r1,
      mutator.draw_from_distribution (mutator.EndShreds.construct L)._length_sampler 2 r
        = ([d1, d2], r1) ∧
      (d1 ≤ oligo.length ∧ d2 ≤ oligo.length - d1 →
        (mutator.EndShreds.construct L).process_single oligo r
          = .ok (mutator.slice oligo d2 (oligo.length - d1), r1) ∧
        (mutator.slice oligo d2 (oligo.length - d1)).length = oligo.length - d1 - d2) ∧
      (¬ (d1 ≤ oligo.length ∧ d2 ≤ oligo.length - d1) →
        (mutator.EndShreds.construct L).process_single oligo r
            = .error Error.vector_length_error ∨
        (mutator.EndShreds.construct L).process_single oligo r
            = .error Error.undefined_behaviour) ∧
      (2 * (L.length - 1) ≤ oligo.length → d1 ≤ oligo.length ∧ d2 ≤ oligo.length - d1) := by
  obtain ⟨d1, d2, r1, hdraw, hlt⟩ :=
    mutator.draw_two (mutator.EndShreds.construct L)._length_sampler r
  have hne : (mutator.EndShreds.construct L)._length_sampler ≠ [] := by
    intro h
    have := congrArg List.length h
    simp only [mutator.EndShreds.construct, mutator.length_normalize_vector,
      List.length_nil] at this
    exact hL (List.length_eq_zero.mp this)
  have hlen : (mutator.EndShreds.construct L)._length_sampler.length = L.length := by
    simp [mutator.EndShreds.construct, mutator.length_normalize_vector]
  obtain ⟨h1, h2⟩ := hlt hne
  rw [hlen] at h1 h2
  refine ⟨d1, d2, r1, hdraw, ?_, ?_, ?_⟩
  · rintro ⟨ha, hb⟩
    refine ⟨?_, ?_⟩
    · simp only [mutator.EndShreds.process_single, hdraw, List.getD_cons_zero,
        List.getD_cons_succ]
      have h3 : ¬ d1 > oligo.length := by omega
      have h4 : ¬ d2 > (if d1 > 0 then List.take (oligo.length - d1) oligo else oligo).length := by
        split_ifs
        · rw [List.length_take]
          omega
        · omega
      rw [if_neg h3, if_neg h4]
      congr 2
      by_cases h5 : d1 > 0 <;> by_cases h6 : d2 > 0
      · simp [h5, h6, mutator.slice]
      · have : d2 = 0 := by omega
        simp [h5, this, mutator.slice]
      · have : d1 = 0 := by omega
        simp [h6, this, mutator.slice]
      · have h7 : d1 = 0 := by omega
        have h8 : d2 = 0 := by omega
        simp [h7, h8, mutator.slice]
    · rw [mutator.length_slice]
      omega
  · intro hnot
    simp only [mutator.EndShreds.process_single, hdraw, List.getD_cons_zero,
      List.getD_cons_succ]
    by_cases h3 : d1 > oligo.length
    · left
      rw [if_pos h3]
    · right
      have h4 : d2 > (if d1 > 0 then List.take (oligo.length - d1) oligo else oligo).length := by
        have : ¬ d2 ≤ oligo.length - d1 := fun h => hnot ⟨by omega, h⟩
        split_ifs
        · rw [List.length_take]
          omega
        · omega
      rw [if_neg h3, if_pos h4]
  · intro h
    omega

/-- C40 for the length preference of ten entries and an oligo of 18 bases. -/
theorem C40_end_shreds_cuts_slice_witness :
    ([1, 1, 1, 1, 1, 1, 1, 1, 1, 1] : List ℚ) ≠ [] ∧
    ∃ d1 d2 r1,
      mutator.draw_from_distribution
          (mutator.EndShreds.construct [1, 1, 1, 1, 1, 1, 1, 1, 1, 1])._length_sampler 2
          rng.sample_state = ([d1, d2], r1) ∧
      (mutator.EndShreds.construct [1, 1, 1, 1, 1, 1, 1, 1, 1, 1]).process_single
          (List.replicate 18 1) rng.sample_state
        = .ok (mutator.slice (List.replicate 18 1) d2 ((List.replicate 18 1).length - d1), r1) := by
  refine ⟨by simp, ?_⟩
  obtain ⟨d1, d2, r1, h1, h2, -, h4⟩ := C40_end_shreds_cuts_slice
    [1, 1, 1, 1, 1, 1, 1, 1, 1, 1] (by simp) (List.replicate 18 1) rng.sample_state
  exact ⟨d1, d2, r1, h1, (h2 (h4 (by simp))).1⟩

/-! ## Deletions stay inside the oligo -/

namespace mutator

theorem erase_range_clip (oligo : List Int) (position length : Nat)
    (hp : position < oligo.length) (hl : 1 ≤ length) :
    (erase_range oligo position
        (if position + length > oligo.length then oligo.length - position else length)).length
        + 1 ≤ oligo.length ∧
    position ≤ (erase_range oligo position
        (if position + length > oligo.length then oligo.length - position else length)).length ∧
    ∀ q, q ≤ position →
      (erase_range oligo position
        (if position + length > oligo.length then oligo.length - position else length)).take q
        = oligo.take q := by
  refine ⟨?_, ?_, ?_⟩
  · simp only [erase_range, List.length_append, List.length_take, List.length_drop]
    split_ifs <;> omega
  · simp only [erase_range, List.length_append, List.length_take, List.length_drop]
    split_ifs <;> omega
  · intro q hq
    simp only [erase_range]
    rw [List.take_append_of_le_length (by rw [List.length_take]; omega), List.take_take]
    congr 1
    omega

/-- The deletion loop over events listed from the highest position down: every event finds
its position inside the current oligo, removes at least one entry, and leaves the entries
below its position alone. -/
theorem DeletionEvents.erase_loop_bounds (events : List (Nat × Nat)) :
    ∀ oligo : List Int, (events.map Prod.fst).Pairwise (· > ·) →
      (∀ e ∈ events, e.1 < oligo.length ∧ 1 ≤ e.2) →
      (DeletionEvents.erase_loop events oligo).length + events.length ≤ oligo.length ∧
      ∀ q, (∀ e ∈ events, q ≤ e.1) → q ≤ oligo.length →
        (DeletionEvents.erase_loop events oligo).take q = oligo.take q ∧
        q ≤ (DeletionEvents.erase_loop events oligo).length := by
  induction events with
  | nil =>
    intro oligo _ _
    exact ⟨le_refl _, fun q _ hq => ⟨rfl, hq⟩⟩
  | cons e events ih =>
    intro oligo hsorted hrange
    obtain ⟨p, l⟩ := e
    simp only [List.map_cons, List.pairwise_cons] at hsorted
    obtain ⟨hp, hl⟩ := hrange (p, l) (List.mem_cons_self _ _)
    simp only at hp hl
    obtain ⟨h1, h2, h3⟩ := erase_range_clip oligo p l hp hl
    have hrange1 : ∀ e ∈ events, e.1 < (erase_range oligo p
        (if p + l > oligo.length then oligo.length - p else l)).length ∧ 1 ≤ e.2 := by
      intro e he
      have := hsorted.1 e.1 (List.mem_map_of_mem Prod.fst he)
      exact ⟨by omega, (hrange e (List.mem_cons_of_mem _ he)).2⟩
    obtain ⟨h4, h5⟩ := ih _ hsorted.2 hrange1
    simp only [DeletionEvents.erase_loop, List.length_cons]
    refine ⟨by omega, ?_⟩
    intro q hq hqlen
    have hqp : q ≤ p := hq (p, l) (List.mem_cons_self _ _)
    obtain ⟨h6, h7⟩ := h5 q (fun e he => hq e (List.mem_cons_of_mem _ he)) (by omega)
    exact ⟨by rw [h6, h3 q hqp], h7⟩

end mutator

/-- C37: for every oligo, strictly ascending event positions inside the oligo and event
lengths of at least 1, the deletion loop (from the highest position down, the length
clipped at the end of the current oligo) finds every event position inside the current
oligo, so that each erased range is non-empty and in range; the entries before the first
event position are unchanged, and the output has at least as many entries as the first
event position and at most `len(o)` minus the number of events.  The loop is the one that
`process_single` runs on its drawn positions and lengths. -/
theorem C37_deletion_stays_in_bounds (oligo : List Int) (positions lengths : List Nat)
    (hsorted : positions.Pairwise (· < ·)) (hrange : ∀ p ∈ positions, p < oligo.length)
    (hlen : lengths.length = positions.length) (hl : ∀ l ∈ lengths, 1 ≤ l) :
    (∀ done rest p l, (positions.zip lengths).reverse = done ++ (p, l) :: rest →
      p < (mutator.DeletionEvents.erase_loop done oligo).length ∧
      1 ≤ (if p + l > (mutator.DeletionEvents.erase_loop done oligo).length
            then (mutator.DeletionEvents.erase_loop done oligo).length - p else l) ∧
      p + (if p + l > (mutator.DeletionEvents.erase_loop done oligo).length
            then (mutator.DeletionEvents.erase_loop done oligo).length - p else l)
        ≤ (mutator.DeletionEvents.erase_loop done oligo).length) ∧
    (mutator.DeletionEvents.erase_loop (positions.zip lengths).reverse oligo).length
      + positions.length ≤ oligo.length ∧
    (∀ p1, positions.head? = some p1 →
      (mutator.DeletionEvents.erase_loop (positions.zip lengths).reverse oligo).take p1
        = oligo.take p1 ∧
      p1 ≤ (mutator.DeletionEvents.erase_loop (positions.zip lengths).reverse oligo).length) ∧
    (∀ (m : mutator.DeletionEvents) (r : Rng),
      (m.process_single oligo r).1
        = if (mutator.get_event_positions
              (mutator.p_event_by_position m.rate m.p_base_preference oligo) r).1.length = 0
          then oligo
          else mutator.DeletionEvents.erase_loop
            ((mutator.get_event_positions
                (mutator.p_event_by_position m.rate m.p_base_preference oligo) r).1.zip
              (mutator.draw_event_lengths m._custom_event_lengths m._event_lengths_sampler
                (mutator.get_event_positions
                  (mutator.p_event_by_position m.rate m.p_base_preference oligo) r).1.length
                (mutator.get_event_positions
                  (mutator.p_event_by_position m.rate m.p_base_preference oligo) r).2).1).reverse
            oligo) := by
  have hfst : ((positions.zip lengths).reverse).map Prod.fst = positions.reverse := by
    rw [List.map_reverse, List.map_fst_zip _ _ (le_of_eq hlen.symm)]
  have hdesc : (((positions.zip lengths).reverse).map Prod.fst).Pairwise (· > ·) := by
    rw [hfst, List.pairwise_reverse]
    exact hsorted
  have hev : ∀ e ∈ (positions.zip lengths).reverse, e.1 < oligo.length ∧ 1 ≤ e.2 := by
    intro e he
    have := List.of_mem_zip (List.mem_reverse.1 he)
    exact ⟨hrange e.1 this.1, hl e.2 this.2⟩
  refine ⟨?_, ?_, ?_, ?_⟩
  · intro done rest p l hsplit
    have hdone : (done.map Prod.fst).Pairwise (· > ·) := by
      rw [hsplit, List.map_append] at hdesc
      exact (List.pairwise_append.1 hdesc).1
    have hgt : ∀ e ∈ done, p + 1 ≤ e.1 := by
      intro e he
      rw [hsplit, List.map_append, List.map_cons] at hdesc
      have := (List.pairwise_append.1 hdesc).2.2 e.1 (List.mem_map_of_mem Prod.fst he) p
        (List.mem_cons_self _ _)
      omega
    have hpl := hev (p, l) (by rw [hsplit]; simp)
    simp only at hpl
    have hb := (mutator.DeletionEvents.erase_loop_bounds done oligo hdone
      (fun e he => hev e (by rw [hsplit]; exact List.mem_append_left _ he))).2 (p + 1) hgt
      (by omega)
    have := hb.2
    refine ⟨by omega, ?_, ?_⟩
    · split_ifs <;> omega
    · split_ifs <;> omega
  · have := (mutator.DeletionEvents.erase_loop_bounds _ oligo hdesc hev).1
    rw [List.length_reverse, List.length_zip, hlen, Nat.min_self] at this
    exact this
  · intro p1 hp1
    have hmem : p1 ∈ positions := List.mem_of_mem_head? hp1
    have hmin : ∀ e ∈ (positions.zip lengths).reverse, p1 ≤ e.1 := by
      intro e he
      have he1 : e.1 ∈ positions := (List.of_mem_zip (List.mem_reverse.1 he)).1
      cases positions with
      | nil => cases hp1
      | cons a as =>
        simp only [List.head?_cons, Option.some.injEq] at hp1
        subst hp1
        rcases List.mem_cons.1 he1 with h | h
        · omega
        · have := (List.pairwise_cons.1 hsorted).1 e.1 h
          omega
    exact (mutator.DeletionEvents.erase_loop_bounds _ oligo hdesc hev).2 p1 hmin
      (le_of_lt (hrange p1 hmem))
  · intro m r
    simp only [mutator.DeletionEvents.process_single]
    split_ifs <;> rfl

/-- C37 for two overlapping events at the end of the oligo ACGTA. -/
theorem C37_deletion_stays_in_bounds_witness :
    (mutator.DeletionEvents.erase_loop (([2, 3] : List Nat).zip [3, 4]).reverse
        [1, 2, 3, 4, 1]).length + ([2, 3] : List Nat).length ≤ ([1, 2, 3, 4, 1] : List Int).length ∧
    ∀ p1, ([2, 3] : List Nat).head? = some p1 →
      (mutator.DeletionEvents.erase_loop (([2, 3] : List Nat).zip [3, 4]).reverse
          [1, 2, 3, 4, 1]).take p1 = ([1, 2, 3, 4, 1] : List Int).take p1 ∧
      p1 ≤ (mutator.DeletionEvents.erase_loop (([2, 3] : List Nat).zip [3, 4]).reverse
          [1, 2, 3, 4, 1]).length :=
  (C37_deletion_stays_in_bounds [1, 2, 3, 4, 1] [2, 3] [3, 4] (by decide) (by decide) rfl
    (by decide)).2
    |>.imp_right And.left

/-! ## The sequencing chain -/

namespace mutator

theorem process_single_loop_length (m : BaseMutator) :
    ∀ (oligos out : List (List Int)) (r r1 : Rng),
      BaseMutator.process_single_loop m oligos r = .ok (out, r1) → out.length = oligos.length := by
  intro oligos
  induction oligos with
  | nil =>
    intro out r r1 h
    simp only [BaseMutator.process_single_loop, Except.ok.injEq, Prod.mk.injEq] at h
    rw [← h.1]
  | cons o os ih =>
    intro out r r1 h
    simp only [BaseMutator.process_single_loop] at h
    cases h1 : m.process_single o r with
    | error e => simp [h1] at h
    | ok res =>
      obtain ⟨o1, r2⟩ := res
      simp only [h1] at h
      cases h2 : BaseMutator.process_single_loop m os r2 with
      | error e => simp [h2] at h
      | ok res2 =>
        obtain ⟨os1, r3⟩ := res2
        simp only [h2, Except.ok.injEq, Prod.mk.injEq] at h
        rw [← h.1, List.length_cons, List.length_cons, ih os1 r2 r3 h2]

/-- A chain of mutators that do not manipulate the count returns as many oligos as it was
given. -/
theorem process_all_length (mutators : List BaseMutator)
    (hm : ∀ m ∈ mutators, m.get_manipulates_count = false) :
    ∀ (oligos out : List (List Int)) (r r1 : Rng),
      process_all mutators oligos r = .ok (out, r1) → out.length = oligos.length := by
  induction mutators with
  | nil =>
    intro oligos out r r1 h
    simp only [process_all, Except.ok.injEq, Prod.mk.injEq] at h
    rw [← h.1]
  | cons m ms ih =>
    intro oligos out r r1 h
    simp only [process_all] at h
    cases h1 : m.process oligos r with
    | error e => simp [h1] at h
    | ok res =>
      obtain ⟨os1, r2⟩ := res
      simp only [h1] at h
      have hflag := hm m (List.mem_cons_self _ _)
      have h2 : BaseMutator.process_single_loop m oligos r = .ok (os1, r2) := by
        simpa [BaseMutator.process, hflag] using h1
      rw [ih (fun x hx => hm x (List.mem_cons_of_mem _ hx)) os1 out r2 r1 h,
        process_single_loop_length m oligos os1 r r2 h2]

theorem process_singleton (m : BaseMutator) (hm : m.get_manipulates_count = false)
    (oligo oligo1 : List Int) (r r1 : Rng) (h : m.process_single oligo r = .ok (oligo1, r1)) :
    m.process [oligo] r = .ok ([oligo1], r1) := by
  simp [BaseMutator.process, hm, BaseMutator.process_single_loop, h]

theorem pad_trim_length (read_length : Int) (h0 : 0 ≤ read_length) (oligo : List Int)
    (r : Rng) :
    ∃ out r1, (SequencingPadTrim.construct read_length).process_single oligo r = .ok (out, r1) ∧
      (out.length : Int) = read_length := by
  rcases lt_trichotomy (oligo.length : Int) read_length with h | h | h
  · refine ⟨_, _, pad_trim_shorter _ oligo r h, ?_⟩
    simp only [List.length_append, List.length_map, length_draw_from_distribution,
      SequencingPadTrim.construct]
    push_cast
    omega
  · exact ⟨_, _, pad_trim_equal _ oligo r h, h⟩
  · refine ⟨_, _, pad_trim_longer _ oligo r h0 h, ?_⟩
    simp only [SequencingPadTrim.construct, List.length_take]
    omega

end mutator

namespace scenarios

/-- The chain that `sequencing` builds: the adapter if asked for, pad and trim if asked
for, and the substitutions of the sequencer. -/
theorem sequencing_eq ( add_adapters pad_and_trim : Bool) (read_length : Int) :
    ∃ (adapter : mutator.SequencingAddAdapter) (substitutions : mutator.SubstitutionEvents),
      sequencing add_adapters pad_and_trim read_length []
        = .ok ((if add_adapters then [mutator.BaseMutator.SequencingAddAdapter adapter] else [])
            ++ (if pad_and_trim then [mutator.BaseMutator.SequencingPadTrim
                  (mutator.SequencingPadTrim.construct read_length)] else [])
            ++ [mutator.BaseMutator.SubstitutionEvents substitutions]) := by
  have hadapter : ∃ adapter, mutator.SequencingAddAdapter.construct "AGATCGGAAGAGC".toList
      = .ok adapter := ⟨_, rfl⟩
  obtain ⟨adapter, ha⟩ := hadapter
  have hsub : ∃ substitutions, mutator.SubstitutionEvents.construct (18115 / 10000000)
      [29 / 10000, 2065 / 10000, 1684 / 10000, 246 / 10000, 139 / 10000, 1594 / 10000,
       1761 / 10000, 184 / 10000, 377 / 10000, 203 / 10000, 1060 / 10000, 657 / 10000] []
      = .ok substitutions := by
    unfold mutator.SubstitutionEvents.construct
    simp
  obtain ⟨substitutions, hs⟩ := hsub
  refine ⟨adapter, substitutions, ?_⟩
  unfold sequencing
  simp only [ha, hs]
  cases add_adapters <;> cases pad_and_trim <;> simp

end scenarios

namespace mutator

theorem pad_trim_ok_or_length_error (m : SequencingPadTrim) (oligo : List Int) (r : Rng) :
    (∃ out r1, m.process_single oligo r = .ok (out, r1)) ∨
    (m.process_single oligo r = .error Error.vector_length_error ∧ m.read_length < 0) := by
  cases h : m.process_single oligo r with
  | ok res => exact Or.inl ⟨res.1, res.2, rfl⟩
  | error e =>
    right
    simp only [SequencingPadTrim.process_single] at h
    split_ifs at h with h1 h2
    cases h
    exact ⟨rfl, h2⟩

/-- The sequencing chain on a pool of one oligo: the adapter is appended if present, pad and
trim is applied if present, and the substitutions come last. -/
theorem process_all_sequencing (adapter : SequencingAddAdapter)
    (substitutions : SubstitutionEvents) ( add_adapters pad_and_trim : Bool)
    (read_length : Int) (oligo : List Int) (r : Rng) :
    process_all ((if add_adapters then [BaseMutator.SequencingAddAdapter adapter] else [])
        ++ (if pad_and_trim then [BaseMutator.SequencingPadTrim
              (SequencingPadTrim.construct read_length)] else [])
        ++ [BaseMutator.SubstitutionEvents substitutions]) [oligo] r
      = if pad_and_trim then
          match (SequencingPadTrim.construct read_length).process_single
              (if add_adapters then oligo ++ adapter._adapter_vector else oligo) r with
          | .error e => .error e
          | .ok (padded, r1) =>
            .ok ([(substitutions.process_single padded r1).1],
              (substitutions.process_single padded r1).2)
        else
          .ok ([(substitutions.process_single
                  (if add_adapters then oligo ++ adapter._adapter_vector else oligo) r).1],
            (substitutions.process_single
                  (if add_adapters then oligo ++ adapter._adapter_vector else oligo) r).2) := by
  cases add_adapters <;> cases pad_and_trim <;>
    simp only [if_true, if_false, Bool.false_eq_true, List.nil_append, List.cons_append,
      process_all, BaseMutator.process, BaseMutator.get_manipulates_count,
      BaseMutator.process_single_loop, BaseMutator.process_single,
      SequencingAddAdapter.process_single]
  · cases (SequencingPadTrim.construct read_length).process_single oligo r with
    | error e => rfl
    | ok res => rfl
  · cases (SequencingPadTrim.construct read_length).process_single
      (oligo ++ adapter._adapter_vector) r with
    | error e => rfl
    | ok res => rfl

end mutator

/-- C33: for each combination of `add_adapters` and `pad_and_trim` the function
`scenarios::sequencing` returns a chain in which every mutator has `manipulates_count`
false; such a chain turns a pool of one oligo into a pool of one oligo whenever it returns,
so a collector with this chain never reads element 0 of an empty vector: `apply_mutators`
returns an oligo or passes on the length error of a negative read length, and it returns
an oligo whenever the read length is not negative or pad and trim is off. -/
theorem C33_sequencing_chain_preserves_count ( add_adapters pad_and_trim : Bool)
    (read_length : Int) :
    ∃ chain, scenarios.sequencing add_adapters pad_and_trim read_length [] = .ok chain ∧
      (∀ m ∈ chain, m.get_manipulates_count = false) ∧
      (∀ (oligo : List Int) (r r1 : Rng) (pool : List (List Int)),
        mutator.process_all chain [oligo] r = .ok (pool, r1) → pool.length = 1) ∧
      (∀ (c : oligocollector.OligoCollector) (oligo : List Int) (r : Rng),
        c._mutators = some chain →
          (∃ mutated r1, c.apply_mutators oligo r = .ok (mutated, r1)) ∨
          (c.apply_mutators oligo r = .error Error.vector_length_error ∧
            pad_and_trim = true ∧ read_length < 0)) := by
  obtain ⟨adapter, substitutions, hchain⟩ :=
    scenarios.sequencing_eq add_adapters pad_and_trim read_length
  refine ⟨_, hchain, ?_, ?_, ?_⟩
  · intro m hm
    simp only [List.mem_append, List.mem_singleton] at hm
    rcases hm with (hm | hm) | hm
    · split_ifs at hm
      · rw [List.mem_singleton.1 hm]; rfl
      · simp at hm
    · split_ifs at hm
      · rw [List.mem_singleton.1 hm]; rfl
      · simp at hm
    · rw [hm]; rfl
  · intro oligo r r1 pool h
    have hflags : ∀ m ∈ (if add_adapters then
          [mutator.BaseMutator.SequencingAddAdapter adapter] else [])
        ++ (if pad_and_trim then [mutator.BaseMutator.SequencingPadTrim
              (mutator.SequencingPadTrim.construct read_length)] else [])
        ++ [mutator.BaseMutator.SubstitutionEvents substitutions],
        m.get_manipulates_count = false := by
      intro m hm
      simp only [List.mem_append, List.mem_singleton] at hm
      rcases hm with (hm | hm) | hm
      · split_ifs at hm
        · rw [List.mem_singleton.1 hm]; rfl
        · simp at hm
      · split_ifs at hm
        · rw [List.mem_singleton.1 hm]; rfl
        · simp at hm
      · rw [hm]; rfl
    rw [mutator.process_all_length _ hflags [oligo] pool r r1 h]
    rfl
  · intro c oligo r hc
    simp only [oligocollector.OligoCollector.apply_mutators, hc,
      mutator.process_all_sequencing]
    cases pad_and_trim with
    | false =>
      left
      exact ⟨_, _, rfl⟩
    | true =>
      simp only [if_true]
      rcases mutator.pad_trim_ok_or_length_error
          (mutator.SequencingPadTrim.construct read_length)
          (if add_adapters = true then oligo ++ adapter._adapter_vector else oligo) r with
        ⟨out, r1, h⟩ | ⟨h, hneg⟩
      · left
        rw [h]
        exact ⟨_, _, rfl⟩
      · right
        rw [h]
        simpa using hneg

/-- C38: with pad and trim switched on and a read length that is not negative, the chain of
`scenarios::sequencing` (with or without the adapter) turns every oligo into one oligo of
exactly `read_length` entries: pad and trim brings the oligo to the read length and the
substitutions keep the length.  This is the oligo that the collector writes. -/
theorem C38_sequencing_chain_gives_read_length ( add_adapters : Bool) (read_length : Int)
    (h0 : 0 ≤ read_length) (oligo : List Int) (r : Rng) :
    ∃ chain, scenarios.sequencing add_adapters true read_length [] = .ok chain ∧
      ∃ read r1, mutator.process_all chain [oligo] r = .ok ([read], r1) ∧
        (read.length : Int) = read_length ∧
        ∀ c : oligocollector.OligoCollector, c._mutators = some chain →
          c.apply_mutators oligo r = .ok (read, r1) := by
  obtain ⟨adapter, substitutions, hchain⟩ :=
    scenarios.sequencing_eq add_adapters true read_length
  obtain ⟨padded, r1, hpad, hlen⟩ := mutator.pad_trim_length read_length h0
    (if add_adapters = true then oligo ++ adapter._adapter_vector else oligo) r
  have hall := mutator.process_all_sequencing adapter substitutions add_adapters true
    read_length oligo r
  simp only [if_true, hpad] at hall
  refine ⟨_, hchain, _, _, hall, ?_, ?_⟩
  · rw [mutator.substitution_process_single_length]
    exact hlen
  · intro c hc
    simp only [if_true] at hc
    simp only [oligocollector.OligoCollector.apply_mutators, hc, hall,
      List.getElem?_cons_zero]

/-- C38 for the read length 150 and the oligo ACGT with the adapter. -/
theorem C38_sequencing_chain_gives_read_length_witness :
    ∃ chain, scenarios.sequencing true true 150 [] = .ok chain ∧
      ∃ read r1, mutator.process_all chain [[1, 2, 3, 4]] rng.sample_state = .ok ([read], r1) ∧
        (read.length : Int) = 150 := by
  obtain ⟨chain, h1, read, r1, h2, h3, -⟩ :=
    C38_sequencing_chain_gives_read_length true 150 (by decide) [1, 2, 3, 4] rng.sample_state
  exact ⟨chain, h1, read, r1, h2, h3⟩

/-! ## Substitutions -/

namespace mutator

theorem getD_set_eq {α : Type} (l : List α) (i : Nat) (v d : α) (h : i < l.length) :
    (l.set i v).getD i d = v := by
  induction l generalizing i with
  | nil => simp at h
  | cons a l ih =>
    cases i with
    | zero => rfl
    | succ i =>
      simp only [List.set_cons_succ, List.getD_cons_succ]
      exact ih i (by simpa using h)

theorem getD_set_ne {α : Type} (l : List α) (i k : Nat) (v d : α) (h : i ≠ k) :
    (l.set i v).getD k d = l.getD k d := by
  induction l generalizing i k with
  | nil => rfl
  | cons a l ih =>
    cases i with
    | zero =>
      cases k with
      | zero => exact absurd rfl h
      | succ k => rfl
    | succ i =>
      cases k with
      | zero => rfl
      | succ k =>
        simp only [List.set_cons_succ, List.getD_cons_succ]
        exact ih i k (fun h1 => h (by rw [h1]))

theorem getD_mem {α : Type} (l : List α) (i : Nat) (d : α) (h : i < l.length) :
    l.getD i d ∈ l := by
  induction l generalizing i with
  | nil => simp at h
  | cons a l ih =>
    cases i with
    | zero => exact List.mem_cons_self _ _
    | succ i =>
      simp only [List.getD_cons_succ]
      exact List.mem_cons_of_mem _ (ih i (by simpa using h))

theorem getD_of_length_le {α : Type} (l : List α) (i : Nat) (d : α) (h : l.length ≤ i) :
    l.getD i d = d := by
  induction l generalizing i with
  | nil => rfl
  | cons a l ih =>
    cases i with
    | zero => simp at h
    | succ i =>
      simp only [List.getD_cons_succ]
      exact ih i (by simpa using h)

theorem getD_increment (v : List Nat) :
    ∀ i b, (coverage.increment v i).getD b 0
      = if b = i ∧ i < v.length then v.getD b 0 + 1 else v.getD b 0 := by
  induction v with
  | nil => intro i b; simp [coverage.increment]
  | cons c cs ih =>
    intro i b
    cases i with
    | zero =>
      cases b with
      | zero => simp [coverage.increment]
      | succ b => simp [coverage.increment]
    | succ i =>
      cases b with
      | zero => simp [coverage.increment]
      | succ b =>
        simp only [coverage.increment, List.getD_cons_succ, ih i b, List.length_cons]
        simp

theorem target_base_valid (source : Int) (t : Nat) (hs : 1 ≤ source ∧ source ≤ 4) (ht : t < 3) :
    1 ≤ target_base source t ∧ target_base source t ≤ 4 ∧ target_base source t ≠ source := by
  unfold target_base
  split_ifs <;> omega

theorem basetype_lt (oligo : List Int) (ho : ∀ b ∈ oligo, 1 ≤ b ∧ b ≤ 4) (k : Nat)
    (hk : k < oligo.length) :
    basetype oligo k < 4 ∧ ((basetype oligo k : Nat) : Int) + 1 = oligo.getD k 0 := by
  have := ho _ (getD_mem oligo k 0 hk)
  unfold basetype
  omega

end mutator

namespace mutator

theorem substitution_construct_base_sampler {rate : ℚ} {P L : List ℚ} {m : SubstitutionEvents}
    (h : SubstitutionEvents.construct rate P L = .ok m) (i : Nat) (hi : i < 4) :
    (m._base_sampler.getD i []).length = 3 := by
  have hs : m._base_sampler = (List.range 4).map
      (fun i => normalize_vector (SubstitutionEvents.row (normalize_vector P) i)) := by
    unfold SubstitutionEvents.construct at h
    split_ifs at h <;> cases h <;> rfl
  rw [hs]
  have hrange : List.range 4 = [0, 1, 2, 3] := rfl
  rw [hrange]
  interval_cases i <;>
    simp [length_normalize_vector, SubstitutionEvents.row]

theorem new_bases_loop_good (_base_sampler : List (List ℚ)) (totals : List Nat)
    (hs : ∀ i, i < 4 → (_base_sampler.getD i []).length = 3) (indices : List Nat) :
    ∀ (new_bases : List (List Int)) (r : Rng), indices.Nodup → (∀ i ∈ indices, i < 4) →
      new_bases.length = 4 →
      (∀ i, i < 4 → (i ∈ indices → new_bases.getD i [] = []) ∧
        (i ∉ indices → new_bases_good totals i (new_bases.getD i []))) →
      (SubstitutionEvents.new_bases_loop _base_sampler totals indices new_bases r).1.length = 4 ∧
      ∀ i, i < 4 → new_bases_good totals i
        ((SubstitutionEvents.new_bases_loop _base_sampler totals indices new_bases r).1.getD
          i []) := by
  induction indices with
  | nil =>
    intro new_bases r _ _ hlen h
    exact ⟨hlen, fun i hi => (h i hi).2 (by simp)⟩
  | cons i rest ih =>
    intro new_bases r hnodup hlt hlen h
    have hi : i < 4 := hlt i (List.mem_cons_self _ _)
    have hirest : i ∉ rest := (List.nodup_cons.1 hnodup).1
    simp only [SubstitutionEvents.new_bases_loop]
    by_cases h0 : totals.getD i 0 = 0
    · rw [if_pos h0]
      apply ih new_bases r (List.nodup_cons.1 hnodup).2
        (fun k hk => hlt k (List.mem_cons_of_mem _ hk)) hlen
      intro k hk
      refine ⟨fun hmem => (h k hk).1 (List.mem_cons_of_mem _ hmem), ?_⟩
      intro hnot
      by_cases hki : k = i
      · subst hki
        have := (h k hk).1 (List.mem_cons_self _ _)
        rw [this]
        exact ⟨by rw [h0]; rfl, by simp⟩
      · exact (h k hk).2 (by simp [hki, hnot])
    · rw [if_neg h0]
      apply ih _ _ (List.nodup_cons.1 hnodup).2
        (fun k hk => hlt k (List.mem_cons_of_mem _ hk)) (by rw [List.length_set]; exact hlen)
      intro k hk
      by_cases hki : k = i
      · subst hki
        refine ⟨fun hmem => absurd hmem hirest, fun _ => ?_⟩
        rw [getD_set_eq _ _ _ _ (by rw [hlen]; exact hi)]
        refine ⟨by simp [length_draw_from_distribution], ?_⟩
        intro x hx
        simp only [List.mem_map] at hx
        obtain ⟨d, hd, rfl⟩ := hx
        have hne : _base_sampler.getD k [] ≠ [] := by
          intro hnil
          have := hs k hi
          rw [hnil] at this
          simp at this
        have hd3 := draw_from_distribution_lt _ hne _ _ d hd
        rw [hs k hi] at hd3
        refine ⟨d, hd3, ?_⟩
        unfold target_base
        split_ifs <;> omega
      · rw [getD_set_ne _ _ _ _ _ (fun h1 => hki h1.symm)]
        refine ⟨fun hmem => (h k hk).1 (List.mem_cons_of_mem _ hmem), fun hnot => ?_⟩
        exact (h k hk).2 (by simp [hki, hnot])

theorem new_bases_loop_process_single (_base_sampler : List (List ℚ)) (totals : List Nat)
    (hs : ∀ i, i < 4 → (_base_sampler.getD i []).length = 3) (r : Rng) :
    (SubstitutionEvents.new_bases_loop _base_sampler totals [0, 1, 2, 3] [[], [], [], []]
        r).1.length = 4 ∧
    ∀ i, i < 4 → new_bases_good totals i
      ((SubstitutionEvents.new_bases_loop _base_sampler totals [0, 1, 2, 3] [[], [], [], []]
        r).1.getD i []) := by
  apply new_bases_loop_good _base_sampler totals hs [0, 1, 2, 3] [[], [], [], []] r
    (by decide) (by decide) rfl
  intro i hi
  refine ⟨fun _ => ?_, fun hnot => ?_⟩
  · interval_cases i <;> rfl
  · exfalso
    apply hnot
    interval_cases i <;> simp

end mutator

namespace mutator

theorem count_loop_ones (oligo : List Int) (ps : List Nat) (hps : ∀ p ∈ ps, p < oligo.length) :
    ∀ acc totals,
      SubstitutionEvents.count_loop oligo (ps.zip (List.replicate ps.length 1)) acc totals
        = (acc ++ List.replicate ps.length 1,
            ps.foldl (fun t p => coverage.increment t (basetype oligo p)) totals) := by
  induction ps with
  | nil => intro acc totals; simp [SubstitutionEvents.count_loop]
  | cons p ps ih =>
    intro acc totals
    have hp : ¬ p + 1 > oligo.length := by
      have := hps p (List.mem_cons_self _ _)
      omega
    have hrange : List.range 1 = [0] := rfl
    have hz : (p :: ps).zip (List.replicate (p :: ps).length 1)
        = (p, 1) :: ps.zip (List.replicate ps.length 1) := rfl
    rw [hz, SubstitutionEvents.count_loop]
    simp only [if_neg hp, hrange, List.foldl_cons, List.foldl_nil, Nat.add_zero]
    rw [ih (fun q hq => hps q (List.mem_cons_of_mem _ hq))]
    simp [List.replicate_succ]

theorem foldl_increment_getD (oligo : List Int) (ps : List Nat) :
    ∀ totals : List Nat, (∀ p ∈ ps, basetype oligo p < totals.length) →
      (ps.foldl (fun t p => coverage.increment t (basetype oligo p)) totals).length
          = totals.length ∧
      ∀ b, (ps.foldl (fun t p => coverage.increment t (basetype oligo p)) totals).getD b 0
        = totals.getD b 0 + ps.countP (fun p => decide (basetype oligo p = b)) := by
  induction ps with
  | nil => intro totals _; simp
  | cons p ps ih =>
    intro totals h
    have hp := h p (List.mem_cons_self _ _)
    have hlen := coverage.length_increment totals (basetype oligo p)
    obtain ⟨h1, h2⟩ := ih (coverage.increment totals (basetype oligo p))
      (fun q hq => by rw [hlen]; exact h q (List.mem_cons_of_mem _ hq))
    simp only [List.foldl_cons]
    refine ⟨by rw [h1, hlen], ?_⟩
    intro b
    rw [h2 b, getD_increment, List.countP_cons]
    by_cases hb : basetype oligo p = b
    · simp [hb, hp, hb ▸ hp]
      omega
    · have hb' : ¬ b = basetype oligo p := fun h => hb h.symm
      simp [hb, hb']

theorem substitute_loop_ones (new_bases : List (List Int)) (ps : List Nat) :
    ∀ state : List Int × List Nat,
      SubstitutionEvents.substitute_loop new_bases (ps.zip (List.replicate ps.length 1)) state
        = ps.foldl (fun st p => SubstitutionEvents.substitute_step new_bases p st 0) state := by
  induction ps with
  | nil => intro state; rfl
  | cons p ps ih =>
    intro state
    have hrange : List.range 1 = [0] := rfl
    have hz : (p :: ps).zip (List.replicate (p :: ps).length 1)
        = (p, 1) :: ps.zip (List.replicate ps.length 1) := rfl
    rw [hz, SubstitutionEvents.substitute_loop]
    simp only [hrange, List.foldl_cons, List.foldl_nil]
    rw [ih]

/-- The substitution loop over events of length 1: every event position receives a target
base of its original base, and no other position changes. -/
theorem substitute_ones_invariant (oligo : List Int) (ho : ∀ b ∈ oligo, 1 ≤ b ∧ b ≤ 4)
    (new_bases : List (List Int)) (positions : List Nat) (hnodup : positions.Nodup)
    (hlt : ∀ p ∈ positions, p < oligo.length)
    (hnb : ∀ b, b < 4 →
      (new_bases.getD b []).length
          = positions.countP (fun p => decide (basetype oligo p = b)) ∧
      ∀ x ∈ new_bases.getD b [], ∃ t, t < 3 ∧ x = target_base ((b : Int) + 1) t) :
    ∀ (todo done : List Nat) (cur : List Int) (offset : List Nat),
      positions = done ++ todo → cur.length = oligo.length → offset.length = 4 →
      (∀ b, b < 4 → offset.getD b 0 = done.countP (fun p => decide (basetype oligo p = b))) →
      (∀ k, k ∉ done → cur.getD k 0 = oligo.getD k 0) →
      (∀ k ∈ done, ∃ t, t < 3 ∧ cur.getD k 0 = target_base (oligo.getD k 0) t) →
      (∀ k, k ∉ positions →
        (todo.foldl (fun st p => SubstitutionEvents.substitute_step new_bases p st 0)
          (cur, offset)).1.getD k 0 = oligo.getD k 0) ∧
      (∀ k ∈ positions, ∃ t, t < 3 ∧
        (todo.foldl (fun st p => SubstitutionEvents.substitute_step new_bases p st 0)
          (cur, offset)).1.getD k 0 = target_base (oligo.getD k 0) t) := by
  intro todo
  induction todo with
  | nil =>
    intro done cur offset hsplit _ _ _ h1 h2
    rw [List.append_nil] at hsplit
    subst hsplit
    exact ⟨h1, h2⟩
  | cons p todo ih =>
    intro done cur offset hsplit hcur hoff hcount h1 h2
    have hpmem : p ∈ positions := by rw [hsplit]; simp
    have hp := hlt p hpmem
    have hpdone : p ∉ done := by
      rw [hsplit] at hnodup
      have := (List.nodup_append.1 hnodup).2.2
      intro hmem
      exact this hmem (List.mem_cons_self _ _) 
    have hcurp : cur.getD p 0 = oligo.getD p 0 := h1 p hpdone
    have hbt : basetype cur p = basetype oligo p := by
      show (cur.getD p 0 - 1).toNat = (oligo.getD p 0 - 1).toNat
      rw [hcurp]
    obtain ⟨hbt4, hbase⟩ := basetype_lt oligo ho p hp
    obtain ⟨hnblen, hnbval⟩ := hnb (basetype oligo p) hbt4
    have hofflt : offset.getD (basetype oligo p) 0 < (new_bases.getD (basetype oligo p) []).length := by
      rw [hcount _ hbt4, hnblen, hsplit, List.countP_append, List.countP_cons]
      simp
    have hstep : SubstitutionEvents.substitute_step new_bases p (cur, offset) 0
        = (cur.set p ((new_bases.getD (basetype oligo p) []).getD
              (offset.getD (basetype oligo p) 0) 0),
            offset.set (basetype oligo p) (offset.getD (basetype oligo p) 0 + 1)) := by
      simp only [SubstitutionEvents.substitute_step, Nat.add_zero, hbt, ge_iff_le,
        not_le.2 hofflt, if_false]
    simp only [List.foldl_cons, hstep]
    apply ih (done ++ [p]) _ _ (by rw [hsplit]; simp) (by rw [List.length_set]; exact hcur)
      (by rw [List.length_set]; exact hoff)
    · intro b hb
      rw [List.countP_append, List.countP_cons, List.countP_nil]
      by_cases hbb : basetype oligo p = b
      · subst hbb
        rw [getD_set_eq _ _ _ _ (by rw [hoff]; exact hbt4), hcount _ hbt4]
        simp
      · rw [getD_set_ne _ _ _ _ _ hbb, hcount b hb]
        simp [hbb]
    · intro k hk
      have hkp : p ≠ k := by
        intro h
        apply hk
        simp [h]
      rw [getD_set_ne _ _ _ _ _ hkp]
      exact h1 k (fun hmem => hk (List.mem_append_left _ hmem))
    · intro k hk
      by_cases hkp : p = k
      · subst hkp
        rw [getD_set_eq _ _ _ _ (by rw [hcur]; exact hp)]
        obtain ⟨t, ht, hx⟩ := hnbval _ (getD_mem _ _ 0 hofflt)
        exact ⟨t, ht, by rw [hx, hbase]⟩
      · rw [getD_set_ne _ _ _ _ _ hkp]
        rcases List.mem_append.1 hk with hmem | hmem
        · exact h2 k hmem
        · exact absurd (List.mem_singleton.1 hmem).symm hkp

theorem substitution_construct_event_lengths {rate : ℚ} {P L : List ℚ} {m : SubstitutionEvents}
    (hL : L = [] ∨ L = [1]) (h : SubstitutionEvents.construct rate P L = .ok m) :
    m._custom_event_lengths = false ∨ m._event_lengths_sampler = [1] := by
  unfold SubstitutionEvents.construct at h
  rcases hL with hL | hL <;> subst hL <;> split_ifs at h <;> cases h <;> simp_all

end mutator

/-- C31: for SubstitutionEvents built without length preference or with `L = [1]`, every
oligo over 1..4 and every generator state, the output has the length of the input; at each
selected event position it holds the target base of an index `t < 3` for the original base
(the `t`-th base after the original one is skipped), which lies in 1..4 and differs from
the original base; every other position holds its original base. -/
theorem C31_substitution_changes_exactly_event_positions (rate : ℚ) (P L : List ℚ)
    (m : mutator.SubstitutionEvents) (hL : L = [] ∨ L = [1])
    (hm : mutator.SubstitutionEvents.construct rate P L = .ok m) (oligo : List Int)
    (ho : ∀ b ∈ oligo, 1 ≤ b ∧ b ≤ 4) (r : Rng) :
    (m.process_single oligo r).1.length = oligo.length ∧
    ∀ k, k < oligo.length →
      (k ∈ (mutator.get_event_positions
            (mutator.p_event_by_position m.rate m.p_base_preference oligo) r).1 →
        ∃ t, t < 3 ∧
          (m.process_single oligo r).1.getD k 0 = mutator.target_base (oligo.getD k 0) t ∧
          1 ≤ (m.process_single oligo r).1.getD k 0 ∧
          (m.process_single oligo r).1.getD k 0 ≤ 4 ∧
          (m.process_single oligo r).1.getD k 0 ≠ oligo.getD k 0) ∧
      (k ∉ (mutator.get_event_positions
            (mutator.p_event_by_position m.rate m.p_base_preference oligo) r).1 →
        (m.process_single oligo r).1.getD k 0 = oligo.getD k 0) := by
  refine ⟨mutator.substitution_process_single_length m oligo r, ?_⟩
  have hones := mutator.substitution_construct_event_lengths hL hm
  have hsorted := mutator.get_event_positions_sorted
    (mutator.p_event_by_position m.rate m.p_base_preference oligo) r
  have hlt : ∀ p ∈ (mutator.get_event_positions
      (mutator.p_event_by_position m.rate m.p_base_preference oligo) r).1, p < oligo.length := by
    intro p hp
    have := mutator.get_event_positions_lt _ r p hp
    simpa [mutator.p_event_by_position] using this
  generalize hpos : mutator.get_event_positions
    (mutator.p_event_by_position m.rate m.p_base_preference oligo) r = ep at hsorted hlt
  obtain ⟨positions, r1⟩ := ep
  simp only at hsorted hlt
  have hnodup : positions.Nodup := hsorted.imp (fun h => ne_of_lt h)
  have hvalid : ∀ k, k < oligo.length → 1 ≤ oligo.getD k 0 ∧ oligo.getD k 0 ≤ 4 :=
    fun k hk => ho _ (mutator.getD_mem oligo k 0 hk)
  have hout : ∀ k, k < oligo.length →
      (k ∈ positions → ∃ t, t < 3 ∧
        (m.process_single oligo r).1.getD k 0 = mutator.target_base (oligo.getD k 0) t) ∧
      (k ∉ positions → (m.process_single oligo r).1.getD k 0 = oligo.getD k 0) := by
    simp only [mutator.SubstitutionEvents.process_single, hpos]
    by_cases h0 : positions.length = 0
    · have hnil : positions = [] := List.length_eq_zero.mp h0
      intro k hk
      simp [h0, hnil]
    · have hlen := mutator.draw_event_lengths_ones m._custom_event_lengths
        m._event_lengths_sampler positions.length r1 hones
      generalize hel : mutator.draw_event_lengths m._custom_event_lengths
        m._event_lengths_sampler positions.length r1 = el at hlen
      obtain ⟨event_length, r2⟩ := el
      simp only at hlen
      subst hlen
      simp only [h0, if_false, mutator.count_loop_ones oligo positions hlt, List.nil_append]
      have htot := mutator.foldl_increment_getD oligo positions [0, 0, 0, 0]
        (fun p hp => (mutator.basetype_lt oligo ho p (hlt p hp)).1)
      have hnb := mutator.new_bases_loop_process_single m._base_sampler
        (positions.foldl (fun t p => coverage.increment t (mutator.basetype oligo p))
          [0, 0, 0, 0])
        (fun i hi => mutator.substitution_construct_base_sampler hm i hi) r2
      generalize hnbeq : mutator.SubstitutionEvents.new_bases_loop m._base_sampler
        (positions.foldl (fun t p => coverage.increment t (mutator.basetype oligo p))
          [0, 0, 0, 0]) [0, 1, 2, 3] [[], [], [], []] r2 = nbr at hnb
      obtain ⟨new_bases, r3⟩ := nbr
      simp only at hnb
      rw [mutator.substitute_loop_ones]
      have hinv := mutator.substitute_ones_invariant oligo ho new_bases positions hnodup hlt
        (by
          intro b hb
          obtain ⟨h1, h2⟩ := hnb.2 b hb
          refine ⟨?_, h2⟩
          rw [h1, htot.2 b]
          have h4 : ([0, 0, 0, 0] : List Nat).getD b 0 = 0 := by
            interval_cases b <;> rfl
          rw [h4, Nat.zero_add])
        positions [] oligo [0, 0, 0, 0] (by simp) rfl rfl
        (by
          intro b hb
          interval_cases b <;> rfl)
        (fun k _ => rfl) (by simp)
      intro k hk
      exact ⟨fun hmem => hinv.2 k hmem, fun hnot => hinv.1 k hnot⟩
  intro k hk
  refine ⟨?_, (hout k hk).2⟩
  intro hmem
  obtain ⟨t, ht, hx⟩ := (hout k hk).1 hmem
  have := mutator.target_base_valid (oligo.getD k 0) t (hvalid k hk) ht
  rw [← hx] at this
  exact ⟨t, ht, hx, this⟩

/-- C31 for the oligo ACGT with uniform transition preferences. -/
theorem C31_substitution_changes_exactly_event_positions_witness :
    ∃ m, mutator.SubstitutionEvents.construct (1 / 8)
        [1, 1, 1, 1, 1, 1, 1, 1, 1, 1, 1, 1] [] = .ok m ∧
      (m.process_single [1, 2, 3, 4] (rng.hit_state [1, 3])).1.length
        = ([1, 2, 3, 4] : List Int).length ∧
      ∀ k, k < ([1, 2, 3, 4] : List Int).length →
        (k ∉ (mutator.get_event_positions
              (mutator.p_event_by_position m.rate m.p_base_preference [1, 2, 3, 4])
              (rng.hit_state [1, 3])).1 →
          (m.process_single [1, 2, 3, 4] (rng.hit_state [1, 3])).1.getD k 0
            = ([1, 2, 3, 4] : List Int).getD k 0) := by
  refine ⟨_, rfl, ?_⟩
  have h := C31_substitution_changes_exactly_event_positions (1 / 8)
    [1, 1, 1, 1, 1, 1, 1, 1, 1, 1, 1, 1] [] _ (Or.inl rfl) rfl [1, 2, 3, 4] (by decide)
    (rng.hit_state [1, 3])
  exact ⟨h.1, fun k hk => (h.2 k hk).2⟩

/-- C32 (refuted when events overlap): the oligo CAC with substitution events of length 2 at
the positions 0 and 1 (the first two uniform draws hit, every index draw is 0).  Position 1
is covered by both events: the first event turns its A into C, the second reads the
current base C and turns it back into A.  Position 2 is covered by the second event, but
the offset of its base type has reached the number of prepared bases, so the offset is reset
and the position is skipped.  Both covered positions end with their original base. -/
theorem C32_overlapping_substitutions_keep_original_bases :
    ∃ m, mutator.SubstitutionEvents.construct (1 / 2) [1, 1, 1, 1, 1, 1, 1, 1, 1, 1, 1, 1] [0, 1]
        = .ok m ∧
      (mutator.get_event_positions
          (mutator.p_event_by_position m.rate m.p_base_preference [2, 1, 2])
          rng.overlap_state).1 = [0, 1] ∧
      (mutator.draw_event_lengths m._custom_event_lengths m._event_lengths_sampler 2
          (mutator.get_event_positions
            (mutator.p_event_by_position m.rate m.p_base_preference [2, 1, 2])
            rng.overlap_state).2).1 = [2, 2] ∧
      (m.process_single [2, 1, 2] rng.overlap_state).1 = [1, 1, 2] := by
  refine ⟨_, rfl, ?_, ?_, ?_⟩
  · decide!
  · decide!
  · decide!

/-! ## Alphabet closure -/

namespace conversion

theorem code_valid (c : Char) : 1 ≤ code c ∧ code c ≤ 4 := by
  unfold code
  split_ifs <;> omega

theorem sequence_to_vector_valid (s : List Char) (v : List Int)
    (h : sequence_to_vector s = .ok v) : ∀ b ∈ v, 1 ≤ b ∧ b ≤ 4 := by
  have := sequence_to_vector_loop_ok s [] v h
  rw [this]
  intro b hb
  simp only [List.nil_append, List.mem_map] at hb
  obtain ⟨c, _, rfl⟩ := hb
  exact code_valid c

theorem reverse_complement_loop_mem (o : List Int) :
    ∀ acc rc, reverse_complement_loop o acc = .ok rc →
      ∀ b ∈ rc, b ∈ acc ∨ (1 ≤ b ∧ b ≤ 4) := by
  induction o with
  | nil =>
    intro acc rc h b hb
    simp only [reverse_complement_loop, Except.ok.injEq] at h
    rw [← h] at hb
    exact Or.inl hb
  | cons x xs ih =>
    intro acc rc h b hb
    have hstep : ∀ (y : Int), 1 ≤ y ∧ y ≤ 4 →
        reverse_complement_loop xs (acc ++ [y]) = .ok rc → b ∈ acc ∨ (1 ≤ b ∧ b ≤ 4) := by
      intro y hy h1
      rcases ih _ _ h1 b hb with h2 | h2
      · rcases List.mem_append.1 h2 with h3 | h3
        · exact Or.inl h3
        · rw [List.mem_singleton.1 h3]
          exact Or.inr hy
      · exact Or.inr h2
    unfold reverse_complement_loop at h
    split_ifs at h
    · exact hstep _ (by decide) h
    · exact hstep _ (by decide) h
    · exact hstep _ (by decide) h
    · exact hstep _ (by decide) h

end conversion

namespace mutator

/-- An oligo over the alphabet 1..4. -/
theorem valid_of_subset (oligo out : List Int) (ho : ∀ b ∈ oligo, 1 ≤ b ∧ b ≤ 4)
    (h : ∀ b ∈ out, b ∈ oligo) : ∀ b ∈ out, 1 ≤ b ∧ b ≤ 4 :=
  fun b hb => ho b (h b hb)

theorem InsertionEvents.mem_insert_loop (new_bases : List Int) (events : List (Nat × Nat)) :
    ∀ offset oligo, ∀ b ∈ InsertionEvents.insert_loop new_bases events offset oligo,
      b ∈ oligo ∨ b ∈ new_bases := by
  induction events with
  | nil => intro offset oligo b hb; exact Or.inl hb
  | cons e events ih =>
    intro offset oligo b hb
    obtain ⟨position, length⟩ := e
    simp only [InsertionEvents.insert_loop] at hb
    rcases ih _ _ b hb with h | h
    · simp only [insert_range, List.mem_append] at h
      rcases h with (h | h) | h
      · exact Or.inl (List.mem_of_mem_take h)
      · exact Or.inr (List.mem_of_mem_drop (List.mem_of_mem_take h))
      · exact Or.inl (List.mem_of_mem_drop h)
    · exact Or.inr h

theorem insertion_process_single_valid (m : InsertionEvents) (hs : m._base_sampler.length = 4)
    (oligo : List Int) (ho : ∀ b ∈ oligo, 1 ≤ b ∧ b ≤ 4) (r : Rng) :
    ∀ b ∈ (m.process_single oligo r).1, 1 ≤ b ∧ b ≤ 4 := by
  have hne : m._base_sampler ≠ [] := by
    intro h
    rw [h] at hs
    simp at hs
  simp only [InsertionEvents.process_single]
  split_ifs with h0
  · exact ho
  · intro b hb
    rcases InsertionEvents.mem_insert_loop _ _ _ _ b hb with h | h
    · exact ho b h
    · simp only [List.mem_map] at h
      obtain ⟨d, hd, rfl⟩ := h
      have := draw_from_distribution_lt m._base_sampler hne _ _ d hd
      omega

theorem DeletionEvents.mem_erase_loop (events : List (Nat × Nat)) :
    ∀ oligo, ∀ b ∈ DeletionEvents.erase_loop events oligo, b ∈ oligo := by
  induction events with
  | nil => intro oligo b hb; exact hb
  | cons e events ih =>
    intro oligo b hb
    obtain ⟨position, length⟩ := e
    simp only [DeletionEvents.erase_loop] at hb
    have h := ih _ b hb
    simp only [erase_range, List.mem_append] at h
    rcases h with h | h
    · exact List.mem_of_mem_take h
    · exact List.mem_of_mem_drop h

theorem deletion_process_single_valid (m : DeletionEvents) (oligo : List Int)
    (ho : ∀ b ∈ oligo, 1 ≤ b ∧ b ≤ 4) (r : Rng) :
    ∀ b ∈ (m.process_single oligo r).1, 1 ≤ b ∧ b ≤ 4 := by
  simp only [DeletionEvents.process_single]
  split_ifs with h0
  · exact ho
  · exact fun b hb => ho b (DeletionEvents.mem_erase_loop _ _ b hb)

theorem substitute_step_valid (new_bases : List (List Int))
    (hnb : ∀ i, ∀ x ∈ new_bases.getD i [], 1 ≤ x ∧ x ≤ 4) (pos : Nat)
    (state : List Int × List Nat) (j : Nat) (hs : ∀ b ∈ state.1, 1 ≤ b ∧ b ≤ 4) :
    ∀ b ∈ (SubstitutionEvents.substitute_step new_bases pos state j).1, 1 ≤ b ∧ b ≤ 4 := by
  obtain ⟨oligo, offset⟩ := state
  simp only [SubstitutionEvents.substitute_step]
  split_ifs with h
  · exact hs
  · intro b hb
    rcases List.mem_or_eq_of_mem_set hb with h1 | h1
    · exact hs b h1
    · rw [h1]
      exact hnb _ _ (getD_mem _ _ 0 (by omega))

theorem foldl_substitute_step_valid (new_bases : List (List Int))
    (hnb : ∀ i, ∀ x ∈ new_bases.getD i [], 1 ≤ x ∧ x ≤ 4) (pos : Nat) (js : List Nat) :
    ∀ state : List Int × List Nat, (∀ b ∈ state.1, 1 ≤ b ∧ b ≤ 4) →
      ∀ b ∈ (js.foldl (SubstitutionEvents.substitute_step new_bases pos) state).1,
        1 ≤ b ∧ b ≤ 4 := by
  induction js with
  | nil => intro state hs; exact hs
  | cons j js ih =>
    intro state hs
    rw [List.foldl_cons]
    exact ih _ (substitute_step_valid new_bases hnb pos state j hs)

theorem substitute_loop_valid (new_bases : List (List Int))
    (hnb : ∀ i, ∀ x ∈ new_bases.getD i [], 1 ≤ x ∧ x ≤ 4) (events : List (Nat × Nat)) :
    ∀ state : List Int × List Nat, (∀ b ∈ state.1, 1 ≤ b ∧ b ≤ 4) →
      ∀ b ∈ (SubstitutionEvents.substitute_loop new_bases events state).1, 1 ≤ b ∧ b ≤ 4 := by
  induction events with
  | nil => intro state hs; exact hs
  | cons e events ih =>
    intro state hs
    obtain ⟨pos, len⟩ := e
    simp only [SubstitutionEvents.substitute_loop]
    exact ih _ (foldl_substitute_step_valid new_bases hnb pos _ state hs)

theorem substitution_process_single_valid (m : SubstitutionEvents)
    (hs : ∀ i, i < 4 → (m._base_sampler.getD i []).length = 3) (oligo : List Int)
    (ho : ∀ b ∈ oligo, 1 ≤ b ∧ b ≤ 4) (r : Rng) :
    ∀ b ∈ (m.process_single oligo r).1, 1 ≤ b ∧ b ≤ 4 := by
  simp only [SubstitutionEvents.process_single]
  split_ifs with h0
  · exact ho
  · apply substitute_loop_valid _ _ _ _ ho
    intro i x hx
    by_cases hi : i < 4
    · obtain ⟨t, ht, rfl⟩ := ((new_bases_loop_process_single m._base_sampler _ hs _).2 i hi).2
        x hx
      have := target_base_valid ((i : Int) + 1) t (by omega) ht
      exact ⟨this.1, this.2.1⟩
    · rw [getD_of_length_le _ _ _
        (by rw [(new_bases_loop_process_single m._base_sampler _ hs _).1]; omega)] at hx
      simp at hx

theorem mem_remove_positions_from (oligo : List Int) :
    ∀ (i : Nat) (positions : List Nat), ∀ b ∈ remove_positions_from i oligo positions,
      b ∈ oligo := by
  induction oligo with
  | nil => intro i positions b hb; simp [remove_positions_from] at hb
  | cons x xs ih =>
    intro i positions b hb
    simp only [remove_positions_from] at hb
    split_ifs at hb
    · exact List.mem_cons_of_mem _ (ih _ _ b hb)
    · rcases List.mem_cons.1 hb with h | h
      · rw [h]
        exact List.mem_cons_self _ _
      · exact List.mem_cons_of_mem _ (ih _ _ b h)

theorem breakage_process_single_with_new_valid (m : BreakageEvents) (oligo : List Int)
    (new_oligos : List (List Int)) (r : Rng) (ho : ∀ b ∈ oligo, 1 ≤ b ∧ b ≤ 4)
    (hnew : ∀ o ∈ new_oligos, ∀ b ∈ o, 1 ≤ b ∧ b ≤ 4) :
    ∀ o ∈ (m.process_single_with_new oligo new_oligos r).1, ∀ b ∈ o, 1 ≤ b ∧ b ≤ 4 := by
  by_cases h : (get_event_positions (p_event_by_position m.rate m.p_base_preference oligo) r).1
      = []
  · rw [breakage_process_single_with_new_no_cut m oligo new_oligos r h]
    intro o hmem
    rcases List.mem_append.1 hmem with hmem | hmem
    · exact hnew o hmem
    · rw [List.mem_singleton.1 hmem]
      exact ho
  · rw [breakage_process_single_with_new_cuts m oligo new_oligos r h]
    intro o hmem
    rcases List.mem_append.1 hmem with hmem | hmem
    · exact hnew o hmem
    · intro b hb
      apply ho
      have hflat : b ∈ (maximal_runs oligo
          (get_event_positions (p_event_by_position m.rate m.p_base_preference oligo) r).1).flatten :=
        List.mem_flatten.2 ⟨o, hmem, hb⟩
      rw [flatten_maximal_runs] at hflat
      exact mem_remove_positions_from oligo 0 _ b hflat

theorem tail_loop_mem (_tail_bases : List Int) (draws : List Nat) :
    ∀ tail, Tailing.tail_loop _tail_bases draws = .ok tail → ∀ b ∈ tail, b ∈ _tail_bases := by
  induction draws with
  | nil =>
    intro tail h b hb
    simp only [Tailing.tail_loop, Except.ok.injEq] at h
    rw [← h] at hb
    simp at hb
  | cons d draws ih =>
    intro tail h b hb
    simp only [Tailing.tail_loop] at h
    cases hd : _tail_bases[d]? with
    | none => simp [hd] at h
    | some x =>
      cases ht : Tailing.tail_loop _tail_bases draws with
      | error e => simp [hd, ht] at h
      | ok tail1 =>
        simp only [hd, ht, Except.ok.injEq] at h
        rw [← h] at hb
        rcases List.mem_cons.1 hb with h1 | h1
        · rw [h1]
          exact List.mem_iff_getElem?.2 ⟨d, hd⟩
        · exact ih tail1 ht b h1

theorem tailing_process_single_valid (m : Tailing) (hm : ∀ b ∈ m._tail_bases, 1 ≤ b ∧ b ≤ 4)
    (oligo oligo1 : List Int) (r r1 : Rng) (h : m.process_single oligo r = .ok (oligo1, r1))
    (ho : ∀ b ∈ oligo, 1 ≤ b ∧ b ≤ 4) : ∀ b ∈ oligo1, 1 ≤ b ∧ b ≤ 4 := by
  simp only [Tailing.process_single] at h
  split at h
  · cases h
  · split_ifs at h
    split at h
    · cases h
    · rename_i tail htail
      simp only [Except.ok.injEq, Prod.mk.injEq] at h
      rw [← h.1]
      intro b hb
      rcases List.mem_append.1 hb with h1 | h1
      · exact ho b h1
      · exact hm b (tail_loop_mem _ _ _ htail b h1)

theorem tailing_construct_valid {tail_bases : List Char} {n_min n_max : Int} {m : Tailing}
    (h : Tailing.construct tail_bases n_min n_max = .ok m) :
    ∀ b ∈ m._tail_bases, 1 ≤ b ∧ b ≤ 4 := by
  unfold Tailing.construct at h
  cases hs : conversion.sequence_to_vector tail_bases with
  | error e => simp [hs] at h
  | ok v =>
    simp only [hs] at h
    split_ifs at h
    cases h
    exact conversion.sequence_to_vector_valid tail_bases v hs

theorem end_shreds_process_single_valid (m : EndShreds) (oligo oligo1 : List Int) (r r1 : Rng)
    (h : m.process_single oligo r = .ok (oligo1, r1)) (ho : ∀ b ∈ oligo, 1 ≤ b ∧ b ≤ 4) :
    ∀ b ∈ oligo1, 1 ≤ b ∧ b ≤ 4 := by
  simp only [EndShreds.process_single] at h
  split_ifs at h <;>
    simp only [Except.ok.injEq, Prod.mk.injEq] at h <;>
    (rw [← h.1]
     intro b hb
     first
       | exact ho b (List.mem_of_mem_take (List.mem_of_mem_drop hb))
       | exact ho b (List.mem_of_mem_drop hb)
       | exact ho b (List.mem_of_mem_take hb)
       | exact ho b hb)

theorem pad_trim_process_single_valid (m : SequencingPadTrim)
    (hm : m._base_sampler = [1, 1, 1, 1]) (oligo oligo1 : List Int) (r r1 : Rng)
    (h : m.process_single oligo r = .ok (oligo1, r1)) (ho : ∀ b ∈ oligo, 1 ≤ b ∧ b ≤ 4) :
    ∀ b ∈ oligo1, 1 ≤ b ∧ b ≤ 4 := by
  have hpad : ∀ n r, ∀ b ∈ oligo ++ (draw_from_distribution m._base_sampler n r).1.map
      (fun (base : Nat) => (base : Int) + 1), 1 ≤ b ∧ b ≤ 4 := by
    intro n r b hb
    rcases List.mem_append.1 hb with h1 | h1
    · exact ho b h1
    · simp only [List.mem_map] at h1
      obtain ⟨d, hd, rfl⟩ := h1
      have := draw_from_distribution_lt m._base_sampler (by rw [hm]; simp) _ _ d hd
      rw [hm] at this
      simp only [List.length_cons, List.length_nil] at this
      omega
  simp only [SequencingPadTrim.process_single] at h
  split_ifs at h <;>
    simp only [Except.ok.injEq, Prod.mk.injEq] at h <;>
    (rw [← h.1]
     intro b hb
     first
       | exact hpad _ _ b (List.mem_of_mem_take hb)
       | exact hpad _ _ b hb
       | exact ho b (List.mem_of_mem_take hb)
       | exact ho b hb)

end mutator

namespace mutator

/-- A count-preserving mutator built by its constructor keeps oligos over 1..4. -/
theorem process_single_valid (m : BaseMutator) (hm : m.constructed) (oligo oligo1 : List Int)
    (r r1 : Rng) (h : m.process_single oligo r = .ok (oligo1, r1))
    (ho : ∀ b ∈ oligo, 1 ≤ b ∧ b ≤ 4) : ∀ b ∈ oligo1, 1 ≤ b ∧ b ≤ 4 := by
  cases m with
  | InsertionEvents m =>
    obtain ⟨rate, P, L, hc⟩ := hm
    have h1 := congrArg Prod.fst (Except.ok.inj h)
    simp only at h1
    rw [← h1]
    exact insertion_process_single_valid m (insertion_construct_base_sampler hc) oligo ho r
  | DeletionEvents m =>
    have h1 := congrArg Prod.fst (Except.ok.inj h)
    simp only at h1
    rw [← h1]
    exact deletion_process_single_valid m oligo ho r
  | SubstitutionEvents m =>
    obtain ⟨rate, P, L, hc⟩ := hm
    have h1 := congrArg Prod.fst (Except.ok.inj h)
    simp only at h1
    rw [← h1]
    exact substitution_process_single_valid m
      (fun i hi => substitution_construct_base_sampler hc i hi) oligo ho r
  | BreakageEvents m => simp [BaseMutator.process_single] at h
  | SizeSelection m => simp [BaseMutator.process_single] at h
  | AddReverseComplement => simp [BaseMutator.process_single] at h
  | Tailing m =>
    obtain ⟨tail_bases, n_min, n_max, hc⟩ := hm
    exact tailing_process_single_valid m (tailing_construct_valid hc) oligo oligo1 r r1 h ho
  | EndShreds m => exact end_shreds_process_single_valid m oligo oligo1 r r1 h ho
  | SequencingAddAdapter m =>
    obtain ⟨adapter_sequence, hc⟩ := hm
    have hadapter : ∀ b ∈ m._adapter_vector, 1 ≤ b ∧ b ≤ 4 := by
      unfold SequencingAddAdapter.construct at hc
      cases hs : conversion.sequence_to_vector adapter_sequence with
      | error e => simp [hs] at hc
      | ok v =>
        simp only [hs, Except.ok.injEq] at hc
        rw [← hc]
        exact conversion.sequence_to_vector_valid adapter_sequence v hs
    simp only [BaseMutator.process_single, Except.ok.injEq, Prod.mk.injEq] at h
    rw [← h.1]
    intro b hb
    rcases List.mem_append.1 hb with h1 | h1
    · exact ho b h1
    · exact hadapter b h1
  | SequencingPadTrim m =>
    obtain ⟨read_length, hc⟩ := hm
    exact pad_trim_process_single_valid m (by rw [← hc]; rfl) oligo oligo1 r r1 h ho

/-- A count-varying mutator adds only oligos over 1..4 for an oligo over 1..4. -/
theorem process_single_with_new_valid (m : BaseMutator) (oligo : List Int)
    (new_oligos new_oligos1 : List (List Int)) (r r1 : Rng)
    (h : m.process_single_with_new oligo new_oligos r = .ok (new_oligos1, r1))
    (ho : ∀ b ∈ oligo, 1 ≤ b ∧ b ≤ 4) (hnew : ∀ o ∈ new_oligos, ∀ b ∈ o, 1 ≤ b ∧ b ≤ 4) :
    ∀ o ∈ new_oligos1, ∀ b ∈ o, 1 ≤ b ∧ b ≤ 4 := by
  cases m with
  | BreakageEvents m =>
    have h1 := congrArg Prod.fst (Except.ok.inj h)
    simp only at h1
    rw [← h1]
    exact breakage_process_single_with_new_valid m oligo new_oligos r ho hnew
  | SizeSelection m =>
    have h1 := congrArg Prod.fst (Except.ok.inj h)
    simp only at h1
    rw [← h1]
    intro o hmem
    simp only [SizeSelection.process_single_with_new] at hmem
    split_ifs at hmem
    · exact hnew o hmem
    · rcases List.mem_append.1 hmem with hmem | hmem
      · exact hnew o hmem
      · rw [List.mem_singleton.1 hmem]
        exact ho
    · rcases List.mem_append.1 hmem with hmem | hmem
      · exact hnew o hmem
      · rw [List.mem_singleton.1 hmem]
        exact ho
    · exact hnew o hmem
  | AddReverseComplement =>
    simp only [BaseMutator.process_single_with_new,
      AddReverseComplement.process_single_with_new] at h
    cases hrc : conversion.reverse_complement oligo with
    | error e => simp [hrc] at h
    | ok rc =>
      simp only [hrc, Except.ok.injEq, Prod.mk.injEq] at h
      rw [← h.1]
      intro o hmem
      rcases List.mem_append.1 hmem with hmem | hmem
      · rcases List.mem_append.1 hmem with hmem | hmem
        · exact hnew o hmem
        · rw [List.mem_singleton.1 hmem]
          exact ho
      · rw [List.mem_singleton.1 hmem]
        intro b hb
        rcases conversion.reverse_complement_loop_mem _ _ _ hrc b hb with h2 | h2
        · simp at h2
        · exact h2
  | InsertionEvents m => simp [BaseMutator.process_single_with_new] at h
  | DeletionEvents m => simp [BaseMutator.process_single_with_new] at h
  | SubstitutionEvents m => simp [BaseMutator.process_single_with_new] at h
  | Tailing m => simp [BaseMutator.process_single_with_new] at h
  | EndShreds m => simp [BaseMutator.process_single_with_new] at h
  | SequencingAddAdapter m => simp [BaseMutator.process_single_with_new] at h
  | SequencingPadTrim m => simp [BaseMutator.process_single_with_new] at h

theorem process_single_loop_valid (m : BaseMutator) (hm : m.constructed) :
    ∀ (oligos out : List (List Int)) (r r1 : Rng),
      BaseMutator.process_single_loop m oligos r = .ok (out, r1) →
      (∀ o ∈ oligos, ∀ b ∈ o, 1 ≤ b ∧ b ≤ 4) → ∀ o ∈ out, ∀ b ∈ o, 1 ≤ b ∧ b ≤ 4 := by
  intro oligos
  induction oligos with
  | nil =>
    intro out r r1 h _
    simp only [BaseMutator.process_single_loop, Except.ok.injEq, Prod.mk.injEq] at h
    rw [← h.1]
    simp
  | cons o os ih =>
    intro out r r1 h hvalid
    simp only [BaseMutator.process_single_loop] at h
    cases h1 : m.process_single o r with
    | error e => simp [h1] at h
    | ok res =>
      obtain ⟨o1, r2⟩ := res
      simp only [h1] at h
      cases h2 : BaseMutator.process_single_loop m os r2 with
      | error e => simp [h2] at h
      | ok res2 =>
        obtain ⟨os1, r3⟩ := res2
        simp only [h2, Except.ok.injEq, Prod.mk.injEq] at h
        rw [← h.1]
        intro x hx
        rcases List.mem_cons.1 hx with hx | hx
        · rw [hx]
          exact process_single_valid m hm o o1 r r2 h1 (hvalid o (List.mem_cons_self _ _))
        · exact ih os1 r2 r3 h2 (fun y hy => hvalid y (List.mem_cons_of_mem _ hy)) x hx

theorem process_with_new_loop_valid (m : BaseMutator) :
    ∀ (oligos new_oligos out : List (List Int)) (r r1 : Rng),
      BaseMutator.process_with_new_loop m oligos new_oligos r = .ok (out, r1) →
      (∀ o ∈ oligos, ∀ b ∈ o, 1 ≤ b ∧ b ≤ 4) → (∀ o ∈ new_oligos, ∀ b ∈ o, 1 ≤ b ∧ b ≤ 4) →
      ∀ o ∈ out, ∀ b ∈ o, 1 ≤ b ∧ b ≤ 4 := by
  intro oligos
  induction oligos with
  | nil =>
    intro new_oligos out r r1 h _ hnew
    simp only [BaseMutator.process_with_new_loop, Except.ok.injEq, Prod.mk.injEq] at h
    rw [← h.1]
    exact hnew
  | cons o os ih =>
    intro new_oligos out r r1 h hvalid hnew
    simp only [BaseMutator.process_with_new_loop] at h
    cases h1 : m.process_single_with_new o new_oligos r with
    | error e => simp [h1] at h
    | ok res =>
      obtain ⟨new1, r2⟩ := res
      simp only [h1] at h
      exact ih new1 out r2 r1 h (fun y hy => hvalid y (List.mem_cons_of_mem _ hy))
        (process_single_with_new_valid m o new_oligos new1 r r2 h1
          (hvalid o (List.mem_cons_self _ _)) hnew)

theorem process_valid (m : BaseMutator) (hm : m.constructed) (oligos out : List (List Int))
    (r r1 : Rng) (h : m.process oligos r = .ok (out, r1))
    (hvalid : ∀ o ∈ oligos, ∀ b ∈ o, 1 ≤ b ∧ b ≤ 4) : ∀ o ∈ out, ∀ b ∈ o, 1 ≤ b ∧ b ≤ 4 := by
  unfold BaseMutator.process at h
  by_cases hc : m.get_manipulates_count = true
  · simp only [hc, if_true] at h
    cases h1 : BaseMutator.process_with_new_loop m oligos [] r with
    | error e => simp [h1] at h
    | ok res =>
      obtain ⟨new1, r2⟩ := res
      simp only [h1, Except.ok.injEq, Prod.mk.injEq] at h
      obtain ⟨hout, -⟩ := h
      subst hout
      have := process_with_new_loop_valid m oligos [] new1 r r2 h1 hvalid (by simp)
      intro o ho
      split_ifs at ho
      · exact this o ho
      · simp at ho
  · simp only [hc] at h
    exact process_single_loop_valid m hm oligos out r r1 h hvalid

end mutator

/-- C34: each of the ten mutators, as built by its constructor, maps a pool whose oligos have
all entries in 1..4 to a pool whose oligos have all entries in 1..4, in every generator
state in which it returns; in particular no oligo of the result contains the separator
value 127. -/
theorem C34_alphabet_closure (m : mutator.BaseMutator) (hm : m.constructed)
    (oligos out : List (List Int)) (r r1 : Rng)
    (hvalid : ∀ o ∈ oligos, ∀ b ∈ o, 1 ≤ b ∧ b ≤ 4)
    (h : m.process oligos r = .ok (out, r1)) :
    (∀ o ∈ out, ∀ b ∈ o, 1 ≤ b ∧ b ≤ 4) ∧
    (∀ o ∈ out, constants.NUCLEOTIDE_NEXTOLIGO ∉ o) ∧
    (∀ o ∈ out, ∀ c ∈ o.map fileio.to_char,
      fileio.of_char c ≠ constants.NUCLEOTIDE_NEXTOLIGO) := by
  have hout := mutator.process_valid m hm oligos out r r1 h hvalid
  refine ⟨hout, ?_, ?_⟩
  · intro o ho hmem
    have := (hout o ho _ hmem).2
    exact absurd this (by decide)
  · intro o ho c hc
    simp only [List.mem_map] at hc
    obtain ⟨b, hb, rfl⟩ := hc
    have hb4 := hout o ho b hb
    rw [fileio.of_char_to_char b hb4]
    show b ≠ 127
    omega

/-- C34 for the reverse-complement mutator on the pool that holds ACG. -/
theorem C34_alphabet_closure_witness :
    mutator.BaseMutator.AddReverseComplement.constructed ∧
    (∀ o ∈ ([[1, 2, 3]] : List (List Int)), ∀ b ∈ o, 1 ≤ b ∧ b ≤ 4) ∧
    mutator.BaseMutator.AddReverseComplement.process [[1, 2, 3]] rng.sample_state
      = .ok ([[1, 2, 3], [2, 3, 4]], rng.sample_state) ∧
    ∀ o ∈ ([[1, 2, 3], [2, 3, 4]] : List (List Int)), ∀ b ∈ o, 1 ≤ b ∧ b ≤ 4 :=
  ⟨trivial, by decide, rfl,
    (C34_alphabet_closure .AddReverseComplement trivial [[1, 2, 3]] [[1, 2, 3], [2, 3, 4]]
      rng.sample_state rng.sample_state (by decide) rfl).1⟩

/-! ## The order in which `process` hands oligos to the collector -/

namespace fileio

theorem _getline_vector_loop_length (file : List Char) :
    ∀ sequence, (_getline_vector_loop file sequence).2.2.length ≤ file.length ∧
      ((_getline_vector_loop file sequence).1 = true → sequence = [] →
        (_getline_vector_loop file sequence).2.2.length < file.length) := by
  induction file with
  | nil =>
    intro sequence
    simp [_getline_vector_loop]
  | cons c cs ih =>
    intro sequence
    simp only [_getline_vector_loop]
    split_ifs with h
    · simp
    · have := (ih (sequence ++ [of_char c])).1
      simp only [List.length_cons]
      exact ⟨by omega, fun _ _ => by omega⟩

theorem check_valid_sequence_vector_file (rd : SequenceFileReader) (sv : List Int) :
    (rd.check_valid_sequence_vector sv).2._file = rd._file := by
  simp only [SequenceFileReader.check_valid_sequence_vector]
  split_ifs <;> rfl

theorem get_sequence_loop_binary_step (rd : SequenceFileReader) (bound : Nat)
    (hft : rd.filetype = .BINARY) :
    SequenceFileReader.get_sequence_loop (bound + 1) rd
      = if (_getline_vector_loop rd._file []).1 = true then
          if (SequenceFileReader.check_valid_sequence_vector
                { rd with _file := (_getline_vector_loop rd._file []).2.2 }
                (_getline_vector_loop rd._file []).2.1).1 = true then
            .ok (some (_getline_vector_loop rd._file []).2.1,
              (SequenceFileReader.check_valid_sequence_vector
                { rd with _file := (_getline_vector_loop rd._file []).2.2 }
                (_getline_vector_loop rd._file []).2.1).2)
          else SequenceFileReader.get_sequence_loop bound
            (SequenceFileReader.check_valid_sequence_vector
                { rd with _file := (_getline_vector_loop rd._file []).2.2 }
                (_getline_vector_loop rd._file []).2.1).2
        else .ok (none, { rd with _file := (_getline_vector_loop rd._file []).2.2 }) := by
  rw [SequenceFileReader.get_sequence_loop]
  simp only [hft, SequenceFileReader._getline_vector, ne_eq, not_true_eq_false, if_false]
  generalize _getline_vector_loop rd._file [] = res
  obtain ⟨found, sequence, rest⟩ := res
  cases found with
  | false => simp
  | true =>
    simp only [if_true]
    generalize SequenceFileReader.check_valid_sequence_vector
      { filetype := ReadFileType.BINARY, _file := rest, _contents := rd._contents,
        skipped_lines := rd.skipped_lines, valid_sequences := rd.valid_sequences }
      sequence = chk
    obtain ⟨ok, rd2⟩ := chk
    cases ok <;> simp

theorem get_sequence_loop_binary_lt (bound : Nat) :
    ∀ (rd rd1 : SequenceFileReader) (v : List Int), rd.filetype = .BINARY →
      SequenceFileReader.get_sequence_loop bound rd = .ok (some v, rd1) →
      rd1._file.length < rd._file.length := by
  induction bound with
  | zero =>
    intro rd rd1 v _ h
    simp [SequenceFileReader.get_sequence_loop] at h
  | succ bound ih =>
    intro rd rd1 v hft h
    rw [get_sequence_loop_binary_step rd bound hft] at h
    have hlen := _getline_vector_loop_length rd._file []
    by_cases hfound : (_getline_vector_loop rd._file []).1 = true
    · have hlt := hlen.2 hfound rfl
      rw [if_pos hfound] at h
      have hfile := check_valid_sequence_vector_file
        { rd with _file := (_getline_vector_loop rd._file []).2.2 }
        (_getline_vector_loop rd._file []).2.1
      by_cases hvalid : (SequenceFileReader.check_valid_sequence_vector
          { rd with _file := (_getline_vector_loop rd._file []).2.2 }
          (_getline_vector_loop rd._file []).2.1).1 = true
      · rw [if_pos hvalid] at h
        simp only [Except.ok.injEq, Prod.mk.injEq] at h
        rw [← h.2, hfile]
        exact hlt
      · rw [if_neg hvalid] at h
        have hft2 : (SequenceFileReader.check_valid_sequence_vector
            { rd with _file := (_getline_vector_loop rd._file []).2.2 }
            (_getline_vector_loop rd._file []).2.1).2.filetype = .BINARY := by
          simp only [SequenceFileReader.check_valid_sequence_vector]
          split_ifs <;> exact hft
        have := ih _ rd1 v hft2 h
        rw [hfile] at this
        simp only at this
        omega
    · rw [if_neg hfound] at h
      simp at h

/-- A call of `get_sequence` that returns a sequence has taken characters from the stream. -/
theorem get_sequence_some_lt (rd rd1 : SequenceFileReader) (v : List Int)
    (h : rd.get_sequence = .ok (some v, rd1)) : rd1._file.length < rd._file.length := by
  unfold SequenceFileReader.get_sequence at h
  cases hft : rd.filetype with
  | BINARY => exact get_sequence_loop_binary_lt _ rd rd1 v hft h
  | ANY =>
    rcases get_sequence_loop_text rd._file.length rd hft (le_refl _) (rd._file.length + 1)
      (Nat.lt_succ_self _) with ⟨_, h2⟩ | ⟨pre, line, rest, _, _, _, h4, h5⟩
    · rw [h2] at h
      simp at h
    · rw [h5] at h
      simp only [Except.ok.injEq, Prod.mk.injEq] at h
      rw [← h.2]
      exact h4

end fileio

namespace pipeline

theorem collect_all_append (xs : List (List Int)) :
    ∀ (collector : oligocollector.OligoCollector) (ys : List (List Int)) (r : Rng),
      collect_all collector (xs ++ ys) r
        = match collect_all collector xs r with
          | .error e => .error e
          | .ok (collector1, r1) => collect_all collector1 ys r1 := by
  induction xs with
  | nil => intro collector ys r; simp [collect_all]
  | cons x xs ih =>
    intro collector ys r
    simp only [List.cons_append, collect_all]
    cases collector.collect_sequence_vector x r with
    | error e => rfl
    | ok p => exact ih p.1 ys p.2

/-- With an empty chain `feed` hands over `count` copies of each design, design by design. -/
theorem feed_nil (designs : List (List Int)) :
    ∀ (counts : List Nat) (collector : oligocollector.OligoCollector) (r : Rng),
      counts.length = designs.length →
      feed [] designs counts collector r
        = collect_all collector
            (List.zipWith (fun d n => List.replicate n d) designs counts).flatten r := by
  induction designs with
  | nil => intro counts collector r _; simp [feed, collect_all]
  | cons d ds ih =>
    intro counts collector r hlen
    cases counts with
    | nil => simp at hlen
    | cons n ns =>
      have hgen : oligofactory.generate_oligos [] d n [] r = .ok (List.replicate n d, r) := by
        unfold oligofactory.generate_oligos
        by_cases hn : n = 0
        · simp [hn]
        · simp [hn]
      simp only [feed, hgen, List.zipWith_cons_cons, List.flatten_cons]
      rw [collect_all_append]
      cases collect_all collector (List.replicate n d) r with
      | error e => rfl
      | ok p => exact ih ns p.1 p.2 (by simpa using hlen)

/-- The loop of `process` on a reader that yields `designs`: it hands over what `feed` hands
over and stops with `i_seq` advanced by the number of designs. -/
theorem process_loop_eq_feed (mutators : List mutator.BaseMutator) (n : Nat) :
    ∀ (rd rd1 : fileio.SequenceFileReader) (designs : List (List Int)),
      rd.read_all n = .ok (designs, rd1) → rd._file.length < n →
      ∀ (bound : Nat), rd._file.length < bound →
      ∀ (pre counts : List Nat) (collector : oligocollector.OligoCollector) (r : Rng),
        process_loop (pre ++ counts) mutators bound rd collector pre.length r
          = match feed mutators designs counts collector r with
            | .error e => .error e
            | .ok (collector1, r1) => .ok (rd1, collector1, pre.length + designs.length, r1) := by
  induction n with
  | zero => intro rd rd1 designs _ h; omega
  | succ n ih =>
    intro rd rd1 designs hread hn bound hbound pre counts collector r
    obtain ⟨bound, rfl⟩ : ∃ b, bound = b + 1 := ⟨bound - 1, by omega⟩
    rw [fileio.SequenceFileReader.read_all] at hread
    rw [process_loop]
    cases hget : rd.get_sequence with
    | error e => rw [hget] at hread; simp at hread
    | ok p =>
      obtain ⟨o, rd2⟩ := p
      rw [hget] at hread
      cases o with
      | none =>
        simp only [Except.ok.injEq, Prod.mk.injEq] at hread
        obtain ⟨hd, hrd⟩ := hread
        subst hd
        subst hrd
        simp [feed]
      | some v =>
        have hlt := fileio.get_sequence_some_lt rd rd2 v hget
        simp only at hread ⊢
        cases hrest : rd2.read_all n with
        | error e => rw [hrest] at hread; simp at hread
        | ok q =>
          obtain ⟨ds, rd3⟩ := q
          rw [hrest] at hread
          simp only [Except.ok.injEq, Prod.mk.injEq] at hread
          obtain ⟨hd, hrd⟩ := hread
          subst hd
          subst hrd
          cases counts with
          | nil => simp [feed]
          | cons c cs =>
            have hidx : (pre ++ c :: cs)[pre.length]? = some c := by
              rw [List.getElem?_append_right (le_refl _)]
              simp
            have hstep := ih rd2 rd3 ds hrest (by omega) bound (by omega) (pre ++ [c]) cs
            have hpre : pre ++ [c] ++ cs = pre ++ c :: cs := by simp
            have hl : (pre ++ [c]).length = pre.length + 1 := by simp
            rw [hpre, hl] at hstep
            have hsum : pre.length + 1 + ds.length = pre.length + (v :: ds).length := by
              simp only [List.length_cons]; omega
            rw [hsum] at hstep
            rw [hidx]
            simp only [feed]
            by_cases hc : c = 0
            · subst hc
              rw [if_pos rfl, hstep]
              simp [oligofactory.generate_oligos, collect_all]
            · rw [if_neg hc]
              cases oligofactory.generate_oligos [] v c mutators r with
              | error e => rfl
              | ok g =>
                obtain ⟨oligos, r1⟩ := g
                simp only
                cases collect_all collector oligos r1 with
                | error e => rfl
                | ok k =>
                  obtain ⟨collector1, r2⟩ := k
                  exact hstep collector1 r2

theorem process_eq_feed (mutators : List mutator.BaseMutator)
    (rd rd1 : fileio.SequenceFileReader) (designs : List (List Int))
    (hread : rd.read_all (rd._file.length + 1) = .ok (designs, rd1))
    (counts : List Nat) (hlen : counts.length = designs.length)
    (collector : oligocollector.OligoCollector) (r : Rng) :
    process rd collector counts mutators r
      = match feed mutators designs counts collector r with
        | .error e => .error e
        | .ok (collector1, r1) => .ok (rd1, collector1, r1) := by
  have h := process_loop_eq_feed mutators _ rd rd1 designs hread (Nat.lt_succ_self _)
    (rd._file.length + 1) (Nat.lt_succ_self _) [] counts collector r
  simp only [List.nil_append, List.length_nil, Nat.zero_add] at h
  rw [process, h]
  cases feed mutators designs counts collector r with
  | error e => rfl
  | ok p => simp [hlen]

end pipeline

/-- C35: when the reader yields `designs` (in file order) and `oligo_counts` has one entry per
design, `pipeline::process` succeeds or fails as `pipeline.feed` does and leaves the collector
that `feed` leaves: the collector first gets every oligo of `generate_oligos` for the first
design and the first count, then those for the second design and the second count, and so on.
A design whose count is 0 hands nothing over, and with an empty chain the collector gets
`oligo_counts[i]` copies of design `i`, design by design. -/
theorem C35_process_feeds_designs_in_file_order (mutators : List mutator.BaseMutator)
    (reader reader1 : fileio.SequenceFileReader) (designs : List (List Int))
    (oligo_counts : List Nat) (collector : oligocollector.OligoCollector) (r : Rng)
    (hread : reader.read_all (reader._file.length + 1) = .ok (designs, reader1))
    (hlen : oligo_counts.length = designs.length) :
    pipeline.process reader collector oligo_counts mutators r
        = (match pipeline.feed mutators designs oligo_counts collector r with
          | .error e => .error e
          | .ok (collector1, r1) => .ok (reader1, collector1, r1)) ∧
      (∀ design rest counts (c : oligocollector.OligoCollector) (r0 : Rng),
        pipeline.feed mutators (design :: rest) (0 :: counts) c r0
          = pipeline.feed mutators rest counts c r0) ∧
      (∀ design rest count counts (c : oligocollector.OligoCollector) (r0 : Rng),
        pipeline.feed mutators (design :: rest) (count :: counts) c r0
          = match oligofactory.generate_oligos [] design count mutators r0 with
            | .error e => .error e
            | .ok (oligos, r1) =>
              match pipeline.collect_all c oligos r1 with
              | .error e => .error e
              | .ok (c1, r2) => pipeline.feed mutators rest counts c1 r2) ∧
      (mutators = [] →
        pipeline.feed mutators designs oligo_counts collector r
          = pipeline.collect_all collector
              (List.zipWith (fun d n => List.replicate n d) designs oligo_counts).flatten r) := by
  refine ⟨pipeline.process_eq_feed mutators reader reader1 designs hread oligo_counts hlen
    collector r, ?_, ?_, ?_⟩
  · intro design rest counts c r0
    simp [pipeline.feed, oligofactory.generate_oligos, pipeline.collect_all]
  · intro design rest count counts c r0
    rfl
  · intro hm
    subst hm
    exact pipeline.feed_nil designs oligo_counts collector r hlen

/-- C35 on the text file with the lines AC, G and T, the counts 2, 0 and 1, an empty chain and
a text writer: the writer receives AC twice and T once, in this order. -/
theorem C35_process_feeds_designs_in_file_order_witness :
    ∃ reader1,
      fileio.SequenceFileReader.read_all ("AC\nG\nT\n".toList.length + 1)
        { filetype := .ANY, _file := "AC\nG\nT\n".toList, _contents := "AC\nG\nT\n".toList,
          skipped_lines := 0, valid_sequences := 0 } = .ok ([[1, 2], [3], [4]], reader1) ∧
      (pipeline.process
          { filetype := .ANY, _file := "AC\nG\nT\n".toList, _contents := "AC\nG\nT\n".toList,
            skipped_lines := 0, valid_sequences := 0 }
          (oligocollector.OligoCollector.single
            { filetype := .TXT, _file := [], sequences_written := 0 })
          [2, 0, 1] [] rng.sample_state).map (fun p => p.2.1.filewriter_fw._file)
        = .ok "AC\nAC\nT\n".toList := by
  refine ⟨_, rfl, ?_⟩
  rw [(C35_process_feeds_designs_in_file_order []
    { filetype := .ANY, _file := "AC\nG\nT\n".toList, _contents := "AC\nG\nT\n".toList,
      skipped_lines := 0, valid_sequences := 0 } _ [[1, 2], [3], [4]] [2, 0, 1]
    (oligocollector.OligoCollector.single
      { filetype := .TXT, _file := [], sequences_written := 0 })
    rng.sample_state rfl rfl).1]
  rfl

/-! ## An empty intermediate pool -/

namespace pipeline

/-- Pass 1 on the one-design file with a size selection that drops every oligo of length 1:
it succeeds and writes nothing. -/
theorem synthesis_and_sampling_all_dropped (log_std : ℚ) (r : Rng) :
    ∃ reader r1, synthesis_and_sampling
        { filetype := .ANY, _file := "A\n".toList, _contents := "A\n".toList,
          skipped_lines := 0, valid_sequences := 0 }
        { filetype := .BINARY, _file := [], sequences_written := 0 } log_std 2
        [.SizeSelection (mutator.SizeSelection.construct 1 5)] r
      = .ok (reader, { filetype := .BINARY, _file := [], sequences_written := 0 }, r1) := by
  obtain ⟨r1, h1⟩ := coverage.get_initial_coverage_one log_std r
  obtain ⟨r2, h2⟩ := coverage.sample_by_count_hundred r1
  have hcount : fileio.SequenceFileReader.count_sequences
      { filetype := .ANY, _file := "A\n".toList, _contents := "A\n".toList,
        skipped_lines := 0, valid_sequences := 0 }
      = .ok (1, { filetype := .ANY, _file := "A\n".toList, _contents := "A\n".toList,
                  skipped_lines := 0, valid_sequences := 0 }) := by decide
  have hget1 : fileio.SequenceFileReader.get_sequence
      { filetype := .ANY, _file := "A\n".toList, _contents := "A\n".toList,
        skipped_lines := 0, valid_sequences := 0 }
      = .ok (some [1], { filetype := .ANY, _file := [], _contents := "A\n".toList,
                         skipped_lines := 0, valid_sequences := 1 }) := by decide
  have hget2 : fileio.SequenceFileReader.get_sequence
      { filetype := .ANY, _file := [], _contents := "A\n".toList,
        skipped_lines := 0, valid_sequences := 1 }
      = .ok (none, { filetype := .ANY, _file := [], _contents := "A\n".toList,
                     skipped_lines := 0, valid_sequences := 1 }) := by decide
  have hgen : oligofactory.generate_oligos [] [1] 2
      [.SizeSelection (mutator.SizeSelection.construct 1 5)] r2 = .ok ([], r2) := rfl
  refine ⟨{ filetype := .ANY, _file := [], _contents := "A\n".toList,
            skipped_lines := 0, valid_sequences := 1 }, r2, ?_⟩
  simp only [synthesis_and_sampling, hcount, h1, n_sampled_oligos_one_two, h2, process,
    process_loop, hget1, hget2, hgen]
  rfl

end pipeline

/-- C39: when pass 1 has succeeded, the intermediate file holds no valid oligo (the binary
reader counts 0 sequences in it), both output files can be opened and the read target
`(int) mean_sequencing_coverage * n_sequences` is at least 1, then `sample_by_count` on the
empty pool throws the error "There are not sequences to sample from", so
`recovery_and_sequencing` throws it whatever its writers and chains are, before it calls
`process`; `run` fails with this error and the intermediate file is removed. -/
theorem C39_empty_pool_fails_pass_two (fs : fileio.FileSystem)
    (input_filename intermediate_filename output_filename_fw output_filename_rv : List Char)
    (initial_coverage_bias mean_physical_coverage mean_sequencing_coverage : ℚ)
    (initial_mutators recovery_mutators sequencing_mutators : List mutator.BaseMutator)
    (write_file_type : fileio.WriteFileType) (r r1 : Rng)
    (input_reader input_reader1 input_reader2 intermediate_reader1 : fileio.SequenceFileReader)
    (n_sequences : Int) (intermediate_writer1 : fileio.SequenceFileWriter)
    (hinput : fileio.SequenceFileReader.construct fs input_filename .ANY = .ok input_reader)
    (hinter : fs.writable intermediate_filename = true)
    (hcount : input_reader.count_sequences = .ok (n_sequences, input_reader1))
    (hpass1 : pipeline.synthesis_and_sampling input_reader1
      { filetype := .BINARY, _file := [], sequences_written := 0 } initial_coverage_bias
      mean_physical_coverage initial_mutators r = .ok (input_reader2, intermediate_writer1, r1))
    (hpool : fileio.SequenceFileReader.count_sequences
      { filetype := .BINARY, _file := intermediate_writer1._file,
        _contents := intermediate_writer1._file, skipped_lines := 0, valid_sequences := 0 }
      = .ok (0, intermediate_reader1))
    (hfw : fs.writable output_filename_fw = true)
    (hrv : fs.writable output_filename_rv = true)
    (hreads : 1 ≤ pipeline.n_reads mean_sequencing_coverage n_sequences) :
    coverage.sample_by_count (List.replicate (0 : Int).toNat 1)
        (pipeline.n_reads mean_sequencing_coverage n_sequences) r1
      = .error Error.no_sequences_to_sample_from ∧
    (∀ (writer_fw writer_rv : fileio.SequenceFileWriter)
        (mutators chain : List mutator.BaseMutator),
      pipeline.recovery_and_sequencing
        { filetype := .BINARY, _file := intermediate_writer1._file,
          _contents := intermediate_writer1._file, skipped_lines := 0, valid_sequences := 0 }
        writer_fw writer_rv n_sequences mean_sequencing_coverage mutators chain r1
        = .error Error.no_sequences_to_sample_from) ∧
    (pipeline.run fs input_filename intermediate_filename output_filename_fw
      output_filename_rv initial_coverage_bias mean_physical_coverage mean_sequencing_coverage
      initial_mutators recovery_mutators sequencing_mutators write_file_type r).result
      = .error Error.no_sequences_to_sample_from ∧
    (pipeline.run fs input_filename intermediate_filename output_filename_fw
      output_filename_rv initial_coverage_bias mean_physical_coverage mean_sequencing_coverage
      initial_mutators recovery_mutators sequencing_mutators write_file_type r).fs.files
      intermediate_filename = none := by
  have hsample : coverage.sample_by_count (List.replicate (0 : Int).toNat 1)
      (pipeline.n_reads mean_sequencing_coverage n_sequences) r1
      = .error Error.no_sequences_to_sample_from := by
    have h0 : (0 : Int).toNat = 0 := rfl
    simp only [coverage.sample_by_count, coverage._sample_from_relative_coverage, h0,
      List.replicate_zero, List.map_nil, List.length_nil]
    rw [if_neg (by omega), if_pos (by decide)]
  have hrec : ∀ (writer_fw writer_rv : fileio.SequenceFileWriter)
      (mutators chain : List mutator.BaseMutator),
      pipeline.recovery_and_sequencing
        { filetype := .BINARY, _file := intermediate_writer1._file,
          _contents := intermediate_writer1._file, skipped_lines := 0, valid_sequences := 0 }
        writer_fw writer_rv n_sequences mean_sequencing_coverage mutators chain r1
        = .error Error.no_sequences_to_sample_from := by
    intro writer_fw writer_rv mutators chain
    simp only [pipeline.recovery_and_sequencing, hpool, lt_self_iff_false, if_false, hsample]
  have h2 : fileio.SequenceFileWriter.construct fs intermediate_filename .BINARY
      = .ok ({ filetype := .BINARY, _file := [], sequences_written := 0 },
          fs.write intermediate_filename []) := by
    simp [fileio.SequenceFileWriter.construct, hinter]
  have h5 : fileio.SequenceFileReader.construct
      ((fs.write intermediate_filename []).write intermediate_filename
        intermediate_writer1._file) intermediate_filename .BINARY
      = .ok { filetype := .BINARY, _file := intermediate_writer1._file,
              _contents := intermediate_writer1._file, skipped_lines := 0,
              valid_sequences := 0 } := by
    simp [fileio.SequenceFileReader.construct, fileio.FileSystem.write]
  have h6 : fileio.SequenceFileWriter.construct
      ((fs.write intermediate_filename []).write intermediate_filename
        intermediate_writer1._file) output_filename_fw write_file_type
      = .ok ({ filetype := write_file_type, _file := [], sequences_written := 0 },
          (((fs.write intermediate_filename []).write intermediate_filename
            intermediate_writer1._file).write output_filename_fw [])) := by
    simp [fileio.SequenceFileWriter.construct, fileio.FileSystem.write, hfw]
  have h7 : fileio.SequenceFileWriter.construct
      (((fs.write intermediate_filename []).write intermediate_filename
            intermediate_writer1._file).write output_filename_fw [])
      output_filename_rv write_file_type
      = .ok ({ filetype := write_file_type, _file := [], sequences_written := 0 },
          ((((fs.write intermediate_filename []).write intermediate_filename
            intermediate_writer1._file).write output_filename_fw []).write
            output_filename_rv [])) := by
    simp [fileio.SequenceFileWriter.construct, fileio.FileSystem.write, hrv]
  exact ⟨hsample, hrec,
    pipeline.run_pass_two_error_removes_intermediate fs _ _ _ input_filename
      intermediate_filename output_filename_fw output_filename_rv initial_coverage_bias
      mean_physical_coverage mean_sequencing_coverage initial_mutators recovery_mutators
      sequencing_mutators write_file_type r r1 input_reader input_reader1 input_reader2 _
      n_sequences _ intermediate_writer1 _ _ _ hinput h2 hcount hpass1 h5 h6 h7
      (hrec _ _ _ _)⟩

/-- C39 on the design A with a size selection that drops every oligo in pass 1: the run fails
with the empty-pool error and `pool.bin` is gone. -/
theorem C39_empty_pool_fails_pass_two_witness :
    (pipeline.run pipeline.one_design_disk "designs.txt".toList "pool.bin".toList
      "R1.fq".toList "R2.fq".toList 0 2 1
      [.SizeSelection (mutator.SizeSelection.construct 1 5)] [] [] .FASTQ
      rng.sample_state).result = .error Error.no_sequences_to_sample_from ∧
    (pipeline.run pipeline.one_design_disk "designs.txt".toList "pool.bin".toList
      "R1.fq".toList "R2.fq".toList 0 2 1
      [.SizeSelection (mutator.SizeSelection.construct 1 5)] [] [] .FASTQ
      rng.sample_state).fs.files "pool.bin".toList = none := by
  obtain ⟨reader, r1, hpass1⟩ := pipeline.synthesis_and_sampling_all_dropped 0 rng.sample_state
  exact (C39_empty_pool_fails_pass_two pipeline.one_design_disk
    "designs.txt".toList "pool.bin".toList "R1.fq".toList "R2.fq".toList 0 2 1
    [.SizeSelection (mutator.SizeSelection.construct 1 5)] [] []
    .FASTQ rng.sample_state r1
    { filetype := .ANY, _file := "A\n".toList, _contents := "A\n".toList,
      skipped_lines := 0, valid_sequences := 0 }
    { filetype := .ANY, _file := "A\n".toList, _contents := "A\n".toList,
      skipped_lines := 0, valid_sequences := 0 }
    reader
    { filetype := .BINARY, _file := [], _contents := [], skipped_lines := 0,
      valid_sequences := 0 }
    1 _ (by decide) (by decide) (by decide) hpass1 (by decide) (by decide) (by decide)
    (by decide!)).2.2

/-! ## The pipeline without mutators -/

namespace fileio

end fileio

namespace pipeline

end pipeline

namespace coverage

end coverage

namespace pipeline

end pipeline

